import Mathlib

/-!
Vault: a verification development of the `.vau` compiler.

Shallow embedding of the abstract syntax (`src/src/ast.h`), the lexer
(`src/src/lexer.cpp`), the parser (`src/src/parser.cpp`), the interpreter
(`src/src/interpreter.cpp`, `src/src/interpreter.h`), the archive codec and driver
(`src/src/compiler.cpp`) and the key and cipher encoding (`src/src/crypto.cpp`) of the
Vault compiler, followed by theorems about them.

Conventions of the embedding

* `std::unordered_map<std::string, V>` is an association list
  `List (String × V)` with at most one pair per key; `Map.find`, `Map.assign`
  and `Map.touch` are `find`, `m[k] = v` and the auto-creating `m[k]`.
* A C++ function that may throw returns an `Outcome`: either `ok` with the
  value and the interpreter state, or `throw` with the `what()` text and the
  state at the throw point. Functions that do not change the state return
  `Except String _`.
* The platform services (the random number sources, the wall clock, AES-GCM
  and HMAC from the operating system) are the fields of `Platform`; the number
  of values already drawn from them is the `drawn` component of the state.
* Writes to `std::cout` under `opts_.verbose` are not part of the state.
-/

namespace Vault

/-! ## Abstract syntax (`ast.h`) -/

/-- Struct `Target` of `ast.h`. -/
structure Target where
  registry : Option String
  key : String
deriving DecidableEq, Repr

/-- Enum `ValueKind` of `ast.h`. -/
inductive ValueKind where
  | Literal
  | Builtin
  | Document
deriving DecidableEq, Repr

/-- Struct `ValueExpr` of `ast.h`. -/
structure ValueExpr where
  kind : ValueKind
  text : String
deriving DecidableEq, Repr

/-- Enum `StatementType` of `ast.h`. -/
inductive StatementType where
  | Registry
  | If
  | Store
  | Replace
  | Note
  | Secure
deriving DecidableEq, Repr

mutual
/-- Struct `IfStmt` of `ast.h`. -/
inductive IfStmt where
  | mk (isMissing : Bool) (target : Target) (body : List Statement)
/-- Struct `Statement` of `ast.h`: every field is present whatever the type tag. -/
inductive Statement where
  | mk (type : StatementType) (line : Int) (registryName : String) (target : Target)
      (value : ValueExpr) (conditional : IfStmt) (note : String)
end

/-- Field `isMissing` of `IfStmt`. -/
def IfStmt.isMissing : IfStmt → Bool
  | .mk m _ _ => m

/-- Field `target` of `IfStmt`. -/
def IfStmt.target : IfStmt → Target
  | .mk _ t _ => t

/-- Field `body` of `IfStmt`. -/
def IfStmt.body : IfStmt → List Statement
  | .mk _ _ b => b

/-- Field `type` of `Statement`. -/
def Statement.type : Statement → StatementType
  | .mk t _ _ _ _ _ _ => t

/-- Field `line` of `Statement`. -/
def Statement.line : Statement → Int
  | .mk _ l _ _ _ _ _ => l

/-- Field `registryName` of `Statement`. -/
def Statement.registryName : Statement → String
  | .mk _ _ r _ _ _ _ => r

/-- Field `target` of `Statement`. -/
def Statement.target : Statement → Target
  | .mk _ _ _ t _ _ _ => t

/-- Field `value` of `Statement`. -/
def Statement.value : Statement → ValueExpr
  | .mk _ _ _ _ v _ _ => v

/-- Field `conditional` of `Statement`. -/
def Statement.conditional : Statement → IfStmt
  | .mk _ _ _ _ _ c _ => c

/-- Field `note` of `Statement`. -/
def Statement.note : Statement → String
  | .mk _ _ _ _ _ _ n => n

/-- A value-initialised `Target`. -/
def Target.empty : Target := { registry := none, key := "" }

/-- A value-initialised `ValueExpr` (`ValueKind{}` is the first enumerator). -/
def ValueExpr.empty : ValueExpr := { kind := .Literal, text := "" }

/-- A value-initialised `IfStmt`. -/
def IfStmt.empty : IfStmt := .mk false Target.empty []

/-- The declaration `Statement s;` followed by the assignments of `type` and `line`. -/
def Statement.blank (type : StatementType) (line : Int) : Statement :=
  .mk type line "" Target.empty ValueExpr.empty IfStmt.empty ""

/-- Struct `VaultBlock` of `ast.h`. -/
structure VaultBlock where
  optional : Bool
  name : String
  line : Int
  body : List Statement

/-! ## Sealed state (`interpreter.h`) -/

/-- The lookup `m.find(k)` of an unordered map: the value stored under `k`, if any. -/
def Map.find {V : Type} : List (String × V) → String → Option V
  | [], _ => none
  | (k1, v) :: rest, k => if k1 = k then some v else Map.find rest k

/-- The assignment `m[k] = v` of an unordered map: overwrite in place or insert. -/
def Map.assign {V : Type} : List (String × V) → String → V → List (String × V)
  | [], k, v => [(k, v)]
  | (k1, v1) :: rest, k, v =>
    if k1 = k then (k1, v) :: rest else (k1, v1) :: Map.assign rest k v

/-- The access `m[k]` of an unordered map: inserts the value-initialised `d` when `k` is absent. -/
def Map.touch {V : Type} (m : List (String × V)) (k : String) (d : V) : List (String × V) :=
  match Map.find m k with
  | some _ => m
  | none => Map.assign m k d

/-- Struct `SealedEntry` of `interpreter.h`. -/
structure SealedEntry where
  digest : String
  cipher : String
deriving DecidableEq, Repr

/-- Struct `SealedRegistry` of `interpreter.h`. -/
structure SealedRegistry where
  entries : List (String × SealedEntry)
deriving DecidableEq, Repr

/-- Struct `SealedVault` of `interpreter.h`. -/
structure SealedVault where
  name : String
  optional : Bool
  sealed : Bool
  masterKeyHex : String
  registries : List (String × SealedRegistry)
deriving DecidableEq, Repr

/-- Struct `InterpreterOptions` of `interpreter.h`. -/
structure InterpreterOptions where
  verbose : Bool
  materializeOptional : Bool
  forcedMasterKey : Option String
deriving DecidableEq, Repr

/-- The data members of class `Interpreter`, and `drawn`, the number of values the
process has drawn so far from its random sources and clock. -/
structure Interpreter where
  opts_ : InterpreterOptions
  sealed_ : List SealedVault
  byName_ : List (String × SealedVault)
  currentVault_ : String
  currentRegistry_ : Option String
  drawn : Nat
deriving DecidableEq, Repr

/-- The services the interpreter takes from the platform: the draws of
`std::uniform_int_distribution<int>(0, 15)` on the static generator, the formatted
local time, `crypto::random_key_hex`, `crypto::encrypt` (its last argument is the
position of its random IV in the stream of draws) and `crypto::digest`. -/
structure Platform where
  dist16 : Nat → Nat
  localtime : Nat → String
  random_key_hex : Nat → String
  encrypt : String → String → String → Nat → Except String String
  digest : String → String → Except String String

/-- The result of a call that may throw: a value or the `what()` text, with the state reached. -/
inductive Outcome (α : Type) where
  | ok (val : α) (st : Interpreter)
  | throw (what : String) (st : Interpreter)
deriving DecidableEq, Repr

/-- The state carried by an outcome. -/
def Outcome.state {α : Type} : Outcome α → Interpreter
  | .ok _ st => st
  | .throw _ st => st

/-- Whether the call returned normally. -/
def Outcome.isOk {α : Type} : Outcome α → Bool
  | .ok _ _ => true
  | .throw _ _ => false

/-- The text `std::unordered_map::at` throws with (`std::out_of_range`). -/
def out_of_range : String := "unordered_map::at"

/-! ## Interpreter (`interpreter.cpp`) -/

/-- The constructor `Interpreter::Interpreter(InterpreterOptions)`. -/
def Interpreter.init (opts : InterpreterOptions) : Interpreter :=
  { opts_ := opts, sealed_ := [], byName_ := [], currentVault_ := "",
    currentRegistry_ := none, drawn := 0 }

/-- The method `Interpreter::seed`. -/
def Interpreter.seed (self : Interpreter) (existing : List SealedVault) : Interpreter :=
  { self with
    byName_ := existing.foldl (fun m v => Map.assign m v.name v) [],
    sealed_ := [] }

/-- The write through the reference `vault = byName_.at(currentVault_)`: the current
vault becomes `v`. -/
def Interpreter.setVault (self : Interpreter) (v : SealedVault) : Interpreter :=
  { self with byName_ := Map.assign self.byName_ self.currentVault_ v }

/-- The method `Interpreter::resolve_registry`. -/
def Interpreter.resolve_registry (self : Interpreter) (t : Target) (line : Int) :
    Except String String :=
  match t.registry with
  | some r => .ok r
  | none =>
    match self.currentRegistry_ with
    | some r => .ok r
    | none => .error ("No active registry for target on line " ++ toString line)

/-- The method `Interpreter::is_present`. -/
def Interpreter.is_present (self : Interpreter) (t : Target) (line : Int) :
    Except String Bool :=
  match Map.find self.byName_ self.currentVault_ with
  | none => .error out_of_range
  | some vault =>
    match self.resolve_registry t line with
    | .error e => .error e
    | .ok regName =>
      match Map.find vault.registries regName with
      | none => .ok false
      | some reg => .ok (Map.find reg.entries t.key).isSome

/-- The character `"0123456789abcdef"[d]`. -/
def hexChar (d : Nat) : Char :=
  "0123456789abcdef".toList.getD (d % 16) '0'

/-- The method `Interpreter::builtin_value`: the value and the number of draws it used. -/
def Interpreter.builtin_value (env : Platform) (drawn : Nat) (v : ValueExpr) :
    Except String (String × Nat) :=
  if v.kind = .Literal then .ok (v.text, 0)
  else if v.kind = .Document then .ok (v.text, 0)
  else if v.text = "generate" then
    .ok (String.mk ((List.range 32).map (fun i => hexChar (env.dist16 (drawn + i)))), 32)
  else if v.text = "now" then .ok (env.localtime drawn, 1)
  else .error ("Unknown builtin: " ++ v.text)

/-- Lines 147-151 and 159-163 of `execute_statement`, the same in `Store` and in
`Replace`: evaluate the value, encrypt it under the salt `regName + ":" + key`, take
the keyed digest of the cipher and assign the entry. The registry `regName` of the
current vault has already been obtained by `vault.registries[regName]`. -/
def Interpreter.seal_entry (env : Platform) (self : Interpreter) (vault : SealedVault)
    (regName : String) (key : String) (value : ValueExpr) : Outcome Unit :=
  match Interpreter.builtin_value env self.drawn value with
  | .error e => .throw e self
  | .ok (plain, used) =>
    let st1 := { self with drawn := self.drawn + used }
    let salt := regName ++ ":" ++ key
    match env.encrypt plain vault.masterKeyHex salt st1.drawn with
    | .error e => .throw e st1
    | .ok cipher =>
      let st2 := { st1 with drawn := st1.drawn + 1 }
      match env.digest cipher vault.masterKeyHex with
      | .error e => .throw e st2
      | .ok mac =>
        let reg : SealedRegistry := (Map.find vault.registries regName).getD ⟨[]⟩
        let reg1 : SealedRegistry := ⟨Map.assign reg.entries key ⟨mac, cipher⟩⟩
        let vault1 := { vault with registries := Map.assign vault.registries regName reg1 }
        .ok () (st2.setVault vault1)

mutual
/-- The method `Interpreter::execute_statement`. -/
def Interpreter.execute_statement (env : Platform) (self : Interpreter) :
    Statement → Outcome Unit
  | .mk type line registryName target value (.mk isMissing ctarget body) _ =>
    match Map.find self.byName_ self.currentVault_ with
    | none => .throw out_of_range self
    | some vault =>
      match type with
      | .Registry =>
        if vault.sealed then
          .throw ("Cannot select registry after secure (line " ++ toString line ++ ")") self
        else .ok () { self with currentRegistry_ := some registryName }
      | .If =>
        match self.is_present ctarget line with
        | .error e => .throw e self
        | .ok present =>
          let cond := if isMissing then !present else present
          if cond then Interpreter.execute_body env self body else .ok () self
      | .Store =>
        if vault.sealed then
          .throw ("Cannot store after secure (line " ++ toString line ++ ")") self
        else
          match self.resolve_registry target line with
          | .error e => .throw e self
          | .ok regName =>
            let vault1 := { vault with registries := Map.touch vault.registries regName ⟨[]⟩ }
            let st1 := self.setVault vault1
            let reg : SealedRegistry := (Map.find vault1.registries regName).getD ⟨[]⟩
            if (Map.find reg.entries target.key).isSome then
              .throw ("store would overwrite existing key on line " ++ toString line) st1
            else Interpreter.seal_entry env st1 vault1 regName target.key value
      | .Replace =>
        if vault.sealed then
          .throw ("Cannot replace after secure (line " ++ toString line ++ ")") self
        else
          match self.resolve_registry target line with
          | .error e => .throw e self
          | .ok regName =>
            let vault1 := { vault with registries := Map.touch vault.registries regName ⟨[]⟩ }
            let st1 := self.setVault vault1
            Interpreter.seal_entry env st1 vault1 regName target.key value
      | .Note => .ok () self
      | .Secure =>
        .ok () (self.setVault { vault with sealed := true })
/-- The loops `for (const auto &stmt : body) execute_statement(stmt);`. -/
def Interpreter.execute_body (env : Platform) (self : Interpreter) :
    List Statement → Outcome Unit
  | [] => .ok () self
  | s :: rest =>
    match Interpreter.execute_statement env self s with
    | .ok _ st1 => Interpreter.execute_body env st1 rest
    | .throw e st1 => .throw e st1
end

/-- Lines 45-64 of `evaluate_vault`: create the vault of the block, or adopt the
existing one and unseal it for this run. -/
def Interpreter.resolve_vault (env : Platform) (self : Interpreter) (vault : VaultBlock) :
    Outcome Unit :=
  match Map.find self.byName_ vault.name with
  | none =>
    let keyed : String × Nat :=
      match self.opts_.forcedMasterKey with
      | some k => (k, self.drawn)
      | none => (env.random_key_hex self.drawn, self.drawn + 1)
    let fresh : SealedVault :=
      { name := vault.name, optional := vault.optional, sealed := false,
        masterKeyHex := keyed.1, registries := [] }
    .ok () { self with byName_ := Map.assign self.byName_ vault.name fresh, drawn := keyed.2 }
  | some existingVault =>
    let adopted := { existingVault with optional := vault.optional, sealed := false }
    match self.opts_.forcedMasterKey with
    | some k =>
      if existingVault.masterKeyHex ≠ k then
        .throw ("Master key mismatch for vault \x27" ++ vault.name ++ "\x27") self
      else .ok () { self with byName_ := Map.assign self.byName_ vault.name adopted }
    | none => .ok () { self with byName_ := Map.assign self.byName_ vault.name adopted }

/-- The guard of line 40 of `evaluate_vault`:
`vault.optional && !exists && !opts_.materializeOptional`. -/
def Interpreter.skips (self : Interpreter) (vault : VaultBlock) : Bool :=
  vault.optional && !(Map.find self.byName_ vault.name).isSome &&
    !self.opts_.materializeOptional

/-- The method `Interpreter::evaluate_vault`. -/
def Interpreter.evaluate_vault (env : Platform) (self : Interpreter) (vault : VaultBlock) :
    Outcome Unit :=
  let st0 := { self with currentRegistry_ := none, currentVault_ := "" }
  if st0.skips vault then .ok () st0
  else
    match Interpreter.resolve_vault env st0 vault with
    | .throw e st1 => .throw e st1
    | .ok _ st1 =>
      let st2 := { st1 with currentVault_ := vault.name }
      match Interpreter.execute_body env st2 vault.body with
      | .throw e st3 => .throw e st3
      | .ok _ st3 =>
        match Map.find st3.byName_ vault.name with
        | none => .throw out_of_range st3
        | some stored => .ok () { st3 with sealed_ := st3.sealed_ ++ [stored] }

/-- The loop `for (const auto &vault : program) evaluate_vault(vault);` of `run`. -/
def Interpreter.evaluate_all (env : Platform) (self : Interpreter) :
    List VaultBlock → Outcome Unit
  | [] => .ok () self
  | v :: rest =>
    match Interpreter.evaluate_vault env self v with
    | .ok _ st1 => Interpreter.evaluate_all env st1 rest
    | .throw e st1 => .throw e st1

/-- The method `Interpreter::run`. The elements of `sealed_` are moved out into the
returned vector; `sealed_` is cleared before it is read again. -/
def Interpreter.run (env : Platform) (self : Interpreter) (program : List VaultBlock) :
    Outcome (List SealedVault) :=
  match Interpreter.evaluate_all env { self with sealed_ := [] } program with
  | .throw e st1 => .throw e st1
  | .ok _ st1 => .ok st1.sealed_ st1

/-! ## Parser (`lexer.h`, `parser.cpp`)

A `std::string` is a Lean `String`, handled through its list of characters. The
characters the parser looks for are ASCII, so on UTF-8 text cutting at characters and
cutting at bytes agree. `std::string::npos` is `none`. -/

/-- Struct `Line` of `lexer.h`. -/
structure Line where
  number : Int
  indent : Int
  text : String
deriving DecidableEq, Repr

/-- The call `s.find_first_not_of(c)`. -/
def find_first_not_of : List Char → Char → Option Nat
  | [], _ => none
  | x :: rest, c => if x ≠ c then some 0 else (find_first_not_of rest c).map (· + 1)

/-- The call `s.find_last_not_of(c)`. -/
def find_last_not_of : List Char → Char → Option Nat
  | [], _ => none
  | x :: rest, c =>
    match find_last_not_of rest c with
    | some i => some (i + 1)
    | none => if x ≠ c then some 0 else none

/-- The call `s.find(c)` for a character `c`. -/
def find_char : List Char → Char → Option Nat
  | [], _ => none
  | x :: rest, c => if x = c then some 0 else (find_char rest c).map (· + 1)

/-- The call `s.find(pat)` for a string `pat`. -/
def find_sub : List Char → List Char → Option Nat
  | [], pat => if pat.isEmpty then some 0 else none
  | x :: rest, pat =>
    if pat.isPrefixOf (x :: rest) then some 0 else (find_sub rest pat).map (· + 1)

/-- The call `s.substr(pos, len)`. -/
def substr (s : List Char) (pos len : Nat) : List Char :=
  (s.drop pos).take len

/-- Function `trim` of `parser.cpp`. -/
def trim (s : String) : String :=
  match find_first_not_of s.toList ' ' with
  | none => ""
  | some start =>
    match find_last_not_of s.toList ' ' with
    | none => ""
    | some last => String.mk (substr s.toList start (last - start + 1))

/-- Function `starts_with` of `parser.cpp`. -/
def starts_with (s : String) (pre : String) : Bool :=
  pre.toList.isPrefixOf s.toList

/-- The call `s.substr(pos)`. -/
def substrFrom (s : String) (pos : Nat) : String :=
  String.mk (s.toList.drop pos)

/-- Function `expect_quoted` of `parser.cpp`. -/
def expect_quoted (text : String) (line : Int) : Except String String :=
  let t := (trim text).toList
  if t.length < 2 ∨ t.head? ≠ some '"' ∨ t.getLast? ≠ some '"' then
    .error ("Expected quoted string on line " ++ toString line)
  else .ok (String.mk (substr t 1 (t.length - 2)))

/-- Function `parse_target` of `parser.cpp`. -/
def parse_target (text : String) (line : Int) : Except String Target :=
  let expr := (trim text).toList
  match find_sub expr ['-', '>'] with
  | none => .error ("Expected \x27->\x27 in target on line " ++ toString line)
  | some arrow =>
    let left := trim (String.mk (substr expr 0 arrow))
    let right := trim (String.mk (expr.drop (arrow + 2)))
    let registry : Option String := if left ≠ "" ∧ left ≠ "->" then some left else none
    match expect_quoted right line with
    | .error e => .error e
    | .ok key => .ok { registry := registry, key := key }

/-- The value `std::string::npos` of a 64-bit `std::size_t`. -/
def npos : Nat := 2 ^ 64 - 1

/-- A position returned by `find` as a `std::size_t`. -/
def sizeT : Option Nat → Nat
  | some i => i
  | none => npos

/-- Function `parse_value_expr` of `parser.cpp`; `close - 1` wraps as `std::size_t` does. -/
def parse_value_expr (text : String) (line : Int) : Except String ValueExpr :=
  let t := trim text
  let tl := t.toList
  if tl.isEmpty then .error ("Missing value on line " ++ toString line)
  else if tl.head? = some '"' then
    match expect_quoted t line with
    | .error e => .error e
    | .ok body => .ok { kind := .Literal, text := body }
  else if tl.head? = some '\x7b' ∨ tl.head? = some '[' then .ok { kind := .Document, text := t }
  else
    let opn := sizeT (find_char tl '(')
    let close := sizeT (find_char tl ')')
    if opn ≠ npos ∧ close = tl.length - 1 ∧ opn = (close + 2 ^ 64 - 1) % 2 ^ 64 then
      let name := String.mk (substr tl 0 opn)
      if name = "" then .error ("Bad builtin on line " ++ toString line)
      else .ok { kind := .Builtin, text := name }
    else .error ("Unrecognized value expression on line " ++ toString line)

/-- The result of a parser method: the value and the cursor `pos_` after a normal return,
the `what()` text and the cursor after a throw, or `exhausted` when the recursion budget
of the embedding ran out (no behaviour of the program). -/
inductive PResult (α : Type) where
  | ok (val : α) (pos : Nat)
  | throw (what : String) (pos : Nat)
  | exhausted
deriving DecidableEq, Repr

/-- The statement a line makes up by itself (every statement but `if`), by the branches
of `Parser::parse_statement` for `registry`, `store`, `replace`, `note`, `secure` and the
final throw; `text` is the trimmed text of the line. -/
def parse_simple_statement (text : String) (number : Int) : Except String Statement :=
  if starts_with text "registry " then
    let name := trim (substrFrom text 9)
    if name = "" then .error ("Registry name missing on line " ++ toString number)
    else .ok (.mk .Registry number name Target.empty ValueExpr.empty IfStmt.empty "")
  else if starts_with text "store " then
    let rest := trim (substrFrom text 6)
    match find_char rest.toList '=' with
    | none => .error ("Missing \x27=\x27 on line " ++ toString number)
    | some eq =>
      let targetText := trim (String.mk (substr rest.toList 0 eq))
      let valueText := trim (substrFrom rest (eq + 1))
      match parse_target targetText number with
      | .error e => .error e
      | .ok target =>
        match parse_value_expr valueText number with
        | .error e => .error e
        | .ok value => .ok (.mk .Store number "" target value IfStmt.empty "")
  else if starts_with text "replace " then
    let rest := trim (substrFrom text 8)
    match find_char rest.toList '=' with
    | none => .error ("Missing \x27=\x27 on line " ++ toString number)
    | some eq =>
      match parse_target (trim (String.mk (substr rest.toList 0 eq))) number with
      | .error e => .error e
      | .ok target =>
        match parse_value_expr (trim (substrFrom rest (eq + 1))) number with
        | .error e => .error e
        | .ok value => .ok (.mk .Replace number "" target value IfStmt.empty "")
  else if starts_with text "note " then
    match expect_quoted (substrFrom text 5) number with
    | .error e => .error e
    | .ok note => .ok (.mk .Note number "" Target.empty ValueExpr.empty IfStmt.empty note)
  else if text = "secure" then .ok (Statement.blank .Secure number)
  else .error ("Unknown statement on line " ++ toString number ++ ": " ++ text)

/-- The head of an `if` statement, by the `if` branch of `Parser::parse_statement` up to
`pos_++`: the `isMissing` flag and the target. -/
def parse_if_head (text : String) (number : Int) : Except String (Bool × Target) :=
  let rest := trim (substrFrom text 3)
  if starts_with rest "missing " then
    match parse_target (trim (substrFrom rest 8)) number with
    | .error e => .error e
    | .ok target => .ok (true, target)
  else if starts_with rest "present " then
    match parse_target (trim (substrFrom rest 8)) number with
    | .error e => .error e
    | .ok target => .ok (false, target)
  else .error ("Expected \x27missing\x27 or \x27present\x27 on line " ++ toString number)

mutual
/-- The method `Parser::parse_block`, with the statements read so far in `stmts`;
each loop iteration takes one unit of the budget. -/
def Parser.parse_block (lines : List Line) :
    Nat → Nat → Int → List Statement → PResult (List Statement)
  | 0, _, _, _ => .exhausted
  | fuel + 1, pos, indent, stmts =>
    match lines[pos]? with
    | none => .ok stmts pos
    | some line =>
      if trim line.text = "" then Parser.parse_block lines fuel (pos + 1) indent stmts
      else if line.indent < indent then .ok stmts pos
      else if line.indent ≠ indent then
        .throw ("Unexpected indent on line " ++ toString line.number) pos
      else
        match Parser.parse_statement lines fuel pos with
        | .exhausted => .exhausted
        | .throw e pos1 => .throw e pos1
        | .ok parsed pos1 => Parser.parse_block lines fuel pos1 indent (stmts ++ [parsed])
/-- The method `Parser::parse_statement`; a read of `lines_[pos_]` past the end, which
its callers exclude, is a throw. -/
def Parser.parse_statement (lines : List Line) : Nat → Nat → PResult Statement
  | 0, _ => .exhausted
  | fuel + 1, pos =>
    match lines[pos]? with
    | none => .throw out_of_range pos
    | some line =>
      let text := trim line.text
      if starts_with text "registry " then
        match parse_simple_statement text line.number with
        | .error e => .throw e pos
        | .ok s => .ok s (pos + 1)
      else if starts_with text "if " then
        match parse_if_head text line.number with
        | .error e => .throw e pos
        | .ok (isMissing, target) =>
          match Parser.parse_block lines fuel (pos + 1) (line.indent + 2) [] with
          | .exhausted => .exhausted
          | .throw e pos1 => .throw e pos1
          | .ok body pos1 =>
            .ok (.mk .If line.number "" Target.empty ValueExpr.empty
              (.mk isMissing target body) "") pos1
      else
        match parse_simple_statement text line.number with
        | .error e => .throw e pos
        | .ok s => .ok s (pos + 1)
end

/-- The method `Parser::parse_vault`; `fuel` is the budget of its call of `parse_block`. -/
def Parser.parse_vault (lines : List Line) (fuel : Nat) (pos : Nat) : PResult VaultBlock :=
  match lines[pos]? with
  | none => .throw out_of_range pos
  | some line =>
    let body := trim line.text
    let header : Except String (Bool × String) :=
      if starts_with body "vault? " then .ok (true, trim (substrFrom body 7))
      else if starts_with body "vault " then .ok (false, trim (substrFrom body 6))
      else .error ("Expected \x27vault\x27 declaration on line " ++ toString line.number)
    match header with
    | .error e => .throw e pos
    | .ok (optional, name) =>
      if name = "" then .throw ("Vault name missing on line " ++ toString line.number) pos
      else
        match Parser.parse_block lines fuel (pos + 1) (line.indent + 2) [] with
        | .exhausted => .exhausted
        | .throw e pos1 => .throw e pos1
        | .ok bodyStatements pos1 =>
          let hasSecure : Bool :=
            match bodyStatements.getLast? with
            | none => false
            | some last => last.type = .Secure
          if !hasSecure then
            .throw ("Vault \x27" ++ name ++ "\x27 missing terminating \x27secure\x27 (line "
              ++ toString line.number ++ ")") pos1
          else .ok { optional := optional, name := name, line := line.number,
                     body := bodyStatements } pos1

/-- The loop of the method `Parser::parse`, with the blocks read so far in `program`;
each iteration takes one unit of `fuel`, and `blockFuel` goes to `parse_vault`. -/
def Parser.parse_loop (lines : List Line) (blockFuel : Nat) :
    Nat → Nat → List VaultBlock → PResult (List VaultBlock)
  | 0, _, _ => .exhausted
  | fuel + 1, pos, program =>
    match lines[pos]? with
    | none => .ok program pos
    | some line =>
      if trim line.text = "" then Parser.parse_loop lines blockFuel fuel (pos + 1) program
      else if line.indent ≠ 0 then
        .throw ("Top-level statements must start at indent 0 (line "
          ++ toString line.number ++ ")") pos
      else
        match Parser.parse_vault lines blockFuel pos with
        | .exhausted => .exhausted
        | .throw e pos1 => .throw e pos1
        | .ok vault pos1 => Parser.parse_loop lines blockFuel fuel pos1 (program ++ [vault])

/-- The method `Parser::parse` of a parser constructed on `lines`. Every iteration and
every call moves the cursor forward, so no chain of calls is longer than twice the number
of lines plus one. -/
def Parser.parse (lines : List Line) : PResult (List VaultBlock) :=
  Parser.parse_loop lines (2 * lines.length + 1) (lines.length + 1) 0 []

/-! ## Definitions used to state the theorems -/

/-- The vault that lines 147-151 leave behind: entry `key` of registry `regName` set. -/
def SealedVault.withEntry (vault : SealedVault) (regName key : String) (e : SealedEntry) :
    SealedVault :=
  let reg : SealedRegistry := (Map.find vault.registries regName).getD ⟨[]⟩
  let reg1 : SealedRegistry := ⟨Map.assign reg.entries key e⟩
  { vault with registries := Map.assign vault.registries regName reg1 }

/-- The state a successful `store` or `replace` leaves: `used + 1` further draws taken
and entry `key` of registry `regName` of the current vault set to `e`. -/
def Interpreter.written (st : Interpreter) (vault : SealedVault) (regName key : String)
    (e : SealedEntry) (used : Nat) : Interpreter :=
  Interpreter.setVault { st with drawn := st.drawn + used + 1 } (vault.withEntry regName key e)

/-- Whether `key` is an entry of registry `regName` of `vault` (an absent registry has none). -/
def SealedVault.hasEntry (vault : SealedVault) (regName key : String) : Bool :=
  match Map.find vault.registries regName with
  | none => false
  | some reg => (Map.find reg.entries key).isSome

/-- The entry stored at `regName`/`key` of `vault`, if any. -/
def SealedVault.entry (vault : SealedVault) (regName key : String) : Option SealedEntry :=
  match Map.find vault.registries regName with
  | none => none
  | some reg => Map.find reg.entries key

/-- The vault under evaluation, `byName_.at(currentVault_)`, if present. -/
def Interpreter.currentVault (st : Interpreter) : Option SealedVault :=
  Map.find st.byName_ st.currentVault_

/-- The fields of a vault that no statement changes. -/
def SealedVault.core (v : SealedVault) : String × Bool × String :=
  (v.name, v.optional, v.masterKeyHex)

/-- What statement execution preserves: the current vault name, the output list, the
options, every vault other than the current one, and the name, optional flag and master
key of every vault. -/
def Interpreter.StmtFrame (st st2 : Interpreter) : Prop :=
  st2.currentVault_ = st.currentVault_ ∧ st2.sealed_ = st.sealed_ ∧ st2.opts_ = st.opts_ ∧
  (∀ n, n ≠ st.currentVault_ → Map.find st2.byName_ n = Map.find st.byName_ n) ∧
  (∀ n, (Map.find st2.byName_ n).map SealedVault.core =
    (Map.find st.byName_ n).map SealedVault.core)

/-- Every key of the vault map is the name of the vault stored under it. -/
def Interpreter.Keyed (st : Interpreter) : Prop :=
  ∀ n v, Map.find st.byName_ n = some v → v.name = n

/-- The block has a body whose last statement is `secure`. -/
def VaultBlock.endsWithSecure (b : VaultBlock) : Prop :=
  ∃ pre sec, b.body = pre ++ [sec] ∧ sec.type = .Secure

/-- The blocks of a program that a run evaluates, in source order, given the names
`known` to the vault map when the run starts: an optional block whose name is not known
is left out unless optional vaults are materialized; an evaluated block makes its name
known to the blocks after it. -/
def evaluatedBlocks (materialize : Bool) : List String → List VaultBlock → List VaultBlock
  | _, [] => []
  | known, b :: rest =>
    if b.optional && !(decide (b.name ∈ known)) && !materialize then
      evaluatedBlocks materialize known rest
    else b :: evaluatedBlocks materialize (b.name :: known) rest

/-- How an emitted vault relates to the block it comes from, for a run started in `st`. -/
def Interpreter.Emitted (st : Interpreter) (v : SealedVault) (b : VaultBlock) : Prop :=
  (st.Keyed → v.name = b.name) ∧ v.optional = b.optional ∧
    (b.endsWithSecure → v.sealed = true)

/-- The vault that lines 46-54 of `evaluate_vault` create for a block absent from the map. -/
def Interpreter.freshVault (env : Platform) (st : Interpreter) (b : VaultBlock) : SealedVault :=
  { name := b.name, optional := b.optional, sealed := false,
    masterKeyHex :=
      match st.opts_.forcedMasterKey with
      | some k => k
      | none => env.random_key_hex st.drawn,
    registries := [] }

/-! ## Archive codec and driver (`compiler.cpp`)

An output stream is the text written to it; every statement `out << ... << "\n"` writes one
line, and the text is the lines in order, each followed by a newline. A file is its text.
`std::sort` on strings orders them by `std::string::operator<`, the lexicographic order
of their bytes, which on UTF-8 text is the lexicographic order of their characters. -/

/-- Struct `VaultConfig` of `compiler.cpp`. -/
structure VaultConfig where
  masterKey : String
  token : String
  securityQuestions : List String
  securityDigests : List String
  securityAnswers : List String
deriving DecidableEq, Repr

/-- Struct `LoadedArchive` of `compiler.cpp`. -/
structure LoadedArchive where
  token : String
  hmac : String
  dependencies : List String
  vaults : List SealedVault
deriving DecidableEq, Repr

/-- The comparison `a <= b` of two `std::string`, on their characters: lexicographic. -/
def lex_le : List Char → List Char → Bool
  | [], _ => true
  | _ :: _, [] => false
  | a :: as, b :: bs => if a < b then true else if b < a then false else lex_le as bs

/-- The order `!(b < a)` of `std::string`. -/
def StrLe (a b : String) : Prop := lex_le a.toList b.toList = true

instance StrLe.decidable : DecidableRel StrLe :=
  fun a b => inferInstanceAs (Decidable (lex_le a.toList b.toList = true))

/-- The order `a < b` of `std::string`. -/
def StrLt (a b : String) : Prop := StrLe a b ∧ a ≠ b

/-- The call `std::sort(vals.begin(), vals.end())` on strings. -/
def std_sort (vals : List String) : List String :=
  List.insertionSort StrLe vals

/-- The call `vals.erase(std::unique(vals.begin(), vals.end()), vals.end())`: one element
is kept of every run of equal neighbours. -/
def std_unique : List String → List String
  | [] => []
  | [a] => [a]
  | a :: b :: rest => if a = b then std_unique (b :: rest) else a :: std_unique (b :: rest)

/-- Function `sorted_unique` of `compiler.cpp`. -/
def sorted_unique (vals : List String) : List String :=
  std_unique (std_sort vals)

/-- The text of a stream to which the given lines were written, each with its `"\n"`. -/
def unlines : List String → String
  | [] => ""
  | l :: rest => l ++ "\n" ++ unlines rest

/-- Lines 260-263 of `write_svau`: the three lines of one entry. The key comes from the
map itself, so `reg.entries.at(entryName)` finds it. -/
def write_entry_lines (reg : SealedRegistry) (entryName : String) : List String :=
  let entry : SealedEntry := (Map.find reg.entries entryName).getD ⟨"", ""⟩
  ["    entry " ++ entryName, "      digest " ++ entry.digest, "      cipher " ++ entry.cipher]

/-- Lines 253-264 of `write_svau`: the line of one registry and the lines of its entries,
taken in sorted order of their keys. -/
def write_registry_lines (v : SealedVault) (regName : String) : List String :=
  let reg : SealedRegistry := (Map.find v.registries regName).getD ⟨[]⟩
  let entryNames := std_sort (reg.entries.map Prod.fst)
  ("  registry " ++ regName) :: entryNames.flatMap (write_entry_lines reg)

/-- Lines 246-266 of `write_svau`: the lines of one vault. -/
def write_vault_lines (v : SealedVault) : List String :=
  let registryNames := std_sort (v.registries.map Prod.fst)
  ["vault " ++ v.name ++ " (" ++ (if v.optional then "optional" else "required") ++ ")",
    "sealed " ++ (if v.sealed then "true" else "false")]
  ++ registryNames.flatMap (write_registry_lines v) ++ ["---"]

/-- The lines that `write_svau` writes. The argument `token` is not used by the function. -/
def write_svau_lines (vaults : List SealedVault) (_token : String)
    (dependencies : List String) : List String :=
  "# Vault Secure Archive" ::
    ((sorted_unique dependencies).map (fun d => "depends " ++ d) ++
      vaults.flatMap write_vault_lines)

/-- Function `write_svau` of `compiler.cpp`: the text written to `out`. -/
def write_svau (vaults : List SealedVault) (token : String) (dependencies : List String) :
    String :=
  unlines (write_svau_lines vaults token dependencies)

/-- Lines 297-300 of `compute_archive_hmac`: the three lines of one entry. -/
def hmac_entry_lines (reg : SealedRegistry) (entryName : String) : List String :=
  let entry : SealedEntry := (Map.find reg.entries entryName).getD ⟨"", ""⟩
  ["    entry " ++ entryName, "      digest " ++ entry.digest, "      cipher " ++ entry.cipher]

/-- Lines 290-301 of `compute_archive_hmac`: the lines of one registry. -/
def hmac_registry_lines (v : SealedVault) (regName : String) : List String :=
  let reg : SealedRegistry := (Map.find v.registries regName).getD ⟨[]⟩
  let entryNames := std_sort (reg.entries.map Prod.fst)
  ("  registry " ++ regName) :: entryNames.flatMap (hmac_entry_lines reg)

/-- Lines 283-303 of `compute_archive_hmac`: the lines of one vault. -/
def hmac_vault_lines (v : SealedVault) : List String :=
  let registryNames := std_sort (v.registries.map Prod.fst)
  ["vault " ++ v.name ++ " (" ++ (if v.optional then "optional" else "required") ++ ")",
    "sealed " ++ (if v.sealed then "true" else "false")]
  ++ registryNames.flatMap (hmac_registry_lines v) ++ ["---"]

/-- Lines 278-304 of `compute_archive_hmac`: the text `oss.str()` handed to the digest. -/
def archive_preimage (vaults : List SealedVault) (token : String)
    (dependencies : List String) : String :=
  unlines (("token " ++ token) ::
    ((sorted_unique dependencies).map (fun d => "depends " ++ d) ++
      vaults.flatMap hmac_vault_lines))

/-- Function `compute_archive_hmac` of `compiler.cpp`. -/
def compute_archive_hmac (env : Platform) (vaults : List SealedVault) (token : String)
    (masterKeyHex : String) (dependencies : List String) : Except String String :=
  env.digest (archive_preimage vaults token dependencies) masterKeyHex

/-- The loop `while (std::getline(in, line))` over a text: `acc` holds, reversed, the
characters of the line being read. -/
def getlines_go : List Char → List Char → List String
  | acc, [] => if acc.isEmpty then [] else [String.mk acc.reverse]
  | acc, c :: rest =>
    if c = '\n' then String.mk acc.reverse :: getlines_go [] rest
    else getlines_go (c :: acc) rest

/-- The lines `std::getline` reads from a text. -/
def getlines (text : String) : List String :=
  getlines_go [] text.toList

/-- The test `std::isspace(c)` of the C locale. -/
def isspace (c : Char) : Bool :=
  c = ' ' || c = '\t' || c = '\n' || c = '\x0b' || c = '\x0c' || c = '\r'

/-- The extraction `iss >> name` from a stream on `s`: leading whitespace is skipped and
the characters up to the next whitespace are read (none leaves `name` empty). -/
def extract_word (s : String) : String :=
  String.mk ((s.toList.dropWhile isspace).takeWhile (fun c => !isspace c))

/-- A value-initialised `SealedVault`. -/
def SealedVault.blank : SealedVault :=
  { name := "", optional := false, sealed := false, masterKeyHex := "", registries := [] }

/-- The local variables of `read_svau`. -/
structure ReadState where
  result : LoadedArchive
  vaults : List SealedVault
  current : SealedVault
  currentReg : String
  currentEntryKey : String
deriving DecidableEq, Repr

/-- The lambda `flush` of `read_svau`. -/
def ReadState.flush (s : ReadState) : ReadState :=
  { s with
    vaults := if s.current.name ≠ "" then s.vaults ++ [s.current] else s.vaults,
    current := SealedVault.blank,
    currentReg := "" }

/-- The entry `current.registries[currentReg].entries[currentEntryKey]` of `read_svau`,
both accesses creating what is absent. -/
def ReadState.entry (s : ReadState) : SealedEntry :=
  (Map.find ((Map.find s.current.registries s.currentReg).getD ⟨[]⟩).entries
    s.currentEntryKey).getD ⟨"", ""⟩

/-- The body of the loop of `read_svau`, for one line. -/
def ReadState.step (s : ReadState) (line : String) : ReadState :=
  if line = "---" then s.flush
  else if line = "" ∨ line = "# Vault Secure Archive" then s
  else if starts_with line "hmac " then
    { s with result := { s.result with hmac := substrFrom line 5 } }
  else if starts_with line "depends " then
    { s with result :=
        { s.result with dependencies := s.result.dependencies ++ [substrFrom line 8] } }
  else if starts_with line "token " then
    { s with result := { s.result with token := substrFrom line 6 } }
  else if starts_with line "vault " then
    let s1 := s.flush
    let optional : Bool :=
      (find_char line.toList '(').isSome && (find_sub line.toList "optional".toList).isSome
    { s1 with
      current := { s1.current with name := extract_word (substrFrom line 6),
                                   optional := optional } }
  else if starts_with line "sealed " then
    { s with
      current := { s.current with sealed := (find_sub line.toList "true".toList).isSome } }
  else if starts_with line "  registry " then
    let reg := substrFrom line 11
    { s with
      currentReg := reg,
      current := { s.current with registries := Map.assign s.current.registries reg ⟨[]⟩ } }
  else if starts_with line "    entry " then
    let key := substrFrom line 10
    { s with
      currentEntryKey := key,
      current := s.current.withEntry s.currentReg key ⟨"", ""⟩ }
  else if starts_with line "      digest " then
    { s with
      current := s.current.withEntry s.currentReg s.currentEntryKey
        { s.entry with digest := substrFrom line 13 } }
  else if starts_with line "      cipher " then
    { s with
      current := s.current.withEntry s.currentReg s.currentEntryKey
        { s.entry with cipher := substrFrom line 13 } }
  else s

/-- Function `read_svau` of `compiler.cpp`, on the text of the file. -/
def read_svau (text : String) : LoadedArchive :=
  let start : ReadState :=
    { result := { token := "", hmac := "", dependencies := [], vaults := [] },
      vaults := [], current := SealedVault.blank, currentReg := "", currentEntryKey := "" }
  let done := ((getlines text).foldl ReadState.step start).flush
  { done.result with vaults := done.vaults }

/-- The loop `for (auto &v : archive.vaults) v.masterKeyHex = cfg.masterKey;`. -/
def inject_master_key (vaults : List SealedVault) (masterKey : String) : List SealedVault :=
  vaults.map (fun v => { v with masterKeyHex := masterKey })

/-- Lines 406-416 of `vaultc_main`: the load of the archive `text` in the mode that
verifies a `.svau` file. -/
def load_verify (env : Platform) (cfg : VaultConfig) (text : String) :
    Except String LoadedArchive :=
  let archive := read_svau text
  if archive.token ≠ "" ∧ archive.token ≠ cfg.token then .error "Token mismatch for archive"
  else
    let archive1 := { archive with vaults := inject_master_key archive.vaults cfg.masterKey }
    match compute_archive_hmac env archive1.vaults cfg.token cfg.masterKey
        archive1.dependencies with
    | .error e => .error e
    | .ok want =>
      if archive1.hmac ≠ "" ∧ archive1.hmac ≠ want then
        .error "Archive HMAC verification failed"
      else .ok archive1

/-- Lines 420-427 of `vaultc_main`: the load of the archive given by `--load` in the mode
that runs a `.vsc` script; `loadText` is absent when the option is. -/
def load_query (env : Platform) (cfg : VaultConfig) (loadText : Option String) :
    Except String LoadedArchive :=
  match loadText with
  | none => .error "Script requires --load <archive.svau>"
  | some text =>
    let archive := read_svau text
    if archive.token ≠ cfg.token then .error "Token mismatch for archive"
    else
      let archive1 := { archive with vaults := inject_master_key archive.vaults cfg.masterKey }
      match compute_archive_hmac env archive1.vaults archive1.token cfg.masterKey
          archive1.dependencies with
      | .error e => .error e
      | .ok want =>
        if archive1.hmac ≠ "" ∧ archive1.hmac ≠ want then
          .error "Archive HMAC verification failed"
        else .ok archive1

/-- Lines 437-448 of `vaultc_main`: the load of the seed archive `text`, whose file name is
`loadName`, in the mode that compiles; the vaults to seed and the dependency list. -/
def load_seed (env : Platform) (cfg : VaultConfig) (text : String) (loadName : String) :
    Except String (List SealedVault × List String) :=
  let seedArchive := read_svau text
  if seedArchive.token ≠ "" ∧ seedArchive.token ≠ cfg.token then
    .error "Token mismatch for loaded archive"
  else
    let vaults := inject_master_key seedArchive.vaults cfg.masterKey
    match compute_archive_hmac env vaults cfg.token cfg.masterKey seedArchive.dependencies with
    | .error e => .error e
    | .ok want =>
      if seedArchive.hmac ≠ "" ∧ seedArchive.hmac ≠ want then
        .error "Loaded archive HMAC verification failed"
      else .ok (vaults, sorted_unique (seedArchive.dependencies ++ [loadName]))

/-- Lines 431-462 of `vaultc_main`: the compilation of the lexed `lines`, seeded from the
archive `load = (text, file name)` when `--load` is given; the text written to the output,
the archive followed by its `hmac` line. -/
def compile (env : Platform) (cfg : VaultConfig) (opts : InterpreterOptions)
    (lines : List Line) (load : Option (String × String)) : Except String String :=
  match Parser.parse lines with
  | .exhausted => .error "exhausted"
  | .throw e _ => .error e
  | .ok program _ =>
    let interp := Interpreter.init { opts with forcedMasterKey := some cfg.masterKey }
    let seeded : Except String (Interpreter × List String) :=
      match load with
      | none => .ok (interp, [])
      | some (text, loadName) =>
        match load_seed env cfg text loadName with
        | .error e => .error e
        | .ok (vaults, dependencies) => .ok (interp.seed vaults, dependencies)
    match seeded with
    | .error e => .error e
    | .ok (interp1, dependencies) =>
      match Interpreter.run env interp1 program with
      | .throw e _ => .error e
      | .ok sealed _ =>
        match compute_archive_hmac env sealed cfg.token cfg.masterKey dependencies with
        | .error e => .error e
        | .ok hmac => .ok (write_svau sealed cfg.token dependencies ++ "hmac " ++ hmac ++ "\n")

/-- The text after the first line of `s`: what follows its first newline. -/
def dropFirstLine (s : String) : String :=
  String.mk ((s.toList.dropWhile (fun c => c ≠ '\n')).drop 1)

/-- The text has no newline character. -/
def oneLine (s : String) : Prop := '\n' ∉ s.toList

instance oneLine.decidable (s : String) : Decidable (oneLine s) :=
  inferInstanceAs (Decidable ('\n' ∉ s.toList))

/-- The keys of an unordered map are pairwise distinct. -/
def Map.WF {V : Type} (m : List (String × V)) : Prop := (m.map Prod.fst).Nodup

/-- Two registries hold the same entries, whatever the order of their maps. -/
def SealedRegistry.Equiv (a b : SealedRegistry) : Prop :=
  Map.WF a.entries ∧ Map.WF b.entries ∧ ∀ k, Map.find a.entries k = Map.find b.entries k

/-- Two vaults have the same name and flags and hold the same registries with the same
entries, whatever the order of their maps; the master keys are not compared. -/
def SealedVault.Equiv (a b : SealedVault) : Prop :=
  a.name = b.name ∧ a.optional = b.optional ∧ a.sealed = b.sealed ∧
  Map.WF a.registries ∧ Map.WF b.registries ∧
  ∀ R, match Map.find a.registries R, Map.find b.registries R with
    | none, none => True
    | some x, some y => SealedRegistry.Equiv x y
    | _, _ => False

instance Map.WF.decidable {V : Type} (m : List (String × V)) : Decidable (Map.WF m) :=
  inferInstanceAs (Decidable (m.map Prod.fst).Nodup)

/-- The digest is injective in its material under the key `key`. -/
def Platform.digestSeparates (env : Platform) (key : String) : Prop :=
  ∀ m1 m2 h, env.digest m1 key = .ok h → env.digest m2 key = .ok h → m1 = m2

/-- Equality of the results of a call that may throw is decidable. -/
instance exceptDecEq {α : Type} [DecidableEq α] : DecidableEq (Except String α) := fun a b =>
  match a, b with
  | .ok x, .ok y =>
    if h : x = y then isTrue (by rw [h]) else isFalse (fun e => h (by injection e))
  | .error x, .error y =>
    if h : x = y then isTrue (by rw [h]) else isFalse (fun e => h (by injection e))
  | .ok _, .error _ => isFalse (fun e => by cases e)
  | .error _, .ok _ => isFalse (fun e => by cases e)

/-! ## Lexer (`lexer.cpp`)

The file is its text, or nothing when it cannot be opened; the lines are those that
`std::getline` reads from it (`getlines`). -/

/-- Function `trim_left` of `lexer.cpp`. -/
def trim_left (s : String) : String :=
  match find_first_not_of s.toList ' ' with
  | none => ""
  | some pos => substrFrom s pos

/-- The loop `for (char c : line) { if (c == ' ') indent++; else break; }` of `lex_file`,
started with `indent` at the given value. -/
def count_indent : List Char → Int → Int
  | [], indent => indent
  | c :: rest, indent => if c = ' ' then count_indent rest (indent + 1) else indent

/-- The loop `while (std::getline(in, line))` of `lex_file`, over the lines still to be
read, with the counter `number` and the records pushed so far in `lines`. -/
def lex_loop : List String → Int → List Line → Except String (List Line)
  | [], _, lines => .ok lines
  | line :: rest, number, lines =>
    if (find_char line.toList '\t').isSome then
      .error ("Tabs are not allowed (line " ++ toString number ++ ")")
    else
      lex_loop rest (number + 1)
        (lines ++ [{ number := number, indent := count_indent line.toList 0,
                     text := trim_left line }])

/-- Function `lex_file` of `lexer.cpp`; `content` is the text of the file at `path`, absent
when the file cannot be opened. -/
def lex_file (path : String) (content : Option String) : Except String (List Line) :=
  match content with
  | none => .error ("Unable to open file: " ++ path)
  | some text => lex_loop (getlines text) 1 []

/-! ## Key and cipher encoding (`crypto.cpp`)

A buffer of bytes (`std::vector<std::uint8_t>`, a `std::string` used as one) is a
list of numbers below 256; a byte written into such a buffer is taken modulo 256. The
`int` variables `val` of the base64 functions hold their 32-bit pattern, a number below
`2 ^ 32`: a left shift wraps around, and the right shifts of the two functions (by at
most 6 bits, masked to at most 8) read bits below bit 14, where the pattern decides. -/

/-- The value of the hexadecimal digit `c`, if it is one. -/
def hex_digit (c : Char) : Option Nat :=
  if '0' ≤ c ∧ c ≤ '9' then some (c.toNat - '0'.toNat)
  else if 'a' ≤ c ∧ c ≤ 'f' then some (c.toNat - 'a'.toNat + 10)
  else if 'A' ≤ c ∧ c ≤ 'F' then some (c.toNat - 'A'.toNat + 10)
  else none

/-- The subject of the call `std::stoul(str, nullptr, 16)` of the C++ library: leading
whitespace is skipped, then come an optional sign, an optional `0x` or `0X` that a digit
follows, and the longest run of hexadecimal digits; what follows the digits is ignored.
The result tells whether the sign is a minus, and lists the digits. -/
def stoul_scan (str : List Char) : Bool × List Char :=
  let s1 := str.dropWhile isspace
  let signed : Bool × List Char :=
    match s1 with
    | '-' :: r => (true, r)
    | '+' :: r => (false, r)
    | _ => (false, s1)
  let s3 : List Char :=
    match signed.2 with
    | '0' :: x :: d :: r =>
      if (x = 'x' ∨ x = 'X') ∧ (hex_digit d).isSome then d :: r else signed.2
    | _ => signed.2
  (signed.1, s3.takeWhile (fun c => (hex_digit c).isSome))

/-- The call `std::stoul(str, nullptr, 16)` of the C++ library, for an `unsigned long` of
`ulong_bits` bits: the digits found by `stoul_scan` are converted. Without a digit the
call throws `std::invalid_argument`, on a value that does not fit `std::out_of_range`; a
minus sign negates the value in `unsigned long`. -/
def stoul16 (ulong_bits : Nat) (str : List Char) : Except String Nat :=
  let scan := stoul_scan str
  if scan.2.isEmpty then .error "invalid stoul argument"
  else
    let value := scan.2.foldl (fun acc c => 16 * acc + (hex_digit c).getD 0) 0
    if 2 ^ ulong_bits ≤ value then .error "stoul argument out of range"
    else .ok (if scan.1 then (2 ^ ulong_bits - value) % 2 ^ ulong_bits else value)

/-- The loop of `hex_to_bytes` over the rest of the string: each step converts
`hex.substr(i, 2)` and casts the result to `std::uint8_t`. -/
def hex_to_bytes_loop (ulong_bits : Nat) : List Char → Except String (List Nat)
  | [] => .ok []
  | [a] =>
    match stoul16 ulong_bits [a] with
    | .error e => .error e
    | .ok byte => .ok [byte % 256]
  | a :: b :: rest =>
    match stoul16 ulong_bits [a, b] with
    | .error e => .error e
    | .ok byte =>
      match hex_to_bytes_loop ulong_bits rest with
      | .error e => .error e
      | .ok out => .ok (byte % 256 :: out)

/-- Function `hex_to_bytes` of `crypto.cpp`. -/
def hex_to_bytes (ulong_bits : Nat) (hex : String) : Except String (List Nat) :=
  if hex.length % 2 ≠ 0 then .error "Bad hex key"
  else hex_to_bytes_loop ulong_bits hex.toList

/-- The array `table` of `base64_encode`. -/
def base64_table : List Char :=
  "ABCDEFGHIJKLMNOPQRSTUVWXYZabcdefghijklmnopqrstuvwxyz0123456789+/".toList

/-- The loop `while (valb >= 0)` of `base64_encode`: the output and `valb` after it. The
first argument bounds the number of iterations; `valb.toNat + 1` is enough. -/
def base64_emit (val : Nat) : Nat → Int → List Char → List Char × Int
  | 0, valb, out => (out, valb)
  | fuel + 1, valb, out =>
    if 0 ≤ valb then
      base64_emit val fuel (valb - 6)
        (out ++ [base64_table.getD (val / 2 ^ valb.toNat % 64) 'A'])
    else (out, valb)

/-- The loop `for (unsigned char c : input)` of `base64_encode`: `val`, `valb` and the
output after it. -/
def base64_encode_loop : List Nat → Nat → Int → List Char → Nat × Int × List Char
  | [], val, valb, out => (val, valb, out)
  | c :: rest, val, valb, out =>
    let val1 := val * 256 % 2 ^ 32 + c % 256
    let valb1 := valb + 8
    let emitted := base64_emit val1 (valb1.toNat + 1) valb1 out
    base64_encode_loop rest val1 emitted.2 emitted.1

/-- Lines 66-67 of `base64_encode`: the character of the bits left over, if any, and
the padding `while (out.size() % 4) out.push_back('=')`, which adds the characters
missing to the next multiple of 4. -/
def base64_finish (val : Nat) (valb : Int) (out : List Char) : List Char :=
  let out1 :=
    if -6 < valb then
      out ++ [base64_table.getD (val * 256 % 2 ^ 32 / 2 ^ (valb + 8).toNat % 64) 'A']
    else out
  out1 ++ List.replicate ((4 - out1.length % 4) % 4) '='

/-- Function `base64_encode` of `crypto.cpp`, on the bytes of its input. -/
def base64_encode (input : List Nat) : String :=
  let state := base64_encode_loop input 0 (-6) []
  String.mk (base64_finish state.1 state.2.1 state.2.2)

/-- The array `T` of `base64_decode`: its 240 initialisers. The last 16 elements of the
array are zero-initialised. -/
def base64_T_init : List Int :=
  [-1, -1, -1, -1, -1, -1, -1, -1, -1, -1, -1, -1, -1, -1, -1, -1,
   -1, -1, -1, -1, -1, -1, -1, -1, -1, -1, -1, -1, -1, -1, -1, -1,
   -1, -1, -1, -1, -1, -1, -1, -1, -1, -1, -1, 62, -1, -1, -1, 63,
   52, 53, 54, 55, 56, 57, 58, 59, 60, 61, -1, -1, -1, 0, -1, -1,
   -1, 0, 1, 2, 3, 4, 5, 6, 7, 8, 9, 10, 11, 12, 13, 14,
   15, 16, 17, 18, 19, 20, 21, 22, 23, 24, 25, -1, -1, -1, -1, -1,
   -1, 26, 27, 28, 29, 30, 31, 32, 33, 34, 35, 36, 37, 38, 39, 40,
   41, 42, 43, 44, 45, 46, 47, 48, 49, 50, 51, -1, -1, -1, -1, -1,
   -1, -1, -1, -1, -1, -1, -1, -1, -1, -1, -1, -1, -1, -1, -1, -1,
   -1, -1, -1, -1, -1, -1, -1, -1, -1, -1, -1, -1, -1, -1, -1, -1,
   -1, -1, -1, -1, -1, -1, -1, -1, -1, -1, -1, -1, -1, -1, -1, -1,
   -1, -1, -1, -1, -1, -1, -1, -1, -1, -1, -1, -1, -1, -1, -1, -1,
   -1, -1, -1, -1, -1, -1, -1, -1, -1, -1, -1, -1, -1, -1, -1, -1,
   -1, -1, -1, -1, -1, -1, -1, -1, -1, -1, -1, -1, -1, -1, -1, -1,
   -1, -1, -1, -1, -1, -1, -1, -1, -1, -1, -1, -1, -1, -1, -1, -1]

/-- The element `T[c]` for an `unsigned char` `c`. -/
def base64_T (c : Nat) : Int :=
  base64_T_init.getD c 0

/-- The loop `for (unsigned char c : input)` of `base64_decode`: the output after it. -/
def base64_decode_loop : List Char → Nat → Int → List Nat → List Nat
  | [], _, _, out => out
  | c :: rest, val, valb, out =>
    if c = '=' then out
    else
      let d := base64_T (c.toNat % 256)
      if d = -1 then base64_decode_loop rest val valb out
      else
        let val1 := val * 64 % 2 ^ 32 + d.toNat
        let valb1 := valb + 6
        if 0 ≤ valb1 then
          base64_decode_loop rest val1 (valb1 - 8) (out ++ [val1 / 2 ^ valb1.toNat % 256])
        else base64_decode_loop rest val1 valb1 out

/-- Function `base64_decode` of `crypto.cpp`: the bytes of its result. -/
def base64_decode (input : String) : List Nat :=
  base64_decode_loop input.toList 0 (-8) []

/-- The calls of the operating system in `crypto.cpp`: `BCryptGenRandom` (the bytes it
writes for the given length at the given position of the random stream, if it
succeeds) and the AES-GCM sealing and opening done through `BCryptEncrypt` and
`BCryptDecrypt` with key, nonce, authenticated data and text (and tag); a failure is the
text of the exception thrown at the failing call. -/
structure Bcrypt where
  gen_random : Nat → Nat → Option (List Nat)
  gcm_encrypt : List Nat → List Nat → String → String → Except String (List Nat × List Nat)
  gcm_decrypt : List Nat → List Nat → List Nat → String → List Nat → Except String String

/-- A buffer of `n` zero bytes into which `written` was copied from its start. -/
def fill_buffer (n : Nat) (written : List Nat) : List Nat :=
  ((written.map (fun b => b % 256)) ++ List.replicate n 0).take n

/-- Function `random_bytes` of `crypto.cpp`. -/
def random_bytes (os : Bcrypt) (n : Nat) (drawn : Nat) : Except String (List Nat) :=
  match os.gen_random n drawn with
  | none => .error "BCryptGenRandom failed"
  | some written => .ok (fill_buffer n written)

/-- Function `crypto::encrypt` of `crypto.cpp`; `drawn` is the position of its random
bytes in the random stream. -/
def crypto.encrypt (os : Bcrypt) (ulong_bits : Nat) (plain keyHex salt : String)
    (drawn : Nat) : Except String String :=
  match hex_to_bytes ulong_bits keyHex with
  | .error e => .error e
  | .ok keyBytes =>
    match random_bytes os 12 drawn with
    | .error e => .error e
    | .ok ivBytes =>
      match os.gcm_encrypt keyBytes ivBytes salt plain with
      | .error e => .error e
      | .ok (tagWritten, cipherWritten) =>
        let tag := fill_buffer 16 tagWritten
        let cipher := cipherWritten.map (fun b => b % 256)
        let packed := ivBytes ++ tag ++ cipher
        .ok (base64_encode packed)

/-- Function `crypto::decrypt` of `crypto.cpp`. -/
def crypto.decrypt (os : Bcrypt) (ulong_bits : Nat) (cipherB64 keyHex salt : String) :
    Except String String :=
  match hex_to_bytes ulong_bits keyHex with
  | .error e => .error e
  | .ok keyBytes =>
    let packed := base64_decode cipherB64
    let ivLen := 12
    let tagLen := 16
    if packed.length < ivLen + tagLen then .error "Cipher too short"
    else
      let iv := packed.take ivLen
      let tag := (packed.drop ivLen).take tagLen
      let body := packed.drop (ivLen + tagLen)
      os.gcm_decrypt keyBytes iv tag salt body

/-! ## Further definitions used to state the theorems -/

/-- The text neither begins nor ends with a space: `trim` returns it as it is. -/
def Trimmed (s : String) : Prop :=
  s.toList.head? ≠ some ' ' ∧ s.toList.getLast? ≠ some ' '

instance Trimmed.decidable (s : String) : Decidable (Trimmed s) :=
  inferInstanceAs (Decidable (s.toList.head? ≠ some ' ' ∧ s.toList.getLast? ≠ some ' '))

mutual
/-- Whether the statement, or a statement nested in the body of an `if`, has a type
that satisfies `p`. -/
def Statement.has (p : StatementType → Bool) : Statement → Bool
  | .mk type _ _ _ _ (.mk _ _ body) _ =>
    p type || (decide (type = .If) && Statement.anyHas p body)
/-- Whether some statement of the list has, or holds nested, a type that satisfies `p`. -/
def Statement.anyHas (p : StatementType → Bool) : List Statement → Bool
  | [] => false
  | s :: rest => Statement.has p s || Statement.anyHas p rest
end

/-- The types of the statements that write an entry: `Store` and `Replace`. -/
def StatementType.isWrite : StatementType → Bool
  | .Store => true
  | .Replace => true
  | _ => false

/-- The type `Replace`. -/
def StatementType.isReplace : StatementType → Bool
  | .Replace => true
  | _ => false

/-- Every vault of the map of `st` is in the map of `st2` under the same name, related to
it by `Q`. -/
def Interpreter.VaultsRel (Q : SealedVault → SealedVault → Prop) (st st2 : Interpreter) :
    Prop :=
  ∀ n v, Map.find st.byName_ n = some v → ∃ v2, Map.find st2.byName_ n = some v2 ∧ Q v v2

/-- The vault `v` has the name, the master key and the registries, with all their entries,
of the vault `s`. -/
def SealedVault.sameContent (s v : SealedVault) : Prop :=
  v.name = s.name ∧ v.masterKeyHex = s.masterKeyHex ∧ v.registries = s.registries

/-- Every entry of the vault `s` is an entry of the vault `v`, with its digest and cipher. -/
def SealedVault.keepsEntries (s v : SealedVault) : Prop :=
  ∀ R k e, s.entry R k = some e → v.entry R k = some e

/-- The statement is `if missing T` with the single statement `store T = V` as its body. -/
def Statement.isGuardedStore (g : Statement) (T : Target) (V : ValueExpr) : Prop :=
  g.type = .If ∧ g.conditional.isMissing = true ∧ g.conditional.target = T ∧
    ∃ s, g.conditional.body = [s] ∧ s.type = .Store ∧ s.target = T ∧ s.value = V

/-- The value an outcome returns, if it does. -/
def Outcome.result {α : Type} : Outcome α → Option α
  | .ok val _ => some val
  | .throw _ _ => none

/-- The last vault of `existing` whose name is `n`, if any. -/
def lastNamed (existing : List SealedVault) (n : String) : Option SealedVault :=
  existing.reverse.find? (fun v => decide (v.name = n))

/-- Lines 73-74 of `evaluate_vault`, on the outcome of the loop over the body: the vault
stored under `name` is appended to the output. -/
def Interpreter.push_stored (name : String) : Outcome Unit → Outcome Unit
  | .throw e st3 => .throw e st3
  | .ok _ st3 =>
    match Map.find st3.byName_ name with
    | none => .throw out_of_range st3
    | some stored => .ok () { st3 with sealed_ := st3.sealed_ ++ [stored] }

/-- The state in which `evaluate_vault` starts the body of block `b` once the vault `v`
stands under the block's name, `drawn` values having been drawn. -/
def Interpreter.entered (st : Interpreter) (b : VaultBlock) (v : SealedVault) (drawn : Nat) :
    Interpreter :=
  { st with currentRegistry_ := none, currentVault_ := b.name,
            byName_ := Map.assign st.byName_ b.name v, drawn := drawn }

/-- The type `Registry`. -/
def StatementType.isRegistry : StatementType → Bool
  | .Registry => true
  | _ => false

/-- The statement takes its registry from the current registry: a `store` or `replace`
whose target names no registry, or an `if` whose condition's target names none. -/
def Statement.unqualified (s : Statement) : Prop :=
  ((s.type = .Store ∨ s.type = .Replace) ∧ s.target.registry = none) ∨
    (s.type = .If ∧ s.conditional.target.registry = none)

/-- The character of the base64 alphabet for the 6-bit value `i`. -/
def base64_char (i : Nat) : Char :=
  base64_table.getD i 'A'

/-- The standard base64 text of a byte string, written from RFC 4648 and not from the
code: every three bytes give four characters of the alphabet, a rest of one byte gives
two characters and `==`, a rest of two bytes gives three characters and `=`. -/
def base64_standard : List Nat → List Char
  | [] => []
  | [a] => [base64_char (a / 4), base64_char (a % 4 * 16), '=', '=']
  | [a, b] =>
    [base64_char (a / 4), base64_char (a % 4 * 16 + b / 16), base64_char (b % 16 * 4), '=']
  | a :: b :: c :: rest =>
    base64_char (a / 4) :: base64_char (a % 4 * 16 + b / 16) ::
      base64_char (b % 16 * 4 + c / 64) :: base64_char (c % 64) :: base64_standard rest

/-- The hexadecimal digits. -/
def hexDigits : List Char :=
  "0123456789abcdefABCDEF".toList

/-- The string is a sequence of hexadecimal digits. -/
def isHexString (s : String) : Prop :=
  ∀ c ∈ s.toList, c ∈ hexDigits

instance isHexString.decidable (s : String) : Decidable (isHexString s) :=
  inferInstanceAs (Decidable (∀ c ∈ s.toList, c ∈ hexDigits))

/-- The bytes that the digit pairs of a sequence of hexadecimal digits denote, the first
digit of a pair being the high half of its byte. -/
def hex_pairs : List Char → List Nat
  | a :: b :: rest => (16 * (hex_digit a).getD 0 + (hex_digit b).getD 0) :: hex_pairs rest
  | _ => []

/-! ## Sample platform, states and programs used to instantiate the theorems -/

/-- A platform whose cipher and digest spell out their arguments. -/
def samplePlatform : Platform :=
  { dist16 := fun i => i
    localtime := fun _ => "2024-01-01T00:00:00"
    random_key_hex := fun _ => "ab"
    encrypt := fun plain key salt _ => .ok ("enc(" ++ plain ++ "," ++ key ++ "," ++ salt ++ ")")
    digest := fun material key => .ok ("mac(" ++ material ++ "," ++ key ++ ")") }

/-- The options `verbose = false`, `materializeOptional = false`, forced master key `00`. -/
def sampleOptions : InterpreterOptions :=
  { verbose := false, materializeOptional := false, forcedMasterKey := some "00" }

/-- An unsealed vault `A` with no registry. -/
def sampleVault : SealedVault :=
  { name := "A", optional := false, sealed := false, masterKeyHex := "00", registries := [] }

/-- The interpreter inside the evaluation of vault `A`, before its first statement. -/
def sampleState : Interpreter :=
  { opts_ := sampleOptions, sealed_ := [], byName_ := [("A", sampleVault)],
    currentVault_ := "A", currentRegistry_ := none, drawn := 0 }

/-- The statement `registry R` on line 2. -/
def stmtRegistry : Statement :=
  .mk .Registry 2 "R" Target.empty ValueExpr.empty IfStmt.empty ""

/-- The statement `store -> "k" = "v"` on the given line. -/
def stmtStore (line : Int) : Statement :=
  .mk .Store line "" ⟨none, "k"⟩ ⟨.Literal, "v"⟩ IfStmt.empty ""

/-- The statement `replace -> "k" = "w"` on the given line. -/
def stmtReplace (line : Int) : Statement :=
  .mk .Replace line "" ⟨none, "k"⟩ ⟨.Literal, "w"⟩ IfStmt.empty ""

/-- The statement `note "n"` on the given line. -/
def stmtNote (line : Int) : Statement :=
  .mk .Note line "" Target.empty ValueExpr.empty IfStmt.empty "n"

/-- The statement `secure` on the given line. -/
def stmtSecure (line : Int) : Statement :=
  Statement.blank .Secure line

/-- The entry that `store -> "k" = "v"` writes in registry `R` on `samplePlatform`. -/
def sampleEntry : SealedEntry :=
  { digest := "mac(enc(v,00,R:k),00)", cipher := "enc(v,00,R:k)" }

/-- The vault `A` sealed, holding `sampleEntry` at `R`/`k`. -/
def sampleSealedVault : SealedVault :=
  { name := "A", optional := false, sealed := true, masterKeyHex := "00",
    registries := [("R", ⟨[("k", sampleEntry)]⟩)] }

/-- The state after `registry R`, `store -> "k" = "v"`, `secure` in `sampleState`. -/
def sampleSealedState : Interpreter :=
  { opts_ := sampleOptions, sealed_ := [], byName_ := [("A", sampleSealedVault)],
    currentVault_ := "A", currentRegistry_ := some "R", drawn := 1 }

/-- The state after `registry R`, `store -> "k" = "v"` in `sampleState`: vault `A` unsealed,
holding `sampleEntry` at `R`/`k`. -/
def sampleStoredState : Interpreter :=
  { opts_ := sampleOptions, sealed_ := [],
    byName_ := [("A", { sampleSealedVault with sealed := false })],
    currentVault_ := "A", currentRegistry_ := some "R", drawn := 1 }

/-- The statement `replace R -> "k" = foo()` on line 4. -/
def stmtReplaceUnknown : Statement :=
  .mk .Replace 4 "" ⟨some "R", "k"⟩ ⟨.Builtin, "foo"⟩ IfStmt.empty ""

/-- The state after `registry R` in `sampleState`. -/
def sampleRegistryState : Interpreter :=
  { opts_ := sampleOptions, sealed_ := [], byName_ := [("A", sampleVault)],
    currentVault_ := "A", currentRegistry_ := some "R", drawn := 0 }

/-- The statement `if missing -> "k"` on line 3 whose body is `store -> "k" = "v"` on line 4. -/
def stmtIfMissing : Statement :=
  .mk .If 3 "" Target.empty ValueExpr.empty (.mk true ⟨none, "k"⟩ [stmtStore 4]) ""

/-- The statement `if present -> "k"` on line 3 whose body is `replace -> "k" = "w"` on line 4. -/
def stmtIfPresent : Statement :=
  .mk .If 3 "" Target.empty ValueExpr.empty (.mk false ⟨none, "k"⟩ [stmtReplace 4]) ""

/-- The block `vault? B` on line 1 whose body is `secure` on line 2. -/
def blockOptionalB : VaultBlock :=
  { optional := true, name := "B", line := 1, body := [stmtSecure 2] }

/-- The block `vault? A` on line 1 whose body is `secure` on line 2. -/
def blockOptionalA : VaultBlock :=
  { optional := true, name := "A", line := 1, body := [stmtSecure 2] }

/-- The options of `sampleOptions` with `materializeOptional = true`. -/
def sampleMaterialize : InterpreterOptions :=
  { verbose := false, materializeOptional := true, forcedMasterKey := some "00" }

/-- The interpreter constructed with `sampleOptions` and seeded with the sealed vault `A`. -/
def sampleSeeded : Interpreter :=
  (Interpreter.init sampleOptions).seed [sampleSealedVault]

/-- The lines of scenario S1: `vault A`, `registry R`, `store -> "k" = "v"`, `secure`. -/
def sampleLines : List Line :=
  [⟨1, 0, "vault A"⟩, ⟨2, 2, "registry R"⟩, ⟨3, 2, "store -> \"k\" = \"v\""⟩, ⟨4, 2, "secure"⟩]

/-- The program `sampleLines` parses to. -/
def sampleProgram : List VaultBlock :=
  [{ optional := false, name := "A", line := 1,
     body := [stmtRegistry, stmtStore 3, stmtSecure 4] }]

/-- The character map that exchanges the newline and the bar. -/
def swapNewline (c : Char) : Char :=
  if c = '\n' then '|' else if c = '|' then '\n' else c

/-- A platform as `samplePlatform` whose digest spells out its material on one line. -/
def archivePlatform : Platform :=
  { dist16 := fun i => i
    localtime := fun _ => "2024-01-01T00:00:00"
    random_key_hex := fun _ => "ab"
    encrypt := fun plain key salt _ => .ok ("enc(" ++ plain ++ "," ++ key ++ "," ++ salt ++ ")")
    digest := fun material key =>
      .ok ("mac(" ++ String.mk (material.toList.map swapNewline) ++ "," ++ key ++ ")") }

/-- The configuration `MASTER_KEY=00`, `TOKEN=t`. -/
def sampleConfig : VaultConfig :=
  { masterKey := "00", token := "t", securityQuestions := [], securityDigests := [],
    securityAnswers := [] }

/-- The configuration `MASTER_KEY=00`, `TOKEN=u`. -/
def otherConfig : VaultConfig :=
  { masterKey := "00", token := "u", securityQuestions := [], securityDigests := [],
    securityAnswers := [] }

/-- The options of a compilation without flags. -/
def driverOptions : InterpreterOptions :=
  { verbose := false, materializeOptional := false, forcedMasterKey := none }

/-- A vault whose maps hold registries `S`, `R` and, in `S`, entries `k2`, `k1`, in that
order. -/
def sampleUnordered : SealedVault :=
  { name := "A", optional := false, sealed := true, masterKeyHex := "00",
    registries := [("S", ⟨[("k2", ⟨"d2", "c2"⟩), ("k1", ⟨"d1", "c1"⟩)]⟩),
                   ("R", ⟨[("k", ⟨"d", "c"⟩)]⟩)] }

/-- The vault of `sampleUnordered` with its maps in the opposite order and another key. -/
def sampleReordered : SealedVault :=
  { name := "A", optional := false, sealed := true, masterKeyHex := "ff",
    registries := [("R", ⟨[("k", ⟨"d", "c"⟩)]⟩),
                   ("S", ⟨[("k1", ⟨"d1", "c1"⟩), ("k2", ⟨"d2", "c2"⟩)]⟩)] }

/-- The archive that `sampleLines` (scenario S1) compiles to under `sampleConfig` on
`archivePlatform`, with its `hmac` line. -/
def sampleArchive : String :=
  "# Vault Secure Archive\nvault A (required)\nsealed true\n  registry R\n    entry k\n      digest mac(enc(v,00,R:k),00)\n      cipher enc(v,00,R:k)\n---\nhmac mac(token t|vault A (required)|sealed true|  registry R|    entry k|      digest mac(enc(v,00,R:k),00)|      cipher enc(v,00,R:k)|---|,00)\n"

/-- What `read_svau` reads from `sampleArchive`, with the master key `00` injected. -/
def sampleLoaded : LoadedArchive :=
  { token := "",
    hmac := "mac(token t|vault A (required)|sealed true|  registry R|    entry k|      digest mac(enc(v,00,R:k),00)|      cipher enc(v,00,R:k)|---|,00)",
    dependencies := [],
    vaults := [sampleSealedVault] }

/-- The source `vault optionals`, `secure`: a required vault named `optionals`. -/
def optionalsLines : List Line :=
  [⟨1, 0, "vault optionals"⟩, ⟨2, 2, "secure"⟩]

/-- The archive that `optionalsLines` compiles to under `sampleConfig`. -/
def optionalsArchive : String :=
  "# Vault Secure Archive\nvault optionals (required)\nsealed true\n---\nhmac mac(token t|vault optionals (required)|sealed true|---|,00)\n"

/-- The source of two vaults `A` and `B`, each storing key `k` in registry `R`. -/
def twoVaultLines : List Line :=
  [⟨1, 0, "vault A"⟩, ⟨2, 2, "registry R"⟩, ⟨3, 2, "store -> \"k\" = \"v\""⟩,
   ⟨4, 2, "secure"⟩, ⟨5, 0, "vault B"⟩, ⟨6, 2, "registry R"⟩,
   ⟨7, 2, "store -> \"k\" = \"w\""⟩, ⟨8, 2, "secure"⟩]

/-- The archive that `twoVaultLines` compiles to under `sampleConfig`. -/
def twoVaultArchive : String :=
  "# Vault Secure Archive\nvault A (required)\nsealed true\n  registry R\n    entry k\n      digest mac(enc(v,00,R:k),00)\n      cipher enc(v,00,R:k)\n---\nvault B (required)\nsealed true\n  registry R\n    entry k\n      digest mac(enc(w,00,R:k),00)\n      cipher enc(w,00,R:k)\n---\nhmac mac(token t|vault A (required)|sealed true|  registry R|    entry k|      digest mac(enc(v,00,R:k),00)|      cipher enc(v,00,R:k)|---|vault B (required)|sealed true|  registry R|    entry k|      digest mac(enc(w,00,R:k),00)|      cipher enc(w,00,R:k)|---|,00)\n"

/-- The text of `twoVaultArchive` with one character changed, the `y` of the `entry` line
of vault `B` (character 197 of the text), which becomes `x`. -/
def twoVaultTampered : String :=
  String.mk (twoVaultArchive.toList.set 197 'x')

/-- The source `vault my vault`, `secure`: a required vault named `my vault`. -/
def spacedLines : List Line :=
  [⟨1, 0, "vault my vault"⟩, ⟨2, 2, "secure"⟩]

/-- The archive that `spacedLines` compiles to under `sampleConfig`. -/
def spacedArchive : String :=
  "# Vault Secure Archive\nvault my vault (required)\nsealed true\n---\nhmac mac(token t|vault my vault (required)|sealed true|---|,00)\n"

/-- The source of a vault `A` that stores `v` at key `c` of registry `a:b` and `w` at key
`b:c` of registry `a`. -/
def colonLines : List Line :=
  [⟨1, 0, "vault A"⟩, ⟨2, 2, "store a:b -> \"c\" = \"v\""⟩,
   ⟨3, 2, "store a -> \"b:c\" = \"w\""⟩, ⟨4, 2, "secure"⟩]

/-- The program `colonLines` parses to. -/
def colonProgram : List VaultBlock :=
  [{ optional := false, name := "A", line := 1,
     body := [.mk .Store 2 "" ⟨some "a:b", "c"⟩ ⟨.Literal, "v"⟩ IfStmt.empty "",
              .mk .Store 3 "" ⟨some "a", "b:c"⟩ ⟨.Literal, "w"⟩ IfStmt.empty "",
              stmtSecure 4] }]

/-- The vault that `colonLines` compiles to on `samplePlatform` with the master key `00`. -/
def colonVault : SealedVault :=
  { name := "A", optional := false, sealed := true, masterKeyHex := "00",
    registries := [("a:b", ⟨[("c", ⟨"mac(enc(v,00,a:b:c),00)", "enc(v,00,a:b:c)"⟩)]⟩),
                   ("a", ⟨[("b:c", ⟨"mac(enc(w,00,a:b:c),00)", "enc(w,00,a:b:c)"⟩)]⟩)] }

/-- The source `vault A`, `registry R`: a vault whose body does not end with `secure`. -/
def unsealedLines : List Line :=
  [⟨1, 0, "vault A"⟩, ⟨2, 2, "registry R"⟩]

/-- The lines of scenario S4: `vault A`, `registry R`, `if missing -> "k"` around
`store -> "k" = "v"`, `secure`. -/
def guardedLines : List Line :=
  [⟨1, 0, "vault A"⟩, ⟨2, 2, "registry R"⟩, ⟨3, 2, "if missing -> \"k\""⟩,
   ⟨4, 4, "store -> \"k\" = \"v\""⟩, ⟨5, 2, "secure"⟩]

/-- The program `guardedLines` (scenario S4) parses to. -/
def guardedProgram : List VaultBlock :=
  [{ optional := false, name := "A", line := 1,
     body := [stmtRegistry, stmtIfMissing, stmtSecure 5] }]

/-- The program of scenario S4 with its vault declared optional, as `vault? B`. -/
def guardedOptional : List VaultBlock :=
  [{ optional := true, name := "B", line := 1,
     body := [stmtRegistry, stmtIfMissing, stmtSecure 5] }]

/-- The program of scenario S4 with `replace -> "k" = now()` on line 5 before `secure`. -/
def clockProgram : List VaultBlock :=
  [{ optional := false, name := "A", line := 1,
     body := [stmtRegistry, stmtIfMissing,
              .mk .Replace 5 "" ⟨none, "k"⟩ ⟨.Builtin, "now"⟩ IfStmt.empty "",
              stmtSecure 6] }]

/-- The platform `samplePlatform` a day later. -/
def laterPlatform : Platform :=
  { samplePlatform with localtime := fun _ => "2024-01-02T00:00:00" }

/-- The vault `A` sealed, holding at `R`/`k` the time `t` as `samplePlatform` seals it. -/
def clockVault (t : String) : SealedVault :=
  { name := "A", optional := false, sealed := true, masterKeyHex := "00",
    registries := [("R", ⟨[("k", ⟨"mac(enc(" ++ t ++ ",00,R:k),00)",
                                   "enc(" ++ t ++ ",00,R:k)"⟩)]⟩)] }

/-- The state at the end of a run of scenario S4 that drew `drawn` values: the vault `A`
sealed with its entry, in the map and in the output. -/
def guardedFinal (drawn : Nat) : Interpreter :=
  { opts_ := sampleOptions, sealed_ := [sampleSealedVault], byName_ := [("A", sampleSealedVault)],
    currentVault_ := "A", currentRegistry_ := some "R", drawn := drawn }

/-- The block `vault B` on line 1 whose body is `secure` on line 2. -/
def blockRequiredB : VaultBlock :=
  { optional := false, name := "B", line := 1, body := [stmtSecure 2] }

/-- The vault `B` sealed, without registries, under the master key `00`. -/
def sealedVaultB : SealedVault :=
  { name := "B", optional := false, sealed := true, masterKeyHex := "00", registries := [] }

/-- The state at the end of a run of `vault B`, `secure` on the interpreter seeded with
the sealed vault `A`. -/
def seededFinalB : Interpreter :=
  { opts_ := sampleOptions, sealed_ := [sealedVaultB],
    byName_ := [("A", sampleSealedVault), ("B", sealedVaultB)],
    currentVault_ := "B", currentRegistry_ := none, drawn := 0 }

/-- The block `vault B` on line 6 whose body is `store -> "k" = "v"` on line 7 and
`secure` on line 8: the store names no registry and no `registry` statement precedes. -/
def unqualifiedBlock : VaultBlock :=
  { optional := false, name := "B", line := 6, body := [stmtStore 7, stmtSecure 8] }

/-- The state in which the body of `unqualifiedBlock` starts after a run of scenario
S4: vault `B` created unsealed, no current registry. -/
def unqualifiedEntered : Interpreter :=
  { opts_ := sampleOptions, sealed_ := [sampleSealedVault],
    byName_ := [("A", sampleSealedVault),
                ("B", { name := "B", optional := false, sealed := false,
                        masterKeyHex := "00", registries := [] })],
    currentVault_ := "B", currentRegistry_ := none, drawn := 1 }

/-- The source of a vault `A` that selects registry `R` and of a vault `B` whose
`store -> "k" = "v"` comes after a `secure` and before any `registry`. -/
def sealedFirstLines : List Line :=
  [⟨1, 0, "vault A"⟩, ⟨2, 2, "registry R"⟩, ⟨3, 2, "secure"⟩, ⟨4, 0, "vault B"⟩,
   ⟨5, 2, "secure"⟩, ⟨6, 2, "store -> \"k\" = \"v\""⟩, ⟨7, 2, "secure"⟩]

/-- The program `sealedFirstLines` parses to. -/
def sealedFirstProgram : List VaultBlock :=
  [{ optional := false, name := "A", line := 1, body := [stmtRegistry, stmtSecure 3] },
   { optional := false, name := "B", line := 4,
     body := [stmtSecure 5, stmtStore 6, stmtSecure 7] }]

/-- The state in which the run of `sealedFirstProgram` throws: vault `A` emitted, vault
`B` sealed by its first statement. -/
def sealedFirstState : Interpreter :=
  { opts_ := sampleOptions, sealed_ := [{ sampleVault with sealed := true }],
    byName_ := [("A", { sampleVault with sealed := true }), ("B", sealedVaultB)],
    currentVault_ := "B", currentRegistry_ := none, drawn := 0 }

/-- An operating system whose random bytes are all 7, whose AES-GCM sealing returns the
tag of sixteen bytes 1 and the characters of the text as cipher, and whose opening
returns the cipher as text. -/
def sampleBcrypt : Bcrypt :=
  { gen_random := fun n _ => some (List.replicate n 7)
    gcm_encrypt := fun _ _ _ plain => .ok (List.replicate 16 1, plain.toList.map Char.toNat)
    gcm_decrypt := fun _ _ _ _ body => .ok (String.mk (body.map Char.ofNat)) }

/-! ## Lemmas on the association-list maps, statement execution, vault evaluation and the parser -/

theorem Map.find_assign_same {V : Type} (m : List (String × V)) (k : String) (v : V) :
    Map.find (Map.assign m k v) k = some v := by
  induction m with
  | nil => simp [Map.assign, Map.find]
  | cons p rest ih =>
    obtain ⟨k1, v1⟩ := p
    by_cases h : k1 = k
    · simp [Map.assign, Map.find, h]
    · simp [Map.assign, Map.find, h, ih]

theorem Map.find_assign_other {V : Type} (m : List (String × V)) (k k2 : String) (v : V)
    (hne : k2 ≠ k) : Map.find (Map.assign m k v) k2 = Map.find m k2 := by
  induction m with
  | nil =>
    have h : ¬ k = k2 := fun e => hne e.symm
    simp [Map.assign, Map.find, h]
  | cons p rest ih =>
    obtain ⟨k1, v1⟩ := p
    by_cases h : k1 = k
    · subst h
      have h2 : ¬ k1 = k2 := fun e => hne e.symm
      simp [Map.assign, Map.find, h2]
    · by_cases h3 : k1 = k2
      · subst h3
        simp [Map.assign, Map.find, h]
      · simp [Map.assign, Map.find, h, h3, ih]

theorem Map.assign_of_find {V : Type} (m : List (String × V)) (k : String) (v : V)
    (hf : Map.find m k = some v) : Map.assign m k v = m := by
  induction m with
  | nil => simp [Map.find] at hf
  | cons p rest ih =>
    obtain ⟨k1, v1⟩ := p
    by_cases h : k1 = k
    · simp [Map.find, h] at hf
      simp [Map.assign, h, hf]
    · simp [Map.find, h] at hf
      simp [Map.assign, h, ih hf]

theorem Map.touch_of_find {V : Type} (m : List (String × V)) (k : String) (d v : V)
    (hf : Map.find m k = some v) : Map.touch m k d = m := by
  simp [Map.touch, hf]

theorem Map.find_touch_other {V : Type} (m : List (String × V)) (k k2 : String) (d : V)
    (hne : k2 ≠ k) : Map.find (Map.touch m k d) k2 = Map.find m k2 := by
  unfold Map.touch
  cases hf : Map.find m k with
  | some _ => rfl
  | none => exact Map.find_assign_other m k k2 d hne

theorem Map.find_touch_same {V : Type} (m : List (String × V)) (k : String) (d : V) :
    Map.find (Map.touch m k d) k = some ((Map.find m k).getD d) := by
  unfold Map.touch
  cases hf : Map.find m k with
  | some v => simp [hf]
  | none => simp [Map.find_assign_same]

theorem Interpreter.execute_body_append (env : Platform) (pre rest : List Statement) :
    ∀ (st : Interpreter), Interpreter.execute_body env st (pre ++ rest) =
      match Interpreter.execute_body env st pre with
      | .ok _ st1 => Interpreter.execute_body env st1 rest
      | .throw e st1 => .throw e st1 := by
  induction pre with
  | nil => intro st; simp [Interpreter.execute_body]
  | cons s pre ih =>
    intro st
    simp only [List.cons_append, Interpreter.execute_body]
    cases h : Interpreter.execute_statement env st s with
    | ok u st1 => simp [ih]
    | throw e st1 => simp

mutual
theorem Interpreter.sealed_statement_fixed (env : Platform) (st : Interpreter)
    (vault : SealedVault) (hv : Map.find st.byName_ st.currentVault_ = some vault)
    (hs : vault.sealed = true) :
    ∀ (s : Statement) (st2 : Interpreter),
      Interpreter.execute_statement env st s = .ok () st2 → st2 = st
  | .mk type line registryName target value (.mk isMissing ctarget body) note, st2, h => by
    cases type with
    | Registry => simp [Interpreter.execute_statement, hv, hs] at h
    | If =>
      simp only [Interpreter.execute_statement, hv] at h
      cases hp : st.is_present ctarget line with
      | error e => simp [hp] at h
      | ok present =>
        simp only [hp] at h
        by_cases hc : (if isMissing then !present else present) = true
        · rw [if_pos hc] at h
          exact Interpreter.sealed_body_fixed env st vault hv hs body st2 h
        · rw [if_neg hc] at h
          injection h with _ h2
          exact h2.symm
    | Store => simp [Interpreter.execute_statement, hv, hs] at h
    | Replace => simp [Interpreter.execute_statement, hv, hs] at h
    | Note =>
      simp only [Interpreter.execute_statement, hv] at h
      injection h with _ h2
      exact h2.symm
    | Secure =>
      simp only [Interpreter.execute_statement, hv] at h
      injection h with _ h2
      rw [← h2, Interpreter.setVault]
      have hself : ({ vault with sealed := true } : SealedVault) = vault := by
        cases vault; simp_all
      rw [hself, Map.assign_of_find _ _ _ hv]
theorem Interpreter.sealed_body_fixed (env : Platform) (st : Interpreter)
    (vault : SealedVault) (hv : Map.find st.byName_ st.currentVault_ = some vault)
    (hs : vault.sealed = true) :
    ∀ (body : List Statement) (st2 : Interpreter),
      Interpreter.execute_body env st body = .ok () st2 → st2 = st
  | [], st2, h => by
    simp only [Interpreter.execute_body] at h
    injection h with _ h2
    exact h2.symm
  | s :: rest, st2, h => by
    simp only [Interpreter.execute_body] at h
    cases hx : Interpreter.execute_statement env st s with
    | throw e st1 => simp [hx] at h
    | ok u st1 =>
      simp only [hx] at h
      have h1 : st1 = st := Interpreter.sealed_statement_fixed env st vault hv hs s st1 hx
      subst h1
      exact Interpreter.sealed_body_fixed env st1 vault hv hs rest st2 h
end

theorem Interpreter.execute_secure (env : Platform) (st st1 : Interpreter) (sec : Statement)
    (hsec : sec.type = .Secure) (h : Interpreter.execute_statement env st sec = .ok () st1) :
    ∃ v, Map.find st.byName_ st.currentVault_ = some v ∧
      st1 = st.setVault { v with sealed := true } := by
  obtain ⟨type, line, registryName, target, value, ⟨isMissing, ctarget, body⟩, note⟩ := sec
  simp only [Statement.type] at hsec
  subst hsec
  cases hv : Map.find st.byName_ st.currentVault_ with
  | none => simp [Interpreter.execute_statement, hv] at h
  | some v =>
    simp only [Interpreter.execute_statement, hv] at h
    injection h with _ h2
    exact ⟨v, rfl, h2.symm⟩

theorem Interpreter.sealed_write_throws (env : Platform) (st : Interpreter)
    (vault : SealedVault) (hv : Map.find st.byName_ st.currentVault_ = some vault)
    (hs : vault.sealed = true) (s : Statement) :
    (s.type = .Registry → Interpreter.execute_statement env st s =
      .throw ("Cannot select registry after secure (line " ++ toString s.line ++ ")") st) ∧
    (s.type = .Store → Interpreter.execute_statement env st s =
      .throw ("Cannot store after secure (line " ++ toString s.line ++ ")") st) ∧
    (s.type = .Replace → Interpreter.execute_statement env st s =
      .throw ("Cannot replace after secure (line " ++ toString s.line ++ ")") st) := by
  obtain ⟨type, line, registryName, target, value, ⟨isMissing, ctarget, body⟩, note⟩ := s
  simp only [Statement.type, Statement.line]
  refine ⟨?_, ?_, ?_⟩ <;> intro ht <;> subst ht <;>
    simp [Interpreter.execute_statement, hv, hs]

theorem Interpreter.setVault_of_find (st : Interpreter) (v : SealedVault)
    (hv : Map.find st.byName_ st.currentVault_ = some v) : st.setVault v = st := by
  unfold Interpreter.setVault
  rw [Map.assign_of_find _ _ _ hv]

theorem Interpreter.seal_entry_ok (env : Platform) (st : Interpreter) (vault : SealedVault)
    (regName key : String) (value : ValueExpr) (plain cipher mac : String) (used : Nat)
    (hb : Interpreter.builtin_value env st.drawn value = .ok (plain, used))
    (he : env.encrypt plain vault.masterKeyHex (regName ++ ":" ++ key) (st.drawn + used)
      = .ok cipher)
    (hd : env.digest cipher vault.masterKeyHex = .ok mac) :
    Interpreter.seal_entry env st vault regName key value =
      .ok () (Interpreter.setVault { st with drawn := st.drawn + used + 1 }
        (vault.withEntry regName key ⟨mac, cipher⟩)) := by
  simp [Interpreter.seal_entry, hb, he, hd, SealedVault.withEntry]

theorem Interpreter.seal_entry_inv (env : Platform) (st st2 : Interpreter)
    (vault : SealedVault) (regName key : String) (value : ValueExpr)
    (h : Interpreter.seal_entry env st vault regName key value = .ok () st2) :
    ∃ plain used cipher mac,
      Interpreter.builtin_value env st.drawn value = .ok (plain, used) ∧
      env.encrypt plain vault.masterKeyHex (regName ++ ":" ++ key) (st.drawn + used)
        = .ok cipher ∧
      env.digest cipher vault.masterKeyHex = .ok mac ∧
      st2 = Interpreter.setVault { st with drawn := st.drawn + used + 1 }
        (vault.withEntry regName key ⟨mac, cipher⟩) := by
  unfold Interpreter.seal_entry at h
  cases hb : Interpreter.builtin_value env st.drawn value with
  | error e => simp [hb] at h
  | ok pu =>
    obtain ⟨plain, used⟩ := pu
    simp only [hb] at h
    cases he : env.encrypt plain vault.masterKeyHex (regName ++ ":" ++ key) (st.drawn + used) with
    | error e => simp [he] at h
    | ok cipher =>
      simp only [he] at h
      cases hd : env.digest cipher vault.masterKeyHex with
      | error e => simp [hd] at h
      | ok mac =>
        simp only [hd] at h
        injection h with _ h2
        exact ⟨plain, used, cipher, mac, rfl, he, hd, by rw [← h2]; rfl⟩

theorem Map.assign_assign_same {V : Type} (m : List (String × V)) (k : String) (a b : V) :
    Map.assign (Map.assign m k a) k b = Map.assign m k b := by
  induction m with
  | nil => simp [Map.assign]
  | cons p rest ih =>
    obtain ⟨k1, v1⟩ := p
    by_cases h : k1 = k
    · simp [Map.assign, h]
    · simp [Map.assign, h, ih]

theorem Map.assign_touch {V : Type} (m : List (String × V)) (k : String) (d b : V) :
    Map.assign (Map.touch m k d) k b = Map.assign m k b := by
  unfold Map.touch
  cases hf : Map.find m k with
  | some v => rfl
  | none => exact Map.assign_assign_same m k d b

theorem SealedVault.withEntry_touch (vault : SealedVault) (regName key : String)
    (e : SealedEntry) :
    SealedVault.withEntry
        { vault with registries := Map.touch vault.registries regName ⟨[]⟩ } regName key e =
      vault.withEntry regName key e := by
  simp only [SealedVault.withEntry, Map.find_touch_same, Map.assign_touch, Option.getD_some]

theorem Interpreter.setVault_setVault (st : Interpreter) (a b : SealedVault) (n : Nat) :
    Interpreter.setVault { st.setVault a with drawn := n } b =
      Interpreter.setVault { st with drawn := n } b := by
  simp [Interpreter.setVault, Map.assign_assign_same]

theorem Interpreter.write_after_touch (env : Platform) (st : Interpreter)
    (vault : SealedVault) (regName key : String) (value : ValueExpr) :
    Interpreter.seal_entry env
        (st.setVault { vault with registries := Map.touch vault.registries regName ⟨[]⟩ })
        { vault with registries := Map.touch vault.registries regName ⟨[]⟩ } regName key value =
      match Interpreter.builtin_value env st.drawn value with
      | .error e =>
        .throw e (st.setVault { vault with registries := Map.touch vault.registries regName ⟨[]⟩ })
      | .ok (plain, used) =>
        match env.encrypt plain vault.masterKeyHex (regName ++ ":" ++ key) (st.drawn + used) with
        | .error e => .throw e (Interpreter.setVault { st with drawn := st.drawn + used }
            { vault with registries := Map.touch vault.registries regName ⟨[]⟩ })
        | .ok cipher =>
          match env.digest cipher vault.masterKeyHex with
          | .error e => .throw e (Interpreter.setVault { st with drawn := st.drawn + used + 1 }
              { vault with registries := Map.touch vault.registries regName ⟨[]⟩ })
          | .ok mac => .ok () (st.written vault regName key ⟨mac, cipher⟩ used) := by
  unfold Interpreter.seal_entry
  cases hb : Interpreter.builtin_value env st.drawn value with
  | error e => simp [Interpreter.setVault, hb]
  | ok pu =>
    obtain ⟨plain, used⟩ := pu
    cases he : env.encrypt plain vault.masterKeyHex (regName ++ ":" ++ key) (st.drawn + used) with
    | error e => simp [Interpreter.setVault, hb, he]
    | ok cipher =>
      cases hd : env.digest cipher vault.masterKeyHex with
      | error e => simp [Interpreter.setVault, hb, he, hd]
      | ok mac =>
        simp only [Interpreter.setVault, hb, he, hd, Interpreter.written]
        have hw := SealedVault.withEntry_touch vault regName key ⟨mac, cipher⟩
        simp only [SealedVault.withEntry] at hw
        simp only [SealedVault.withEntry, hw, Map.assign_assign_same]

theorem Interpreter.execute_store (env : Platform) (st : Interpreter) (vault : SealedVault)
    (s : Statement) (regName : String) (ht : s.type = .Store)
    (hv : Map.find st.byName_ st.currentVault_ = some vault) (hs : vault.sealed = false)
    (hr : st.resolve_registry s.target s.line = .ok regName) :
    Interpreter.execute_statement env st s =
      if vault.hasEntry regName s.target.key then
        .throw ("store would overwrite existing key on line " ++ toString s.line) st
      else
        Interpreter.seal_entry env
          (st.setVault { vault with registries := Map.touch vault.registries regName ⟨[]⟩ })
          { vault with registries := Map.touch vault.registries regName ⟨[]⟩ }
          regName s.target.key s.value := by
  obtain ⟨type, line, registryName, target, value, ⟨isMissing, ctarget, body⟩, note⟩ := s
  simp only [Statement.type, Statement.line, Statement.target, Statement.value] at *
  subst ht
  simp only [Interpreter.execute_statement, hv, hs, hr, Map.find_touch_same, Option.getD_some]
  cases hreg : Map.find vault.registries regName with
  | none => simp [SealedVault.hasEntry, hreg, Map.find]
  | some reg =>
    cases hk : Map.find reg.entries target.key with
    | none => simp [SealedVault.hasEntry, hreg, hk]
    | some e =>
      have hvault : SealedVault.mk vault.name vault.optional false vault.masterKeyHex
          (Map.touch vault.registries regName ⟨[]⟩) = vault := by
        rw [Map.touch_of_find _ _ _ _ hreg]
        cases vault
        simp_all
      simp [SealedVault.hasEntry, hreg, hk, hvault, Interpreter.setVault_of_find _ _ hv]

theorem Interpreter.execute_replace (env : Platform) (st : Interpreter) (vault : SealedVault)
    (s : Statement) (regName : String) (ht : s.type = .Replace)
    (hv : Map.find st.byName_ st.currentVault_ = some vault) (hs : vault.sealed = false)
    (hr : st.resolve_registry s.target s.line = .ok regName) :
    Interpreter.execute_statement env st s =
      Interpreter.seal_entry env
        (st.setVault { vault with registries := Map.touch vault.registries regName ⟨[]⟩ })
        { vault with registries := Map.touch vault.registries regName ⟨[]⟩ }
        regName s.target.key s.value := by
  obtain ⟨type, line, registryName, target, value, ⟨isMissing, ctarget, body⟩, note⟩ := s
  simp only [Statement.type, Statement.line, Statement.target, Statement.value] at *
  subst ht
  simp only [Interpreter.execute_statement, hv, hs, hr]
  simp

/-- What a `store` or `replace` that returned normally has done. -/
theorem Interpreter.write_inv (env : Platform) (st st2 : Interpreter) (s : Statement)
    (ht : s.type = .Store ∨ s.type = .Replace)
    (h : Interpreter.execute_statement env st s = .ok () st2) :
    ∃ vault regName plain used cipher mac,
      Map.find st.byName_ st.currentVault_ = some vault ∧ vault.sealed = false ∧
      st.resolve_registry s.target s.line = .ok regName ∧
      (s.type = .Store → vault.hasEntry regName s.target.key = false) ∧
      Interpreter.builtin_value env st.drawn s.value = .ok (plain, used) ∧
      env.encrypt plain vault.masterKeyHex (regName ++ ":" ++ s.target.key) (st.drawn + used)
        = .ok cipher ∧
      env.digest cipher vault.masterKeyHex = .ok mac ∧
      st2 = st.written vault regName s.target.key ⟨mac, cipher⟩ used := by
  cases hv : Map.find st.byName_ st.currentVault_ with
  | none =>
    obtain ⟨type, line, registryName, target, value, ⟨isMissing, ctarget, body⟩, note⟩ := s
    simp [Interpreter.execute_statement, hv] at h
  | some vault =>
    cases hs : vault.sealed with
    | true =>
      have hw := Interpreter.sealed_write_throws env st vault hv hs s
      rcases ht with ht | ht
      · rw [hw.2.1 ht] at h; cases h
      · rw [hw.2.2 ht] at h; cases h
    | false =>
      cases hr : st.resolve_registry s.target s.line with
      | error e =>
        obtain ⟨type, line, registryName, target, value, ⟨isMissing, ctarget, body⟩, note⟩ := s
        simp only [Statement.type, Statement.line, Statement.target] at ht hr
        rcases ht with ht | ht <;> subst ht <;>
          simp [Interpreter.execute_statement, hv, hs, hr] at h
      | ok regName =>
        have hseal : Interpreter.seal_entry env
            (st.setVault { vault with registries := Map.touch vault.registries regName ⟨[]⟩ })
            { vault with registries := Map.touch vault.registries regName ⟨[]⟩ }
            regName s.target.key s.value = .ok () st2 ∧
            (s.type = .Store → vault.hasEntry regName s.target.key = false) := by
          rcases ht with ht | ht
          · rw [Interpreter.execute_store env st vault s regName ht hv hs hr] at h
            cases hh : vault.hasEntry regName s.target.key with
            | true => simp [hh] at h
            | false =>
              simp only [hh] at h
              exact ⟨by simpa using h, fun _ => rfl⟩
          · rw [Interpreter.execute_replace env st vault s regName ht hv hs hr] at h
            exact ⟨h, fun h2 => by rw [ht] at h2; cases h2⟩
        obtain ⟨hse, habs⟩ := hseal
        rw [Interpreter.write_after_touch] at hse
        cases hb : Interpreter.builtin_value env st.drawn s.value with
        | error e => simp [hb] at hse
        | ok pu =>
          obtain ⟨plain, used⟩ := pu
          simp only [hb] at hse
          cases he : env.encrypt plain vault.masterKeyHex (regName ++ ":" ++ s.target.key)
              (st.drawn + used) with
          | error e => simp [he] at hse
          | ok cipher =>
            simp only [he] at hse
            cases hd : env.digest cipher vault.masterKeyHex with
            | error e => simp [hd] at hse
            | ok mac =>
              simp only [hd] at hse
              injection hse with _ h2
              exact ⟨vault, regName, plain, used, cipher, mac, rfl, hs, rfl, habs, rfl,
                he, hd, h2.symm⟩

theorem SealedVault.hasEntry_eq (vault : SealedVault) (regName key : String) :
    vault.hasEntry regName key = (vault.entry regName key).isSome := by
  unfold SealedVault.hasEntry SealedVault.entry
  cases Map.find vault.registries regName <;> rfl

theorem SealedVault.entry_withEntry_same (vault : SealedVault) (regName key : String)
    (e : SealedEntry) : (vault.withEntry regName key e).entry regName key = some e := by
  simp [SealedVault.withEntry, SealedVault.entry, Map.find_assign_same]

theorem SealedVault.entry_withEntry_key (vault : SealedVault) (regName key key2 : String)
    (e : SealedEntry) (hne : key2 ≠ key) :
    (vault.withEntry regName key e).entry regName key2 = vault.entry regName key2 := by
  simp only [SealedVault.withEntry, SealedVault.entry, Map.find_assign_same,
    Map.find_assign_other _ _ _ _ hne]
  cases Map.find vault.registries regName <;> simp [Map.find]

theorem SealedVault.registries_withEntry_other (vault : SealedVault)
    (regName key reg2 : String) (e : SealedEntry) (hne : reg2 ≠ regName) :
    Map.find (vault.withEntry regName key e).registries reg2 =
      Map.find vault.registries reg2 := by
  simp only [SealedVault.withEntry, Map.find_assign_other _ _ _ _ hne]

theorem Interpreter.currentVault_written (st : Interpreter) (vault : SealedVault)
    (regName key : String) (e : SealedEntry) (used : Nat) :
    (st.written vault regName key e used).currentVault = some (vault.withEntry regName key e) := by
  simp [Interpreter.written, Interpreter.setVault, Interpreter.currentVault,
    Map.find_assign_same]

theorem Interpreter.byName_written_other (st : Interpreter) (vault : SealedVault)
    (regName key : String) (e : SealedEntry) (used : Nat) (n : String)
    (hne : n ≠ st.currentVault_) :
    Map.find (st.written vault regName key e used).byName_ n = Map.find st.byName_ n := by
  simp [Interpreter.written, Interpreter.setVault, Map.find_assign_other _ _ _ _ hne]

theorem Interpreter.is_present_eq (st : Interpreter) (vault : SealedVault) (t : Target)
    (line : Int) (hv : Map.find st.byName_ st.currentVault_ = some vault) :
    st.is_present t line =
      match st.resolve_registry t line with
      | .ok R => .ok (vault.hasEntry R t.key)
      | .error e => .error e := by
  unfold Interpreter.is_present
  rw [hv]
  cases hr : st.resolve_registry t line with
  | error e => rfl
  | ok R =>
    simp only [SealedVault.hasEntry]
    cases Map.find vault.registries R <;> rfl

theorem Interpreter.execute_if (env : Platform) (st : Interpreter) (vault : SealedVault)
    (s : Statement) (ht : s.type = .If)
    (hv : Map.find st.byName_ st.currentVault_ = some vault) :
    Interpreter.execute_statement env st s =
      match st.is_present s.conditional.target s.line with
      | .error e => .throw e st
      | .ok present =>
        if (if s.conditional.isMissing then !present else present) then
          Interpreter.execute_body env st s.conditional.body
        else .ok () st := by
  obtain ⟨type, line, registryName, target, value, ⟨isMissing, ctarget, body⟩, note⟩ := s
  simp only [Statement.type, Statement.line, Statement.conditional, IfStmt.target,
    IfStmt.isMissing, IfStmt.body] at *
  subst ht
  simp only [Interpreter.execute_statement, hv]

theorem Interpreter.StmtFrame.refl (st : Interpreter) : Interpreter.StmtFrame st st :=
  ⟨rfl, rfl, rfl, fun _ _ => rfl, fun _ => rfl⟩

theorem Interpreter.StmtFrame.trans {a b c : Interpreter} (h1 : Interpreter.StmtFrame a b)
    (h2 : Interpreter.StmtFrame b c) : Interpreter.StmtFrame a c := by
  obtain ⟨a1, a2, a3, a4, a5⟩ := h1
  obtain ⟨b1, b2, b3, b4, b5⟩ := h2
  refine ⟨b1.trans a1, b2.trans a2, b3.trans a3, ?_, ?_⟩
  · intro n hn
    rw [b4 n (by rw [a1]; exact hn), a4 n hn]
  · intro n
    rw [b5 n, a5 n]

theorem Interpreter.StmtFrame.drawn (st : Interpreter) (n : Nat) :
    Interpreter.StmtFrame st { st with drawn := n } :=
  ⟨rfl, rfl, rfl, fun _ _ => rfl, fun _ => rfl⟩

theorem Interpreter.StmtFrame.currentRegistry (st : Interpreter) (r : Option String) :
    Interpreter.StmtFrame st { st with currentRegistry_ := r } :=
  ⟨rfl, rfl, rfl, fun _ _ => rfl, fun _ => rfl⟩

theorem Interpreter.StmtFrame.setVault (st : Interpreter) (v v2 : SealedVault)
    (hv : Map.find st.byName_ st.currentVault_ = some v) (hc : v2.core = v.core) :
    Interpreter.StmtFrame st (st.setVault v2) := by
  refine ⟨rfl, rfl, rfl, ?_, ?_⟩
  · intro n hn
    exact Map.find_assign_other _ _ _ _ hn
  · intro n
    by_cases hn : n = st.currentVault_
    · subst hn
      simp [Interpreter.setVault, Map.find_assign_same, hv, hc]
    · simp [Interpreter.setVault, Map.find_assign_other _ _ _ _ hn]

theorem Interpreter.seal_entry_frame (env : Platform) (st : Interpreter) (v vault : SealedVault)
    (regName key : String) (value : ValueExpr)
    (hv : Map.find st.byName_ st.currentVault_ = some v) (hc : vault.core = v.core) :
    Interpreter.StmtFrame st (Interpreter.seal_entry env st vault regName key value).state := by
  unfold Interpreter.seal_entry
  cases hb : Interpreter.builtin_value env st.drawn value with
  | error e => exact Interpreter.StmtFrame.refl st
  | ok pu =>
    obtain ⟨plain, used⟩ := pu
    simp only
    cases he : env.encrypt plain vault.masterKeyHex (regName ++ ":" ++ key) (st.drawn + used) with
    | error e => exact Interpreter.StmtFrame.drawn st _
    | ok cipher =>
      simp only
      cases hd : env.digest cipher vault.masterKeyHex with
      | error e => exact Interpreter.StmtFrame.drawn st _
      | ok mac =>
        simp only [Outcome.state]
        refine Interpreter.StmtFrame.trans (Interpreter.StmtFrame.drawn st (st.drawn + used + 1)) ?_
        exact Interpreter.StmtFrame.setVault _ v _ hv hc

theorem Interpreter.write_frame_aux (env : Platform) (st : Interpreter) (vault : SealedVault)
    (regName key : String) (value : ValueExpr)
    (hv : Map.find st.byName_ st.currentVault_ = some vault) :
    Interpreter.StmtFrame st (Interpreter.seal_entry env
      (st.setVault { vault with registries := Map.touch vault.registries regName ⟨[]⟩ })
      { vault with registries := Map.touch vault.registries regName ⟨[]⟩ }
      regName key value).state := by
  have h1 : Interpreter.StmtFrame st
      (st.setVault { vault with registries := Map.touch vault.registries regName ⟨[]⟩ }) :=
    Interpreter.StmtFrame.setVault st vault _ hv rfl
  refine Interpreter.StmtFrame.trans h1 ?_
  refine Interpreter.seal_entry_frame env _
    { vault with registries := Map.touch vault.registries regName ⟨[]⟩ } _ _ _ _ ?_ rfl
  simp [Interpreter.setVault, Map.find_assign_same]

mutual
theorem Interpreter.execute_statement_frame (env : Platform) :
    ∀ (s : Statement) (st : Interpreter),
      Interpreter.StmtFrame st (Interpreter.execute_statement env st s).state
  | .mk type line registryName target value (.mk isMissing ctarget body) note, st => by
    cases hv : Map.find st.byName_ st.currentVault_ with
    | none =>
      simp only [Interpreter.execute_statement, hv, Outcome.state]
      exact Interpreter.StmtFrame.refl st
    | some vault =>
      cases type with
      | Registry =>
        simp only [Interpreter.execute_statement, hv]
        split
        · exact Interpreter.StmtFrame.refl st
        · exact Interpreter.StmtFrame.currentRegistry st _
      | If =>
        simp only [Interpreter.execute_statement, hv]
        cases hp : st.is_present ctarget line with
        | error e => exact Interpreter.StmtFrame.refl st
        | ok present =>
          simp only
          by_cases hc : (if isMissing then !present else present) = true
          · rw [if_pos hc]
            exact Interpreter.execute_body_frame env body st
          · rw [if_neg hc]
            exact Interpreter.StmtFrame.refl st
      | Store =>
        cases hs : vault.sealed with
        | true =>
          simp only [Interpreter.execute_statement, hv, hs]
          exact Interpreter.StmtFrame.refl st
        | false =>
          cases hr : st.resolve_registry target line with
          | error e =>
            simp only [Interpreter.execute_statement, hv, hs, hr]
            exact Interpreter.StmtFrame.refl st
          | ok regName =>
            have hx := Interpreter.execute_store env st vault
              (.mk .Store line registryName target value (.mk isMissing ctarget body) note)
              regName rfl hv hs hr
            rw [hx]
            split
            · exact Interpreter.StmtFrame.refl st
            · exact Interpreter.write_frame_aux env st vault regName _ _ hv
      | Replace =>
        cases hs : vault.sealed with
        | true =>
          simp only [Interpreter.execute_statement, hv, hs]
          exact Interpreter.StmtFrame.refl st
        | false =>
          cases hr : st.resolve_registry target line with
          | error e =>
            simp only [Interpreter.execute_statement, hv, hs, hr]
            exact Interpreter.StmtFrame.refl st
          | ok regName =>
            have hx := Interpreter.execute_replace env st vault
              (.mk .Replace line registryName target value (.mk isMissing ctarget body) note)
              regName rfl hv hs hr
            rw [hx]
            exact Interpreter.write_frame_aux env st vault regName _ _ hv
      | Note =>
        simp only [Interpreter.execute_statement, hv]
        exact Interpreter.StmtFrame.refl st
      | Secure =>
        simp only [Interpreter.execute_statement, hv, Outcome.state]
        exact Interpreter.StmtFrame.setVault st vault _ hv rfl
theorem Interpreter.execute_body_frame (env : Platform) :
    ∀ (body : List Statement) (st : Interpreter),
      Interpreter.StmtFrame st (Interpreter.execute_body env st body).state
  | [], st => by
    simp only [Interpreter.execute_body, Outcome.state]
    exact Interpreter.StmtFrame.refl st
  | s :: rest, st => by
    have h1 := Interpreter.execute_statement_frame env s st
    simp only [Interpreter.execute_body]
    cases hx : Interpreter.execute_statement env st s with
    | throw e st1 =>
      rw [hx] at h1
      exact h1
    | ok u st1 =>
      rw [hx] at h1
      exact Interpreter.StmtFrame.trans h1 (Interpreter.execute_body_frame env rest st1)
end

theorem Interpreter.execute_body_ends_secure (env : Platform) (st st3 : Interpreter)
    (pre : List Statement) (sec : Statement) (hsec : sec.type = .Secure)
    (h : Interpreter.execute_body env st (pre ++ [sec]) = .ok () st3) :
    ∃ v, Map.find st3.byName_ st3.currentVault_ = some v ∧ v.sealed = true := by
  rw [Interpreter.execute_body_append] at h
  cases hpre : Interpreter.execute_body env st pre with
  | throw e st1 => simp [hpre] at h
  | ok u st1 =>
    simp only [hpre, Interpreter.execute_body] at h
    cases hx : Interpreter.execute_statement env st1 sec with
    | throw e st2 => simp [hx] at h
    | ok u2 st2 =>
      simp only [hx] at h
      injection h with _ h2
      subst h2
      obtain ⟨v, _, h3⟩ := Interpreter.execute_secure env st1 st2 sec hsec hx
      refine ⟨{ v with sealed := true }, ?_, rfl⟩
      rw [h3]
      exact Map.find_assign_same _ _ _

theorem Interpreter.resolve_vault_ok (env : Platform) (st st1 : Interpreter) (b : VaultBlock)
    (h : Interpreter.resolve_vault env st b = .ok () st1) :
    st1.sealed_ = st.sealed_ ∧ st1.opts_ = st.opts_ ∧
    st1.currentVault_ = st.currentVault_ ∧ st1.currentRegistry_ = st.currentRegistry_ ∧
    (∀ n, n ≠ b.name → Map.find st1.byName_ n = Map.find st.byName_ n) ∧
    ∃ v, Map.find st1.byName_ b.name = some v ∧ v.sealed = false ∧
      v.optional = b.optional ∧
      (Map.find st.byName_ b.name = none → v.name = b.name ∧ v.registries = []) ∧
      (∀ old, Map.find st.byName_ b.name = some old →
        v.name = old.name ∧ v.registries = old.registries ∧
        v.masterKeyHex = old.masterKeyHex) := by
  unfold Interpreter.resolve_vault at h
  cases hf : Map.find st.byName_ b.name with
  | none =>
    simp only [hf] at h
    injection h with _ h2
    subst h2
    refine ⟨rfl, rfl, rfl, rfl, fun n hn => Map.find_assign_other _ _ _ _ hn, _,
      Map.find_assign_same _ _ _, rfl, rfl, fun _ => ⟨rfl, rfl⟩, fun old ho => by cases ho⟩
  | some old =>
    simp only [hf] at h
    have key : st1 =
        { st with
          byName_ := Map.assign st.byName_ b.name
            (SealedVault.mk old.name b.optional false old.masterKeyHex old.registries) } := by
      cases hk : st.opts_.forcedMasterKey with
      | none =>
        simp only [hk] at h
        injection h with _ h2
        exact h2.symm
      | some k =>
        simp only [hk] at h
        by_cases hne : old.masterKeyHex ≠ k
        · rw [if_pos hne] at h
          cases h
        · rw [if_neg hne] at h
          injection h with _ h2
          exact h2.symm
    subst key
    refine ⟨rfl, rfl, rfl, rfl, fun n hn => Map.find_assign_other _ _ _ _ hn, _,
      Map.find_assign_same _ _ _, rfl, rfl, fun hnone => ?_, fun old2 ho => ?_⟩
    · exact absurd hnone (by simp)
    injection ho with ho
    subst ho
    exact ⟨rfl, rfl, rfl⟩

theorem Interpreter.evaluate_vault_skip (env : Platform) (st : Interpreter) (b : VaultBlock)
    (hs : st.skips b = true) :
    Interpreter.evaluate_vault env st b =
      .ok () { st with currentRegistry_ := none, currentVault_ := "" } := by
  unfold Interpreter.evaluate_vault
  have h0 : Interpreter.skips { st with currentRegistry_ := none, currentVault_ := "" } b
      = true := hs
  simp only [h0, if_true]

theorem Interpreter.evaluate_vault_enter (env : Platform) (st : Interpreter) (b : VaultBlock)
    (hs : st.skips b = false) :
    Interpreter.evaluate_vault env st b =
      match Interpreter.resolve_vault env
        { st with currentRegistry_ := none, currentVault_ := "" } b with
      | .throw e st1 => .throw e st1
      | .ok _ st1 =>
        match Interpreter.execute_body env { st1 with currentVault_ := b.name } b.body with
        | .throw e st3 => .throw e st3
        | .ok _ st3 =>
          match Map.find st3.byName_ b.name with
          | none => .throw out_of_range st3
          | some stored => .ok () { st3 with sealed_ := st3.sealed_ ++ [stored] } := by
  unfold Interpreter.evaluate_vault
  have h0 : Interpreter.skips { st with currentRegistry_ := none, currentVault_ := "" } b
      = false := hs
  simp only [h0]
  rfl

theorem Interpreter.evaluate_vault_inv (env : Platform) (st st2 : Interpreter) (b : VaultBlock)
    (hs : st.skips b = false) (h : Interpreter.evaluate_vault env st b = .ok () st2) :
    ∃ st1 st3 stored,
      Interpreter.resolve_vault env
        { st with currentRegistry_ := none, currentVault_ := "" } b = .ok () st1 ∧
      Interpreter.execute_body env { st1 with currentVault_ := b.name } b.body = .ok () st3 ∧
      Map.find st3.byName_ b.name = some stored ∧
      st2 = { st3 with sealed_ := st3.sealed_ ++ [stored] } := by
  rw [Interpreter.evaluate_vault_enter env st b hs] at h
  cases hr : Interpreter.resolve_vault env
      { st with currentRegistry_ := none, currentVault_ := "" } b with
  | throw e st1 => simp [hr] at h
  | ok u st1 =>
    simp only [hr] at h
    cases hx : Interpreter.execute_body env { st1 with currentVault_ := b.name } b.body with
    | throw e st3 => simp [hx] at h
    | ok u3 st3 =>
      simp only [hx] at h
      cases hf : Map.find st3.byName_ b.name with
      | none => simp [hf] at h
      | some stored =>
        simp only [hf] at h
        injection h with _ h2
        exact ⟨st1, st3, stored, rfl, hx, hf, h2.symm⟩

theorem Interpreter.evaluate_vault_entered (env : Platform) (st st2 : Interpreter)
    (b : VaultBlock) (hs : st.skips b = false)
    (h : Interpreter.evaluate_vault env st b = .ok () st2) :
    st2.opts_ = st.opts_ ∧
    (∀ n, n ≠ b.name → Map.find st2.byName_ n = Map.find st.byName_ n) ∧
    ∃ stored, st2.sealed_ = st.sealed_ ++ [stored] ∧
      Map.find st2.byName_ b.name = some stored ∧ stored.optional = b.optional ∧
      (st.Keyed → stored.name = b.name) ∧ (b.endsWithSecure → stored.sealed = true) := by
  obtain ⟨st1, st3, stored, hr, hx, hf, h2⟩ := Interpreter.evaluate_vault_inv env st st2 b hs h
  obtain ⟨r1, r2, r3, r4, r5, v, hv, _, hvo, hnone, hold⟩ :=
    Interpreter.resolve_vault_ok env _ st1 b hr
  have hfr := Interpreter.execute_body_frame env b.body { st1 with currentVault_ := b.name }
  rw [hx] at hfr
  obtain ⟨f1, f2, f3, f4, f5⟩ := hfr
  simp only [Outcome.state] at f1 f2 f3 f4 f5
  have hcore : stored.core = v.core := by
    have := f5 b.name
    rw [hf, hv] at this
    simpa using this
  simp only [SealedVault.core, Prod.mk.injEq] at hcore
  subst h2
  refine ⟨by rw [f3, r2], ?_, stored, ?_, hf, ?_, ?_, ?_⟩
  · intro n hn
    rw [f4 n hn]
    exact r5 n hn
  · simp only [f2, r1]
  · rw [hcore.2.1, hvo]
  · intro hk
    rw [hcore.1]
    cases hfo : Map.find st.byName_ b.name with
    | none => exact (hnone hfo).1
    | some old =>
      rw [(hold old hfo).1]
      exact hk b.name old hfo
  · rintro ⟨pre, sec, hbody, hsec⟩
    rw [hbody] at hx
    obtain ⟨w, hw, hws⟩ := Interpreter.execute_body_ends_secure env _ st3 pre sec hsec hx
    rw [f1] at hw
    rw [hf] at hw
    injection hw with hw
    rw [hw]
    exact hws

theorem Interpreter.evaluate_vault_keyed (env : Platform) (st st2 : Interpreter)
    (b : VaultBlock) (hk : st.Keyed)
    (h : Interpreter.evaluate_vault env st b = .ok () st2) : st2.Keyed := by
  cases hs : st.skips b with
  | true =>
    rw [Interpreter.evaluate_vault_skip env st b hs] at h
    injection h with _ h2
    subst h2
    exact hk
  | false =>
    obtain ⟨_, hother, stored, _, hf, _, hname, _⟩ :=
      Interpreter.evaluate_vault_entered env st st2 b hs h
    intro n v hn
    by_cases hnb : n = b.name
    · subst hnb
      rw [hf] at hn
      injection hn with hn
      rw [← hn]
      exact hname hk
    · rw [hother n hnb] at hn
      exact hk n v hn

theorem Interpreter.seed_keyed (st : Interpreter) (existing : List SealedVault) :
    (st.seed existing).Keyed := by
  have aux : ∀ (l : List SealedVault) (m : List (String × SealedVault)),
      (∀ n v, Map.find m n = some v → v.name = n) →
      ∀ n v, Map.find (l.foldl (fun m v => Map.assign m v.name v) m) n = some v →
        v.name = n := by
    intro l
    induction l with
    | nil => intro m hm n v h; exact hm n v h
    | cons a l ih =>
      intro m hm n v h
      simp only [List.foldl_cons] at h
      refine ih (Map.assign m a.name a) ?_ n v h
      intro n2 v2 h2
      by_cases hn : n2 = a.name
      · subst hn
        rw [Map.find_assign_same] at h2
        injection h2 with h2
        rw [← h2]
      · rw [Map.find_assign_other _ _ _ _ hn] at h2
        exact hm n2 v2 h2
  intro n v h
  exact aux existing [] (fun n v h => by simp [Map.find] at h) n v h

theorem Interpreter.init_keyed (opts : InterpreterOptions) : (Interpreter.init opts).Keyed := by
  intro n v h
  simp [Interpreter.init, Map.find] at h

theorem Interpreter.skips_iff (st : Interpreter) (b : VaultBlock) (known : List String)
    (hknown : ∀ n, n ∈ known ↔ (Map.find st.byName_ n).isSome = true) :
    st.skips b =
      (b.optional && !(decide (b.name ∈ known)) && !st.opts_.materializeOptional) := by
  unfold Interpreter.skips
  have h : decide (b.name ∈ known) = (Map.find st.byName_ b.name).isSome := by
    cases hf : (Map.find st.byName_ b.name).isSome with
    | true => exact decide_eq_true ((hknown b.name).mpr hf)
    | false =>
      refine decide_eq_false ?_
      intro hmem
      have := (hknown b.name).mp hmem
      rw [hf] at this
      cases this
  rw [h]

theorem Interpreter.evaluate_all_emitted (env : Platform) (program : List VaultBlock) :
    ∀ (st st2 : Interpreter) (known : List String),
      (∀ n, n ∈ known ↔ (Map.find st.byName_ n).isSome = true) →
      Interpreter.evaluate_all env st program = .ok () st2 →
      st2.opts_ = st.opts_ ∧
      ∃ emitted, st2.sealed_ = st.sealed_ ++ emitted ∧
        List.Forall₂ st.Emitted emitted
          (evaluatedBlocks st.opts_.materializeOptional known program) := by
  induction program with
  | nil =>
    intro st st2 known _ h
    simp only [Interpreter.evaluate_all] at h
    injection h with _ h2
    subst h2
    exact ⟨rfl, [], by simp, by simp [evaluatedBlocks]⟩
  | cons b rest ih =>
    intro st st2 known hknown h
    simp only [Interpreter.evaluate_all] at h
    cases hb : Interpreter.evaluate_vault env st b with
    | throw e st1 => simp [hb] at h
    | ok u st1 =>
      simp only [hb] at h
      have hsk := Interpreter.skips_iff st b known hknown
      cases hs : st.skips b with
      | true =>
        rw [Interpreter.evaluate_vault_skip env st b hs] at hb
        injection hb with _ hb2
        subst hb2
        obtain ⟨o1, emitted, e1, e2⟩ :=
          ih { st with currentRegistry_ := none, currentVault_ := "" } st2 known hknown h
        refine ⟨o1, emitted, e1, ?_⟩
        rw [hs] at hsk
        simp only [evaluatedBlocks, ← hsk, if_true]
        exact e2
      | false =>
        obtain ⟨ho, hother, stored, hse, hf, hopt, hname, hsealed⟩ :=
          Interpreter.evaluate_vault_entered env st st1 b hs hb
        have hknown1 : ∀ n, n ∈ b.name :: known ↔ (Map.find st1.byName_ n).isSome = true := by
          intro n
          by_cases hn : n = b.name
          · subst hn
            simp [hf]
          · rw [hother n hn, ← hknown n]
            simp [hn]
        obtain ⟨o1, emitted, e1, e2⟩ := ih st1 st2 (b.name :: known) hknown1 h
        refine ⟨o1.trans ho, stored :: emitted, ?_, ?_⟩
        · rw [e1, hse]
          simp
        · rw [hs] at hsk
          have hsk2 : (b.optional && !(decide (b.name ∈ known)) &&
              !st.opts_.materializeOptional) ≠ true := by
            rw [← hsk]
            simp
          simp only [evaluatedBlocks, if_neg hsk2]
          refine List.Forall₂.cons ⟨hname, hopt, hsealed⟩ ?_
          rw [ho] at e2
          refine List.Forall₂.imp ?_ e2
          intro v blk hv
          exact ⟨fun hk => hv.1 (Interpreter.evaluate_vault_keyed env st st1 b hk hb),
            hv.2.1, hv.2.2⟩

theorem Interpreter.run_ok (env : Platform) (st st2 : Interpreter) (program : List VaultBlock)
    (out : List SealedVault) (h : Interpreter.run env st program = .ok out st2) :
    Interpreter.evaluate_all env { st with sealed_ := [] } program = .ok () st2 ∧
      out = st2.sealed_ := by
  unfold Interpreter.run at h
  cases hx : Interpreter.evaluate_all env { st with sealed_ := [] } program with
  | throw e st1 => simp [hx] at h
  | ok u st1 =>
    simp only [hx] at h
    injection h with h1 h2
    subst h2
    exact ⟨rfl, h1.symm⟩

theorem Map.mem_keys_iff {V : Type} (m : List (String × V)) (n : String) :
    n ∈ m.map Prod.fst ↔ (Map.find m n).isSome = true := by
  induction m with
  | nil => simp [Map.find]
  | cons p rest ih =>
    obtain ⟨k, v⟩ := p
    by_cases h : k = n
    · simp [Map.find, h]
    · have h2 : ¬ n = k := fun e => h e.symm
      simp [Map.find, h, h2, ih]

theorem Interpreter.run_emitted (env : Platform) (st st2 : Interpreter)
    (program : List VaultBlock) (out : List SealedVault)
    (h : Interpreter.run env st program = .ok out st2) :
    List.Forall₂ st.Emitted out
      (evaluatedBlocks st.opts_.materializeOptional (st.byName_.map Prod.fst) program) := by
  obtain ⟨h1, h2⟩ := Interpreter.run_ok env st st2 program out h
  obtain ⟨_, emitted, e1, e2⟩ := Interpreter.evaluate_all_emitted env program
    { st with sealed_ := [] } st2 (st.byName_.map Prod.fst)
    (fun n => Map.mem_keys_iff st.byName_ n) h1
  simp only [List.nil_append] at e1
  rw [h2, e1]
  exact e2

theorem Interpreter.resolve_vault_fresh (env : Platform) (st : Interpreter) (b : VaultBlock)
    (hlack : Map.find st.byName_ b.name = none) :
    ∃ st1, Interpreter.resolve_vault env st b = .ok () st1 ∧
      st1.byName_ = Map.assign st.byName_ b.name (Interpreter.freshVault env st b) ∧
      st1.sealed_ = st.sealed_ ∧ st1.opts_ = st.opts_ ∧
      st1.currentRegistry_ = st.currentRegistry_ := by
  unfold Interpreter.resolve_vault
  simp only [hlack]
  refine ⟨_, rfl, ?_, rfl, rfl, rfl⟩
  simp only [Interpreter.freshVault]
  cases st.opts_.forcedMasterKey <;> rfl

theorem forall₂_exists_right {α β : Type} {R : α → β → Prop} {l1 : List α}
    {l2 : List β} (h : List.Forall₂ R l1 l2) : ∀ a ∈ l1, ∃ b ∈ l2, R a b := by
  induction h with
  | nil => intro a ha; cases ha
  | cons hr _ ih =>
    intro a ha
    rcases List.mem_cons.mp ha with rfl | ha2
    · exact ⟨_, List.mem_cons_self _ _, hr⟩
    · obtain ⟨b, hb, hab⟩ := ih a ha2
      exact ⟨b, List.mem_cons_of_mem _ hb, hab⟩

theorem forall₂_exists_left {α β : Type} {R : α → β → Prop} {l1 : List α}
    {l2 : List β} (h : List.Forall₂ R l1 l2) : ∀ b ∈ l2, ∃ a ∈ l1, R a b := by
  induction h with
  | nil => intro b hb; cases hb
  | cons hr _ ih =>
    intro b hb
    rcases List.mem_cons.mp hb with rfl | hb2
    · exact ⟨_, List.mem_cons_self _ _, hr⟩
    · obtain ⟨a, ha, hab⟩ := ih b hb2
      exact ⟨a, List.mem_cons_of_mem _ ha, hab⟩

theorem evaluatedBlocks_materialize (program : List VaultBlock) :
    ∀ known, evaluatedBlocks true known program = program := by
  induction program with
  | nil => intro known; rfl
  | cons b rest ih =>
    intro known
    simp [evaluatedBlocks, ih]

theorem evaluatedBlocks_omits (V : String) (program : List VaultBlock)
    (hopt : ∀ blk ∈ program, blk.name = V → blk.optional = true) :
    ∀ known, V ∉ known → ∀ blk ∈ evaluatedBlocks false known program, blk.name ≠ V := by
  induction program with
  | nil => intro known _ blk hblk; simp [evaluatedBlocks] at hblk
  | cons b rest ih =>
    intro known hV blk hblk
    have ihr := ih (fun x hx => hopt x (List.mem_cons_of_mem _ hx))
    simp only [evaluatedBlocks] at hblk
    by_cases hc : (b.optional && !(decide (b.name ∈ known)) && !false) = true
    · rw [if_pos hc] at hblk
      exact ihr known hV blk hblk
    · rw [if_neg hc] at hblk
      have hbV : b.name ≠ V := by
        intro hb
        apply hc
        have h1 := hopt b (List.mem_cons_self _ _) hb
        have h2 : b.name ∉ known := by rw [hb]; exact hV
        simp [h1, h2]
      rcases List.mem_cons.mp hblk with rfl | hmem
      · exact hbV
      · refine ihr (b.name :: known) ?_ blk hmem
        intro hmem2
        rcases List.mem_cons.mp hmem2 with h3 | h3
        · exact hbV h3.symm
        · exact hV h3

theorem evaluatedBlocks_sublist (materialize : Bool) (program : List VaultBlock) :
    ∀ known, List.Sublist (evaluatedBlocks materialize known program) program := by
  induction program with
  | nil => intro known; simp [evaluatedBlocks]
  | cons b rest ih =>
    intro known
    simp only [evaluatedBlocks]
    split
    · exact List.Sublist.cons b (ih known)
    · exact List.Sublist.cons₂ b (ih (b.name :: known))

theorem evaluatedBlocks_known (materialize : Bool) (program : List VaultBlock) :
    ∀ known, ∀ b ∈ program, b.name ∈ known → b ∈ evaluatedBlocks materialize known program := by
  induction program with
  | nil => intro known b hb; cases hb
  | cons a rest ih =>
    intro known b hb hk
    simp only [evaluatedBlocks]
    rcases List.mem_cons.mp hb with rfl | hmem
    · have hc : ¬ ((b.optional && !(decide (b.name ∈ known)) && !materialize) = true) := by
        simp [hk]
      rw [if_neg hc]
      exact List.mem_cons_self _ _
    · split
      · exact ih known b hmem hk
      · exact List.mem_cons_of_mem _ (ih (a.name :: known) b hmem (List.mem_cons_of_mem _ hk))

theorem forall₂_map_eq {α β γ : Type} {R : α → β → Prop} (f : α → γ) (g : β → γ)
    {l1 : List α} {l2 : List β} (h : List.Forall₂ R l1 l2)
    (hfg : ∀ a b, R a b → f a = g b) : l1.map f = l2.map g := by
  induction h with
  | nil => rfl
  | cons hr _ ih => simp [hfg _ _ hr, ih]

theorem Parser.parse_vault_ends_secure (lines : List Line) (fuel pos pos1 : Nat)
    (vault : VaultBlock) (h : Parser.parse_vault lines fuel pos = .ok vault pos1) :
    vault.endsWithSecure := by
  unfold Parser.parse_vault at h
  cases hl : lines[pos]? with
  | none => simp [hl] at h
  | some line =>
    simp only [hl] at h
    split at h
    · cases h
    · rename_i optional name _
      split at h
      · cases h
      · split at h
        · cases h
        · cases h
        · rename_i bodyStatements pos2 _
          cases hlast : bodyStatements.getLast? with
          | none => simp [hlast] at h
          | some last =>
            simp only [hlast] at h
            by_cases hsec : last.type = .Secure
            · simp only [hsec, decide_True, Bool.not_true, Bool.false_eq_true, if_false] at h
              injection h with h1 _
              subst h1
              refine ⟨bodyStatements.dropLast, last, ?_, hsec⟩
              simp only
              have hne : bodyStatements ≠ [] := by
                intro hnil
                rw [hnil] at hlast
                cases hlast
              rw [List.getLast?_eq_getLast _ hne] at hlast
              injection hlast with hlast
              rw [← hlast]
              exact (List.dropLast_append_getLast hne).symm
            · simp [hsec] at h

theorem Parser.parse_loop_ends_secure (lines : List Line) (blockFuel : Nat) :
    ∀ (fuel pos pos1 : Nat) (acc program : List VaultBlock),
      (∀ b ∈ acc, b.endsWithSecure) →
      Parser.parse_loop lines blockFuel fuel pos acc = .ok program pos1 →
      ∀ b ∈ program, b.endsWithSecure := by
  intro fuel
  induction fuel with
  | zero =>
    intro pos pos1 acc program _ h
    simp [Parser.parse_loop] at h
  | succ fuel ih =>
    intro pos pos1 acc program hacc h
    simp only [Parser.parse_loop] at h
    cases hl : lines[pos]? with
    | none =>
      simp only [hl] at h
      injection h with h1 _
      subst h1
      exact hacc
    | some line =>
      simp only [hl] at h
      split at h
      · exact ih _ _ _ _ hacc h
      · split at h
        · cases h
        · cases hv : Parser.parse_vault lines blockFuel pos with
          | exhausted => simp [hv] at h
          | throw e p => simp [hv] at h
          | ok vault p =>
            simp only [hv] at h
            refine ih _ _ _ _ ?_ h
            intro b hb
            rcases List.mem_append.mp hb with hb1 | hb1
            · exact hacc b hb1
            · rw [List.mem_singleton] at hb1
              rw [hb1]
              exact Parser.parse_vault_ends_secure lines blockFuel pos p vault hv

theorem Parser.parse_ends_secure (lines : List Line) (program : List VaultBlock) (pos : Nat)
    (h : Parser.parse lines = .ok program pos) : ∀ b ∈ program, b.endsWithSecure :=
  Parser.parse_loop_ends_secure lines _ _ 0 pos [] program (fun _ hb => by cases hb) h

theorem Map.find_mem {V : Type} (m : List (String × V)) (k : String) (v : V)
    (h : Map.find m k = some v) : (k, v) ∈ m := by
  induction m with
  | nil => simp [Map.find] at h
  | cons p rest ih =>
    obtain ⟨k1, v1⟩ := p
    by_cases hk : k1 = k
    · simp [Map.find, hk] at h
      simp [hk, h]
    · simp [Map.find, hk] at h
      exact List.mem_cons_of_mem _ (ih h)

/-! ## Lemmas on the string order, `std_sort` and `sorted_unique` -/

theorem lex_le_total : ∀ a b, lex_le a b = true ∨ lex_le b a = true
  | [], _ => Or.inl rfl
  | _ :: _, [] => Or.inr rfl
  | a :: as, b :: bs => by
    simp only [lex_le]
    by_cases h1 : a < b
    · simp [h1]
    · by_cases h2 : b < a
      · simp [h2]
      · simp only [h1, h2, if_false]
        exact lex_le_total as bs

theorem lex_le_antisymm : ∀ a b, lex_le a b = true → lex_le b a = true → a = b
  | [], [], _, _ => rfl
  | [], _ :: _, _, h => by simp [lex_le] at h
  | _ :: _, [], h, _ => by simp [lex_le] at h
  | a :: as, b :: bs, h1, h2 => by
    simp only [lex_le] at h1 h2
    by_cases hab : a < b
    · have hba : ¬ b < a := Char.lt_asymm hab
      simp [hab, hba] at h2
    · by_cases hba : b < a
      · simp [hab, hba] at h1
      · simp only [hab, hba, if_false] at h1 h2
        have : a = b := Char.le_antisymm (Char.not_lt.mp hba) (Char.not_lt.mp hab)
        rw [this, lex_le_antisymm as bs h1 h2]

theorem lex_le_trans : ∀ a b c, lex_le a b = true → lex_le b c = true → lex_le a c = true
  | [], _, _, _, _ => by simp [lex_le]
  | _ :: _, [], _, h, _ => by simp [lex_le] at h
  | _ :: _, _ :: _, [], _, h => by simp [lex_le] at h
  | a :: as, b :: bs, c :: cs, h1, h2 => by
    simp only [lex_le] at h1 h2 ⊢
    by_cases hab : a < b
    · by_cases hbc : b < c
      · simp [Char.lt_trans hab hbc]
      · by_cases hcb : c < b
        · simp [hbc, hcb] at h2
        · have : b = c := Char.le_antisymm (Char.not_lt.mp hcb) (Char.not_lt.mp hbc)
          subst this
          simp [hab]
    · by_cases hba : b < a
      · simp [hab, hba] at h1
      · have e1 : a = b := Char.le_antisymm (Char.not_lt.mp hba) (Char.not_lt.mp hab)
        subst e1
        simp only [hab, if_false] at h1
        by_cases hac : a < c
        · simp [hac]
        · by_cases hca : c < a
          · simp [hac, hca] at h2
          · simp only [hac, hca, if_false] at h2 ⊢
            exact lex_le_trans as bs cs h1 h2

theorem strLe_total : IsTotal String StrLe :=
  ⟨fun a b => lex_le_total a.toList b.toList⟩

theorem strLe_trans : IsTrans String StrLe :=
  ⟨fun a b c h1 h2 => lex_le_trans a.toList b.toList c.toList h1 h2⟩

theorem strLe_antisymm : IsAntisymm String StrLe :=
  ⟨fun a b h1 h2 => String.ext (lex_le_antisymm a.toList b.toList h1 h2)⟩

theorem strLe_refl (a : String) : StrLe a a := by
  rcases lex_le_total a.toList a.toList with h | h <;> exact h

theorem std_sort_sorted (l : List String) : List.Sorted StrLe (std_sort l) :=
  @List.sorted_insertionSort _ StrLe _ strLe_total strLe_trans l

theorem std_sort_perm (l : List String) : (std_sort l).Perm l :=
  List.perm_insertionSort StrLe l

theorem std_sort_mem (l : List String) (a : String) : a ∈ std_sort l ↔ a ∈ l :=
  (std_sort_perm l).mem_iff

theorem sorted_le_eq_of_perm {l1 l2 : List String} (hp : l1.Perm l2)
    (h1 : List.Sorted StrLe l1) (h2 : List.Sorted StrLe l2) : l1 = l2 :=
  @List.eq_of_perm_of_sorted _ StrLe strLe_antisymm _ _ hp h1 h2

theorem std_sort_eq_of_perm {l1 l2 : List String} (hp : l1.Perm l2) :
    std_sort l1 = std_sort l2 :=
  sorted_le_eq_of_perm (((std_sort_perm l1).trans hp).trans (std_sort_perm l2).symm)
    (std_sort_sorted l1) (std_sort_sorted l2)

theorem std_sort_eq_of_mem {l1 l2 : List String} (h1 : l1.Nodup) (h2 : l2.Nodup)
    (hm : ∀ a, a ∈ l1 ↔ a ∈ l2) : std_sort l1 = std_sort l2 :=
  std_sort_eq_of_perm ((List.perm_ext_iff_of_nodup h1 h2).mpr hm)

theorem std_sort_strict (l : List String) (hn : l.Nodup) : List.Sorted StrLt (std_sort l) := by
  have h1 : List.Pairwise StrLe (std_sort l) := std_sort_sorted l
  have h2 : List.Pairwise (fun a b => a ≠ b) (std_sort l) :=
    (std_sort_perm l).nodup_iff.mpr hn
  exact h1.and h2

theorem StrLt.sorted_le {l : List String} (h : List.Sorted StrLt l) : List.Sorted StrLe l :=
  List.Pairwise.imp (fun hab => hab.1) h

theorem StrLt.sorted_nodup {l : List String} (h : List.Sorted StrLt l) : l.Nodup :=
  List.Pairwise.imp (fun hab => hab.2) h

theorem sorted_lt_eq_of_mem {l1 l2 : List String} (h1 : List.Sorted StrLt l1)
    (h2 : List.Sorted StrLt l2) (hm : ∀ a, a ∈ l1 ↔ a ∈ l2) : l1 = l2 :=
  sorted_le_eq_of_perm
    ((List.perm_ext_iff_of_nodup (StrLt.sorted_nodup h1) (StrLt.sorted_nodup h2)).mpr hm)
    (StrLt.sorted_le h1) (StrLt.sorted_le h2)

theorem std_unique_mem : ∀ (l : List String) (a : String), a ∈ std_unique l ↔ a ∈ l
  | [], _ => by simp [std_unique]
  | [_], _ => by simp [std_unique]
  | x :: y :: rest, a => by
    have ih := std_unique_mem (y :: rest) a
    simp only [std_unique]
    by_cases hxy : x = y
    · subst hxy
      rw [if_pos rfl, ih]
      simp
    · rw [if_neg hxy, List.mem_cons, ih]
      simp

theorem std_unique_strict : ∀ (l : List String), List.Sorted StrLe l →
    List.Sorted StrLt (std_unique l)
  | [], _ => by simp [std_unique]
  | [_], _ => by simp [std_unique]
  | x :: y :: rest, h => by
    have hrest : List.Sorted StrLe (y :: rest) := List.Sorted.of_cons h
    have ih := std_unique_strict (y :: rest) hrest
    simp only [std_unique]
    by_cases hxy : x = y
    · rw [if_pos hxy]
      exact ih
    · rw [if_neg hxy]
      refine List.Pairwise.cons ?_ ih
      intro b hb
      have hb2 : b ∈ y :: rest := (std_unique_mem (y :: rest) b).mp hb
      have hxb : StrLe x b := List.rel_of_sorted_cons h b hb2
      refine ⟨hxb, ?_⟩
      intro hxeq
      subst hxeq
      have hxy2 : StrLe x y := List.rel_of_sorted_cons h y (List.mem_cons_self _ _)
      have hyx : StrLe y x := by
        rcases List.mem_cons.mp hb2 with hby | hbr
        · rw [hby]
          exact strLe_refl y
        · exact List.rel_of_sorted_cons hrest x hbr
      exact hxy (strLe_antisymm.antisymm x y hxy2 hyx)

theorem sorted_unique_strict (l : List String) : List.Sorted StrLt (sorted_unique l) :=
  std_unique_strict _ (std_sort_sorted l)

theorem sorted_unique_mem (l : List String) (a : String) : a ∈ sorted_unique l ↔ a ∈ l := by
  unfold sorted_unique
  rw [std_unique_mem, std_sort_mem]

theorem sorted_unique_eq_of_mem {l1 l2 : List String} (hm : ∀ a, a ∈ l1 ↔ a ∈ l2) :
    sorted_unique l1 = sorted_unique l2 := by
  refine sorted_lt_eq_of_mem (sorted_unique_strict l1) (sorted_unique_strict l2) ?_
  intro a
  rw [sorted_unique_mem, sorted_unique_mem, hm]

/-! ## Lemmas on the archive text -/

theorem hmac_entry_lines_eq (reg : SealedRegistry) (entryName : String) :
    hmac_entry_lines reg entryName = write_entry_lines reg entryName := rfl

theorem hmac_registry_lines_eq (v : SealedVault) (regName : String) :
    hmac_registry_lines v regName = write_registry_lines v regName := rfl

theorem hmac_vault_lines_eq (v : SealedVault) :
    hmac_vault_lines v = write_vault_lines v := rfl

theorem unlines_cons (l : String) (rest : List String) :
    unlines (l :: rest) = l ++ "\n" ++ unlines rest := rfl

theorem dropFirstLine_header (rest : String) :
    dropFirstLine ("# Vault Secure Archive" ++ "\n" ++ rest) = rest := rfl

theorem String.append_right_cancel {a b c : String} (h : a ++ c = b ++ c) : a = b := by
  apply String.ext
  have h2 := congrArg String.data h
  simp only [String.data_append] at h2
  exact List.append_cancel_right h2

theorem String.append_left_cancel {a b c : String} (h : a ++ b = a ++ c) : b = c := by
  apply String.ext
  have h2 := congrArg String.data h
  simp only [String.data_append] at h2
  exact List.append_cancel_left h2

theorem List.takeWhile_ne_append (c : Char) : ∀ (l r : List Char), c ∉ l →
    (l ++ c :: r).takeWhile (fun x => x ≠ c) = l
  | [], r, _ => by simp [List.takeWhile]
  | x :: l, r, h => by
    have hx : x ≠ c := fun e => h (by rw [e]; exact List.mem_cons_self _ _)
    have hl : c ∉ l := fun e => h (List.mem_cons_of_mem _ e)
    have hd : decide (x ≠ c) = true := decide_eq_true hx
    have ih := List.takeWhile_ne_append c l r hl
    simp only [List.cons_append, List.takeWhile, hd]
    exact congrArg (List.cons x) ih

theorem firstLine_inj (a b ra rb : String) (ha : oneLine a) (hb : oneLine b)
    (h : a ++ "\n" ++ ra = b ++ "\n" ++ rb) : a = b := by
  apply String.ext
  have h2 := congrArg String.data h
  simp only [String.data_append] at h2
  simp only [List.append_assoc, List.singleton_append] at h2
  have t1 := List.takeWhile_ne_append '\n' a.data ra.data ha
  have t2 := List.takeWhile_ne_append '\n' b.data rb.data hb
  rw [← t1, ← t2, h2]

theorem filter_flatMap {α β : Type} (p : β → Bool) (f : α → List β) :
    ∀ (l : List α), (l.flatMap f).filter p = l.flatMap (fun x => (f x).filter p)
  | [] => rfl
  | x :: l => by
    simp only [List.flatMap_cons, List.filter_append, filter_flatMap p f l]

theorem flatMap_singleton_map {α β : Type} (f : α → β) :
    ∀ (l : List α), l.flatMap (fun x => [f x]) = l.map f
  | [] => rfl
  | x :: l => by
    simp only [List.flatMap_cons, List.map_cons, flatMap_singleton_map f l, List.singleton_append]

theorem flatMap_nil_of {α β : Type} (f : α → List β) (l : List α) (h : ∀ x ∈ l, f x = []) :
    l.flatMap f = [] := by
  induction l with
  | nil => rfl
  | cons x l ih =>
    simp only [List.flatMap_cons, h x (List.mem_cons_self _ _), List.nil_append]
    exact ih (fun y hy => h y (List.mem_cons_of_mem _ hy))

theorem starts_with_append (p R : String) : starts_with (p ++ R) p = true := by
  unfold starts_with
  rw [List.isPrefixOf_iff_prefix]
  show p.data <+: (p ++ R).data
  rw [String.data_append]
  exact List.prefix_append _ _

theorem starts_with_false (a b : List Char) (R : String)
    (h : b.isPrefixOf (a ++ R.data) = false) :
    starts_with (String.mk a ++ R) (String.mk b) = false := by
  unfold starts_with
  show b.isPrefixOf (String.mk a ++ R).data = false
  rw [String.data_append]
  exact h

theorem write_entry_lines_no_registry (reg : SealedRegistry) (k : String) :
    (write_entry_lines reg k).filter (fun l => starts_with l "  registry ") = [] := by
  have h1 : starts_with ("    entry " ++ k) "  registry " = false :=
    starts_with_false "    entry ".data "  registry ".data k rfl
  have h2 : ∀ d : String, starts_with ("      digest " ++ d) "  registry " = false :=
    fun d => starts_with_false "      digest ".data "  registry ".data d rfl
  have h3 : ∀ d : String, starts_with ("      cipher " ++ d) "  registry " = false :=
    fun d => starts_with_false "      cipher ".data "  registry ".data d rfl
  simp [write_entry_lines, List.filter_cons, h1, h2, h3]

theorem write_entry_lines_entry (reg : SealedRegistry) (k : String) :
    (write_entry_lines reg k).filter (fun l => starts_with l "    entry ") =
      ["    entry " ++ k] := by
  have h1 : starts_with ("    entry " ++ k) "    entry " = true := starts_with_append _ _
  have h2 : ∀ d : String, starts_with ("      digest " ++ d) "    entry " = false :=
    fun d => starts_with_false "      digest ".data "    entry ".data d rfl
  have h3 : ∀ d : String, starts_with ("      cipher " ++ d) "    entry " = false :=
    fun d => starts_with_false "      cipher ".data "    entry ".data d rfl
  simp [write_entry_lines, List.filter_cons, h1, h2, h3]

theorem write_registry_lines_filter_registry (v : SealedVault) (R : String) :
    (write_registry_lines v R).filter (fun l => starts_with l "  registry ") =
      ["  registry " ++ R] := by
  unfold write_registry_lines
  have h0 : starts_with ("  registry " ++ R) "  registry " = true := starts_with_append _ _
  simp only [List.filter_cons, h0, if_true, filter_flatMap]
  rw [flatMap_nil_of]
  intro k _
  exact write_entry_lines_no_registry _ k

theorem write_registry_lines_filter_entry (v : SealedVault) (R : String) :
    (write_registry_lines v R).filter (fun l => starts_with l "    entry ") =
      (std_sort (((Map.find v.registries R).getD ⟨[]⟩).entries.map Prod.fst)).map
        (fun k => "    entry " ++ k) := by
  unfold write_registry_lines
  have h0 : starts_with ("  registry " ++ R) "    entry " = false :=
    starts_with_false "  registry ".data "    entry ".data R rfl
  simp only [List.filter_cons, h0, filter_flatMap]
  simp only [write_entry_lines_entry]
  exact flatMap_singleton_map _ _

theorem write_vault_lines_filter_registry (v : SealedVault) :
    (write_vault_lines v).filter (fun l => starts_with l "  registry ") =
      (std_sort (v.registries.map Prod.fst)).map (fun R => "  registry " ++ R) := by
  unfold write_vault_lines
  have h1 : starts_with ("vault " ++ v.name ++ " (" ++
      (if v.optional then "optional" else "required") ++ ")") "  registry " = false := by
    rw [String.append_assoc, String.append_assoc, String.append_assoc]
    exact starts_with_false "vault ".data "  registry ".data _ rfl
  have h2 : starts_with ("sealed " ++ (if v.sealed then "true" else "false")) "  registry "
      = false := starts_with_false "sealed ".data "  registry ".data _ rfl
  have h3 : starts_with "---" "  registry " = false := rfl
  simp only [List.filter_append, List.filter_cons, List.filter_nil, h1, h2, h3, filter_flatMap,
    write_registry_lines_filter_registry]
  simp only [Bool.false_eq_true, if_false, List.nil_append, List.append_nil]
  exact flatMap_singleton_map _ _

theorem write_vault_lines_last (v : SealedVault) :
    (write_vault_lines v).getLast? = some "---" := by
  unfold write_vault_lines
  rw [List.getLast?_append]
  rfl

theorem Map.keys_mem_congr {V W : Type} (a : List (String × V)) (b : List (String × W))
    (h : ∀ k, (Map.find a k).isSome = (Map.find b k).isSome) :
    ∀ k, k ∈ a.map Prod.fst ↔ k ∈ b.map Prod.fst := by
  intro k
  rw [Map.mem_keys_iff, Map.mem_keys_iff, h k]

theorem write_entry_lines_congr (x y : SealedRegistry)
    (h : ∀ k, Map.find x.entries k = Map.find y.entries k) (k : String) :
    write_entry_lines x k = write_entry_lines y k := by
  simp only [write_entry_lines, h k]

theorem SealedRegistry.Equiv.lines {x y : SealedRegistry} (h : SealedRegistry.Equiv x y) :
    (std_sort (x.entries.map Prod.fst)).flatMap (write_entry_lines x) =
      (std_sort (y.entries.map Prod.fst)).flatMap (write_entry_lines y) := by
  obtain ⟨h1, h2, h3⟩ := h
  have hk : std_sort (x.entries.map Prod.fst) = std_sort (y.entries.map Prod.fst) :=
    std_sort_eq_of_mem h1 h2 (Map.keys_mem_congr _ _ (fun k => by rw [h3 k]))
  rw [hk]
  have hf : write_entry_lines x = write_entry_lines y :=
    funext (write_entry_lines_congr x y h3)
  rw [hf]

theorem SealedVault.Equiv.registry_lines {a b : SealedVault} (h : SealedVault.Equiv a b)
    (R : String) : write_registry_lines a R = write_registry_lines b R := by
  have hR := h.2.2.2.2.2 R
  unfold write_registry_lines
  cases ha : Map.find a.registries R with
  | none =>
    cases hb : Map.find b.registries R with
    | none => rfl
    | some y => simp [ha, hb] at hR
  | some x =>
    cases hb : Map.find b.registries R with
    | none => simp [ha, hb] at hR
    | some y =>
      simp only [ha, hb] at hR
      simp only [Option.getD_some]
      rw [SealedRegistry.Equiv.lines hR]

theorem SealedVault.Equiv.vault_lines {a b : SealedVault} (h : SealedVault.Equiv a b) :
    write_vault_lines a = write_vault_lines b := by
  have hk : std_sort (a.registries.map Prod.fst) = std_sort (b.registries.map Prod.fst) := by
    refine std_sort_eq_of_mem h.2.2.2.1 h.2.2.2.2.1 (Map.keys_mem_congr _ _ ?_)
    intro R
    have hR := h.2.2.2.2.2 R
    cases ha : Map.find a.registries R <;> cases hb : Map.find b.registries R <;>
      simp [ha, hb] at hR ⊢
  have hf : write_registry_lines a = write_registry_lines b :=
    funext (SealedVault.Equiv.registry_lines h)
  unfold write_vault_lines
  simp only [hk, hf, h.1, h.2.1, h.2.2.1]

theorem forall₂_flatMap_eq {α β : Type} {R : α → α → Prop} (f : α → List β)
    {l1 l2 : List α} (h : List.Forall₂ R l1 l2) (hf : ∀ a b, R a b → f a = f b) :
    l1.flatMap f = l2.flatMap f := by
  induction h with
  | nil => rfl
  | cons hr _ ih => simp only [List.flatMap_cons, hf _ _ hr, ih]

theorem write_svau_lines_congr (vs1 vs2 : List SealedVault) (t1 t2 : String)
    (d1 d2 : List String) (hv : List.Forall₂ SealedVault.Equiv vs1 vs2)
    (hd : ∀ d, d ∈ d1 ↔ d ∈ d2) :
    write_svau_lines vs1 t1 d1 = write_svau_lines vs2 t2 d2 := by
  unfold write_svau_lines
  rw [sorted_unique_eq_of_mem hd,
    forall₂_flatMap_eq write_vault_lines hv (fun a b h => SealedVault.Equiv.vault_lines h)]

theorem archive_preimage_eq (vaults : List SealedVault) (token : String)
    (dependencies : List String) :
    archive_preimage vaults token dependencies =
      "token " ++ token ++ "\n" ++
        unlines ((sorted_unique dependencies).map (fun d => "depends " ++ d) ++
          vaults.flatMap write_vault_lines) := rfl

theorem write_svau_eq (vaults : List SealedVault) (token : String)
    (dependencies : List String) :
    write_svau vaults token dependencies =
      "# Vault Secure Archive" ++ "\n" ++
        unlines ((sorted_unique dependencies).map (fun d => "depends " ++ d) ++
          vaults.flatMap write_vault_lines) := rfl

theorem swapNewline_involutive (c : Char) : swapNewline (swapNewline c) = c := by
  unfold swapNewline
  by_cases h1 : c = '\n'
  · subst h1
    decide
  · by_cases h2 : c = '|'
    · subst h2
      decide
    · simp [h1, h2]

theorem archivePlatform_separates (key : String) : archivePlatform.digestSeparates key := by
  intro m1 m2 h h1 h2
  simp only [archivePlatform] at h1 h2
  injection h1 with h1
  injection h2 with h2
  have e := h1.trans h2.symm
  have e1 := String.append_right_cancel (String.append_right_cancel
    (String.append_right_cancel e))
  have e2 := String.append_left_cancel e1
  injection e2 with e3
  have hinj : Function.Injective (List.map swapNewline) :=
    List.map_injective_iff.mpr (Function.LeftInverse.injective swapNewline_involutive)
  exact String.ext (hinj e3)

theorem load_verify_eq (env : Platform) (cfg : VaultConfig) (text want : String)
    (htoken : (read_svau text).token = "" ∨ (read_svau text).token = cfg.token)
    (hwant : compute_archive_hmac env
      (inject_master_key (read_svau text).vaults cfg.masterKey) cfg.token cfg.masterKey
      (read_svau text).dependencies = .ok want) :
    load_verify env cfg text =
      if (read_svau text).hmac ≠ "" ∧ (read_svau text).hmac ≠ want then
        .error "Archive HMAC verification failed"
      else .ok { read_svau text with
                 vaults := inject_master_key (read_svau text).vaults cfg.masterKey } := by
  unfold load_verify
  have ht : ¬ ((read_svau text).token ≠ "" ∧ (read_svau text).token ≠ cfg.token) := by
    rcases htoken with h | h <;> simp [h]
  simp only [ht, if_false, hwant]

theorem load_query_untokened (env : Platform) (cfg : VaultConfig) (text : String)
    (h : (read_svau text).token = "") (hc : cfg.token ≠ "") :
    load_query env cfg (some text) = .error "Token mismatch for archive" := by
  unfold load_query
  have hne : (read_svau text).token ≠ cfg.token := by
    rw [h]
    exact fun e => hc e.symm
  simp only [hne, ne_eq, not_false_eq_true, if_true]

theorem write_svau_lines_no_token (vaults : List SealedVault) (token : String)
    (dependencies : List String) :
    ∀ l ∈ write_svau_lines vaults token dependencies, starts_with l "token " = false := by
  intro l hl
  simp only [write_svau_lines, List.mem_cons, List.mem_append, List.mem_map,
    List.mem_flatMap] at hl
  rcases hl with h | ⟨d, _, h⟩ | ⟨v, _, h⟩
  · rw [h]
    rfl
  · rw [← h]
    exact starts_with_false "depends ".data "token ".data d rfl
  · simp only [write_vault_lines, List.mem_append, List.mem_cons, List.mem_singleton,
      List.mem_flatMap, List.not_mem_nil, or_false] at h
    rcases h with ((h | h) | ⟨R, _, h⟩) | h
    · rw [h, String.append_assoc, String.append_assoc, String.append_assoc]
      exact starts_with_false "vault ".data "token ".data _ rfl
    · rw [h]
      exact starts_with_false "sealed ".data "token ".data _ rfl
    · simp only [write_registry_lines, List.mem_cons, List.mem_flatMap] at h
      rcases h with h | ⟨k, _, h⟩
      · rw [h]
        exact starts_with_false "  registry ".data "token ".data R rfl
      · simp only [write_entry_lines, List.mem_cons, List.mem_singleton, List.not_mem_nil,
          or_false] at h
        rcases h with h | h | h
        · rw [h]
          exact starts_with_false "    entry ".data "token ".data k rfl
        · rw [h]
          exact starts_with_false "      digest ".data "token ".data _ rfl
        · rw [h]
          exact starts_with_false "      cipher ".data "token ".data _ rfl
    · rw [h]
      rfl

theorem getlines_go_line (l : List Char) (hl : '\n' ∉ l) :
    ∀ (acc rest : List Char),
      getlines_go acc (l ++ '\n' :: rest) =
        String.mk (acc.reverse ++ l) :: getlines_go [] rest := by
  induction l with
  | nil =>
    intro acc rest
    simp [getlines_go]
  | cons c l ih =>
    intro acc rest
    have hc : c ≠ '\n' := fun e => hl (by rw [e]; exact List.mem_cons_self _ _)
    have hl2 : '\n' ∉ l := fun e => hl (List.mem_cons_of_mem _ e)
    show getlines_go acc (c :: (l ++ '\n' :: rest)) = _
    rw [getlines_go, if_neg hc, ih hl2 (c :: acc) rest]
    simp

theorem getlines_unlines : ∀ (ls : List String), (∀ l ∈ ls, oneLine l) →
    getlines (unlines ls) = ls
  | [], _ => rfl
  | l :: rest, h => by
    have ih := getlines_unlines rest (fun x hx => h x (List.mem_cons_of_mem _ hx))
    have hl : '\n' ∉ l.data := h l (List.mem_cons_self _ _)
    unfold getlines at ih ⊢
    rw [unlines_cons]
    show getlines_go [] ((l ++ "\n" ++ unlines rest).data) = l :: rest
    rw [String.data_append, String.data_append]
    show getlines_go [] (l.data ++ ['\n'] ++ (unlines rest).data) = l :: rest
    rw [List.append_assoc, List.singleton_append, getlines_go_line l.data hl]
    simp only [List.reverse_nil, List.nil_append]
    rw [show (unlines rest).data = (unlines rest).toList from rfl, ih]

theorem ReadState.step_token (s : ReadState) (line : String)
    (h : starts_with line "token " = false) : (s.step line).result.token = s.result.token := by
  unfold ReadState.step
  by_cases h1 : line = "---"
  · rw [if_pos h1]
    rfl
  rw [if_neg h1]
  by_cases h2 : line = "" ∨ line = "# Vault Secure Archive"
  · rw [if_pos h2]
  rw [if_neg h2]
  by_cases h3 : starts_with line "hmac " = true
  · rw [if_pos h3]
  rw [if_neg h3]
  by_cases h4 : starts_with line "depends " = true
  · rw [if_pos h4]
  rw [if_neg h4]
  have h5 : ¬ starts_with line "token " = true := by rw [h]; exact Bool.false_ne_true
  rw [if_neg h5]
  by_cases h6 : starts_with line "vault " = true
  · rw [if_pos h6]
    rfl
  rw [if_neg h6]
  by_cases h7 : starts_with line "sealed " = true
  · rw [if_pos h7]
  rw [if_neg h7]
  by_cases h8 : starts_with line "  registry " = true
  · rw [if_pos h8]
  rw [if_neg h8]
  by_cases h9 : starts_with line "    entry " = true
  · rw [if_pos h9]
  rw [if_neg h9]
  by_cases h10 : starts_with line "      digest " = true
  · rw [if_pos h10]
  rw [if_neg h10]
  by_cases h11 : starts_with line "      cipher " = true
  · rw [if_pos h11]
  rw [if_neg h11]

theorem ReadState.foldl_token : ∀ (ls : List String) (s : ReadState),
    (∀ l ∈ ls, starts_with l "token " = false) →
    (ls.foldl ReadState.step s).result.token = s.result.token
  | [], _, _ => rfl
  | l :: rest, s, h => by
    simp only [List.foldl_cons]
    rw [ReadState.foldl_token rest (s.step l) (fun x hx => h x (List.mem_cons_of_mem _ hx)),
      ReadState.step_token s l (h l (List.mem_cons_self _ _))]

theorem read_svau_token (text : String)
    (h : ∀ l ∈ getlines text, starts_with l "token " = false) : (read_svau text).token = "" := by
  unfold read_svau
  simp only [ReadState.flush]
  exact ReadState.foldl_token (getlines text) _ h

theorem SealedVault.entry_touch (vault : SealedVault) (R R2 k : String) :
    SealedVault.entry { vault with registries := Map.touch vault.registries R ⟨[]⟩ } R2 k =
      vault.entry R2 k := by
  unfold SealedVault.entry
  by_cases hR : R2 = R
  · subst hR
    simp only [Map.find_touch_same]
    cases hf : Map.find vault.registries R2 with
    | none => simp [Map.find]
    | some reg => simp
  · simp only [Map.find_touch_other _ _ _ _ hR]

theorem Interpreter.entries_setVault_touch (st : Interpreter) (vault : SealedVault)
    (R : String) (hv : Map.find st.byName_ st.currentVault_ = some vault) (n R2 k : String) :
    (Map.find (st.setVault
        { vault with registries := Map.touch vault.registries R ⟨[]⟩ }).byName_ n).bind
        (fun v => v.entry R2 k) =
      (Map.find st.byName_ n).bind (fun v => v.entry R2 k) := by
  unfold Interpreter.setVault
  by_cases hn : n = st.currentVault_
  · subst hn
    simp only [Map.find_assign_same, hv, Option.some_bind]
    exact SealedVault.entry_touch vault R R2 k
  · simp only [Map.find_assign_other _ _ _ _ hn]

theorem Interpreter.builtin_value_unknown (env : Platform) (drawn : Nat) (v : ValueExpr)
    (hk : v.kind = .Builtin) (hg : v.text ≠ "generate") (hn : v.text ≠ "now") :
    Interpreter.builtin_value env drawn v = .error ("Unknown builtin: " ++ v.text) := by
  simp [Interpreter.builtin_value, hk, hg, hn]

theorem Interpreter.seal_entry_unknown (env : Platform) (st : Interpreter)
    (vault : SealedVault) (R key : String) (v : ValueExpr)
    (hk : v.kind = .Builtin) (hg : v.text ≠ "generate") (hn : v.text ≠ "now") :
    Interpreter.seal_entry env st vault R key v = .throw ("Unknown builtin: " ++ v.text) st := by
  simp only [Interpreter.seal_entry, Interpreter.builtin_value_unknown env st.drawn v hk hg hn]

/-! ## Lemmas on the lexer -/

theorem find_char_isSome (c : Char) : ∀ (l : List Char), (find_char l c).isSome = true ↔ c ∈ l
  | [] => by simp [find_char]
  | x :: rest => by
    by_cases hx : x = c
    · simp [find_char, hx]
    · have ih := find_char_isSome c rest
      have hc : ¬ c = x := fun h => hx h.symm
      simp only [find_char, if_neg hx, Option.isSome_map', List.mem_cons, hc, false_or]
      exact ih

theorem getlines_go_mem (l : String) :
    ∀ (rest acc : List Char), l ∈ getlines_go acc rest → ∀ c ∈ l.toList, c ∈ acc ∨ c ∈ rest
  | [], acc, h, c, hc => by
    by_cases ha : acc.isEmpty = true
    · simp [getlines_go, ha] at h
    · simp only [getlines_go, ha, Bool.false_eq_true, if_false, List.mem_singleton] at h
      subst h
      left
      simpa using hc
  | x :: rest, acc, h, c, hc => by
    by_cases hx : x = '\n'
    · simp only [getlines_go, if_pos hx, List.mem_cons] at h
      rcases h with h | h
      · subst h
        left
        simpa using hc
      · rcases getlines_go_mem l rest [] h c hc with h1 | h1
        · simp at h1
        · right
          exact List.mem_cons_of_mem _ h1
    · simp only [getlines_go, if_neg hx] at h
      rcases getlines_go_mem l rest (x :: acc) h c hc with h1 | h1
      · rcases List.mem_cons.mp h1 with h2 | h2
        · right
          rw [h2]
          exact List.mem_cons_self _ _
        · left
          exact h2
      · right
        exact List.mem_cons_of_mem _ h1

theorem getlines_go_covers (c : Char) (hn : c ≠ '\n') :
    ∀ (rest acc : List Char), c ∈ acc ∨ c ∈ rest → ∃ l ∈ getlines_go acc rest, c ∈ l.toList
  | [], acc, h => by
    rcases h with h | h
    · have ha : acc.isEmpty = false := by
        cases acc with
        | nil => simp at h
        | cons a t => rfl
      refine ⟨String.mk acc.reverse, ?_, ?_⟩
      · simp [getlines_go, ha]
      · simpa using h
    · simp at h
  | x :: rest, acc, h => by
    by_cases hx : x = '\n'
    · simp only [getlines_go, if_pos hx]
      rcases h with h | h
      · exact ⟨String.mk acc.reverse, List.mem_cons_self _ _, by simpa using h⟩
      · rcases List.mem_cons.mp h with h2 | h2
        · exact absurd (h2.trans hx) hn
        · obtain ⟨l, hl, hcl⟩ := getlines_go_covers c hn rest [] (Or.inr h2)
          exact ⟨l, List.mem_cons_of_mem _ hl, hcl⟩
    · simp only [getlines_go, if_neg hx]
      apply getlines_go_covers c hn rest (x :: acc)
      rcases h with h | h
      · left
        exact List.mem_cons_of_mem _ h
      · rcases List.mem_cons.mp h with h2 | h2
        · left
          rw [h2]
          exact List.mem_cons_self _ _
        · right
          exact h2

theorem getlines_mem_iff (text : String) (c : Char) (hn : c ≠ '\n') :
    (∃ l ∈ getlines text, c ∈ l.toList) ↔ c ∈ text.toList := by
  constructor
  · rintro ⟨l, hl, hc⟩
    rcases getlines_go_mem l text.toList [] hl c hc with h | h
    · simp at h
    · exact h
  · intro h
    exact getlines_go_covers c hn text.toList [] (Or.inr h)
theorem count_indent_eq : ∀ (l : List Char) (k : Int),
    count_indent l k = k + ((l.takeWhile (fun c => c = ' ')).length : Int)
  | [], k => by simp [count_indent]
  | c :: rest, k => by
    by_cases hc : c = ' '
    · rw [count_indent, if_pos hc, count_indent_eq rest (k + 1)]
      simp only [List.takeWhile, hc, decide_True, List.length_cons, Nat.cast_add, Nat.cast_one]
      ring
    · simp [count_indent, hc]

theorem find_first_not_of_space : ∀ (l : List Char),
    match find_first_not_of l ' ' with
    | none => l.dropWhile (fun c => c = ' ') = []
    | some pos => l.drop pos = l.dropWhile (fun c => c = ' ')
  | [] => by simp [find_first_not_of]
  | c :: rest => by
    by_cases hc : c = ' '
    · have ih := find_first_not_of_space rest
      simp only [find_first_not_of, hc, ne_eq, not_true_eq_false, if_false]
      cases hf : find_first_not_of rest ' ' with
      | none =>
        rw [hf] at ih
        simpa [List.dropWhile] using ih
      | some p =>
        rw [hf] at ih
        simpa [List.dropWhile] using ih
    · simp [find_first_not_of, hc, List.dropWhile]

theorem trim_left_eq (s : String) :
    trim_left s = String.mk (s.toList.dropWhile (fun c => c = ' ')) := by
  have h := find_first_not_of_space s.toList
  unfold trim_left
  cases hf : find_first_not_of s.toList ' ' with
  | none =>
    rw [hf] at h
    simp only [h]
  | some p =>
    rw [hf] at h
    simp only [substrFrom, h]

theorem lex_loop_ok : ∀ (ls : List String) (number : Int) (acc : List Line),
    (∀ l ∈ ls, '\t' ∉ l.toList) →
    ∃ out, lex_loop ls number acc = .ok (acc ++ out) ∧ out.length = ls.length ∧
      ∀ (i : Nat) (line : String), ls[i]? = some line →
        out[i]? = some ⟨number + i, count_indent line.toList 0, trim_left line⟩
  | [], number, acc, _ => ⟨[], by simp [lex_loop], rfl, by simp⟩
  | l :: rest, number, acc, h => by
    have hl : (find_char l.toList '\t').isSome = false := by
      have := (find_char_isSome '\t' l.toList).not.mpr (h l (List.mem_cons_self _ _))
      simpa using this
    obtain ⟨out, ho, hlen, hget⟩ := lex_loop_ok rest (number + 1)
      (acc ++ [⟨number, count_indent l.toList 0, trim_left l⟩])
      (fun x hx => h x (List.mem_cons_of_mem _ hx))
    refine ⟨⟨number, count_indent l.toList 0, trim_left l⟩ :: out, ?_, ?_, ?_⟩
    · rw [lex_loop, hl]
      simp only [Bool.false_eq_true, if_false, ho, List.append_assoc, List.singleton_append]
    · simp [hlen]
    · intro i line hi
      cases i with
      | zero =>
        simp only [List.getElem?_cons_zero, Option.some.injEq] at hi
        subst hi
        simp
      | succ j =>
        simp only [List.getElem?_cons_succ] at hi
        have := hget j line hi
        simp only [List.getElem?_cons_succ, this, Nat.cast_add, Nat.cast_one]
        congr 2
        ring

theorem getlines_go_tail : ∀ (tail acc : List Char), '\n' ∉ tail →
    getlines_go acc tail =
      if (acc.reverse ++ tail).isEmpty then [] else [String.mk (acc.reverse ++ tail)]
  | [], acc, _ => by
    cases acc <;> simp [getlines_go]
  | c :: t, acc, h => by
    have hc : c ≠ '\n' := fun e => h (by rw [e]; exact List.mem_cons_self _ _)
    have ht : '\n' ∉ t := fun e => h (List.mem_cons_of_mem _ e)
    rw [getlines_go, if_neg hc, getlines_go_tail t (c :: acc) ht]
    simp

theorem getlines_unlines_tail (tail : String) (ht : '\n' ∉ tail.toList) :
    ∀ (ls : List String), (∀ l ∈ ls, '\n' ∉ l.toList) →
      getlines (unlines ls ++ tail) = ls ++ (if tail = "" then [] else [tail])
  | [], _ => by
    show getlines_go [] (("" : String) ++ tail).data = _
    rw [String.data_append]
    show getlines_go [] ([] ++ tail.data) = _
    rw [List.nil_append, getlines_go_tail tail.data [] ht]
    by_cases he : tail = ""
    · subst he
      rfl
    · have hne : tail.data ≠ [] := fun e => he (String.ext e)
      rw [if_neg he]
      simp [hne]
  | l :: rest, h => by
    have ih := getlines_unlines_tail tail ht rest (fun x hx => h x (List.mem_cons_of_mem _ hx))
    have hl : '\n' ∉ l.data := h l (List.mem_cons_self _ _)
    unfold getlines at ih ⊢
    rw [unlines_cons]
    show getlines_go [] ((l ++ "\n" ++ unlines rest ++ tail).data) = _
    rw [String.data_append, String.data_append, String.data_append]
    show getlines_go [] (l.data ++ ['\n'] ++ (unlines rest).data ++ tail.data) = _
    rw [List.append_assoc, List.append_assoc, List.singleton_append,
      getlines_go_line l.data hl]
    simp only [List.reverse_nil, List.nil_append]
    have e : (unlines rest).data ++ tail.data = (unlines rest ++ tail).toList := by
      show _ = (unlines rest ++ tail).data
      rw [String.data_append]
    rw [e, ih]
    rfl

theorem text_lines_split : ∀ (l : List Char),
    ∃ (ls : List String) (tail : String), String.mk l = unlines ls ++ tail ∧
      (∀ x ∈ ls, '\n' ∉ x.toList) ∧ '\n' ∉ tail.toList
  | [] => ⟨[], "", rfl, fun _ hx => absurd hx (List.not_mem_nil _), by simp⟩
  | c :: rest => by
    obtain ⟨ls, tail, he, hls, ht⟩ := text_lines_split rest
    have hd : rest = (unlines ls ++ tail).data := congrArg String.data he
    by_cases hc : c = '\n'
    · refine ⟨"" :: ls, tail, ?_, ?_, ht⟩
      · apply String.ext
        rw [unlines_cons]
        simp only [String.data_append]
        rw [hd, hc, String.data_append]
        rfl
      · intro x hx
        rcases List.mem_cons.mp hx with rfl | hx
        · simp
        · exact hls x hx
    · cases ls with
      | nil =>
        refine ⟨[], String.mk (c :: tail.data), ?_, fun _ hx => absurd hx (List.not_mem_nil _),
          ?_⟩
        · apply String.ext
          rw [hd]
          simp only [String.data_append]
          rfl
        · intro hmem
          rcases List.mem_cons.mp hmem with h1 | h1
          · exact hc h1.symm
          · exact ht h1
      | cons a ls2 =>
        refine ⟨String.mk (c :: a.data) :: ls2, tail, ?_, ?_, ht⟩
        · apply String.ext
          rw [hd, unlines_cons, unlines_cons]
          simp only [String.data_append, List.cons_append, List.append_assoc]
        · intro x hx
          rcases List.mem_cons.mp hx with rfl | hx
          · intro hmem
            rcases List.mem_cons.mp hmem with h1 | h1
            · exact hc h1.symm
            · exact hls a (List.mem_cons_self _ _) h1
          · exact hls x (List.mem_cons_of_mem _ hx)

/-! ## Lemmas on `trim`, the `find` calls and the value parsers -/

theorem find_first_not_of_replicate (c x : Char) (rest : List Char) (hx : x ≠ c) :
    ∀ a : Nat, find_first_not_of (List.replicate a c ++ x :: rest) c = some a
  | 0 => by simp [find_first_not_of, hx]
  | a + 1 => by
    simp [List.replicate_succ, find_first_not_of, find_first_not_of_replicate c x rest hx a]

theorem find_first_not_of_all (c : Char) :
    ∀ a : Nat, find_first_not_of (List.replicate a c) c = none
  | 0 => rfl
  | a + 1 => by simp [List.replicate_succ, find_first_not_of, find_first_not_of_all c a]

theorem find_last_not_of_all (c : Char) :
    ∀ b : Nat, find_last_not_of (List.replicate b c) c = none
  | 0 => rfl
  | b + 1 => by simp [List.replicate_succ, find_last_not_of, find_last_not_of_all c b]

theorem find_last_not_of_append (c y : Char) (b : Nat) (hy : y ≠ c) :
    ∀ pre : List Char, find_last_not_of (pre ++ y :: List.replicate b c) c = some pre.length
  | [] => by simp [find_last_not_of, find_last_not_of_all, hy]
  | x :: pre => by
    simp [find_last_not_of, find_last_not_of_append c y b hy pre]

/-- The function `trim` strips the spaces around a text that neither begins nor ends with one. -/
theorem trim_pad (a b : Nat) (core : String) (h : Trimmed core) :
    trim (String.mk (List.replicate a ' ' ++ core.toList ++ List.replicate b ' ')) = core := by
  obtain ⟨core⟩ := core
  cases core with
  | nil =>
    have : List.replicate a ' ' ++ ([] : List Char) ++ List.replicate b ' ' =
        List.replicate (a + b) ' ' := by simp
    simp only [trim, String.toList, this, find_first_not_of_all]
  | cons x xs =>
    have hx : x ≠ ' ' := by
      intro hx
      apply h.1
      simp [String.toList, hx]
    obtain ⟨pre, y, hpy⟩ : ∃ pre y, x :: xs = pre ++ [y] :=
      ⟨(x :: xs).dropLast, (x :: xs).getLast (by simp),
        (List.dropLast_append_getLast _).symm⟩
    have hy : y ≠ ' ' := by
      intro hy
      apply h.2
      simp [String.toList, hpy, hy]
    have hf : find_first_not_of (List.replicate a ' ' ++ (x :: xs) ++ List.replicate b ' ') ' '
        = some a := by
      rw [List.append_assoc, List.cons_append]
      exact find_first_not_of_replicate ' ' x _ hx a
    have hl : find_last_not_of (List.replicate a ' ' ++ (x :: xs) ++ List.replicate b ' ') ' '
        = some (a + pre.length) := by
      rw [hpy]
      have := find_last_not_of_append ' ' y b hy (List.replicate a ' ' ++ pre)
      simpa using this
    simp only [trim, String.toList, hf, hl]
    congr 1
    have hlen : (x :: xs).length = pre.length + 1 := by rw [hpy]; simp
    simp only [substr]
    rw [List.append_assoc, List.drop_left' (by simp)]
    have : a + pre.length - a + 1 = (x :: xs).length := by omega
    rw [this, List.take_left' rfl]

theorem trim_of_trimmed (s : String) (h : Trimmed s) : trim s = s := by
  have := trim_pad 0 0 s h
  simpa using this

theorem find_char_append (c : Char) (post : List Char) :
    ∀ pre : List Char, c ∉ pre → find_char (pre ++ c :: post) c = some pre.length
  | [], _ => by simp [find_char]
  | x :: pre, h => by
    have hx : x ≠ c := fun e => h (by simp [e])
    have hp : c ∉ pre := fun e => h (List.mem_cons_of_mem _ e)
    simp [find_char, hx, find_char_append c post pre hp]

theorem find_char_some (c : Char) :
    ∀ (l : List Char) (i : Nat), find_char l c = some i →
      ∃ pre post, l = pre ++ c :: post ∧ c ∉ pre ∧ pre.length = i
  | [], i, h => by simp [find_char] at h
  | x :: rest, i, h => by
    by_cases hx : x = c
    · simp only [find_char, if_pos hx, Option.some.injEq] at h
      exact ⟨[], rest, by simp [hx], by simp, by simpa using h⟩
    · simp only [find_char, if_neg hx, Option.map_eq_some'] at h
      obtain ⟨j, hj, hji⟩ := h
      obtain ⟨pre, post, hl, hc, hlen⟩ := find_char_some c rest j hj
      refine ⟨x :: pre, post, by simp [hl], ?_, by simp [hlen, hji]⟩
      intro hm
      rcases List.mem_cons.mp hm with h1 | h1
      · exact hx h1.symm
      · exact hc h1

theorem find_char_none (c : Char) (l : List Char) : find_char l c = none ↔ c ∉ l := by
  rw [← find_char_isSome c l]
  cases find_char l c <;> simp

theorem getLast?_cons_concat (x y : Char) (l : List Char) :
    (x :: (l ++ [y])).getLast? = some y := by
  rw [← List.cons_append, List.getLast?_concat]

theorem expect_quoted_ok (body : String) (line : Int) :
    expect_quoted ("\"" ++ body ++ "\"") line = .ok body := by
  have hl : ("\"" ++ body ++ "\"").toList = '"' :: (body.toList ++ ['"']) := by
    simp [String.toList]
  have ht : Trimmed ("\"" ++ body ++ "\"") := by
    unfold Trimmed
    rw [hl, getLast?_cons_concat]
    simp
  unfold expect_quoted
  simp only [trim_of_trimmed _ ht, hl]
  have h1 : ¬ ((('"' :: (body.toList ++ ['"'])).length < 2) ∨
      ('"' :: (body.toList ++ ['"'])).head? ≠ some '"' ∨
      ('"' :: (body.toList ++ ['"'])).getLast? ≠ some '"') := by
    rw [getLast?_cons_concat]
    simp
  rw [if_neg h1]
  congr 1
  apply String.ext
  simp [substr]

theorem expect_quoted_inv (t : String) (line : Int) (body : String) (ht : Trimmed t)
    (h : expect_quoted t line = .ok body) : t = "\"" ++ body ++ "\"" := by
  unfold expect_quoted at h
  simp only [trim_of_trimmed _ ht] at h
  by_cases hc : t.toList.length < 2 ∨ t.toList.head? ≠ some '"' ∨ t.toList.getLast? ≠ some '"'
  · rw [if_pos hc] at h
    cases h
  · rw [if_neg hc] at h
    injection h with h
    simp only [not_or, not_lt, ne_eq, not_not] at hc
    obtain ⟨hlen, hhead, hlast⟩ := hc
    apply String.ext
    rw [← h]
    obtain ⟨l⟩ := t
    simp only [String.toList] at *
    obtain ⟨ys, hys⟩ := List.getLast?_eq_some_iff.mp hlast
    cases ys with
    | nil =>
      rw [hys] at hlen
      simp at hlen
    | cons y ys =>
      rw [hys] at hhead
      simp only [List.cons_append, List.head?_cons, Option.some.injEq] at hhead
      subst hhead
      rw [hys]
      simp [substr]

theorem expect_quoted_error (t : String) (line : Int) (ht : Trimmed t)
    (h : t.toList.length < 2 ∨ t.toList.head? ≠ some '"' ∨ t.toList.getLast? ≠ some '"') :
    expect_quoted t line = .error ("Expected quoted string on line " ++ toString line) := by
  unfold expect_quoted
  simp only [trim_of_trimmed _ ht]
  rw [if_pos h]

theorem find_sub_arrow_head (tail : List Char) :
    find_sub ('-' :: '>' :: tail) ['-', '>'] = some 0 := by
  simp [find_sub]

theorem find_sub_arrow_append (tail : List Char) :
    ∀ (Rl : List Char), find_sub Rl ['-', '>'] = none →
      find_sub (Rl ++ ' ' :: '-' :: '>' :: tail) ['-', '>'] = some (Rl.length + 1)
  | [], _ => by simp [find_sub]
  | x :: xs, h => by
    have hp : List.isPrefixOf ['-', '>'] (x :: xs) = false := by
      by_contra hc
      simp only [Bool.not_eq_false] at hc
      simp [find_sub, hc] at h
    have hrest : find_sub xs ['-', '>'] = none := by
      simp only [find_sub, hp, Bool.false_eq_true, if_false, Option.map_eq_none'] at h
      exact h
    have ih := find_sub_arrow_append tail xs hrest
    have hp2 : List.isPrefixOf ['-', '>'] (x :: (xs ++ ' ' :: '-' :: '>' :: tail)) = false := by
      cases xs with
      | nil =>
        simp only [List.nil_append, List.isPrefixOf, Bool.and_true]
        have : ('>' == ' ') = false := by decide
        rw [this, Bool.and_false]
      | cons y ys =>
        simp only [List.isPrefixOf, Bool.and_true] at hp
        simp only [List.cons_append, List.isPrefixOf, Bool.and_true]
        exact hp
    rw [List.cons_append, find_sub, hp2]
    simp [ih]

theorem parse_value_expr_quoted (body : String) (line : Int) :
    parse_value_expr ("\"" ++ body ++ "\"") line = .ok ⟨.Literal, body⟩ := by
  have hl : ("\"" ++ body ++ "\"").toList = '"' :: (body.toList ++ ['"']) := by
    simp [String.toList]
  have ht : Trimmed ("\"" ++ body ++ "\"") := by
    unfold Trimmed
    rw [hl, getLast?_cons_concat]
    simp
  unfold parse_value_expr
  simp only [trim_of_trimmed _ ht, expect_quoted_ok, hl]
  simp

theorem trimmed_quoted (body : String) : Trimmed ("\"" ++ body ++ "\"") := by
  have hl : ("\"" ++ body ++ "\"").toList = '"' :: (body.toList ++ ['"']) := by
    simp [String.toList]
  unfold Trimmed
  rw [hl, getLast?_cons_concat]
  simp

theorem parse_target_current (k : String) (line : Int) :
    parse_target ("-> \"" ++ k ++ "\"") line = .ok ⟨none, k⟩ := by
  have hl : ("-> \"" ++ k ++ "\"").toList = '-' :: '>' :: ' ' :: '"' :: (k.toList ++ ['"']) := by
    simp [String.toList]
  have ht : Trimmed ("-> \"" ++ k ++ "\"") := by
    unfold Trimmed
    rw [hl]
    constructor
    · simp
    · rw [show '-' :: '>' :: ' ' :: '"' :: (k.toList ++ ['"']) =
        ('-' :: '>' :: ' ' :: '"' :: k.toList) ++ ['"'] by simp, List.getLast?_concat]
      simp
  have hright : trim (String.mk (' ' :: '"' :: (k.toList ++ ['"']))) = "\"" ++ k ++ "\"" := by
    have := trim_pad 1 0 ("\"" ++ k ++ "\"") (trimmed_quoted k)
    simpa [String.toList] using this
  have hleft : trim (String.mk (substr ('-' :: '>' :: ' ' :: '"' :: (k.toList ++ ['"'])) 0 0))
      = "" := by
    simp [substr]
    rfl
  unfold parse_target
  simp only [trim_of_trimmed _ ht, hl, find_sub_arrow_head]
  simp only [hleft, zero_add, List.drop_succ_cons, List.drop_zero, hright, expect_quoted_ok]
  simp

theorem parse_target_named (R k : String) (line : Int) (hR : Trimmed R) (hne : R ≠ "")
    (har : find_sub R.toList ['-', '>'] = none) :
    parse_target (R ++ " -> \"" ++ k ++ "\"") line = .ok ⟨some R, k⟩ := by
  have hl : (R ++ " -> \"" ++ k ++ "\"").toList =
      R.toList ++ ' ' :: '-' :: '>' :: ' ' :: '"' :: (k.toList ++ ['"']) := by
    simp [String.toList]
  have hRl : R.toList ≠ [] := fun e => hne (String.ext e)
  have ht : Trimmed (R ++ " -> \"" ++ k ++ "\"") := by
    unfold Trimmed
    rw [hl]
    constructor
    · rw [List.head?_append_of_ne_nil _ hRl]
      exact hR.1
    · rw [show R.toList ++ ' ' :: '-' :: '>' :: ' ' :: '"' :: (k.toList ++ ['"']) =
        (R.toList ++ ' ' :: '-' :: '>' :: ' ' :: '"' :: k.toList) ++ ['"'] by simp,
        List.getLast?_concat]
      simp
  have hright : trim (String.mk (' ' :: '"' :: (k.toList ++ ['"']))) = "\"" ++ k ++ "\"" := by
    have := trim_pad 1 0 ("\"" ++ k ++ "\"") (trimmed_quoted k)
    simpa [String.toList] using this
  have hleft : trim (String.mk (R.toList ++ [' '])) = R := by
    have := trim_pad 0 1 R hR
    simpa using this
  have hsub : substr (R.toList ++ ' ' :: '-' :: '>' :: ' ' :: '"' :: (k.toList ++ ['"'])) 0
      (R.toList.length + 1) = R.toList ++ [' '] := by
    rw [show R.toList ++ ' ' :: '-' :: '>' :: ' ' :: '"' :: (k.toList ++ ['"']) =
      (R.toList ++ [' ']) ++ '-' :: '>' :: ' ' :: '"' :: (k.toList ++ ['"']) by simp]
    simp only [substr, List.drop_zero]
    rw [List.take_left' (by simp)]
  have hdrop : List.drop (R.toList.length + 1 + 2)
      (R.toList ++ ' ' :: '-' :: '>' :: ' ' :: '"' :: (k.toList ++ ['"'])) =
      ' ' :: '"' :: (k.toList ++ ['"']) := by
    rw [show R.toList ++ ' ' :: '-' :: '>' :: ' ' :: '"' :: (k.toList ++ ['"']) =
      (R.toList ++ [' ', '-', '>']) ++ ' ' :: '"' :: (k.toList ++ ['"']) by simp]
    rw [List.drop_left' (by simp)]
  have hR2 : R ≠ "->" := by
    intro e
    rw [e] at har
    simp [find_sub] at har
  unfold parse_target
  simp only [trim_of_trimmed _ ht, hl, find_sub_arrow_append _ _ har, hsub, hleft, hdrop,
    hright, expect_quoted_ok]
  simp [hne, hR2]

theorem trimmed_append (a b : String) (ha : a.toList.head? ≠ some ' ') (hane : a ≠ "")
    (hb : b.toList.getLast? ≠ some ' ') (hbne : b ≠ "") (mid : String) :
    Trimmed (a ++ mid ++ b) := by
  have hal : a.toList ≠ [] := fun e => hane (String.ext e)
  have hbl : b.toList ≠ [] := fun e => hbne (String.ext e)
  have hl : (a ++ mid ++ b).toList = a.toList ++ (mid.toList ++ b.toList) := by
    simp [String.toList]
  unfold Trimmed
  rw [hl]
  constructor
  · rw [List.head?_append_of_ne_nil _ hal]
    exact ha
  · rw [← List.append_assoc, List.getLast?_append]
    obtain ⟨y, hy⟩ := Option.ne_none_iff_exists'.mp
      (fun e => hbl (List.getLast?_eq_none_iff.mp e))
    rw [hy]
    rw [hy] at hb
    simpa using hb

/-- The split of `target = value` at its first `=`, as the `store` and `replace` branches
of `parse_statement` compute it. -/
theorem split_at_equals (tgt val : String) (hT : Trimmed tgt) (htne : tgt ≠ "")
    (heq : '=' ∉ tgt.toList) (hV : Trimmed val) (hvne : val ≠ "") :
    trim (tgt ++ " = " ++ val) = tgt ++ " = " ++ val ∧
    find_char (tgt ++ " = " ++ val).toList '=' = some (tgt.toList.length + 1) ∧
    trim (String.mk (substr (tgt ++ " = " ++ val).toList 0 (tgt.toList.length + 1))) = tgt ∧
    trim (substrFrom (tgt ++ " = " ++ val) (tgt.toList.length + 1 + 1)) = val := by
  have hl : (tgt ++ " = " ++ val).toList = tgt.toList ++ ' ' :: '=' :: ' ' :: val.toList := by
    simp [String.toList]
  refine ⟨trim_of_trimmed _ (trimmed_append tgt val hT.1 htne hV.2 hvne " = "), ?_, ?_, ?_⟩
  · rw [hl, show tgt.toList ++ ' ' :: '=' :: ' ' :: val.toList =
      (tgt.toList ++ [' ']) ++ '=' :: (' ' :: val.toList) by simp]
    have hpre : '=' ∉ tgt.toList ++ [' '] := by
      intro hm
      rcases List.mem_append.mp hm with h | h
      · exact heq h
      · simp at h
    have := find_char_append '=' (' ' :: val.toList) (tgt.toList ++ [' ']) hpre
    simpa using this
  · rw [hl, show tgt.toList ++ ' ' :: '=' :: ' ' :: val.toList =
      (tgt.toList ++ [' ']) ++ '=' :: (' ' :: val.toList) by simp]
    simp only [substr, List.drop_zero]
    rw [List.take_left' (by simp)]
    have := trim_pad 0 1 tgt hT
    simpa using this
  · unfold substrFrom
    rw [hl, show tgt.toList ++ ' ' :: '=' :: ' ' :: val.toList =
      (tgt.toList ++ [' ', '=']) ++ (' ' :: val.toList) by simp]
    rw [List.drop_left' (by simp)]
    have := trim_pad 1 0 val hV
    simpa using this

theorem parse_store_line (tgt val : String) (number : Int) (hT : Trimmed tgt) (htne : tgt ≠ "")
    (heq : '=' ∉ tgt.toList) (hV : Trimmed val) (hvne : val ≠ "") :
    parse_simple_statement ("store " ++ (tgt ++ " = " ++ val)) number =
      match parse_target tgt number with
      | .error e => .error e
      | .ok target =>
        match parse_value_expr val number with
        | .error e => .error e
        | .ok value => .ok (.mk .Store number "" target value IfStmt.empty "") := by
  obtain ⟨h1, h2, h3, h4⟩ := split_at_equals tgt val hT htne heq hV hvne
  have hreg : starts_with ("store " ++ (tgt ++ " = " ++ val)) "registry " = false :=
    starts_with_false "store ".toList "registry ".toList _ rfl
  have hst : starts_with ("store " ++ (tgt ++ " = " ++ val)) "store " = true :=
    starts_with_append _ _
  have hsub : substrFrom ("store " ++ (tgt ++ " = " ++ val)) 6 = tgt ++ " = " ++ val := by
    apply String.ext
    simp [substrFrom, String.toList]
  unfold parse_simple_statement
  simp only [hreg, hst, Bool.false_eq_true, if_false, if_true, hsub, h1, h2, h3, h4]

theorem parse_replace_line (tgt val : String) (number : Int) (hT : Trimmed tgt)
    (htne : tgt ≠ "") (heq : '=' ∉ tgt.toList) (hV : Trimmed val) (hvne : val ≠ "") :
    parse_simple_statement ("replace " ++ (tgt ++ " = " ++ val)) number =
      match parse_target tgt number with
      | .error e => .error e
      | .ok target =>
        match parse_value_expr val number with
        | .error e => .error e
        | .ok value => .ok (.mk .Replace number "" target value IfStmt.empty "") := by
  obtain ⟨h1, h2, h3, h4⟩ := split_at_equals tgt val hT htne heq hV hvne
  have hreg : starts_with ("replace " ++ (tgt ++ " = " ++ val)) "registry " = false :=
    starts_with_false "replace ".toList "registry ".toList _ rfl
  have hsto : starts_with ("replace " ++ (tgt ++ " = " ++ val)) "store " = false :=
    starts_with_false "replace ".toList "store ".toList _ rfl
  have hst : starts_with ("replace " ++ (tgt ++ " = " ++ val)) "replace " = true :=
    starts_with_append _ _
  have hsub : substrFrom ("replace " ++ (tgt ++ " = " ++ val)) 8 = tgt ++ " = " ++ val := by
    apply String.ext
    simp [substrFrom, String.toList]
  unfold parse_simple_statement
  simp only [hreg, hsto, hst, Bool.false_eq_true, if_false, if_true, hsub, h1, h2, h3, h4]

theorem Parser.parse_statement_simple (lines : List Line) (fuel pos : Nat) (line : Line)
    (hl : lines[pos]? = some line) (hif : starts_with (trim line.text) "if " = false) :
    Parser.parse_statement lines (fuel + 1) pos =
      match parse_simple_statement (trim line.text) line.number with
      | .error e => .throw e pos
      | .ok s => .ok s (pos + 1) := by
  rw [Parser.parse_statement]
  simp only [hl, hif, Bool.false_eq_true, if_false]
  by_cases hr : starts_with (trim line.text) "registry " = true
  · rw [if_pos hr]
  · rw [if_neg hr]

theorem trimmed_statement_line (pre tgt val : String) (hp : pre.toList.head? ≠ some ' ')
    (hpne : pre ≠ "") (hV : Trimmed val) (hvne : val ≠ "") :
    Trimmed (pre ++ (tgt ++ " = " ++ val)) := by
  have : pre ++ (tgt ++ " = " ++ val) = pre ++ (tgt ++ " = ") ++ val := by
    simp only [String.append_assoc]
  rw [this]
  exact trimmed_append pre val hp hpne hV.2 hvne _

theorem trim_subset (s : String) (c : Char) (h : c ∈ (trim s).toList) : c ∈ s.toList := by
  unfold trim at h
  cases hf : find_first_not_of s.toList ' ' with
  | none =>
    rw [hf] at h
    exact absurd h (List.not_mem_nil c)
  | some start =>
    cases hl : find_last_not_of s.toList ' ' with
    | none =>
      rw [hf, hl] at h
      exact absurd h (List.not_mem_nil c)
    | some last =>
      rw [hf, hl] at h
      exact List.mem_of_mem_drop (List.mem_of_mem_take h)

theorem starts_with_data (s p : String) (h : starts_with s p = true) :
    ∃ rest : String, s = p ++ rest := by
  unfold starts_with at h
  rw [List.isPrefixOf_iff_prefix] at h
  obtain ⟨t, ht⟩ := h
  exact ⟨String.mk t, String.ext (by simpa [String.toList] using ht.symm)⟩

theorem parse_statement_no_equals (text : String) (number : Int)
    (hst : starts_with text "store " = true ∨ starts_with text "replace " = true)
    (hno : '=' ∉ text.toList) :
    parse_simple_statement text number =
      .error ("Missing \x27=\x27 on line " ++ toString number) := by
  have hfind : ∀ n, find_char (trim (substrFrom text n)).toList '=' = none := by
    intro n
    rw [find_char_none]
    intro hm
    have h1 := trim_subset _ _ hm
    exact hno (List.mem_of_mem_drop h1)
  rcases hst with hst | hst
  · obtain ⟨rest, hrest⟩ := starts_with_data _ _ hst
    have hreg : starts_with text "registry " = false := by
      rw [hrest]
      exact starts_with_false "store ".toList "registry ".toList _ rfl
    unfold parse_simple_statement
    simp only [hreg, hst, Bool.false_eq_true, if_false, if_true, hfind]
  · obtain ⟨rest, hrest⟩ := starts_with_data _ _ hst
    have hreg : starts_with text "registry " = false := by
      rw [hrest]
      exact starts_with_false "replace ".toList "registry ".toList _ rfl
    have hsto : starts_with text "store " = false := by
      rw [hrest]
      exact starts_with_false "replace ".toList "store ".toList _ rfl
    unfold parse_simple_statement
    simp only [hreg, hsto, hst, Bool.false_eq_true, if_false, if_true, hfind]

theorem parse_target_no_arrow (tgt : String) (line : Int) (hT : Trimmed tgt)
    (h : find_sub tgt.toList ['-', '>'] = none) :
    parse_target tgt line =
      .error ("Expected \x27->\x27 in target on line " ++ toString line) := by
  unfold parse_target
  simp only [trim_of_trimmed _ hT, h]

theorem trimmed_target (R k : String) (hR : R.toList.head? ≠ some ' ') (hne : R ≠ "") :
    Trimmed (R ++ " -> \"" ++ k ++ "\"") := by
  have := trimmed_append R "\"" hR hne (by decide) (by decide) (" -> \"" ++ k)
  simpa only [String.append_assoc] using this

theorem no_equals_target (R k : String) (hR : '=' ∉ R.toList) (hk : '=' ∉ k.toList) :
    '=' ∉ (R ++ " -> \"" ++ k ++ "\"").toList := by
  have hl : (R ++ " -> \"" ++ k ++ "\"").toList =
      R.toList ++ ' ' :: '-' :: '>' :: ' ' :: '"' :: (k.toList ++ ['"']) := by
    simp [String.toList]
  rw [hl]
  intro hm
  simp only [List.mem_append, List.mem_cons, List.mem_singleton] at hm
  rcases hm with h | h | h | h | h | h | h | h
  · exact hR h
  · exact absurd h (by decide)
  · exact absurd h (by decide)
  · exact absurd h (by decide)
  · exact absurd h (by decide)
  · exact absurd h (by decide)
  · exact hk h
  · exact absurd h (by decide)

/-! ## Lemmas on the parser: progress, recursion budget and block lines -/

theorem parse_simple_statement_line (text : String) (number : Int) (s : Statement)
    (h : parse_simple_statement text number = .ok s) : s.line = number := by
  unfold parse_simple_statement at h
  dsimp only at h
  repeat' split at h
  all_goals first | (injection h with h; rw [← h]; rfl) | cases h

/-- The cursor only moves forward: a block ends at or after its start, and a statement
ends after the line it starts on, whose number it carries. -/
theorem Parser.parse_forward (lines : List Line) : ∀ (fuel : Nat),
    (∀ (pos : Nat) (indent : Int) (stmts out : List Statement) (pos1 : Nat),
      Parser.parse_block lines fuel pos indent stmts = .ok out pos1 → pos ≤ pos1) ∧
    (∀ (pos : Nat) (s : Statement) (pos1 : Nat),
      Parser.parse_statement lines fuel pos = .ok s pos1 →
        pos + 1 ≤ pos1 ∧ ∃ l, lines[pos]? = some l ∧ s.line = l.number)
  | 0 => by
    constructor
    · intro pos indent stmts out pos1 h
      simp [Parser.parse_block] at h
    · intro pos s pos1 h
      simp [Parser.parse_statement] at h
  | fuel + 1 => by
    obtain ⟨ihb, ihs⟩ := Parser.parse_forward lines fuel
    constructor
    · intro pos indent stmts out pos1 h
      rw [Parser.parse_block] at h
      cases hl : lines[pos]? with
      | none =>
        simp only [hl] at h
        injection h with _ h2
        omega
      | some line =>
        simp only [hl] at h
        by_cases hb : trim line.text = ""
        · rw [if_pos hb] at h
          have := ihb _ _ _ _ _ h
          omega
        · rw [if_neg hb] at h
          by_cases hlt : line.indent < indent
          · rw [if_pos hlt] at h
            injection h with _ h2
            omega
          · rw [if_neg hlt] at h
            by_cases hne : line.indent ≠ indent
            · rw [if_pos hne] at h
              cases h
            · rw [if_neg hne] at h
              cases hs : Parser.parse_statement lines fuel pos with
              | exhausted => simp [hs] at h
              | throw e p => simp [hs] at h
              | ok parsed p =>
                simp only [hs] at h
                have h1 := (ihs _ _ _ hs).1
                have h2 := ihb _ _ _ _ _ h
                omega
    · intro pos s pos1 h
      rw [Parser.parse_statement] at h
      cases hl : lines[pos]? with
      | none => simp [hl] at h
      | some line =>
        simp only [hl] at h
        by_cases hr : starts_with (trim line.text) "registry " = true
        · rw [if_pos hr] at h
          cases hp : parse_simple_statement (trim line.text) line.number with
          | error e => simp [hp] at h
          | ok s1 =>
            simp only [hp, PResult.ok.injEq] at h
            obtain ⟨h1, h2⟩ := h
            subst h1
            exact ⟨by omega, line, rfl, parse_simple_statement_line _ _ _ hp⟩
        · rw [if_neg hr] at h
          by_cases hi : starts_with (trim line.text) "if " = true
          · rw [if_pos hi] at h
            cases hh : parse_if_head (trim line.text) line.number with
            | error e => simp [hh] at h
            | ok head =>
              obtain ⟨isMissing, target⟩ := head
              simp only [hh] at h
              cases hb : Parser.parse_block lines fuel (pos + 1) (line.indent + 2) [] with
              | exhausted => simp [hb] at h
              | throw e p => simp [hb] at h
              | ok body p =>
                simp only [hb, PResult.ok.injEq] at h
                obtain ⟨h1, h2⟩ := h
                subst h1
                have := ihb _ _ _ _ _ hb
                exact ⟨by omega, line, rfl, rfl⟩
          · rw [if_neg hi] at h
            cases hp : parse_simple_statement (trim line.text) line.number with
            | error e => simp [hp] at h
            | ok s1 =>
              simp only [hp, PResult.ok.injEq] at h
              obtain ⟨h1, h2⟩ := h
              subst h1
              exact ⟨by omega, line, rfl, parse_simple_statement_line _ _ _ hp⟩

/-- The recursion budget is enough: with twice the number of lines left plus one, a block
does not run out, and with twice the number of lines left neither does a statement. -/
theorem Parser.parse_adequate (lines : List Line) : ∀ (fuel : Nat),
    (∀ (pos : Nat) (indent : Int) (stmts : List Statement),
      2 * (lines.length - pos) + 1 ≤ fuel →
      Parser.parse_block lines fuel pos indent stmts ≠ .exhausted) ∧
    (∀ (pos : Nat), pos < lines.length → 2 * (lines.length - pos) ≤ fuel →
      Parser.parse_statement lines fuel pos ≠ .exhausted)
  | 0 => by
    constructor
    · intro pos indent stmts h
      omega
    · intro pos hp h
      omega
  | fuel + 1 => by
    obtain ⟨ihb, ihs⟩ := Parser.parse_adequate lines fuel
    constructor
    · intro pos indent stmts hf
      rw [Parser.parse_block]
      cases hl : lines[pos]? with
      | none => simp
      | some line =>
        have hpos : pos < lines.length := by
          by_contra hc
          rw [List.getElem?_eq_none (by omega)] at hl
          cases hl
        simp only
        by_cases hb : trim line.text = ""
        · rw [if_pos hb]
          exact ihb _ _ _ (by omega)
        · rw [if_neg hb]
          by_cases hlt : line.indent < indent
          · rw [if_pos hlt]
            simp
          · rw [if_neg hlt]
            by_cases hne : line.indent ≠ indent
            · rw [if_pos hne]
              simp
            · rw [if_neg hne]
              cases hs : Parser.parse_statement lines fuel pos with
              | exhausted => exact absurd hs (ihs pos hpos (by omega))
              | throw e p => simp
              | ok parsed p =>
                have h1 := ((Parser.parse_forward lines fuel).2 _ _ _ hs).1
                exact ihb _ _ _ (by omega)
    · intro pos hpos hf
      rw [Parser.parse_statement]
      cases hl : lines[pos]? with
      | none => simp
      | some line =>
        simp only
        by_cases hr : starts_with (trim line.text) "registry " = true
        · rw [if_pos hr]
          cases parse_simple_statement (trim line.text) line.number <;> simp
        · rw [if_neg hr]
          by_cases hi : starts_with (trim line.text) "if " = true
          · rw [if_pos hi]
            cases hh : parse_if_head (trim line.text) line.number with
            | error e => simp
            | ok head =>
              obtain ⟨isMissing, target⟩ := head
              simp only
              cases hb : Parser.parse_block lines fuel (pos + 1) (line.indent + 2) [] with
              | exhausted => exact absurd hb (ihb _ _ _ (by omega))
              | throw e p => simp
              | ok body p => simp
          · rw [if_neg hi]
            cases parse_simple_statement (trim line.text) line.number <;> simp

theorem Parser.parse_vault_forward (lines : List Line) (fuel pos pos1 : Nat)
    (vault : VaultBlock) (h : Parser.parse_vault lines fuel pos = .ok vault pos1) :
    pos + 1 ≤ pos1 ∧ vault.name ≠ "" := by
  unfold Parser.parse_vault at h
  cases hl : lines[pos]? with
  | none => simp [hl] at h
  | some line =>
    simp only [hl] at h
    split at h
    · cases h
    · rename_i optional name hhead
      by_cases hn : name = ""
      · rw [if_pos hn] at h
        cases h
      · rw [if_neg hn] at h
        cases hb : Parser.parse_block lines fuel (pos + 1) (line.indent + 2) [] with
        | exhausted => simp [hb] at h
        | throw e p => simp [hb] at h
        | ok body p =>
          simp only [hb] at h
          split at h
          · cases h
          · injection h with h1 h2
            subst h2
            have := (Parser.parse_forward lines fuel).1 _ _ _ _ _ hb
            refine ⟨by omega, ?_⟩
            rw [← h1]
            exact hn

theorem Parser.parse_vault_adequate (lines : List Line) (fuel pos : Nat)
    (hf : 2 * (lines.length - (pos + 1)) + 1 ≤ fuel) :
    Parser.parse_vault lines fuel pos ≠ .exhausted := by
  unfold Parser.parse_vault
  cases hl : lines[pos]? with
  | none => simp
  | some line =>
    simp only
    split
    · simp
    · rename_i optional name hhead
      by_cases hn : name = ""
      · rw [if_pos hn]
        simp
      · rw [if_neg hn]
        cases hb : Parser.parse_block lines fuel (pos + 1) (line.indent + 2) [] with
        | exhausted => exact absurd hb ((Parser.parse_adequate lines fuel).1 _ _ _ hf)
        | throw e p => simp
        | ok body p =>
          simp only
          split <;> simp

theorem Parser.parse_loop_adequate (lines : List Line) (blockFuel : Nat)
    (hb : 2 * lines.length + 1 ≤ blockFuel) :
    ∀ (fuel pos : Nat) (program : List VaultBlock), lines.length - pos + 1 ≤ fuel →
      Parser.parse_loop lines blockFuel fuel pos program ≠ .exhausted
  | 0, pos, program, h => by omega
  | fuel + 1, pos, program, h => by
    rw [Parser.parse_loop]
    cases hl : lines[pos]? with
    | none => simp
    | some line =>
      have hpos : pos < lines.length := by
        by_contra hc
        rw [List.getElem?_eq_none (by omega)] at hl
        cases hl
      simp only
      by_cases hbl : trim line.text = ""
      · rw [if_pos hbl]
        exact Parser.parse_loop_adequate lines blockFuel hb fuel _ _ (by omega)
      · rw [if_neg hbl]
        by_cases hi : line.indent ≠ 0
        · rw [if_pos hi]
          simp
        · rw [if_neg hi]
          cases hv : Parser.parse_vault lines blockFuel pos with
          | exhausted =>
            exact absurd hv (Parser.parse_vault_adequate lines blockFuel pos (by omega))
          | throw e p => simp
          | ok vault p =>
            have := (Parser.parse_vault_forward lines blockFuel pos p vault hv).1
            exact Parser.parse_loop_adequate lines blockFuel hb fuel _ _ (by omega)

/-- The method `Parser::parse` always returns or throws: its budget is never used up. -/
theorem Parser.parse_total (lines : List Line) : Parser.parse lines ≠ .exhausted :=
  Parser.parse_loop_adequate lines _ (le_refl _) _ 0 [] (by omega)

theorem Parser.parse_loop_named (lines : List Line) (blockFuel : Nat) :
    ∀ (fuel pos pos1 : Nat) (acc program : List VaultBlock),
      (∀ b ∈ acc, b.name ≠ "") →
      Parser.parse_loop lines blockFuel fuel pos acc = .ok program pos1 →
      ∀ b ∈ program, b.name ≠ ""
  | 0, pos, pos1, acc, program, _, h => by simp [Parser.parse_loop] at h
  | fuel + 1, pos, pos1, acc, program, hacc, h => by
    rw [Parser.parse_loop] at h
    cases hl : lines[pos]? with
    | none =>
      simp only [hl] at h
      injection h with h1 _
      subst h1
      exact hacc
    | some line =>
      simp only [hl] at h
      by_cases hbl : trim line.text = ""
      · rw [if_pos hbl] at h
        exact Parser.parse_loop_named lines blockFuel fuel _ _ _ _ hacc h
      · rw [if_neg hbl] at h
        by_cases hi : line.indent ≠ 0
        · rw [if_pos hi] at h
          cases h
        · rw [if_neg hi] at h
          cases hv : Parser.parse_vault lines blockFuel pos with
          | exhausted => simp [hv] at h
          | throw e p => simp [hv] at h
          | ok vault p =>
            simp only [hv] at h
            refine Parser.parse_loop_named lines blockFuel fuel _ _ _ _ ?_ h
            intro b hb
            rcases List.mem_append.mp hb with hb1 | hb1
            · exact hacc b hb1
            · rw [List.mem_singleton] at hb1
              rw [hb1]
              exact (Parser.parse_vault_forward lines blockFuel pos p vault hv).2

/-- The statements a block adds to `stmts` are each parsed from a non-blank line of the
block, between its start and its end, whose indent is the indent of the block. -/
theorem Parser.parse_block_lines (lines : List Line) (indent : Int) :
    ∀ (fuel pos : Nat) (stmts out : List Statement) (pos1 : Nat),
      Parser.parse_block lines fuel pos indent stmts = .ok out pos1 →
      ∃ added, out = stmts ++ added ∧
        ∀ s ∈ added, ∃ (p : Nat) (l : Line), pos ≤ p ∧ p < pos1 ∧ lines[p]? = some l ∧
          l.indent = indent ∧ trim l.text ≠ "" ∧ s.line = l.number
  | 0, pos, stmts, out, pos1, h => by simp [Parser.parse_block] at h
  | fuel + 1, pos, stmts, out, pos1, h => by
    rw [Parser.parse_block] at h
    cases hl : lines[pos]? with
    | none =>
      simp only [hl] at h
      injection h with h1 _
      exact ⟨[], by simp [h1], by simp⟩
    | some line =>
      simp only [hl] at h
      by_cases hb : trim line.text = ""
      · rw [if_pos hb] at h
        obtain ⟨added, ha, hall⟩ := Parser.parse_block_lines lines indent fuel _ _ _ _ h
        refine ⟨added, ha, ?_⟩
        intro s hs
        obtain ⟨p, l, h1, h2, h3⟩ := hall s hs
        exact ⟨p, l, by omega, h2, h3⟩
      · rw [if_neg hb] at h
        by_cases hlt : line.indent < indent
        · rw [if_pos hlt] at h
          injection h with h1 _
          exact ⟨[], by simp [h1], by simp⟩
        · rw [if_neg hlt] at h
          by_cases hne : line.indent ≠ indent
          · rw [if_pos hne] at h
            cases h
          · rw [if_neg hne] at h
            cases hs : Parser.parse_statement lines fuel pos with
            | exhausted => simp [hs] at h
            | throw e p => simp [hs] at h
            | ok parsed p1 =>
              simp only [hs] at h
              obtain ⟨hfw, l0, hl0, hline⟩ := (Parser.parse_forward lines fuel).2 _ _ _ hs
              have hend := (Parser.parse_forward lines fuel).1 _ _ _ _ _ h
              obtain ⟨added, ha, hall⟩ := Parser.parse_block_lines lines indent fuel _ _ _ _ h
              refine ⟨parsed :: added, by simp [ha], ?_⟩
              intro s hs2
              rcases List.mem_cons.mp hs2 with h1 | h1
              · subst h1
                rw [hl] at hl0
                injection hl0 with hl0
                subst hl0
                exact ⟨pos, line, le_refl _, by omega, hl, not_not.mp hne, hb, hline⟩
              · obtain ⟨p, l, h2, h3, h4⟩ := hall s h1
                exact ⟨p, l, by omega, h3, h4⟩

theorem parse_simple_statement_body (text : String) (number : Int) (s : Statement)
    (h : parse_simple_statement text number = .ok s) : s.conditional.body = [] := by
  unfold parse_simple_statement at h
  dsimp only at h
  repeat' split at h
  all_goals first | (injection h with h; rw [← h]; rfl) | cases h

/-- The statements of the body of an `if` are parsed from lines whose indent is that of
the `if` line plus two. -/
theorem Parser.parse_statement_body_lines (lines : List Line) (fuel pos pos1 : Nat)
    (s : Statement) (line : Line) (hl : lines[pos]? = some line)
    (h : Parser.parse_statement lines fuel pos = .ok s pos1) :
    ∀ x ∈ s.conditional.body, ∃ (p : Nat) (l : Line), pos < p ∧ p < pos1 ∧
      lines[p]? = some l ∧ l.indent = line.indent + 2 ∧ trim l.text ≠ "" ∧
      x.line = l.number := by
  cases fuel with
  | zero => simp [Parser.parse_statement] at h
  | succ fuel =>
    rw [Parser.parse_statement] at h
    simp only [hl] at h
    by_cases hr : starts_with (trim line.text) "registry " = true
    · rw [if_pos hr] at h
      cases hp : parse_simple_statement (trim line.text) line.number with
      | error e => simp [hp] at h
      | ok s1 =>
        simp only [hp, PResult.ok.injEq] at h
        rw [← h.1, parse_simple_statement_body _ _ _ hp]
        simp
    · rw [if_neg hr] at h
      by_cases hi : starts_with (trim line.text) "if " = true
      · rw [if_pos hi] at h
        cases hh : parse_if_head (trim line.text) line.number with
        | error e => simp [hh] at h
        | ok head =>
          obtain ⟨isMissing, target⟩ := head
          simp only [hh] at h
          cases hb : Parser.parse_block lines fuel (pos + 1) (line.indent + 2) [] with
          | exhausted => simp [hb] at h
          | throw e p => simp [hb] at h
          | ok body p =>
            simp only [hb, PResult.ok.injEq] at h
            obtain ⟨h1, h2⟩ := h
            subst h1 h2
            obtain ⟨added, ha, hall⟩ := Parser.parse_block_lines lines _ fuel _ _ _ _ hb
            simp only [List.nil_append] at ha
            subst ha
            intro x hx
            obtain ⟨q, l, h3, h4, h5⟩ := hall x hx
            exact ⟨q, l, by omega, h4, h5⟩
      · rw [if_neg hi] at h
        cases hp : parse_simple_statement (trim line.text) line.number with
        | error e => simp [hp] at h
        | ok s1 =>
          simp only [hp, PResult.ok.injEq] at h
          rw [← h.1, parse_simple_statement_body _ _ _ hp]
          simp

theorem Parser.parse_vault_body_lines (lines : List Line) (fuel pos pos1 : Nat)
    (vault : VaultBlock) (line : Line) (hl : lines[pos]? = some line)
    (h : Parser.parse_vault lines fuel pos = .ok vault pos1) :
    ∀ s ∈ vault.body, ∃ (p : Nat) (l : Line), pos < p ∧ p < pos1 ∧ lines[p]? = some l ∧
      l.indent = line.indent + 2 ∧ trim l.text ≠ "" ∧ s.line = l.number := by
  unfold Parser.parse_vault at h
  simp only [hl] at h
  split at h
  · cases h
  · rename_i optional name hhead
    by_cases hn : name = ""
    · rw [if_pos hn] at h
      cases h
    · rw [if_neg hn] at h
      cases hb : Parser.parse_block lines fuel (pos + 1) (line.indent + 2) [] with
      | exhausted => simp [hb] at h
      | throw e p => simp [hb] at h
      | ok body p =>
        simp only [hb] at h
        split at h
        · cases h
        · injection h with h1 h2
          subst h2
          obtain ⟨added, ha, hall⟩ := Parser.parse_block_lines lines _ fuel _ _ _ _ hb
          simp only [List.nil_append] at ha
          subst ha
          rw [← h1]
          intro x hx
          obtain ⟨q, l, h3, h4, h5⟩ := hall x hx
          exact ⟨q, l, by omega, h4, h5⟩

theorem Parser.parse_loop_body_lines (lines : List Line) (blockFuel : Nat) :
    ∀ (fuel pos pos1 : Nat) (acc program : List VaultBlock),
      (∀ b ∈ acc, ∀ s ∈ b.body, ∃ (p : Nat) (l : Line), lines[p]? = some l ∧ l.indent = 2 ∧
        trim l.text ≠ "" ∧ s.line = l.number) →
      Parser.parse_loop lines blockFuel fuel pos acc = .ok program pos1 →
      ∀ b ∈ program, ∀ s ∈ b.body, ∃ (p : Nat) (l : Line), lines[p]? = some l ∧
        l.indent = 2 ∧ trim l.text ≠ "" ∧ s.line = l.number
  | 0, pos, pos1, acc, program, _, h => by simp [Parser.parse_loop] at h
  | fuel + 1, pos, pos1, acc, program, hacc, h => by
    rw [Parser.parse_loop] at h
    cases hl : lines[pos]? with
    | none =>
      simp only [hl] at h
      injection h with h1 _
      subst h1
      exact hacc
    | some line =>
      simp only [hl] at h
      by_cases hbl : trim line.text = ""
      · rw [if_pos hbl] at h
        exact Parser.parse_loop_body_lines lines blockFuel fuel _ _ _ _ hacc h
      · rw [if_neg hbl] at h
        by_cases hi : line.indent ≠ 0
        · rw [if_pos hi] at h
          cases h
        · rw [if_neg hi] at h
          cases hv : Parser.parse_vault lines blockFuel pos with
          | exhausted => simp [hv] at h
          | throw e p => simp [hv] at h
          | ok vault p =>
            simp only [hv] at h
            refine Parser.parse_loop_body_lines lines blockFuel fuel _ _ _ _ ?_ h
            intro b hb
            rcases List.mem_append.mp hb with hb1 | hb1
            · exact hacc b hb1
            · rw [List.mem_singleton] at hb1
              rw [hb1]
              intro s hs
              obtain ⟨q, l, _, _, h3, h4, h5⟩ :=
                Parser.parse_vault_body_lines lines blockFuel pos p vault line hl hv s hs
              refine ⟨q, l, h3, ?_, h5⟩
              rw [h4, not_not.mp hi]
              rfl

/-! ## Lemmas on what a run preserves of the seeded vaults -/

theorem Interpreter.vaultsRel_of_eq {Q : SealedVault → SealedVault → Prop}
    (hrefl : ∀ v, Q v v) {st st2 : Interpreter} (h : st2.byName_ = st.byName_) :
    Interpreter.VaultsRel Q st st2 := by
  intro n v hv
  exact ⟨v, by rw [h]; exact hv, hrefl v⟩

theorem Interpreter.vaultsRel_trans {Q : SealedVault → SealedVault → Prop}
    (htrans : ∀ a b c, Q a b → Q b c → Q a c) {a b c : Interpreter}
    (h1 : Interpreter.VaultsRel Q a b) (h2 : Interpreter.VaultsRel Q b c) :
    Interpreter.VaultsRel Q a c := by
  intro n v hv
  obtain ⟨v2, hv2, hq⟩ := h1 n v hv
  obtain ⟨v3, hv3, hq2⟩ := h2 n v2 hv2
  exact ⟨v3, hv3, htrans _ _ _ hq hq2⟩

theorem Interpreter.vaultsRel_assign {Q : SealedVault → SealedVault → Prop}
    (hrefl : ∀ v, Q v v) (st st2 : Interpreter) (name : String) (v2 : SealedVault)
    (h2 : st2.byName_ = Map.assign st.byName_ name v2)
    (hq : ∀ v, Map.find st.byName_ name = some v → Q v v2) :
    Interpreter.VaultsRel Q st st2 := by
  intro n v hv
  rw [h2]
  by_cases hn : n = name
  · subst hn
    exact ⟨v2, Map.find_assign_same _ _ _, hq v hv⟩
  · exact ⟨v, by rw [Map.find_assign_other _ _ _ _ hn]; exact hv, hrefl v⟩

theorem Statement.has_type {p : StatementType → Bool} {s : Statement}
    (h : Statement.has p s = false) : p s.type = false := by
  obtain ⟨type, line, registryName, target, value, ⟨isMissing, ctarget, body⟩, note⟩ := s
  simp only [Statement.has, Bool.or_eq_false_iff] at h
  exact h.1

theorem Statement.has_body {p : StatementType → Bool} {s : Statement}
    (h : Statement.has p s = false) (ht : s.type = .If) :
    Statement.anyHas p s.conditional.body = false := by
  obtain ⟨type, line, registryName, target, value, ⟨isMissing, ctarget, body⟩, note⟩ := s
  simp only [Statement.type] at ht
  subst ht
  simp only [Statement.has, Bool.or_eq_false_iff] at h
  simpa [Statement.conditional, IfStmt.body] using h.2

mutual
theorem Interpreter.execute_statement_rel (env : Platform)
    (Q : SealedVault → SealedVault → Prop) (hrefl : ∀ v, Q v v)
    (htrans : ∀ a b c, Q a b → Q b c → Q a c)
    (hsealed : ∀ v : SealedVault, Q v { v with sealed := true })
    (p : StatementType → Bool)
    (hwrite : ∀ (st st2 : Interpreter) (s : Statement),
      (s.type = .Store ∨ s.type = .Replace) → p s.type = false →
      Interpreter.execute_statement env st s = .ok () st2 → Interpreter.VaultsRel Q st st2) :
    ∀ (s : Statement) (st st2 : Interpreter), Statement.has p s = false →
      Interpreter.execute_statement env st s = .ok () st2 → Interpreter.VaultsRel Q st st2
  | .mk type line registryName target value (.mk isMissing ctarget body) note, st, st2, hp, h => by
    cases hv : Map.find st.byName_ st.currentVault_ with
    | none => simp [Interpreter.execute_statement, hv] at h
    | some vault =>
      cases type with
      | Registry =>
        simp only [Interpreter.execute_statement, hv] at h
        split at h
        · cases h
        · injection h with _ h2
          subst h2
          exact Interpreter.vaultsRel_of_eq hrefl rfl
      | If =>
        simp only [Interpreter.execute_statement, hv] at h
        cases hpres : st.is_present ctarget line with
        | error e => simp [hpres] at h
        | ok present =>
          simp only [hpres] at h
          by_cases hc : (if isMissing then !present else present) = true
          · rw [if_pos hc] at h
            have hb : Statement.anyHas p body = false := by
              simp only [Statement.has, Bool.or_eq_false_iff] at hp
              simpa using hp.2
            exact Interpreter.execute_body_rel env Q hrefl htrans hsealed p hwrite body st st2
              hb h
          · rw [if_neg hc] at h
            injection h with _ h2
            subst h2
            exact Interpreter.vaultsRel_of_eq hrefl rfl
      | Store =>
        exact hwrite st st2
          (.mk .Store line registryName target value (.mk isMissing ctarget body) note)
          (Or.inl rfl) (Statement.has_type hp) h
      | Replace =>
        exact hwrite st st2
          (.mk .Replace line registryName target value (.mk isMissing ctarget body) note)
          (Or.inr rfl) (Statement.has_type hp) h
      | Note =>
        simp only [Interpreter.execute_statement, hv] at h
        injection h with _ h2
        subst h2
        exact Interpreter.vaultsRel_of_eq hrefl rfl
      | Secure =>
        simp only [Interpreter.execute_statement, hv] at h
        injection h with _ h2
        subst h2
        refine Interpreter.vaultsRel_assign hrefl st _ st.currentVault_ _ rfl ?_
        intro v hv2
        rw [hv] at hv2
        injection hv2 with hv2
        subst hv2
        exact hsealed vault
theorem Interpreter.execute_body_rel (env : Platform)
    (Q : SealedVault → SealedVault → Prop) (hrefl : ∀ v, Q v v)
    (htrans : ∀ a b c, Q a b → Q b c → Q a c)
    (hsealed : ∀ v : SealedVault, Q v { v with sealed := true })
    (p : StatementType → Bool)
    (hwrite : ∀ (st st2 : Interpreter) (s : Statement),
      (s.type = .Store ∨ s.type = .Replace) → p s.type = false →
      Interpreter.execute_statement env st s = .ok () st2 → Interpreter.VaultsRel Q st st2) :
    ∀ (body : List Statement) (st st2 : Interpreter), Statement.anyHas p body = false →
      Interpreter.execute_body env st body = .ok () st2 → Interpreter.VaultsRel Q st st2
  | [], st, st2, _, h => by
    simp only [Interpreter.execute_body] at h
    injection h with _ h2
    subst h2
    exact Interpreter.vaultsRel_of_eq hrefl rfl
  | s :: rest, st, st2, hp, h => by
    simp only [Statement.anyHas, Bool.or_eq_false_iff] at hp
    simp only [Interpreter.execute_body] at h
    cases hx : Interpreter.execute_statement env st s with
    | throw e st1 => simp [hx] at h
    | ok u st1 =>
      simp only [hx] at h
      exact Interpreter.vaultsRel_trans htrans
        (Interpreter.execute_statement_rel env Q hrefl htrans hsealed p hwrite s st st1 hp.1 hx)
        (Interpreter.execute_body_rel env Q hrefl htrans hsealed p hwrite rest st1 st2 hp.2 h)
end

theorem Interpreter.evaluate_vault_rel (env : Platform)
    (Q : SealedVault → SealedVault → Prop) (hrefl : ∀ v, Q v v)
    (htrans : ∀ a b c, Q a b → Q b c → Q a c)
    (hflags : ∀ (v : SealedVault) (o s : Bool), Q v { v with optional := o, sealed := s })
    (st st2 : Interpreter) (b : VaultBlock)
    (hbody : ∀ st1 st3, Interpreter.execute_body env st1 b.body = .ok () st3 →
      Interpreter.VaultsRel Q st1 st3)
    (h : Interpreter.evaluate_vault env st b = .ok () st2) :
    Interpreter.VaultsRel Q st st2 := by
  by_cases hs : st.skips b = true
  · rw [Interpreter.evaluate_vault_skip env st b hs] at h
    injection h with _ h2
    subst h2
    exact Interpreter.vaultsRel_of_eq hrefl rfl
  · have hs2 : st.skips b = false := by simpa using hs
    obtain ⟨st1, st3, stored, hres, hexec, _, hst2⟩ :=
      Interpreter.evaluate_vault_inv env st st2 b hs2 h
    obtain ⟨_, _, _, _, hother, v, hv, hsealed, hopt, _, hold⟩ :=
      Interpreter.resolve_vault_ok env _ st1 b hres
    have h1 : Interpreter.VaultsRel Q st st1 := by
      intro n x hx
      by_cases hn : n = b.name
      · subst hn
        obtain ⟨e1, e2, e3⟩ := hold x hx
        refine ⟨v, hv, ?_⟩
        have : v = { x with optional := b.optional, sealed := false } := by
          cases v
          cases x
          simp only [SealedVault.mk.injEq]
          simp only at e1 e2 e3 hsealed hopt
          exact ⟨e1, hopt, hsealed, e3, e2⟩
        rw [this]
        exact hflags x _ _
      · exact ⟨x, by rw [hother n hn]; exact hx, hrefl x⟩
    have h2 : Interpreter.VaultsRel Q st1 st3 := by
      have := hbody _ _ hexec
      exact this
    have h3 : Interpreter.VaultsRel Q st3 st2 := by
      rw [hst2]
      exact Interpreter.vaultsRel_of_eq hrefl rfl
    exact Interpreter.vaultsRel_trans htrans (Interpreter.vaultsRel_trans htrans h1 h2) h3

theorem Interpreter.evaluate_all_rel (env : Platform)
    (Q : SealedVault → SealedVault → Prop) (hrefl : ∀ v, Q v v)
    (htrans : ∀ a b c, Q a b → Q b c → Q a c)
    (hflags : ∀ (v : SealedVault) (o s : Bool), Q v { v with optional := o, sealed := s }) :
    ∀ (program : List VaultBlock) (st st2 : Interpreter),
      (∀ b ∈ program, ∀ st1 st3, Interpreter.execute_body env st1 b.body = .ok () st3 →
        Interpreter.VaultsRel Q st1 st3) →
      st.Keyed → Interpreter.evaluate_all env st program = .ok () st2 →
      Interpreter.VaultsRel Q st st2 ∧
      ∃ emitted, st2.sealed_ = st.sealed_ ++ emitted ∧
        (∀ v ∈ emitted, ∀ s, Map.find st.byName_ v.name = some s → Q s v) ∧
        emitted.Pairwise (fun a b => a.name = b.name → Q a b)
  | [], st, st2, _, _, h => by
    simp only [Interpreter.evaluate_all] at h
    injection h with _ h2
    subst h2
    exact ⟨Interpreter.vaultsRel_of_eq hrefl rfl, [], by simp, by simp, List.Pairwise.nil⟩
  | b :: rest, st, st2, hbody, hk, h => by
    simp only [Interpreter.evaluate_all] at h
    cases hx : Interpreter.evaluate_vault env st b with
    | throw e st1 => simp [hx] at h
    | ok u st1 =>
      simp only [hx] at h
      have hrel1 := Interpreter.evaluate_vault_rel env Q hrefl htrans hflags st st1 b
        (hbody b (List.mem_cons_self _ _)) hx
      have hk1 := Interpreter.evaluate_vault_keyed env st st1 b hk hx
      obtain ⟨hrel2, emitted, hem, hall, hpair⟩ :=
        Interpreter.evaluate_all_rel env Q hrefl htrans hflags rest st1 st2
          (fun x hx2 => hbody x (List.mem_cons_of_mem _ hx2)) hk1 h
      have hlift : ∀ v ∈ emitted, ∀ s, Map.find st.byName_ v.name = some s → Q s v := by
        intro v hv s hs
        obtain ⟨s1, hs1, hq⟩ := hrel1 _ _ hs
        exact htrans _ _ _ hq (hall v hv s1 hs1)
      refine ⟨Interpreter.vaultsRel_trans htrans hrel1 hrel2, ?_⟩
      by_cases hs : st.skips b = true
      · rw [Interpreter.evaluate_vault_skip env st b hs] at hx
        injection hx with _ h2
        subst h2
        exact ⟨emitted, hem, hlift, hpair⟩
      · have hs2 : st.skips b = false := by simpa using hs
        obtain ⟨_, _, stored, hsealed, hfind, _, hname, _⟩ :=
          Interpreter.evaluate_vault_entered env st st1 b hs2 hx
        refine ⟨stored :: emitted, ?_, ?_, ?_⟩
        · rw [hem, hsealed]
          simp
        · intro v hv s hs3
          rcases List.mem_cons.mp hv with h1 | h1
          · subst h1
            obtain ⟨s1, hs1, hq⟩ := hrel1 _ _ hs3
            rw [hname hk, hfind] at hs1
            injection hs1 with hs1
            subst hs1
            exact hq
          · exact hlift v h1 s hs3
        · refine List.Pairwise.cons ?_ hpair
          intro v hv hn
          refine hall v hv stored ?_
          rw [← hn, hname hk]
          exact hfind

theorem Interpreter.run_rel (env : Platform)
    (Q : SealedVault → SealedVault → Prop) (hrefl : ∀ v, Q v v)
    (htrans : ∀ a b c, Q a b → Q b c → Q a c)
    (hflags : ∀ (v : SealedVault) (o s : Bool), Q v { v with optional := o, sealed := s })
    (program : List VaultBlock) (st st2 : Interpreter) (out : List SealedVault)
    (hbody : ∀ b ∈ program, ∀ st1 st3, Interpreter.execute_body env st1 b.body = .ok () st3 →
      Interpreter.VaultsRel Q st1 st3)
    (hk : st.Keyed) (h : Interpreter.run env st program = .ok out st2) :
    (∀ v ∈ out, ∀ s, Map.find st.byName_ v.name = some s → Q s v) ∧
    out.Pairwise (fun a b => a.name = b.name → Q a b) := by
  unfold Interpreter.run at h
  cases hx : Interpreter.evaluate_all env { st with sealed_ := [] } program with
  | throw e st1 => simp [hx] at h
  | ok u st1 =>
    simp only [hx] at h
    injection h with h1 h2
    subst h2
    obtain ⟨_, emitted, hem, hall, hpair⟩ :=
      Interpreter.evaluate_all_rel env Q hrefl htrans hflags program
        { st with sealed_ := [] } st1 hbody hk hx
    simp only [List.nil_append] at hem
    rw [← h1, hem]
    exact ⟨hall, hpair⟩

theorem SealedVault.sameContent_refl (v : SealedVault) : SealedVault.sameContent v v :=
  ⟨Eq.refl _, Eq.refl _, Eq.refl _⟩

theorem SealedVault.sameContent_trans (a b c : SealedVault)
    (h1 : SealedVault.sameContent a b) (h2 : SealedVault.sameContent b c) :
    SealedVault.sameContent a c :=
  ⟨h2.1.trans h1.1, h2.2.1.trans h1.2.1, h2.2.2.trans h1.2.2⟩

/-- A body without `store` and `replace` leaves the name, the key and the registries of
every vault as they were. -/
theorem Interpreter.execute_body_no_write (env : Platform) (body : List Statement)
    (st st2 : Interpreter) (hnw : Statement.anyHas StatementType.isWrite body = false)
    (h : Interpreter.execute_body env st body = .ok () st2) :
    Interpreter.VaultsRel SealedVault.sameContent st st2 := by
  refine Interpreter.execute_body_rel env SealedVault.sameContent SealedVault.sameContent_refl
    SealedVault.sameContent_trans (fun v => ⟨rfl, rfl, rfl⟩) StatementType.isWrite ?_
    body st st2 hnw h
  intro st st2 s ht hp _
  rcases ht with ht | ht <;> rw [ht] at hp <;> cases hp

theorem Map.find_seed_other (n : String) :
    ∀ (S : List SealedVault) (m : List (String × SealedVault)),
      n ∉ S.map (fun v => v.name) →
      Map.find (S.foldl (fun m v => Map.assign m v.name v) m) n = Map.find m n
  | [], m, _ => rfl
  | a :: rest, m, h => by
    simp only [List.map_cons, List.mem_cons, not_or] at h
    rw [List.foldl_cons, Map.find_seed_other n rest _ h.2]
    exact Map.find_assign_other _ _ _ _ h.1

theorem Map.find_seed_nodup :
    ∀ (S : List SealedVault) (m : List (String × SealedVault)),
      (S.map (fun v => v.name)).Nodup → ∀ s ∈ S,
      Map.find (S.foldl (fun m v => Map.assign m v.name v) m) s.name = some s
  | [], _, _, s, hs => by cases hs
  | a :: rest, m, hnd, s, hs => by
    simp only [List.map_cons, List.nodup_cons] at hnd
    rw [List.foldl_cons]
    rcases List.mem_cons.mp hs with h1 | h1
    · subst h1
      rw [Map.find_seed_other _ rest _ hnd.1]
      exact Map.find_assign_same _ _ _
    · exact Map.find_seed_nodup rest _ hnd.2 s h1

theorem Map.find_seed_rel (Q : SealedVault → SealedVault → Prop) (hrefl : ∀ v, Q v v)
    (htrans : ∀ a b c, Q a b → Q b c → Q a c) :
    ∀ (S : List SealedVault) (m : List (String × SealedVault)),
      S.Pairwise (fun a b => a.name = b.name → Q a b) → ∀ s ∈ S,
      ∃ t, Map.find (S.foldl (fun m v => Map.assign m v.name v) m) s.name = some t ∧ Q s t
  | [], _, _, s, hs => by cases hs
  | a :: rest, m, hp, s, hs => by
    rw [List.pairwise_cons] at hp
    rw [List.foldl_cons]
    rcases List.mem_cons.mp hs with h1 | h1
    · subst h1
      by_cases hmem : s.name ∈ rest.map (fun v => v.name)
      · obtain ⟨s2, hs2, hn⟩ := List.mem_map.mp hmem
        obtain ⟨t, ht, hq⟩ := Map.find_seed_rel Q hrefl htrans rest
          (Map.assign m s.name s) hp.2 s2 hs2
        rw [hn] at ht
        exact ⟨t, ht, htrans _ _ _ (hp.1 s2 hs2 hn.symm) hq⟩
      · rw [Map.find_seed_other _ rest _ hmem]
        exact ⟨s, Map.find_assign_same _ _ _, hrefl s⟩
    · exact Map.find_seed_rel Q hrefl htrans rest _ hp.2 s h1

theorem evaluatedBlocks_all_known (materialize : Bool) :
    ∀ (program : List VaultBlock) (known : List String),
      (∀ b ∈ program, b.name ∈ known) → evaluatedBlocks materialize known program = program
  | [], _, _ => rfl
  | b :: rest, known, h => by
    have hb : b.name ∈ known := h b (List.mem_cons_self _ _)
    simp only [evaluatedBlocks, hb, decide_True, Bool.not_true, Bool.and_false,
      Bool.false_and, Bool.false_eq_true, if_false]
    rw [evaluatedBlocks_all_known materialize rest (b.name :: known)
      (fun x hx => List.mem_cons_of_mem _ (h x (List.mem_cons_of_mem _ hx)))]

theorem map_name_registries_eq :
    ∀ (out S : List SealedVault),
      out.map (fun v => v.name) = S.map (fun v => v.name) →
      (∀ v ∈ out, ∀ s ∈ S, s.name = v.name → v.registries = s.registries) →
      out.map (fun v => (v.name, v.registries)) = S.map (fun v => (v.name, v.registries))
  | [], [], _, _ => rfl
  | [], _ :: _, h, _ => by cases h
  | _ :: _, [], h, _ => by cases h
  | v :: out, s :: S, h, hall => by
    simp only [List.map_cons, List.cons.injEq] at h
    have h1 := hall v (List.mem_cons_self _ _) s (List.mem_cons_self _ _) h.1.symm
    have h2 := map_name_registries_eq out S h.2
      (fun x hx y hy => hall x (List.mem_cons_of_mem _ hx) y (List.mem_cons_of_mem _ hy))
    simp only [List.map_cons, h.1, h1, h2]

/-! ## Lemmas on the guarded store and on runs without `replace` -/

theorem SealedVault.keepsEntries_refl (v : SealedVault) : SealedVault.keepsEntries v v :=
  fun _ _ _ h => h

theorem SealedVault.keepsEntries_trans (a b c : SealedVault)
    (h1 : SealedVault.keepsEntries a b) (h2 : SealedVault.keepsEntries b c) :
    SealedVault.keepsEntries a c :=
  fun R k e h => h2 R k e (h1 R k e h)

theorem SealedVault.entry_withEntry_registry (vault : SealedVault) (regName key R2 k2 : String)
    (e : SealedEntry) (hne : R2 ≠ regName) :
    (vault.withEntry regName key e).entry R2 k2 = vault.entry R2 k2 := by
  unfold SealedVault.entry
  rw [SealedVault.registries_withEntry_other vault regName key R2 e hne]

theorem SealedVault.keepsEntries_withEntry (vault : SealedVault) (regName key : String)
    (e : SealedEntry) (habs : vault.hasEntry regName key = false) :
    SealedVault.keepsEntries vault (vault.withEntry regName key e) := by
  intro R k e2 h
  by_cases hR : R = regName
  · subst hR
    by_cases hk : k = key
    · subst hk
      rw [SealedVault.hasEntry_eq, h] at habs
      cases habs
    · rw [SealedVault.entry_withEntry_key vault R key k e hk]
      exact h
  · rw [SealedVault.entry_withEntry_registry vault regName key R k e hR]
    exact h

/-- A body without `replace` leaves every entry of every vault in place, with its digest
and cipher: a `store` only adds an entry that was absent. -/
theorem Interpreter.execute_body_no_replace (env : Platform) (body : List Statement)
    (st st2 : Interpreter) (hnr : Statement.anyHas StatementType.isReplace body = false)
    (h : Interpreter.execute_body env st body = .ok () st2) :
    Interpreter.VaultsRel SealedVault.keepsEntries st st2 := by
  refine Interpreter.execute_body_rel env SealedVault.keepsEntries
    SealedVault.keepsEntries_refl SealedVault.keepsEntries_trans (fun v => fun _ _ _ h => h)
    StatementType.isReplace ?_ body st st2 hnr h
  intro st st2 s ht hp hx
  have hst : s.type = .Store := by
    rcases ht with ht | ht
    · exact ht
    · rw [ht] at hp
      cases hp
  obtain ⟨vault, regName, plain, used, cipher, mac, hv, _, _, habs, _, _, _, hst2⟩ :=
    Interpreter.write_inv env st st2 s ht hx
  refine Interpreter.vaultsRel_assign SealedVault.keepsEntries_refl st st2 st.currentVault_
    (vault.withEntry regName s.target.key ⟨mac, cipher⟩) ?_ ?_
  · rw [hst2]
    rfl
  · intro v hv2
    rw [hv] at hv2
    injection hv2 with hv2
    subst hv2
    exact SealedVault.keepsEntries_withEntry _ _ _ _ (habs hst)

theorem Interpreter.resolve_registry_line (st : Interpreter) (t : Target) (l l2 : Int)
    (R : String) (h : st.resolve_registry t l = .ok R) : st.resolve_registry t l2 = .ok R := by
  unfold Interpreter.resolve_registry at *
  cases hr : t.registry with
  | some r => simpa [hr] using h
  | none =>
    cases hc : st.currentRegistry_ with
    | some r => simpa [hr, hc] using h
    | none => simp [hr, hc] at h

/-- The guard of `if missing T` around `store T = V` is false when the entry is there:
the statement returns and changes nothing. -/
theorem Interpreter.guarded_store_present (env : Platform) (st : Interpreter)
    (vault : SealedVault) (g : Statement) (T : Target) (V : ValueExpr) (R : String)
    (hg : g.isGuardedStore T V) (hv : Map.find st.byName_ st.currentVault_ = some vault)
    (hr : st.resolve_registry T g.line = .ok R)
    (hpres : (vault.entry R T.key).isSome = true) :
    Interpreter.execute_statement env st g = .ok () st := by
  obtain ⟨ht, hm, htg, _⟩ := hg
  rw [Interpreter.execute_if env st vault g ht hv, Interpreter.is_present_eq st vault _ _ hv,
    htg, hr]
  simp only [hm, if_true, SealedVault.hasEntry_eq, hpres, Bool.not_true, Bool.false_eq_true,
    if_false]

/-- When the entry is absent, `if missing T` around `store T = V` does what the `store`
does; if it returns, the entry is there. -/
theorem Interpreter.guarded_store_absent (env : Platform) (st st2 : Interpreter)
    (vault : SealedVault) (g : Statement) (T : Target) (V : ValueExpr) (R : String)
    (hg : g.isGuardedStore T V) (hv : Map.find st.byName_ st.currentVault_ = some vault)
    (hr : st.resolve_registry T g.line = .ok R)
    (habs : (vault.entry R T.key).isSome = false)
    (h : Interpreter.execute_statement env st g = .ok () st2) :
    ∃ v2 e, Map.find st2.byName_ st.currentVault_ = some v2 ∧ v2.entry R T.key = some e ∧
      SealedVault.keepsEntries vault v2 := by
  obtain ⟨ht, hm, htg, s, hbody, hst, hstg, _⟩ := hg
  rw [Interpreter.execute_if env st vault g ht hv, Interpreter.is_present_eq st vault _ _ hv,
    htg, hr] at h
  simp only [hm, if_true, SealedVault.hasEntry_eq, habs, Bool.not_false, hbody,
    Interpreter.execute_body] at h
  cases hx : Interpreter.execute_statement env st s with
  | throw e st1 => simp [hx] at h
  | ok u st1 =>
    simp only [hx] at h
    injection h with _ h2
    subst h2
    obtain ⟨vault2, regName, plain, used, cipher, mac, hv2, _, hr2, hab2, _, _, _, hst2⟩ :=
      Interpreter.write_inv env st st1 s (Or.inl hst) hx
    rw [hv] at hv2
    injection hv2 with hv2
    subst hv2
    rw [hstg, Interpreter.resolve_registry_line st T _ s.line R hr] at hr2
    injection hr2 with hr2
    subst hr2
    rw [hstg] at hst2 hab2
    refine ⟨vault.withEntry R T.key ⟨mac, cipher⟩, ⟨mac, cipher⟩, ?_, ?_, ?_⟩
    · rw [hst2]
      exact Map.find_assign_same _ _ _
    · exact SealedVault.entry_withEntry_same _ _ _ _
    · exact SealedVault.keepsEntries_withEntry _ _ _ _ (hab2 hst)

theorem Statement.anyHas_append (p : StatementType → Bool) :
    ∀ (a b : List Statement),
      Statement.anyHas p (a ++ b) = (Statement.anyHas p a || Statement.anyHas p b)
  | [], b => by simp [Statement.anyHas]
  | s :: a, b => by
    simp [Statement.anyHas, Statement.anyHas_append p a b, Bool.or_assoc]

theorem Interpreter.execute_registry_ok (env : Platform) (st st2 : Interpreter)
    (s : Statement) (ht : s.type = .Registry)
    (h : Interpreter.execute_statement env st s = .ok () st2) :
    st2.currentRegistry_ = some s.registryName := by
  obtain ⟨type, line, registryName, target, value, ⟨isMissing, ctarget, body⟩, note⟩ := s
  simp only [Statement.type] at ht
  subst ht
  cases hv : Map.find st.byName_ st.currentVault_ with
  | none => simp [Interpreter.execute_statement, hv] at h
  | some vault =>
    simp only [Interpreter.execute_statement, hv] at h
    split at h
    · cases h
    · injection h with _ h2
      rw [← h2]
      rfl

theorem Interpreter.execute_statement_current (env : Platform) (st st2 : Interpreter)
    (s : Statement) (h : Interpreter.execute_statement env st s = .ok () st2) :
    ∃ vault, Map.find st.byName_ st.currentVault_ = some vault := by
  cases hv : Map.find st.byName_ st.currentVault_ with
  | none =>
    obtain ⟨type, line, registryName, target, value, ⟨isMissing, ctarget, body⟩, note⟩ := s
    simp [Interpreter.execute_statement, hv] at h
  | some vault => exact ⟨vault, rfl⟩

/-- After a body without `replace` that holds `if missing T` around `store T = V` among
its statements, with `T` naming registry `R` or the statement standing right after
`registry R`, the current vault holds the entry of `T` in `R`. -/
theorem Interpreter.execute_body_guarded (env : Platform) (pre post : List Statement)
    (g : Statement) (T : Target) (V : ValueExpr) (R : String) (hg : g.isGuardedStore T V)
    (hres : T.registry = some R ∨ (T.registry = none ∧
      ∃ pre0 rs, pre = pre0 ++ [rs] ∧ rs.type = .Registry ∧ rs.registryName = R))
    (hnr : Statement.anyHas StatementType.isReplace (pre ++ g :: post) = false)
    (st st3 : Interpreter)
    (h : Interpreter.execute_body env st (pre ++ g :: post) = .ok () st3) :
    ∃ v e, Map.find st3.byName_ st.currentVault_ = some v ∧ v.entry R T.key = some e := by
  rw [Statement.anyHas_append, Bool.or_eq_false_iff] at hnr
  have hnrpost : Statement.anyHas StatementType.isReplace post = false := by
    have := hnr.2
    simp only [Statement.anyHas, Bool.or_eq_false_iff] at this
    exact this.2
  rw [Interpreter.execute_body_append] at h
  cases hpre : Interpreter.execute_body env st pre with
  | throw e sa => simp [hpre] at h
  | ok u sa =>
    simp only [hpre, Interpreter.execute_body] at h
    cases hx : Interpreter.execute_statement env sa g with
    | throw e sb => simp [hx] at h
    | ok u2 sb =>
      simp only [hx] at h
      have hfa := Interpreter.execute_body_frame env pre st
      rw [hpre] at hfa
      have hfb := Interpreter.execute_statement_frame env g sa
      rw [hx] at hfb
      have hca : sa.currentVault_ = st.currentVault_ := hfa.1
      have hcb : sb.currentVault_ = sa.currentVault_ := hfb.1
      obtain ⟨va, hva⟩ := Interpreter.execute_statement_current env sa sb g hx
      have hr : sa.resolve_registry T g.line = .ok R := by
        rcases hres with hreg | ⟨hreg, pre0, rs, hpre0, hrt, hrn⟩
        · simp [Interpreter.resolve_registry, hreg]
        · rw [hpre0, Interpreter.execute_body_append] at hpre
          cases hp0 : Interpreter.execute_body env st pre0 with
          | throw e sx => simp [hp0] at hpre
          | ok u3 sx =>
            simp only [hp0, Interpreter.execute_body] at hpre
            cases hrs : Interpreter.execute_statement env sx rs with
            | throw e sy => simp [hrs] at hpre
            | ok u4 sy =>
              simp only [hrs] at hpre
              injection hpre with _ hsy
              subst hsy
              have := Interpreter.execute_registry_ok env sx sy rs hrt hrs
              simp [Interpreter.resolve_registry, hreg, this, hrn]
      have hmid : ∃ vb e, Map.find sb.byName_ sa.currentVault_ = some vb ∧
          vb.entry R T.key = some e := by
        cases hpres : (va.entry R T.key).isSome with
        | true =>
          rw [Interpreter.guarded_store_present env sa va g T V R hg hva hr hpres] at hx
          injection hx with _ hsb
          subst hsb
          obtain ⟨e, he⟩ := Option.isSome_iff_exists.mp hpres
          exact ⟨va, e, hva, he⟩
        | false =>
          obtain ⟨v2, e, h1, h2, _⟩ :=
            Interpreter.guarded_store_absent env sa sb va g T V R hg hva hr hpres hx
          exact ⟨v2, e, h1, h2⟩
      obtain ⟨vb, e, hvb, hevb⟩ := hmid
      obtain ⟨v3, hv3, hq⟩ :=
        Interpreter.execute_body_no_replace env post sb st3 hnrpost h _ _ hvb
      refine ⟨v3, e, ?_, hq _ _ _ hevb⟩
      rw [← hca]
      exact hv3

theorem Interpreter.evaluate_all_sealed (env : Platform) :
    ∀ (program : List VaultBlock) (st st2 : Interpreter),
      Interpreter.evaluate_all env st program = .ok () st2 →
      ∃ emitted, st2.sealed_ = st.sealed_ ++ emitted
  | [], st, st2, h => by
    simp only [Interpreter.evaluate_all] at h
    injection h with _ h2
    exact ⟨[], by rw [← h2]; simp⟩
  | b :: rest, st, st2, h => by
    simp only [Interpreter.evaluate_all] at h
    cases hx : Interpreter.evaluate_vault env st b with
    | throw e st1 => simp [hx] at h
    | ok u st1 =>
      simp only [hx] at h
      obtain ⟨emitted, hem⟩ := Interpreter.evaluate_all_sealed env rest st1 st2 h
      by_cases hs : st.skips b = true
      · rw [Interpreter.evaluate_vault_skip env st b hs] at hx
        injection hx with _ h2
        subst h2
        exact ⟨emitted, hem⟩
      · obtain ⟨_, _, stored, hsealed, _⟩ :=
          Interpreter.evaluate_vault_entered env st st1 b (by simpa using hs) hx
        exact ⟨stored :: emitted, by rw [hem, hsealed]; simp⟩

theorem Interpreter.evaluate_vault_opts (env : Platform) (st st2 : Interpreter)
    (b : VaultBlock) (h : Interpreter.evaluate_vault env st b = .ok () st2) :
    st2.opts_ = st.opts_ := by
  by_cases hs : st.skips b = true
  · rw [Interpreter.evaluate_vault_skip env st b hs] at h
    injection h with _ h2
    rw [← h2]
  · exact (Interpreter.evaluate_vault_entered env st st2 b (by simpa using hs) h).1

/-- A block that is not optional, or any block when optional vaults are materialized, is
evaluated, and the vault it leaves after its body is in the output under its name. -/
theorem Interpreter.evaluate_all_emits (env : Platform) (P : SealedVault → Prop)
    (b : VaultBlock)
    (hP : ∀ (sa st3 : Interpreter) (v : SealedVault), sa.currentVault_ = b.name →
      Interpreter.execute_body env sa b.body = .ok () st3 →
      Map.find st3.byName_ b.name = some v → P v) :
    ∀ (program : List VaultBlock) (st st2 : Interpreter), b ∈ program →
      (b.optional = false ∨ st.opts_.materializeOptional = true) → st.Keyed →
      Interpreter.evaluate_all env st program = .ok () st2 →
      ∃ v ∈ st2.sealed_, v.name = b.name ∧ P v
  | [], _, _, hb, _, _, _ => by cases hb
  | b2 :: rest, st, st2, hb, hev, hk, h => by
    simp only [Interpreter.evaluate_all] at h
    cases hx : Interpreter.evaluate_vault env st b2 with
    | throw e st1 => simp [hx] at h
    | ok u st1 =>
      simp only [hx] at h
      have hk1 := Interpreter.evaluate_vault_keyed env st st1 b2 hk hx
      rcases List.mem_cons.mp hb with hb1 | hb1
      · subst hb1
        have hs : st.skips b = false := by
          unfold Interpreter.skips
          rcases hev with ho | hm
          · simp [ho]
          · simp [hm]
        obtain ⟨sa, st3, stored, _, hexec, hfind, hst1⟩ :=
          Interpreter.evaluate_vault_inv env st st1 b hs hx
        obtain ⟨_, _, stored2, hsealed, hfind2, _, hname, _⟩ :=
          Interpreter.evaluate_vault_entered env st st1 b hs hx
        have hsame : stored2 = stored := by
          rw [hst1] at hfind2
          rw [hfind] at hfind2
          injection hfind2 with e
          exact e.symm
        subst hsame
        obtain ⟨emitted, hem⟩ := Interpreter.evaluate_all_sealed env rest st1 st2 h
        refine ⟨stored2, ?_, hname hk, hP _ _ _ rfl hexec hfind⟩
        rw [hem, hsealed]
        simp
      · have ho := Interpreter.evaluate_vault_opts env st st1 b2 hx
        exact Interpreter.evaluate_all_emits env P b hP rest st1 st2 hb1
          (by rw [ho]; exact hev) hk1 h

/-! ## Lemmas on seeding, vault entry and the recursion budget of the parser -/

theorem Map.find_seed_last (n : String) :
    ∀ (S : List SealedVault) (m : List (String × SealedVault)),
      Map.find (S.foldl (fun m v => Map.assign m v.name v) m) n =
        match lastNamed S n with
        | some v => some v
        | none => Map.find m n
  | [], m => rfl
  | a :: rest, m => by
    rw [List.foldl_cons, Map.find_seed_last n rest]
    unfold lastNamed
    rw [List.reverse_cons, List.find?_append]
    cases hr : rest.reverse.find? (fun v => decide (v.name = n)) with
    | some v => rfl
    | none =>
      by_cases ha : a.name = n
      · subst ha
        simp [Map.find_assign_same]
      · have hn : n ≠ a.name := fun e => ha e.symm
        simp [ha, Map.find_assign_other _ _ _ _ hn]

theorem lastNamed_isSome (S : List SealedVault) (n : String) :
    (lastNamed S n).isSome = true ↔ n ∈ S.map (fun v => v.name) := by
  unfold lastNamed
  rw [List.find?_isSome]
  constructor
  · rintro ⟨v, hv, hn⟩
    exact List.mem_map.mpr ⟨v, List.mem_reverse.mp hv, of_decide_eq_true hn⟩
  · intro h
    obtain ⟨v, hv, hn⟩ := List.mem_map.mp h
    exact ⟨v, List.mem_reverse.mpr hv, decide_eq_true hn⟩

theorem Interpreter.execute_note (env : Platform) (st : Interpreter) (vault : SealedVault)
    (s : Statement) (ht : s.type = .Note)
    (hv : Map.find st.byName_ st.currentVault_ = some vault) :
    Interpreter.execute_statement env st s = .ok () st := by
  obtain ⟨type, line, registryName, target, value, ⟨isMissing, ctarget, body⟩, note⟩ := s
  simp only [Statement.type] at ht
  subst ht
  simp only [Interpreter.execute_statement, hv]

theorem Interpreter.skips_present (st : Interpreter) (b : VaultBlock) (old : SealedVault)
    (h : Map.find st.byName_ b.name = some old) : st.skips b = false := by
  simp [Interpreter.skips, h]

theorem Interpreter.evaluate_vault_push (env : Platform) (st : Interpreter) (b : VaultBlock)
    (hs : st.skips b = false) :
    Interpreter.evaluate_vault env st b =
      match Interpreter.resolve_vault env
        { st with currentRegistry_ := none, currentVault_ := "" } b with
      | .throw e st1 => .throw e st1
      | .ok _ st1 =>
        Interpreter.push_stored b.name
          (Interpreter.execute_body env { st1 with currentVault_ := b.name } b.body) := by
  rw [Interpreter.evaluate_vault_enter env st b hs]
  cases Interpreter.resolve_vault env
      { st with currentRegistry_ := none, currentVault_ := "" } b with
  | throw e st1 => rfl
  | ok u st1 =>
    simp only
    cases Interpreter.execute_body env { st1 with currentVault_ := b.name } b.body <;> rfl

theorem Parser.parse_mono (lines : List Line) : ∀ (fuel : Nat),
    (∀ (pos : Nat) (indent : Int) (stmts : List Statement) (fuel2 : Nat), fuel ≤ fuel2 →
      Parser.parse_block lines fuel pos indent stmts ≠ .exhausted →
      Parser.parse_block lines fuel2 pos indent stmts =
        Parser.parse_block lines fuel pos indent stmts) ∧
    (∀ (pos : Nat) (fuel2 : Nat), fuel ≤ fuel2 →
      Parser.parse_statement lines fuel pos ≠ .exhausted →
      Parser.parse_statement lines fuel2 pos = Parser.parse_statement lines fuel pos)
  | 0 => by
    constructor
    · intro pos indent stmts fuel2 _ h
      exact absurd rfl h
    · intro pos fuel2 _ h
      exact absurd rfl h
  | fuel + 1 => by
    obtain ⟨ihb, ihs⟩ := Parser.parse_mono lines fuel
    constructor
    · intro pos indent stmts fuel2 hle h
      obtain ⟨f2, rfl⟩ : ∃ f2, fuel2 = f2 + 1 := ⟨fuel2 - 1, by omega⟩
      have hle2 : fuel ≤ f2 := by omega
      rw [Parser.parse_block] at h ⊢
      rw [Parser.parse_block]
      cases hl : lines[pos]? with
      | none => rfl
      | some line =>
        simp only [hl] at h ⊢
        by_cases hbl : trim line.text = ""
        · simp only [if_pos hbl] at h ⊢
          exact ihb _ _ _ _ hle2 h
        · simp only [if_neg hbl] at h ⊢
          by_cases h1 : line.indent < indent
          · simp only [if_pos h1]
          · simp only [if_neg h1] at h ⊢
            by_cases h2 : line.indent ≠ indent
            · simp only [if_pos h2]
            · simp only [if_neg h2] at h ⊢
              cases hs : Parser.parse_statement lines fuel pos with
              | exhausted => simp [hs] at h
              | throw e p =>
                rw [ihs pos f2 hle2 (by rw [hs]; simp), hs]
              | ok parsed p =>
                rw [ihs pos f2 hle2 (by rw [hs]; simp), hs]
                rw [hs] at h
                exact ihb _ _ _ _ hle2 h
    · intro pos fuel2 hle h
      obtain ⟨f2, rfl⟩ : ∃ f2, fuel2 = f2 + 1 := ⟨fuel2 - 1, by omega⟩
      have hle2 : fuel ≤ f2 := by omega
      rw [Parser.parse_statement] at h ⊢
      rw [Parser.parse_statement]
      cases hl : lines[pos]? with
      | none => rfl
      | some line =>
        simp only [hl] at h ⊢
        by_cases hr : starts_with (trim line.text) "registry " = true
        · simp only [if_pos hr]
        · simp only [if_neg hr] at h ⊢
          by_cases hi : starts_with (trim line.text) "if " = true
          · simp only [if_pos hi] at h ⊢
            cases hh : parse_if_head (trim line.text) line.number with
            | error e => rfl
            | ok p =>
              obtain ⟨isMissing, target⟩ := p
              simp only [hh] at h ⊢
              cases hb : Parser.parse_block lines fuel (pos + 1) (line.indent + 2) [] with
              | exhausted => simp [hb] at h
              | throw e p2 => rw [ihb _ _ _ f2 hle2 (by rw [hb]; simp), hb]
              | ok body p2 => rw [ihb _ _ _ f2 hle2 (by rw [hb]; simp), hb]
          · simp only [if_neg hi]

theorem Parser.parse_vault_mono (lines : List Line) (fuel fuel2 pos : Nat) (hle : fuel ≤ fuel2)
    (h : Parser.parse_vault lines fuel pos ≠ .exhausted) :
    Parser.parse_vault lines fuel2 pos = Parser.parse_vault lines fuel pos := by
  unfold Parser.parse_vault at h ⊢
  cases hl : lines[pos]? with
  | none => rfl
  | some line =>
    simp only [hl] at h ⊢
    split
    · rfl
    · rename_i optional name hhead
      simp only [hhead] at h
      by_cases hn : name = ""
      · simp only [if_pos hn]
      · simp only [if_neg hn] at h ⊢
        cases hb : Parser.parse_block lines fuel (pos + 1) (line.indent + 2) [] with
        | exhausted => simp [hb] at h
        | throw e p => rw [(Parser.parse_mono lines fuel).1 _ _ _ fuel2 hle (by rw [hb]; simp), hb]
        | ok body p => rw [(Parser.parse_mono lines fuel).1 _ _ _ fuel2 hle (by rw [hb]; simp), hb]

theorem Parser.parse_loop_mono (lines : List Line) (blockFuel blockFuel2 : Nat)
    (hb : blockFuel ≤ blockFuel2) :
    ∀ (fuel fuel2 pos : Nat) (program : List VaultBlock), fuel ≤ fuel2 →
      Parser.parse_loop lines blockFuel fuel pos program ≠ .exhausted →
      Parser.parse_loop lines blockFuel2 fuel2 pos program =
        Parser.parse_loop lines blockFuel fuel pos program
  | 0, _, _, _, _, h => absurd rfl h
  | fuel + 1, fuel2, pos, program, hle, h => by
    obtain ⟨f2, rfl⟩ : ∃ f2, fuel2 = f2 + 1 := ⟨fuel2 - 1, by omega⟩
    have hle2 : fuel ≤ f2 := by omega
    rw [Parser.parse_loop] at h ⊢
    rw [Parser.parse_loop]
    cases hl : lines[pos]? with
    | none => rfl
    | some line =>
      simp only [hl] at h ⊢
      by_cases hbl : trim line.text = ""
      · simp only [if_pos hbl] at h ⊢
        exact Parser.parse_loop_mono lines blockFuel blockFuel2 hb fuel f2 _ _ hle2 h
      · simp only [if_neg hbl] at h ⊢
        by_cases hi : line.indent ≠ 0
        · simp only [if_pos hi]
        · simp only [if_neg hi] at h ⊢
          cases hv : Parser.parse_vault lines blockFuel pos with
          | exhausted => simp [hv] at h
          | throw e p =>
            rw [Parser.parse_vault_mono lines blockFuel blockFuel2 pos hb (by rw [hv]; simp), hv]
          | ok vault p =>
            rw [Parser.parse_vault_mono lines blockFuel blockFuel2 pos hb (by rw [hv]; simp), hv]
            rw [hv] at h
            exact Parser.parse_loop_mono lines blockFuel blockFuel2 hb fuel f2 _ _ hle2 h

/-! ## Lemmas on the header and `depends` lines of the archive and on the driver -/

theorem evaluatedBlocks_congr (materialize : Bool) :
    ∀ (program : List VaultBlock) (k1 k2 : List String), (∀ n, n ∈ k1 ↔ n ∈ k2) →
      evaluatedBlocks materialize k1 program = evaluatedBlocks materialize k2 program
  | [], _, _, _ => rfl
  | b :: rest, k1, k2, h => by
    have hd : decide (b.name ∈ k1) = decide (b.name ∈ k2) := by
      rw [decide_eq_decide]
      exact h b.name
    simp only [evaluatedBlocks, hd]
    rw [evaluatedBlocks_congr materialize rest k1 k2 h,
      evaluatedBlocks_congr materialize rest (b.name :: k1) (b.name :: k2)
        (fun n => by simp only [List.mem_cons, h n])]

theorem Interpreter.seed_keys (st : Interpreter) (existing : List SealedVault) (n : String) :
    n ∈ (st.seed existing).byName_.map Prod.fst ↔ n ∈ existing.map (fun v => v.name) := by
  rw [Map.mem_keys_iff]
  show (Map.find (existing.foldl (fun m v => Map.assign m v.name v) []) n).isSome = true ↔ _
  rw [Map.find_seed_last n existing [], ← lastNamed_isSome]
  cases lastNamed existing n <;> simp [Map.find]

theorem vault_header_inj (name n : String) (optional : Bool) (o : String)
    (ho : o = "required" ∨ o = "optional")
    (h : "vault " ++ name ++ " (" ++ (if optional then "optional" else "required") ++ ")" =
      "vault " ++ n ++ " (" ++ o ++ ")") : name = n := by
  have hd := congrArg String.data h
  simp only [String.data_append, List.append_assoc] at hd
  have h2 := List.append_cancel_left hd
  have hlen : (" (".data ++ ((if optional then "optional" else "required" : String).data
      ++ ")".data)).length = (" (".data ++ (o.data ++ ")".data)).length := by
    rcases ho with rfl | rfl <;> cases optional <;> rfl
  have h3 := (List.append_inj' h2 hlen).1
  exact String.ext h3

theorem write_svau_lines_header (vaults : List SealedVault) (token : String)
    (dependencies : List String) (n o : String) (ho : o = "required" ∨ o = "optional")
    (hl : "vault " ++ n ++ " (" ++ o ++ ")" ∈ write_svau_lines vaults token dependencies) :
    ∃ v ∈ vaults, v.name = n := by
  have hv : starts_with ("vault " ++ n ++ " (" ++ o ++ ")") "vault " = true := by
    rw [String.append_assoc, String.append_assoc, String.append_assoc]
    exact starts_with_append _ _
  generalize hline : "vault " ++ n ++ " (" ++ o ++ ")" = line at hl hv
  simp only [write_svau_lines, List.mem_cons, List.mem_append, List.mem_map,
    List.mem_flatMap] at hl
  rcases hl with h | ⟨d, _, h⟩ | ⟨v, hmem, h⟩
  · rw [h] at hv
    cases hv
  · rw [← h, starts_with_false "depends ".data "vault ".data d rfl] at hv
    cases hv
  · refine ⟨v, hmem, ?_⟩
    simp only [write_vault_lines, List.mem_append, List.mem_cons, List.mem_singleton,
      List.mem_flatMap, List.not_mem_nil, or_false] at h
    rcases h with ((h | h) | ⟨R, _, h⟩) | h
    · rw [← hline] at h
      exact vault_header_inj v.name n v.optional o ho h.symm
    · rw [h, starts_with_false "sealed ".data "vault ".data _ rfl] at hv
      cases hv
    · simp only [write_registry_lines, List.mem_cons, List.mem_flatMap] at h
      rcases h with h | ⟨k, _, h⟩
      · rw [h, starts_with_false "  registry ".data "vault ".data R rfl] at hv
        cases hv
      · simp only [write_entry_lines, List.mem_cons, List.mem_singleton, List.not_mem_nil,
          or_false] at h
        rcases h with h | h | h
        · rw [h, starts_with_false "    entry ".data "vault ".data k rfl] at hv
          cases hv
        · rw [h, starts_with_false "      digest ".data "vault ".data _ rfl] at hv
          cases hv
        · rw [h, starts_with_false "      cipher ".data "vault ".data _ rfl] at hv
          cases hv
    · rw [h] at hv
      cases hv

theorem compile_inv (env : Platform) (cfg : VaultConfig) (opts : InterpreterOptions)
    (lines : List Line) (load : Option (String × String)) (archive : String)
    (h : compile env cfg opts lines load = .ok archive) :
    ∃ program pos interp1 dependencies sealed st2 hmac,
      Parser.parse lines = .ok program pos ∧
      (match load with
        | none =>
          interp1 = Interpreter.init { opts with forcedMasterKey := some cfg.masterKey } ∧
          dependencies = []
        | some (text, loadName) =>
          ∃ vaults, load_seed env cfg text loadName = .ok (vaults, dependencies) ∧
            interp1 = (Interpreter.init
              { opts with forcedMasterKey := some cfg.masterKey }).seed vaults) ∧
      Interpreter.run env interp1 program = .ok sealed st2 ∧
      compute_archive_hmac env sealed cfg.token cfg.masterKey dependencies = .ok hmac ∧
      archive = write_svau sealed cfg.token dependencies ++ "hmac " ++ hmac ++ "\n" := by
  unfold compile at h
  cases hp : Parser.parse lines with
  | exhausted => simp [hp] at h
  | throw e p => simp [hp] at h
  | ok program pos =>
    simp only [hp] at h
    cases load with
    | none =>
      simp only at h
      cases hr : Interpreter.run env
          (Interpreter.init { opts with forcedMasterKey := some cfg.masterKey }) program with
      | throw e s => simp [hr] at h
      | ok sealed st2 =>
        simp only [hr] at h
        cases hm : compute_archive_hmac env sealed cfg.token cfg.masterKey [] with
        | error e => simp [hm] at h
        | ok hmac =>
          simp only [hm] at h
          injection h with h
          exact ⟨program, pos, _, [], sealed, st2, hmac, rfl, ⟨rfl, rfl⟩, hr, hm, h.symm⟩
    | some p =>
      obtain ⟨text, loadName⟩ := p
      simp only at h
      cases hs : load_seed env cfg text loadName with
      | error e => simp [hs] at h
      | ok q =>
        obtain ⟨vaults, dependencies⟩ := q
        simp only [hs] at h
        cases hr : Interpreter.run env ((Interpreter.init
            { opts with forcedMasterKey := some cfg.masterKey }).seed vaults) program with
        | throw e s => simp [hr] at h
        | ok sealed st2 =>
          simp only [hr] at h
          cases hm : compute_archive_hmac env sealed cfg.token cfg.masterKey dependencies with
          | error e => simp [hm] at h
          | ok hmac =>
            simp only [hm] at h
            injection h with h
            exact ⟨program, pos, _, dependencies, sealed, st2, hmac, rfl, ⟨vaults, hs, rfl⟩,
              hr, hm, h.symm⟩

mutual
theorem Interpreter.execute_statement_registry (env : Platform) :
    ∀ (s : Statement) (st st2 : Interpreter),
      Statement.has StatementType.isRegistry s = false →
      Interpreter.execute_statement env st s = .ok () st2 →
      st2.currentRegistry_ = st.currentRegistry_
  | .mk type line registryName target value (.mk isMissing ctarget body) note, st, st2, hp, h => by
    cases hv : Map.find st.byName_ st.currentVault_ with
    | none => simp [Interpreter.execute_statement, hv] at h
    | some vault =>
      cases type with
      | Registry =>
        have := Statement.has_type hp
        cases this
      | If =>
        simp only [Interpreter.execute_statement, hv] at h
        cases hpres : st.is_present ctarget line with
        | error e => simp [hpres] at h
        | ok present =>
          simp only [hpres] at h
          by_cases hc : (if isMissing then !present else present) = true
          · rw [if_pos hc] at h
            have hb : Statement.anyHas StatementType.isRegistry body = false := by
              simp only [Statement.has, Bool.or_eq_false_iff] at hp
              simpa using hp.2
            exact Interpreter.execute_body_registry env body st st2 hb h
          · rw [if_neg hc] at h
            injection h with _ h2
            subst h2
            rfl
      | Store =>
        obtain ⟨v, R, plain, used, cipher, mac, _, _, _, _, _, _, _, h2⟩ :=
          Interpreter.write_inv env st st2
            (.mk .Store line registryName target value (.mk isMissing ctarget body) note)
            (Or.inl rfl) h
        rw [h2]
        rfl
      | Replace =>
        obtain ⟨v, R, plain, used, cipher, mac, _, _, _, _, _, _, _, h2⟩ :=
          Interpreter.write_inv env st st2
            (.mk .Replace line registryName target value (.mk isMissing ctarget body) note)
            (Or.inr rfl) h
        rw [h2]
        rfl
      | Note =>
        simp only [Interpreter.execute_statement, hv] at h
        injection h with _ h2
        subst h2
        rfl
      | Secure =>
        simp only [Interpreter.execute_statement, hv] at h
        injection h with _ h2
        subst h2
        rfl
theorem Interpreter.execute_body_registry (env : Platform) :
    ∀ (body : List Statement) (st st2 : Interpreter),
      Statement.anyHas StatementType.isRegistry body = false →
      Interpreter.execute_body env st body = .ok () st2 →
      st2.currentRegistry_ = st.currentRegistry_
  | [], st, st2, _, h => by
    simp only [Interpreter.execute_body] at h
    injection h with _ h2
    subst h2
    rfl
  | s :: rest, st, st2, hp, h => by
    simp only [Statement.anyHas, Bool.or_eq_false_iff] at hp
    simp only [Interpreter.execute_body] at h
    cases hx : Interpreter.execute_statement env st s with
    | throw e st1 => simp [hx] at h
    | ok u st1 =>
      simp only [hx] at h
      rw [Interpreter.execute_body_registry env rest st1 st2 hp.2 h,
        Interpreter.execute_statement_registry env s st st1 hp.1 hx]
end

theorem Interpreter.unqualified_throws (env : Platform) (st : Interpreter)
    (vault : SealedVault) (s : Statement)
    (hv : Map.find st.byName_ st.currentVault_ = some vault)
    (hr : st.currentRegistry_ = none) (hs : s.unqualified) :
    (s.type = .If ∨ vault.sealed = false →
      Interpreter.execute_statement env st s =
        .throw ("No active registry for target on line " ++ toString s.line) st) ∧
    (s.type = .Store → vault.sealed = true →
      Interpreter.execute_statement env st s =
        .throw ("Cannot store after secure (line " ++ toString s.line ++ ")") st) ∧
    (s.type = .Replace → vault.sealed = true →
      Interpreter.execute_statement env st s =
        .throw ("Cannot replace after secure (line " ++ toString s.line ++ ")") st) := by
  refine ⟨?_, ?_, ?_⟩
  · intro hcase
    obtain ⟨type, line, registryName, target, value, ⟨isMissing, ctarget, body⟩, note⟩ := s
    simp only [Statement.unqualified, Statement.type, Statement.target, Statement.conditional,
      IfStmt.target, Statement.line] at hs hcase ⊢
    rcases hs with ⟨ht | ht, hreg⟩ | ⟨ht, hreg⟩
    · subst ht
      have hsl : vault.sealed = false := by
        rcases hcase with h | h
        · cases h
        · exact h
      simp [Interpreter.execute_statement, hv, hsl, Interpreter.resolve_registry, hreg, hr]
    · subst ht
      have hsl : vault.sealed = false := by
        rcases hcase with h | h
        · cases h
        · exact h
      simp [Interpreter.execute_statement, hv, hsl, Interpreter.resolve_registry, hreg, hr]
    · subst ht
      simp [Interpreter.execute_statement, hv, Interpreter.is_present,
        Interpreter.resolve_registry, hreg, hr]
  · intro ht hsl
    exact (Interpreter.sealed_write_throws env st vault hv hsl s).2.1 ht
  · intro ht hsl
    exact (Interpreter.sealed_write_throws env st vault hv hsl s).2.2 ht

theorem Interpreter.evaluate_vault_throw_at (env : Platform) (st st1 st2 : Interpreter)
    (b : VaultBlock) (pre rest : List Statement) (s : Statement) (e : String)
    (hskip : st.skips b = false)
    (hres : Interpreter.resolve_vault env
      { st with currentRegistry_ := none, currentVault_ := "" } b = .ok () st1)
    (hbody : b.body = pre ++ s :: rest)
    (hrun : Interpreter.execute_body env { st1 with currentVault_ := b.name } pre = .ok () st2)
    (hthrow : Interpreter.execute_statement env st2 s = .throw e st2) :
    Interpreter.evaluate_vault env st b = .throw e st2 := by
  rw [Interpreter.evaluate_vault_push env st b hskip, hres]
  simp only
  rw [hbody, Interpreter.execute_body_append, hrun]
  simp only [Interpreter.execute_body, hthrow]
  rfl

/-! ## Lemmas on base64, the key conversion and the cipher layout -/

theorem base64_encode_step0 (c val : Nat) (rest : List Nat) (out : List Char) :
    base64_encode_loop (c :: rest) val (-6) out =
      base64_encode_loop rest (val * 256 % 2 ^ 32 + c % 256) (-4)
        (out ++ [base64_char ((val * 256 % 2 ^ 32 + c % 256) / 4 % 64)]) := rfl

theorem base64_encode_step1 (c val : Nat) (rest : List Nat) (out : List Char) :
    base64_encode_loop (c :: rest) val (-4) out =
      base64_encode_loop rest (val * 256 % 2 ^ 32 + c % 256) (-2)
        (out ++ [base64_char ((val * 256 % 2 ^ 32 + c % 256) / 16 % 64)]) := rfl

theorem base64_encode_step2 (c val : Nat) (rest : List Nat) (out : List Char) :
    base64_encode_loop (c :: rest) val (-2) out =
      base64_encode_loop rest (val * 256 % 2 ^ 32 + c % 256) (-6)
        (out ++ [base64_char ((val * 256 % 2 ^ 32 + c % 256) / 64 % 64)] ++
          [base64_char ((val * 256 % 2 ^ 32 + c % 256) / 1 % 64)]) := rfl

theorem base64_encode_group (a b c val : Nat) (rest : List Nat) (out : List Char)
    (ha : a < 256) (hb : b < 256) (hc : c < 256) :
    ∃ val3, base64_encode_loop (a :: b :: c :: rest) val (-6) out =
      base64_encode_loop rest val3 (-6)
        (out ++ [base64_char (a / 4), base64_char (a % 4 * 16 + b / 16),
          base64_char (b % 16 * 4 + c / 64), base64_char (c % 64)]) := by
  refine ⟨((val * 256 % 2 ^ 32 + a % 256) * 256 % 2 ^ 32 + b % 256) * 256 % 2 ^ 32
    + c % 256, ?_⟩
  rw [base64_encode_step0, base64_encode_step1, base64_encode_step2]
  have e0 : (val * 256 % 2 ^ 32 + a % 256) / 4 % 64 = a / 4 := by omega
  have e1 : ((val * 256 % 2 ^ 32 + a % 256) * 256 % 2 ^ 32 + b % 256) / 16 % 64 =
      a % 4 * 16 + b / 16 := by omega
  have e2 : (((val * 256 % 2 ^ 32 + a % 256) * 256 % 2 ^ 32 + b % 256) * 256 % 2 ^ 32
      + c % 256) / 64 % 64 = b % 16 * 4 + c / 64 := by omega
  have e3 : (((val * 256 % 2 ^ 32 + a % 256) * 256 % 2 ^ 32 + b % 256) * 256 % 2 ^ 32
      + c % 256) / 1 % 64 = c % 64 := by omega
  rw [e0, e1, e2, e3]
  simp only [List.append_assoc, List.cons_append, List.nil_append]

theorem base64_finish_full (val : Nat) (out : List Char) (h : out.length % 4 = 0) :
    base64_finish val (-6) out = out := by
  unfold base64_finish
  simp [h]

theorem base64_finish_one (val : Nat) (out : List Char) (c0 : Char) (h : out.length % 4 = 0) :
    base64_finish val (-4) (out ++ [c0]) =
      out ++ [c0, base64_char (val * 256 % 2 ^ 32 / 16 % 64), '=', '='] := by
  unfold base64_finish
  have hlen : (4 - (out ++ [c0] ++
      [base64_table.getD (val * 256 % 2 ^ 32 / 2 ^ ((-4 : Int) + 8).toNat % 64) 'A']).length % 4)
      % 4 = 2 := by
    simp only [List.length_append, List.length_singleton]
    omega
  simp only [show (-6 : Int) < -4 by decide, if_true, hlen]
  simp [base64_char, List.replicate]

theorem base64_finish_two (val : Nat) (out : List Char) (c0 c1 : Char)
    (h : out.length % 4 = 0) :
    base64_finish val (-2) (out ++ [c0, c1]) =
      out ++ [c0, c1, base64_char (val * 256 % 2 ^ 32 / 64 % 64), '='] := by
  unfold base64_finish
  have hlen : (4 - (out ++ [c0, c1] ++
      [base64_table.getD (val * 256 % 2 ^ 32 / 2 ^ ((-2 : Int) + 8).toNat % 64) 'A']).length % 4)
      % 4 = 1 := by
    simp only [List.length_append, List.length_singleton, List.length_cons, List.length_nil]
    omega
  simp only [show (-6 : Int) < -2 by decide, if_true, hlen]
  simp [base64_char, List.replicate]

theorem base64_encode_from : ∀ (input : List Nat) (val : Nat) (out : List Char),
    (∀ b ∈ input, b < 256) → out.length % 4 = 0 →
    base64_finish (base64_encode_loop input val (-6) out).1
        (base64_encode_loop input val (-6) out).2.1
        (base64_encode_loop input val (-6) out).2.2 = out ++ base64_standard input
  | [], val, out, _, hl => by
    simp only [base64_encode_loop, base64_standard, List.append_nil]
    exact base64_finish_full val out hl
  | [a], val, out, hb, hl => by
    have ha : a < 256 := hb a (List.mem_singleton_self a)
    rw [base64_encode_step0]
    simp only [base64_encode_loop, base64_standard]
    rw [base64_finish_one _ _ _ hl]
    have e0 : (val * 256 % 2 ^ 32 + a % 256) / 4 % 64 = a / 4 := by omega
    have e1 : (val * 256 % 2 ^ 32 + a % 256) * 256 % 2 ^ 32 / 16 % 64 = a % 4 * 16 := by omega
    rw [e0, e1]
  | [a, b], val, out, hb, hl => by
    have ha : a < 256 := hb a (by simp)
    have hb2 : b < 256 := hb b (by simp)
    rw [base64_encode_step0, base64_encode_step1]
    simp only [base64_encode_loop, base64_standard, List.append_assoc, List.singleton_append]
    rw [base64_finish_two _ _ _ _ hl]
    have e0 : (val * 256 % 2 ^ 32 + a % 256) / 4 % 64 = a / 4 := by omega
    have e1 : ((val * 256 % 2 ^ 32 + a % 256) * 256 % 2 ^ 32 + b % 256) / 16 % 64 =
        a % 4 * 16 + b / 16 := by omega
    have e2 : ((val * 256 % 2 ^ 32 + a % 256) * 256 % 2 ^ 32 + b % 256) * 256 % 2 ^ 32
        / 64 % 64 = b % 16 * 4 := by omega
    rw [e0, e1, e2]
  | a :: b :: c :: rest, val, out, hb, hl => by
    have ha : a < 256 := hb a (by simp)
    have hb2 : b < 256 := hb b (by simp)
    have hc : c < 256 := hb c (by simp)
    obtain ⟨val3, h3⟩ := base64_encode_group a b c val rest out ha hb2 hc
    rw [h3, base64_encode_from rest val3 _
      (fun x hx => hb x (by simp [hx])) (by simp [hl])]
    simp [base64_standard]

theorem base64_encode_standard (input : List Nat) (hb : ∀ b ∈ input, b < 256) :
    base64_encode input = String.mk (base64_standard input) := by
  unfold base64_encode
  simp only
  rw [base64_encode_from input 0 [] hb rfl]
  rfl

theorem base64_standard_length : ∀ (input : List Nat),
    (base64_standard input).length = 4 * ((input.length + 2) / 3)
  | [] => rfl
  | [_] => by simp [base64_standard]
  | [_, _] => by simp [base64_standard]
  | _ :: _ :: _ :: rest => by
    simp only [base64_standard, List.length_cons, base64_standard_length rest]
    omega

theorem base64_char_digit : ∀ i, i < 64 →
    base64_char i ≠ '=' ∧ base64_T ((base64_char i).toNat % 256) = (i : Int) := by
  decide

theorem base64_char_alphabet (i : Nat) (h : i < 64) : base64_char i ∈ base64_table := by
  unfold base64_char
  rw [List.getD_eq_getElem _ _ (by simpa [base64_table] using h)]
  exact List.getElem_mem _

theorem base64_decode_step (i val : Nat) (valb : Int) (rest : List Char) (out : List Nat)
    (h : i < 64) :
    base64_decode_loop (base64_char i :: rest) val valb out =
      if 0 ≤ valb + 6 then
        base64_decode_loop rest (val * 64 % 2 ^ 32 + i) (valb + 6 - 8)
          (out ++ [(val * 64 % 2 ^ 32 + i) / 2 ^ (valb + 6).toNat % 256])
      else base64_decode_loop rest (val * 64 % 2 ^ 32 + i) (valb + 6) out := by
  obtain ⟨h1, h2⟩ := base64_char_digit i h
  have h3 : ((i : Int) = -1) = False := by
    simp only [eq_iff_iff, iff_false]
    omega
  simp only [base64_decode_loop, h1, if_false, h2, h3, Int.toNat_ofNat]

theorem base64_decode_group (a b c val : Nat) (rest : List Char) (out : List Nat)
    (ha : a < 256) (hb : b < 256) (hc : c < 256) :
    ∃ val4, base64_decode_loop (base64_char (a / 4) :: base64_char (a % 4 * 16 + b / 16) ::
        base64_char (b % 16 * 4 + c / 64) :: base64_char (c % 64) :: rest) val (-8) out =
      base64_decode_loop rest val4 (-8) (out ++ [a, b, c]) := by
  refine ⟨(((val * 64 % 2 ^ 32 + a / 4) * 64 % 2 ^ 32 + (a % 4 * 16 + b / 16)) * 64 % 2 ^ 32
    + (b % 16 * 4 + c / 64)) * 64 % 2 ^ 32 + c % 64, ?_⟩
  rw [base64_decode_step _ _ _ _ _ (by omega), if_neg (by decide),
    base64_decode_step _ _ _ _ _ (by omega), if_pos (by decide),
    base64_decode_step _ _ _ _ _ (by omega), if_pos (by decide),
    base64_decode_step _ _ _ _ _ (by omega), if_pos (by decide)]
  have e1 : ((val * 64 % 2 ^ 32 + a / 4) * 64 % 2 ^ 32 + (a % 4 * 16 + b / 16))
      / 2 ^ ((-8 : Int) + 6 + 6).toNat % 256 = a := by
    simp only [show ((-8 : Int) + 6 + 6).toNat = 4 by decide]
    omega
  have e2 : (((val * 64 % 2 ^ 32 + a / 4) * 64 % 2 ^ 32 + (a % 4 * 16 + b / 16)) * 64 % 2 ^ 32
      + (b % 16 * 4 + c / 64)) / 2 ^ ((-8 : Int) + 6 + 6 - 8 + 6).toNat % 256 = b := by
    simp only [show ((-8 : Int) + 6 + 6 - 8 + 6).toNat = 2 by decide]
    omega
  have e3 : ((((val * 64 % 2 ^ 32 + a / 4) * 64 % 2 ^ 32 + (a % 4 * 16 + b / 16)) * 64 % 2 ^ 32
      + (b % 16 * 4 + c / 64)) * 64 % 2 ^ 32 + c % 64)
      / 2 ^ ((-8 : Int) + 6 + 6 - 8 + 6 - 8 + 6).toNat % 256 = c := by
    simp only [show ((-8 : Int) + 6 + 6 - 8 + 6 - 8 + 6).toNat = 0 by decide]
    omega
  rw [e1, e2, e3]
  simp only [List.append_assoc, List.cons_append, List.nil_append]
  rfl

theorem base64_decode_from : ∀ (input : List Nat) (val : Nat) (out : List Nat),
    (∀ b ∈ input, b < 256) →
    base64_decode_loop (base64_standard input) val (-8) out = out ++ input
  | [], val, out, _ => by
    simp [base64_standard, base64_decode_loop]
  | [a], val, out, hb => by
    have ha : a < 256 := hb a (List.mem_singleton_self a)
    simp only [base64_standard]
    rw [base64_decode_step _ _ _ _ _ (by omega), if_neg (by decide),
      base64_decode_step _ _ _ _ _ (by omega), if_pos (by decide)]
    have e1 : ((val * 64 % 2 ^ 32 + a / 4) * 64 % 2 ^ 32 + a % 4 * 16)
        / 2 ^ ((-8 : Int) + 6 + 6).toNat % 256 = a := by
      simp only [show ((-8 : Int) + 6 + 6).toNat = 4 by decide]
      omega
    rw [e1]
    simp [base64_decode_loop]
  | [a, b], val, out, hb => by
    have ha : a < 256 := hb a (by simp)
    have hb2 : b < 256 := hb b (by simp)
    simp only [base64_standard]
    rw [base64_decode_step _ _ _ _ _ (by omega), if_neg (by decide),
      base64_decode_step _ _ _ _ _ (by omega), if_pos (by decide),
      base64_decode_step _ _ _ _ _ (by omega), if_pos (by decide)]
    have e1 : ((val * 64 % 2 ^ 32 + a / 4) * 64 % 2 ^ 32 + (a % 4 * 16 + b / 16))
        / 2 ^ ((-8 : Int) + 6 + 6).toNat % 256 = a := by
      simp only [show ((-8 : Int) + 6 + 6).toNat = 4 by decide]
      omega
    have e2 : (((val * 64 % 2 ^ 32 + a / 4) * 64 % 2 ^ 32 + (a % 4 * 16 + b / 16)) * 64
        % 2 ^ 32 + b % 16 * 4) / 2 ^ ((-8 : Int) + 6 + 6 - 8 + 6).toNat % 256 = b := by
      simp only [show ((-8 : Int) + 6 + 6 - 8 + 6).toNat = 2 by decide]
      omega
    rw [e1, e2]
    simp [base64_decode_loop]
  | a :: b :: c :: rest, val, out, hb => by
    have ha : a < 256 := hb a (by simp)
    have hb2 : b < 256 := hb b (by simp)
    have hc : c < 256 := hb c (by simp)
    simp only [base64_standard]
    obtain ⟨val4, h4⟩ := base64_decode_group a b c val (base64_standard rest) out ha hb2 hc
    rw [h4, base64_decode_from rest val4 _ (fun x hx => hb x (by simp [hx]))]
    simp

theorem base64_decode_encode (input : List Nat) (hb : ∀ b ∈ input, b < 256) :
    base64_decode (base64_encode input) = input := by
  rw [base64_encode_standard input hb]
  show base64_decode_loop (base64_standard input) 0 (-8) [] = input
  rw [base64_decode_from input 0 [] hb]
  rfl

theorem base64_standard_alphabet : ∀ (input : List Nat), (∀ b ∈ input, b < 256) →
    ∀ ch ∈ base64_standard input, ch ∈ base64_table ∨ ch = '='
  | [], _, ch, h => by simp [base64_standard] at h
  | [a], hb, ch, h => by
    have ha : a < 256 := hb a (List.mem_singleton_self a)
    simp only [base64_standard, List.mem_cons, List.mem_singleton, List.not_mem_nil,
      or_false] at h
    rcases h with h | h | h | h
    · exact Or.inl (h ▸ base64_char_alphabet _ (by omega))
    · exact Or.inl (h ▸ base64_char_alphabet _ (by omega))
    · exact Or.inr h
    · exact Or.inr h
  | [a, b], hb, ch, h => by
    have ha : a < 256 := hb a (by simp)
    have hb2 : b < 256 := hb b (by simp)
    simp only [base64_standard, List.mem_cons, List.mem_singleton, List.not_mem_nil,
      or_false] at h
    rcases h with h | h | h | h
    · exact Or.inl (h ▸ base64_char_alphabet _ (by omega))
    · exact Or.inl (h ▸ base64_char_alphabet _ (by omega))
    · exact Or.inl (h ▸ base64_char_alphabet _ (by omega))
    · exact Or.inr h
  | a :: b :: c :: rest, hb, ch, h => by
    have ha : a < 256 := hb a (by simp)
    have hb2 : b < 256 := hb b (by simp)
    have hc : c < 256 := hb c (by simp)
    simp only [base64_standard, List.mem_cons] at h
    rcases h with h | h | h | h | h
    · exact Or.inl (h ▸ base64_char_alphabet _ (by omega))
    · exact Or.inl (h ▸ base64_char_alphabet _ (by omega))
    · exact Or.inl (h ▸ base64_char_alphabet _ (by omega))
    · exact Or.inl (h ▸ base64_char_alphabet _ (by omega))
    · exact base64_standard_alphabet rest (fun x hx => hb x (by simp [hx])) ch h

theorem stoul_scan_hex_pair : ∀ a ∈ hexDigits, ∀ b ∈ hexDigits,
    stoul_scan [a, b] = (false, [a, b]) ∧ (hex_digit a).getD 0 < 16 ∧
      (hex_digit b).getD 0 < 16 := by
  decide

theorem stoul16_hex_pair (ulong_bits : Nat) (hw : 8 ≤ ulong_bits) (a b : Char)
    (ha : a ∈ hexDigits) (hb : b ∈ hexDigits) :
    stoul16 ulong_bits [a, b] = .ok (16 * (hex_digit a).getD 0 + (hex_digit b).getD 0) := by
  obtain ⟨h1, h2, h3⟩ := stoul_scan_hex_pair a ha b hb
  have hpow : 2 ^ 8 ≤ 2 ^ ulong_bits := Nat.pow_le_pow_right Nat.two_pos hw
  unfold stoul16
  simp only [h1, List.isEmpty_cons, Bool.false_eq_true, if_false, List.foldl_cons,
    List.foldl_nil, Nat.mul_zero, Nat.zero_add]
  rw [if_neg (by omega)]

theorem hex_to_bytes_loop_pair (ulong_bits : Nat) (a b : Char) (rest : List Char)
    (byte : Nat) (out : List Nat) (h1 : stoul16 ulong_bits [a, b] = .ok byte)
    (h2 : hex_to_bytes_loop ulong_bits rest = .ok out) :
    hex_to_bytes_loop ulong_bits (a :: b :: rest) = .ok (byte % 256 :: out) := by
  have e : hex_to_bytes_loop ulong_bits (a :: b :: rest) =
      (match stoul16 ulong_bits [a, b] with
        | Except.error e => Except.error e
        | Except.ok byte =>
          match hex_to_bytes_loop ulong_bits rest with
          | Except.error e => Except.error e
          | Except.ok out => Except.ok (byte % 256 :: out)) := rfl
  rw [e, h1, h2]

theorem hex_to_bytes_loop_hex (ulong_bits : Nat) (hw : 8 ≤ ulong_bits) :
    ∀ (l : List Char), l.length % 2 = 0 → (∀ c ∈ l, c ∈ hexDigits) →
      hex_to_bytes_loop ulong_bits l = .ok (hex_pairs l)
  | [], _, _ => rfl
  | [_], h, _ => by simp at h
  | a :: b :: rest, h, hd => by
    have ha : a ∈ hexDigits := hd a (List.mem_cons_self _ _)
    have hb : b ∈ hexDigits := hd b (List.mem_cons_of_mem _ (List.mem_cons_self _ _))
    have hlen : rest.length % 2 = 0 := by
      simp only [List.length_cons] at h
      omega
    have ih := hex_to_bytes_loop_hex ulong_bits hw rest hlen
      (fun c hc => hd c (List.mem_cons_of_mem _ (List.mem_cons_of_mem _ hc)))
    have h2 := (stoul_scan_hex_pair a ha b hb).2
    rw [hex_to_bytes_loop_pair ulong_bits a b rest _ _
      (stoul16_hex_pair ulong_bits hw a b ha hb) ih, Nat.mod_eq_of_lt (by omega)]
    rfl

theorem hex_to_bytes_lenient (ulong_bits : Nat) (hw : 8 ≤ ulong_bits) :
    hex_to_bytes ulong_bits "1g" = .ok [1] := by
  have hpow : 2 ^ 8 ≤ 2 ^ ulong_bits := Nat.pow_le_pow_right Nat.two_pos hw
  have hs : stoul_scan ['1', 'g'] = (false, ['1']) := by decide
  have hv : (hex_digit '1').getD 0 = 1 := by decide
  have h1 : stoul16 ulong_bits ['1', 'g'] = .ok 1 := by
    unfold stoul16
    simp only [hs, List.isEmpty_cons, Bool.false_eq_true, if_false, List.foldl_cons,
      List.foldl_nil, Nat.mul_zero, Nat.zero_add, hv]
    rw [if_neg (by omega)]
    try rfl
  show (if "1g".length % 2 ≠ 0 then _ else hex_to_bytes_loop ulong_bits ['1', 'g']) = _
  rw [if_neg (by decide), hex_to_bytes_loop_pair ulong_bits '1' 'g' [] 1 [] h1 rfl]

theorem hex_to_bytes_odd (ulong_bits : Nat) (hex : String) (h : hex.length % 2 = 1) :
    hex_to_bytes ulong_bits hex = .error "Bad hex key" := by
  unfold hex_to_bytes
  rw [if_pos (by omega)]

theorem crypto.decrypt_of_key (os : Bcrypt) (ulong_bits : Nat) (cipherB64 keyHex salt : String)
    (keyBytes : List Nat) (hkey : hex_to_bytes ulong_bits keyHex = .ok keyBytes) :
    crypto.decrypt os ulong_bits cipherB64 keyHex salt =
      if (base64_decode cipherB64).length < 28 then .error "Cipher too short"
      else os.gcm_decrypt keyBytes ((base64_decode cipherB64).take 12)
        (((base64_decode cipherB64).drop 12).take 16) salt ((base64_decode cipherB64).drop 28) := by
  unfold crypto.decrypt
  rw [hkey]

theorem fill_buffer_length (n : Nat) (written : List Nat) : (fill_buffer n written).length = n := by
  simp [fill_buffer]

theorem fill_buffer_byte (n : Nat) (written : List Nat) : ∀ b ∈ fill_buffer n written, b < 256 := by
  intro b hb
  have hb2 := List.mem_of_mem_take hb
  rcases List.mem_append.mp hb2 with h | h
  · obtain ⟨x, _, hx⟩ := List.mem_map.mp h
    rw [← hx]
    exact Nat.mod_lt _ (by decide)
  · rw [(List.mem_replicate.mp h).2]
    decide

theorem crypto.decrypt_packed (os : Bcrypt) (ulong_bits : Nat) (keyHex salt : String)
    (keyBytes iv tag body : List Nat) (hkey : hex_to_bytes ulong_bits keyHex = .ok keyBytes)
    (hiv : iv.length = 12) (htag : tag.length = 16)
    (hbytes : ∀ b ∈ iv ++ tag ++ body, b < 256) :
    crypto.decrypt os ulong_bits (base64_encode (iv ++ tag ++ body)) keyHex salt =
      os.gcm_decrypt keyBytes iv tag salt body := by
  rw [crypto.decrypt_of_key os ulong_bits _ keyHex salt keyBytes hkey,
    base64_decode_encode _ hbytes]
  have hlen : ¬ (iv ++ tag ++ body).length < 28 := by
    simp only [List.length_append, hiv, htag]
    omega
  rw [if_neg hlen]
  have h1 : (iv ++ tag ++ body).take 12 = iv := by
    rw [List.append_assoc, List.take_append_of_le_length (by omega), List.take_of_length_le (by omega)]
  have h2 : ((iv ++ tag ++ body).drop 12).take 16 = tag := by
    rw [List.append_assoc, List.drop_append_of_le_length (by omega),
      List.drop_of_length_le (by omega), List.nil_append,
      List.take_append_of_le_length (by omega), List.take_of_length_le (by omega)]
  have h3 : (iv ++ tag ++ body).drop 28 = body := by
    have : (iv ++ tag).length = 28 := by simp [hiv, htag]
    rw [← this, List.drop_left]
  rw [h1, h2, h3]

theorem crypto.encrypt_inv (os : Bcrypt) (ulong_bits : Nat) (plain keyHex salt out : String)
    (drawn : Nat) (h : crypto.encrypt os ulong_bits plain keyHex salt drawn = .ok out) :
    ∃ keyBytes iv tag cipher, hex_to_bytes ulong_bits keyHex = .ok keyBytes ∧
      iv.length = 12 ∧ tag.length = 16 ∧ (∀ b ∈ iv ++ tag ++ cipher, b < 256) ∧
      out = base64_encode (iv ++ tag ++ cipher) := by
  unfold crypto.encrypt at h
  cases hk : hex_to_bytes ulong_bits keyHex with
  | error e => simp [hk] at h
  | ok keyBytes =>
    simp only [hk] at h
    unfold random_bytes at h
    cases hr : os.gen_random 12 drawn with
    | none => simp [hr] at h
    | some written =>
      simp only [hr] at h
      cases hg : os.gcm_encrypt keyBytes (fill_buffer 12 written) salt plain with
      | error e => simp [hg] at h
      | ok p =>
        obtain ⟨tagWritten, cipherWritten⟩ := p
        simp only [hg] at h
        injection h with h
        refine ⟨keyBytes, fill_buffer 12 written, fill_buffer 16 tagWritten,
          cipherWritten.map (fun b => b % 256), rfl, fill_buffer_length _ _,
          fill_buffer_length _ _, ?_, h.symm⟩
        intro b hb
        rcases List.mem_append.mp hb with hb | hb
        · rcases List.mem_append.mp hb with hb | hb
          · exact fill_buffer_byte _ _ b hb
          · exact fill_buffer_byte _ _ b hb
        · obtain ⟨x, _, hx⟩ := List.mem_map.mp hb
          rw [← hx]
          exact Nat.mod_lt _ (by decide)

/-! ## Theorems -/

/-- C1. Seal immutability: whenever a statement sequence `pre ++ sec :: later` with a
top-level `secure` statement `sec` has executed, the current vault is sealed, the state
is the one the `secure` statement left (the later statements changed nothing), and any
`registry`, `store` or `replace` statement executed next throws the matching
"Cannot ... after secure (line N)" error without changing the state; so does the whole
sequence continued with such a statement. -/
theorem seal_immutability (env : Platform) (st st2 : Interpreter)
    (pre later : List Statement) (sec s : Statement)
    (hsec : sec.type = .Secure)
    (hrun : Interpreter.execute_body env st (pre ++ sec :: later) = .ok () st2) :
    (∃ st1 v, Interpreter.execute_body env st pre = .ok () st1 ∧
      Map.find st1.byName_ st1.currentVault_ = some v ∧
      st2 = st1.setVault { v with sealed := true } ∧
      Map.find st2.byName_ st2.currentVault_ = some { v with sealed := true }) ∧
    (s.type = .Registry → Interpreter.execute_statement env st2 s =
      .throw ("Cannot select registry after secure (line " ++ toString s.line ++ ")") st2) ∧
    (s.type = .Store → Interpreter.execute_statement env st2 s =
      .throw ("Cannot store after secure (line " ++ toString s.line ++ ")") st2) ∧
    (s.type = .Replace → Interpreter.execute_statement env st2 s =
      .throw ("Cannot replace after secure (line " ++ toString s.line ++ ")") st2) ∧
    (s.type = .Registry ∨ s.type = .Store ∨ s.type = .Replace →
      ∀ rest : List Statement,
        Interpreter.execute_body env st (pre ++ sec :: (later ++ s :: rest)) =
          Interpreter.execute_statement env st2 s) := by
  rw [Interpreter.execute_body_append] at hrun
  cases hpre : Interpreter.execute_body env st pre with
  | throw e st1 => simp [hpre] at hrun
  | ok u st1 =>
    simp only [hpre, Interpreter.execute_body] at hrun
    cases hx : Interpreter.execute_statement env st1 sec with
    | throw e st3 => simp [hx] at hrun
    | ok u3 st3 =>
      simp only [hx] at hrun
      obtain ⟨v, hv, h3⟩ := Interpreter.execute_secure env st1 st3 sec hsec hx
      have hfind3 : Map.find st3.byName_ st3.currentVault_ = some { v with sealed := true } := by
        rw [h3]
        exact Map.find_assign_same _ _ _
      have h23 : st2 = st3 :=
        Interpreter.sealed_body_fixed env st3 _ hfind3 rfl later st2 hrun
      have hw := Interpreter.sealed_write_throws env st3 _ hfind3 rfl s
      subst h23
      refine ⟨⟨st1, v, rfl, hv, h3, hfind3⟩, hw.1, hw.2.1, hw.2.2, ?_⟩
      intro ht rest
      have hthrow : ∃ e, Interpreter.execute_statement env st2 s = .throw e st2 := by
        rcases ht with h | h | h
        · exact ⟨_, hw.1 h⟩
        · exact ⟨_, hw.2.1 h⟩
        · exact ⟨_, hw.2.2 h⟩
      obtain ⟨e, he⟩ := hthrow
      rw [Interpreter.execute_body_append, hpre]
      simp only [Interpreter.execute_body, hx]
      rw [Interpreter.execute_body_append, hrun]
      simp only [Interpreter.execute_body, he]

/-- C1 at `registry R`, `store`, `secure`, `note`, then a second `store` in vault `A`. -/
theorem seal_immutability_witness :
    (stmtSecure 4).type = .Secure ∧
    Interpreter.execute_body samplePlatform sampleState
      ([stmtRegistry, stmtStore 3] ++ stmtSecure 4 :: [stmtNote 5]) = .ok () sampleSealedState ∧
    Interpreter.execute_statement samplePlatform sampleSealedState (stmtStore 6) =
      .throw "Cannot store after secure (line 6)" sampleSealedState :=
  ⟨rfl, rfl, (seal_immutability samplePlatform sampleState sampleSealedState
    [stmtRegistry, stmtStore 3] [stmtNote 5] (stmtSecure 4) (stmtStore 6) rfl rfl).2.2.1 rfl⟩

/-- C2, as stated, fails: in a state whose unsealed vault `A` holds `R`/`k`, the statement
`replace R -> "k" = foo()` does not succeed, it throws "Unknown builtin: foo". -/
theorem replace_existing_can_fail :
    Interpreter.execute_statement samplePlatform sampleStoredState stmtReplaceUnknown =
      .throw "Unknown builtin: foo" sampleStoredState ∧
    ¬ (∀ (env : Platform) (st : Interpreter) (vault : SealedVault) (R K : String)
        (s : Statement),
        st.currentVault = some vault → vault.sealed = false → vault.hasEntry R K = true →
        s.type = .Replace → s.target = ⟨some R, K⟩ →
        (Interpreter.execute_statement env st s).isOk = true) := by
  refine ⟨by decide, fun h => ?_⟩
  have h1 := h samplePlatform sampleStoredState { sampleSealedVault with sealed := false }
    "R" "k" stmtReplaceUnknown (by decide) (by decide) (by decide) (by decide) (by decide)
  revert h1
  decide

/-- C2, amended. No-overwrite of store: in a state whose current vault is unsealed and
holds key `K` in the registry `R` the target resolves to, a `store` throws the overwrite
error carrying its own line and leaves the whole state as it was, whereas a `replace`
succeeds exactly when the value evaluates and the platform's encrypt and digest succeed,
and then overwrites the entry with the new digest and cipher. -/
theorem store_no_overwrite (env : Platform) (st : Interpreter) (vault : SealedVault)
    (R : String) (s : Statement)
    (hv : st.currentVault = some vault) (hs : vault.sealed = false)
    (hr : st.resolve_registry s.target s.line = .ok R)
    (hk : vault.hasEntry R s.target.key = true) :
    (s.type = .Store → Interpreter.execute_statement env st s =
      .throw ("store would overwrite existing key on line " ++ toString s.line) st) ∧
    (s.type = .Replace →
      ((Interpreter.execute_statement env st s).isOk = true ↔
        ∃ plain used cipher mac,
          Interpreter.builtin_value env st.drawn s.value = .ok (plain, used) ∧
          env.encrypt plain vault.masterKeyHex (R ++ ":" ++ s.target.key) (st.drawn + used)
            = .ok cipher ∧
          env.digest cipher vault.masterKeyHex = .ok mac) ∧
      ∀ plain used cipher mac,
        Interpreter.builtin_value env st.drawn s.value = .ok (plain, used) →
        env.encrypt plain vault.masterKeyHex (R ++ ":" ++ s.target.key) (st.drawn + used)
          = .ok cipher →
        env.digest cipher vault.masterKeyHex = .ok mac →
        Interpreter.execute_statement env st s =
          .ok () (st.written vault R s.target.key ⟨mac, cipher⟩ used) ∧
        ((st.written vault R s.target.key ⟨mac, cipher⟩ used).currentVault.bind
          (fun v => v.entry R s.target.key)) = some ⟨mac, cipher⟩) := by
  unfold Interpreter.currentVault at hv
  refine ⟨fun ht => ?_, fun ht => ?_⟩
  · rw [Interpreter.execute_store env st vault s R ht hv hs hr, hk]
    simp
  · have hx := Interpreter.execute_replace env st vault s R ht hv hs hr
    rw [Interpreter.write_after_touch] at hx
    refine ⟨⟨fun hok => ?_, fun hex => ?_⟩, ?_⟩
    · cases hres : Interpreter.execute_statement env st s with
      | throw e st1 => rw [hres] at hok; cases hok
      | ok u st2 =>
        obtain ⟨vault1, R1, plain, used, cipher, mac, hv1, _, hr1, _, hb, he, hd, _⟩ :=
          Interpreter.write_inv env st st2 s (Or.inr ht) hres
        rw [hv] at hv1
        rw [hr] at hr1
        injection hv1 with hv1
        injection hr1 with hr1
        subst hv1
        subst hr1
        exact ⟨plain, used, cipher, mac, hb, he, hd⟩
    · obtain ⟨plain, used, cipher, mac, hb, he, hd⟩ := hex
      rw [hx]
      simp [hb, he, hd, Outcome.isOk]
    · intro plain used cipher mac hb he hd
      refine ⟨?_, ?_⟩
      · rw [hx]
        simp [hb, he, hd]
      · rw [Interpreter.currentVault_written]
        simp [SealedVault.entry_withEntry_same]

/-- C2 (amended) at the duplicate `store -> "k" = "v"` on line 4 after `registry R` and a
first `store` of `k` in vault `A`. -/
theorem store_no_overwrite_witness :
    sampleStoredState.currentVault = some { sampleSealedVault with sealed := false } ∧
    Interpreter.execute_statement samplePlatform sampleStoredState (stmtStore 4) =
      .throw "store would overwrite existing key on line 4" sampleStoredState :=
  ⟨by decide, (store_no_overwrite samplePlatform sampleStoredState
    { sampleSealedVault with sealed := false } "R" (stmtStore 4)
    (by decide) (by decide) rfl (by decide)).1 (by decide)⟩

/-- C3. Store postcondition: when a `store` whose target resolves to registry `R` returns
normally in a state whose current vault is `vault`, the vault was unsealed and the key
absent from `R`, the value evaluated to some `plain`, the platform encrypted `plain` under
the vault's master key with the salt `R ++ ":" ++ key` into `cipher`, `mac` is the digest
of `cipher` under the master key, and the entry `R`/`key` of the current vault is now
`{digest = mac, cipher = cipher}`, the master key being unchanged. -/
theorem store_postcondition (env : Platform) (st st2 : Interpreter) (vault : SealedVault)
    (R : String) (s : Statement) (ht : s.type = .Store)
    (hv : st.currentVault = some vault)
    (hr : st.resolve_registry s.target s.line = .ok R)
    (h : Interpreter.execute_statement env st s = .ok () st2) :
    vault.sealed = false ∧ vault.entry R s.target.key = none ∧
    ∃ plain used cipher mac,
      Interpreter.builtin_value env st.drawn s.value = .ok (plain, used) ∧
      env.encrypt plain vault.masterKeyHex (R ++ ":" ++ s.target.key) (st.drawn + used)
        = .ok cipher ∧
      env.digest cipher vault.masterKeyHex = .ok mac ∧
      ∃ vault2, st2.currentVault = some vault2 ∧
        vault2.entry R s.target.key = some { digest := mac, cipher := cipher } ∧
        vault2.masterKeyHex = vault.masterKeyHex := by
  unfold Interpreter.currentVault at hv
  obtain ⟨vault1, R1, plain, used, cipher, mac, hv1, hs, hr1, habs, hb, he, hd, h2⟩ :=
    Interpreter.write_inv env st st2 s (Or.inl ht) h
  rw [hv] at hv1
  rw [hr] at hr1
  injection hv1 with hv1
  injection hr1 with hr1
  subst hv1
  subst hr1
  have habs2 := habs ht
  rw [SealedVault.hasEntry_eq] at habs2
  refine ⟨hs, by simpa using habs2, plain, used, cipher, mac, hb, he, hd,
    vault.withEntry R s.target.key ⟨mac, cipher⟩, ?_, ?_, ?_⟩
  · rw [h2, Interpreter.currentVault_written]
  · exact SealedVault.entry_withEntry_same _ _ _ _
  · rfl

/-- C3 at scenario S1: `store -> "k" = "v"` after `registry R` in vault `A`; the salt
is `"R:k"`. -/
theorem store_postcondition_witness :
    Interpreter.execute_statement samplePlatform sampleRegistryState (stmtStore 3) =
      .ok () sampleStoredState ∧
    samplePlatform.encrypt "v" "00" ("R" ++ ":" ++ "k") 0 = .ok "enc(v,00,R:k)" ∧
    ∃ plain used cipher mac,
      Interpreter.builtin_value samplePlatform 0 ⟨.Literal, "v"⟩ = .ok (plain, used) ∧
      samplePlatform.encrypt plain "00" ("R" ++ ":" ++ "k") (0 + used) = .ok cipher ∧
      samplePlatform.digest cipher "00" = .ok mac ∧
      ∃ vault2, sampleStoredState.currentVault = some vault2 ∧
        vault2.entry "R" "k" = some { digest := mac, cipher := cipher } ∧
        vault2.masterKeyHex = "00" :=
  ⟨rfl, rfl, (store_postcondition samplePlatform sampleRegistryState sampleStoredState
    sampleVault "R" (stmtStore 3) rfl rfl rfl rfl).2.2⟩

/-- C4. Replace is create-or-overwrite with a frame. A `store` or `replace` that returns
normally, with its target resolved to registry `R`, ran on an unsealed vault and sets
the entry at `R` and the target key to the freshly sealed one, whatever stood there
before: its cipher is `encrypt` of the evaluated value under the vault's master key and
the salt `R:key`, its digest the keyed digest of that cipher. Registry `R` exists
afterwards. Every other entry of `R`, every other registry, the name, optional flag,
sealed flag and master key of the current vault, every other vault of the map, and the
output list, current vault name, current registry and options of the interpreter are as
before; the draw counter has advanced by the draws of the value and one for the IV. -/
theorem write_frame (env : Platform) (st st2 : Interpreter) (vault : SealedVault)
    (R : String) (s : Statement) (ht : s.type = .Store ∨ s.type = .Replace)
    (hv : st.currentVault = some vault)
    (hr : st.resolve_registry s.target s.line = .ok R)
    (h : Interpreter.execute_statement env st s = .ok () st2) :
    vault.sealed = false ∧
    ∃ plain used cipher mac,
      Interpreter.builtin_value env st.drawn s.value = .ok (plain, used) ∧
      env.encrypt plain vault.masterKeyHex (R ++ ":" ++ s.target.key) (st.drawn + used)
        = .ok cipher ∧
      env.digest cipher vault.masterKeyHex = .ok mac ∧
      st2.drawn = st.drawn + used + 1 ∧
      ∃ vault2, st2.currentVault = some vault2 ∧
        vault2.entry R s.target.key = some { digest := mac, cipher := cipher } ∧
        (∃ reg2, Map.find vault2.registries R = some reg2 ∧
          Map.find reg2.entries s.target.key = some { digest := mac, cipher := cipher } ∧
          ∀ key2, key2 ≠ s.target.key →
            Map.find reg2.entries key2 =
              Map.find ((Map.find vault.registries R).getD ⟨[]⟩).entries key2) ∧
        (∀ key2, key2 ≠ s.target.key → vault2.entry R key2 = vault.entry R key2) ∧
        (∀ reg2, reg2 ≠ R →
          Map.find vault2.registries reg2 = Map.find vault.registries reg2) ∧
        vault2.name = vault.name ∧ vault2.optional = vault.optional ∧
        vault2.sealed = vault.sealed ∧ vault2.masterKeyHex = vault.masterKeyHex ∧
        (∀ n, n ≠ st.currentVault_ → Map.find st2.byName_ n = Map.find st.byName_ n) ∧
        st2.sealed_ = st.sealed_ ∧ st2.currentVault_ = st.currentVault_ ∧
        st2.currentRegistry_ = st.currentRegistry_ ∧ st2.opts_ = st.opts_ := by
  unfold Interpreter.currentVault at hv
  obtain ⟨vault1, R1, plain, used, cipher, mac, hv1, hs, hr1, habs, hb, he, hd, h2⟩ :=
    Interpreter.write_inv env st st2 s ht h
  rw [hv] at hv1
  rw [hr] at hr1
  injection hv1 with hv1
  injection hr1 with hr1
  subst hv1
  subst hr1
  subst h2
  refine ⟨hs, plain, used, cipher, mac, hb, he, hd, rfl,
    vault.withEntry R s.target.key ⟨mac, cipher⟩,
    Interpreter.currentVault_written _ _ _ _ _ _,
    SealedVault.entry_withEntry_same _ _ _ _, ?_,
    fun key2 hne => SealedVault.entry_withEntry_key _ _ _ _ _ hne,
    fun reg2 hne => SealedVault.registries_withEntry_other _ _ _ _ _ hne,
    rfl, rfl, rfl, rfl,
    fun n hne => Interpreter.byName_written_other _ _ _ _ _ _ n hne,
    rfl, rfl, rfl, rfl⟩
  refine ⟨⟨Map.assign ((Map.find vault.registries R).getD ⟨[]⟩).entries s.target.key
    ⟨mac, cipher⟩⟩, ?_, ?_, ?_⟩
  · simp only [SealedVault.withEntry, Map.find_assign_same]
  · exact Map.find_assign_same _ _ _
  · intro key2 hne
    exact Map.find_assign_other _ _ _ _ hne

/-- C4 at `replace -> "k" = "w"` on line 4, after `registry R` and `store -> "k" = "v"`:
the entry `R`/`k`, which held the sealed `v`, holds the sealed `w`. -/
theorem write_frame_witness :
    sampleStoredState.currentVault = some { sampleSealedVault with sealed := false } ∧
    ({ sampleSealedVault with sealed := false } : SealedVault).entry "R" "k" =
      some sampleEntry ∧
    (Interpreter.execute_statement samplePlatform sampleStoredState (stmtReplace 4)).isOk
      = true ∧
    ∃ vault2,
      (Interpreter.execute_statement samplePlatform sampleStoredState
        (stmtReplace 4)).state.currentVault = some vault2 ∧
      vault2.entry "R" "k" =
        some { digest := "mac(enc(w,00,R:k),00)", cipher := "enc(w,00,R:k)" } ∧
      vault2.name = "A" ∧ vault2.sealed = false := by
  refine ⟨by decide, by decide, by decide, ?_⟩
  obtain ⟨_, plain, used, cipher, mac, hb, he, hd, _, vault2, h1, h2, _, _, _, h5, _, h7, _⟩ :=
    write_frame samplePlatform sampleStoredState
      (Interpreter.execute_statement samplePlatform sampleStoredState (stmtReplace 4)).state
      { sampleSealedVault with sealed := false } "R" (stmtReplace 4) (Or.inr rfl)
      (by decide) rfl rfl
  have hb2 : plain = "w" ∧ used = 0 := by
    have hx : Interpreter.builtin_value samplePlatform sampleStoredState.drawn
        (stmtReplace 4).value = .ok ("w", 0) := rfl
    rw [hx] at hb
    injection hb with hb
    injection hb with p q
    exact ⟨p.symm, q.symm⟩
  obtain ⟨rfl, rfl⟩ := hb2
  have he2 : cipher = "enc(w,00,R:k)" := by
    have hx : samplePlatform.encrypt "w" ({ sampleSealedVault with sealed := false } :
        SealedVault).masterKeyHex ("R" ++ ":" ++ (stmtReplace 4).target.key)
        (sampleStoredState.drawn + 0) = .ok "enc(w,00,R:k)" := by decide
    rw [hx] at he
    injection he with he
    exact he.symm
  subst he2
  have hd2 : mac = "mac(enc(w,00,R:k),00)" := by
    have hx : samplePlatform.digest "enc(w,00,R:k)" ({ sampleSealedVault with sealed := false } :
        SealedVault).masterKeyHex = .ok "mac(enc(w,00,R:k),00)" := by decide
    rw [hx] at hd
    injection hd with hd
    exact hd.symm
  subst hd2
  exact ⟨vault2, h1, h2, h5, h7⟩

/-- C5. Registry resolution: `resolve_registry` returns the target's registry when it is
set, otherwise the current registry when one is selected, otherwise the error
"No active registry for target on line N"; `is_present` looks the key up in the registry
so resolved; and when the resolution fails, a `store` or `replace` (on an unsealed vault)
and an `if missing`/`if present` throw that same error, leaving the state as it was. -/
theorem registry_resolution (env : Platform) (st : Interpreter) (t : Target) (line : Int) :
    (∀ r, t.registry = some r → st.resolve_registry t line = .ok r) ∧
    (∀ r, t.registry = none → st.currentRegistry_ = some r →
      st.resolve_registry t line = .ok r) ∧
    (t.registry = none → st.currentRegistry_ = none →
      st.resolve_registry t line =
        .error ("No active registry for target on line " ++ toString line)) ∧
    (∀ vault, st.currentVault = some vault →
      st.is_present t line =
        match st.resolve_registry t line with
        | .ok R => .ok (vault.hasEntry R t.key)
        | .error e => .error e) ∧
    (∀ (s : Statement) (vault : SealedVault) (e : String),
      st.currentVault = some vault → vault.sealed = false →
      s.type = .Store ∨ s.type = .Replace →
      st.resolve_registry s.target s.line = .error e →
      Interpreter.execute_statement env st s = .throw e st) ∧
    (∀ (s : Statement) (vault : SealedVault) (e : String),
      st.currentVault = some vault → s.type = .If →
      st.resolve_registry s.conditional.target s.line = .error e →
      Interpreter.execute_statement env st s = .throw e st) := by
  refine ⟨?_, ?_, ?_, ?_, ?_, ?_⟩
  · intro r h
    simp [Interpreter.resolve_registry, h]
  · intro r h1 h2
    simp [Interpreter.resolve_registry, h1, h2]
  · intro h1 h2
    simp [Interpreter.resolve_registry, h1, h2]
  · intro vault hv
    exact Interpreter.is_present_eq st vault t line hv
  · intro s vault e hv hs ht hr
    unfold Interpreter.currentVault at hv
    obtain ⟨type, line, registryName, target, value, ⟨isMissing, ctarget, body⟩, note⟩ := s
    simp only [Statement.type, Statement.line, Statement.target] at ht hr
    rcases ht with ht | ht <;> subst ht <;>
      simp [Interpreter.execute_statement, hv, hs, hr]
  · intro s vault e hv ht hr
    unfold Interpreter.currentVault at hv
    rw [Interpreter.execute_if env st vault s ht hv,
      Interpreter.is_present_eq st vault _ _ hv, hr]

/-- C5 at `store -> "k" = "v"` on line 3 in vault `A` before any `registry` statement. -/
theorem registry_resolution_witness :
    sampleState.currentVault = some sampleVault ∧
    sampleState.resolve_registry (stmtStore 3).target (stmtStore 3).line =
      .error "No active registry for target on line 3" ∧
    Interpreter.execute_statement samplePlatform sampleState (stmtStore 3) =
      .throw "No active registry for target on line 3" sampleState :=
  ⟨by decide, rfl,
    (registry_resolution samplePlatform sampleState (stmtStore 3).target 3).2.2.2.2.1
      (stmtStore 3) sampleVault "No active registry for target on line 3"
      (by decide) (by decide) (Or.inl rfl) rfl⟩

/-- C6. Conditional semantics: in a state whose current vault is `vault`, for an `if`
statement whose target resolves to registry `R`, `if missing` runs its body exactly when
the key is absent from `R` and `if present` exactly when it is present; otherwise the
statement returns with the state as it was. A registry that does not exist has no key.
The body runs its statements first to last, stopping at the first throw. -/
theorem conditional_semantics (env : Platform) (st : Interpreter) (vault : SealedVault)
    (R : String) (s : Statement) (ht : s.type = .If)
    (hv : st.currentVault = some vault)
    (hr : st.resolve_registry s.conditional.target s.line = .ok R) :
    (s.conditional.isMissing = true → vault.entry R s.conditional.target.key = none →
      Interpreter.execute_statement env st s =
        Interpreter.execute_body env st s.conditional.body) ∧
    (s.conditional.isMissing = true → vault.entry R s.conditional.target.key ≠ none →
      Interpreter.execute_statement env st s = .ok () st) ∧
    (s.conditional.isMissing = false → vault.entry R s.conditional.target.key ≠ none →
      Interpreter.execute_statement env st s =
        Interpreter.execute_body env st s.conditional.body) ∧
    (s.conditional.isMissing = false → vault.entry R s.conditional.target.key = none →
      Interpreter.execute_statement env st s = .ok () st) ∧
    (Map.find vault.registries R = none → vault.entry R s.conditional.target.key = none) ∧
    (∀ (st1 : Interpreter) (a : Statement) (rest : List Statement),
      Interpreter.execute_body env st1 (a :: rest) =
        match Interpreter.execute_statement env st1 a with
        | .ok _ st2 => Interpreter.execute_body env st2 rest
        | .throw e st2 => .throw e st2) := by
  unfold Interpreter.currentVault at hv
  have hx := Interpreter.execute_if env st vault s ht hv
  rw [Interpreter.is_present_eq st vault _ _ hv, hr] at hx
  simp only [SealedVault.hasEntry_eq] at hx
  refine ⟨?_, ?_, ?_, ?_, ?_, ?_⟩
  · intro hm habs
    rw [hx, hm, habs]
    rfl
  · intro hm hpres
    obtain ⟨e, he⟩ := Option.ne_none_iff_exists'.mp hpres
    rw [hx, hm, he]
    rfl
  · intro hm hpres
    obtain ⟨e, he⟩ := Option.ne_none_iff_exists'.mp hpres
    rw [hx, hm, he]
    rfl
  · intro hm habs
    rw [hx, hm, habs]
    rfl
  · intro hnone
    simp [SealedVault.entry, hnone]
  · intro st1 a rest
    simp only [Interpreter.execute_body]

/-- C6 at `if missing -> "k"` guarding a `store`, in vault `A` after `registry R`: the
registry does not exist yet, the key counts as absent and the body runs. -/
theorem conditional_semantics_witness :
    sampleRegistryState.currentVault = some sampleVault ∧
    sampleVault.entry "R" "k" = none ∧
    Interpreter.execute_statement samplePlatform sampleRegistryState stmtIfMissing =
      .ok () { sampleStoredState with drawn := 1 } :=
  ⟨by decide, by decide,
    ((conditional_semantics samplePlatform sampleRegistryState sampleVault "R" stmtIfMissing
      rfl (by decide) rfl).1 rfl (by decide)).trans (by decide)⟩

/-- C7. Optional skip vs materialize, for an optional block `b` whose name `V` is absent
from the vault map (the seed lacks `V`). Without `materializeOptional`, `evaluate_vault`
returns at once: nothing is created, no statement runs, nothing is appended; and the
output of a run of any program whose blocks named `V` are all optional holds no vault
named `V`. With `materializeOptional`, the vault is created unsealed with the block's
name and flag and no registry, the body is executed on it, and when the evaluation
returns the vault is appended to the output, sealed if the body ends with `secure`; the
output of a successful run of any program containing `b` then holds a sealed vault named
`V`. -/
theorem optional_skip_vs_materialize (env : Platform) (st : Interpreter) (b : VaultBlock)
    (hopt : b.optional = true) (hlack : Map.find st.byName_ b.name = none) :
    (st.opts_.materializeOptional = false →
      Interpreter.evaluate_vault env st b =
        .ok () { st with currentRegistry_ := none, currentVault_ := "" } ∧
      ∀ program out st2, (∀ blk ∈ program, blk.name = b.name → blk.optional = true) →
        st.Keyed → Interpreter.run env st program = .ok out st2 →
        ∀ v ∈ out, v.name ≠ b.name) ∧
    (st.opts_.materializeOptional = true →
      (∃ st1,
        Interpreter.resolve_vault env
          { st with currentRegistry_ := none, currentVault_ := "" } b = .ok () st1 ∧
        st1.byName_ = Map.assign st.byName_ b.name (Interpreter.freshVault env st b) ∧
        Interpreter.evaluate_vault env st b =
          match Interpreter.execute_body env { st1 with currentVault_ := b.name } b.body with
          | .throw e st3 => .throw e st3
          | .ok _ st3 =>
            match Map.find st3.byName_ b.name with
            | none => .throw out_of_range st3
            | some stored => .ok () { st3 with sealed_ := st3.sealed_ ++ [stored] }) ∧
      (∀ st2, Interpreter.evaluate_vault env st b = .ok () st2 →
        ∃ stored, st2.sealed_ = st.sealed_ ++ [stored] ∧
          Map.find st2.byName_ b.name = some stored ∧ stored.name = b.name ∧
          stored.optional = true ∧ (b.endsWithSecure → stored.sealed = true)) ∧
      ∀ pre post out st2, st.Keyed → b.endsWithSecure →
        Interpreter.run env st (pre ++ b :: post) = .ok out st2 →
        ∃ v ∈ out, v.name = b.name ∧ v.sealed = true) := by
  refine ⟨fun hm => ⟨?_, ?_⟩, fun hm => ⟨?_, ?_, ?_⟩⟩
  · apply Interpreter.evaluate_vault_skip
    simp [Interpreter.skips, hopt, hlack, hm]
  · intro program out st2 hall hk hrun v hv
    have hem := Interpreter.run_emitted env st st2 program out hrun
    obtain ⟨blk, hblk, hvb⟩ := forall₂_exists_right hem v hv
    rw [hvb.1 hk]
    rw [hm] at hblk
    refine evaluatedBlocks_omits b.name program hall _ ?_ blk hblk
    rw [Map.mem_keys_iff, hlack]
    simp
  · have hs : st.skips b = false := by
      simp [Interpreter.skips, hm]
    obtain ⟨st1, h1, h2, _⟩ := Interpreter.resolve_vault_fresh env
      { st with currentRegistry_ := none, currentVault_ := "" } b hlack
    refine ⟨st1, h1, h2, ?_⟩
    rw [Interpreter.evaluate_vault_enter env st b hs, h1]
  · intro st2 h
    have hs : st.skips b = false := by
      simp [Interpreter.skips, hm]
    obtain ⟨st1, st3, stored, hr, hx, hf, h2⟩ :=
      Interpreter.evaluate_vault_inv env st st2 b hs h
    obtain ⟨_, _, stored2, hse, hf2, ho, _, hsl⟩ :=
      Interpreter.evaluate_vault_entered env st st2 b hs h
    obtain ⟨_, _, _, _, _, v, hv, _, _, hnone, _⟩ :=
      Interpreter.resolve_vault_ok env _ st1 b hr
    have hfr := Interpreter.execute_body_frame env b.body { st1 with currentVault_ := b.name }
    rw [hx] at hfr
    have hcore := hfr.2.2.2.2 b.name
    simp only [Outcome.state] at hcore
    rw [hf, hv] at hcore
    simp only [Option.map_some', Option.some.injEq, SealedVault.core, Prod.mk.injEq] at hcore
    have hst : stored2 = stored := by
      rw [h2] at hf2
      simp only at hf2
      rw [hf] at hf2
      injection hf2 with hf2
      exact hf2.symm
    subst hst
    refine ⟨stored2, hse, hf2, ?_, ?_, hsl⟩
    · rw [hcore.1]
      exact (hnone hlack).1
    · rw [ho, hopt]
  · intro pre post out st2 hk hsec hrun
    have hem := Interpreter.run_emitted env st st2 (pre ++ b :: post) out hrun
    rw [hm, evaluatedBlocks_materialize] at hem
    obtain ⟨v, hv, hvb⟩ := forall₂_exists_left hem b (by simp)
    exact ⟨v, hv, hvb.1 hk, hvb.2.2 hsec⟩

/-- C7 at scenario S6: `vault? B` with no seed and without `materializeOptional`. -/
theorem optional_skip_vs_materialize_witness :
    blockOptionalB.optional = true ∧
    Map.find (Interpreter.init sampleOptions).byName_ blockOptionalB.name = none ∧
    Interpreter.evaluate_vault samplePlatform (Interpreter.init sampleOptions) blockOptionalB =
      .ok () (Interpreter.init sampleOptions) :=
  ⟨rfl, rfl, ((optional_skip_vs_materialize samplePlatform (Interpreter.init sampleOptions)
    blockOptionalB rfl rfl).1 rfl).1⟩

/-- C8, as stated, fails: with vault `A` in the seed, the optional block `vault? A` and
`materializeOptional` unset, `evaluate_vault` does not skip the block: its `secure`
statement runs and the vault is appended to the output. -/
theorem seeded_optional_not_skipped :
    (Map.find sampleSeeded.byName_ blockOptionalA.name).isSome = true ∧
    blockOptionalA.optional = true ∧
    sampleSeeded.opts_.materializeOptional = false ∧
    (Interpreter.evaluate_vault samplePlatform sampleSeeded blockOptionalA).state.sealed_ =
      [{ sampleSealedVault with optional := true }] ∧
    ¬ (∀ (env : Platform) (st : Interpreter) (b : VaultBlock),
        (Map.find st.byName_ b.name).isSome = true → b.optional = true →
        st.opts_.materializeOptional = false →
        Interpreter.evaluate_vault env st b =
          .ok () { st with currentRegistry_ := none, currentVault_ := "" }) := by
  refine ⟨by decide, rfl, rfl, by decide, fun h => ?_⟩
  have h1 := h samplePlatform sampleSeeded blockOptionalA (by decide) rfl rfl
  revert h1
  decide

/-- C8, amended. Skip rule of `evaluate_vault`: a block is skipped (the state keeps its
vault map, output list and draws; only the current vault and registry are reset) exactly
when it is optional, NO vault of its name is in the vault map, and `materializeOptional`
is unset. In every other case, in particular when a vault of that name exists, an
evaluation that returns has appended the vault to the output. -/
theorem skip_rule (env : Platform) (st : Interpreter) (b : VaultBlock) :
    (b.optional = true → Map.find st.byName_ b.name = none →
      st.opts_.materializeOptional = false →
      Interpreter.evaluate_vault env st b =
        .ok () { st with currentRegistry_ := none, currentVault_ := "" }) ∧
    (b.optional = false ∨ (Map.find st.byName_ b.name).isSome = true ∨
        st.opts_.materializeOptional = true →
      ∀ st2, Interpreter.evaluate_vault env st b = .ok () st2 →
        ∃ stored, st2.sealed_ = st.sealed_ ++ [stored] ∧
          Map.find st2.byName_ b.name = some stored) := by
  refine ⟨fun h1 h2 h3 => ?_, fun hc st2 h => ?_⟩
  · apply Interpreter.evaluate_vault_skip
    simp [Interpreter.skips, h1, h2, h3]
  · have hs : st.skips b = false := by
      rcases hc with hc | hc | hc <;> simp [Interpreter.skips, hc]
    obtain ⟨_, _, stored, hse, hf, _⟩ := Interpreter.evaluate_vault_entered env st st2 b hs h
    exact ⟨stored, hse, hf⟩

/-- C8 (amended) at `vault? B` with vault `A` only in the seed. -/
theorem skip_rule_witness :
    blockOptionalB.optional = true ∧ Map.find sampleSeeded.byName_ blockOptionalB.name = none ∧
    Interpreter.evaluate_vault samplePlatform sampleSeeded blockOptionalB =
      .ok () sampleSeeded :=
  ⟨rfl, by decide, (skip_rule samplePlatform sampleSeeded blockOptionalB).1 rfl (by decide) rfl⟩

/-- C9. Output order: when `run` returns, started in a state whose map keys are the
names of their vaults (as after the constructor and `seed`), its output lists one vault
per evaluated (non-skipped) block, in the source order of the blocks, each with the name
and the optional flag of its block; the evaluated blocks are a sublist of the program and
include every block whose name was already in the vault map. -/
theorem output_order (env : Platform) (st st2 : Interpreter) (program : List VaultBlock)
    (out : List SealedVault) (hk : st.Keyed)
    (h : Interpreter.run env st program = .ok out st2) :
    out.map (fun v => (v.name, v.optional)) =
      (evaluatedBlocks st.opts_.materializeOptional (st.byName_.map Prod.fst) program).map
        (fun b => (b.name, b.optional)) ∧
    out.length =
      (evaluatedBlocks st.opts_.materializeOptional (st.byName_.map Prod.fst) program).length ∧
    List.Sublist
      (evaluatedBlocks st.opts_.materializeOptional (st.byName_.map Prod.fst) program) program ∧
    (∀ b ∈ program, (Map.find st.byName_ b.name).isSome = true →
      b ∈ evaluatedBlocks st.opts_.materializeOptional (st.byName_.map Prod.fst) program) := by
  have hem := Interpreter.run_emitted env st st2 program out h
  refine ⟨?_, hem.length_eq, evaluatedBlocks_sublist _ _ _, ?_⟩
  · refine forall₂_map_eq _ _ hem ?_
    intro v b hvb
    rw [hvb.1 hk, hvb.2.1]
  · intro b hb hf
    exact evaluatedBlocks_known _ _ _ b hb ((Map.mem_keys_iff _ _).mpr hf)

/-- C9 at the program `vault? B`, `vault? A` run on the seed holding `A`: `B` is skipped and
`A`, although seeded, is emitted with the block's optional flag. -/
theorem output_order_witness :
    Interpreter.run samplePlatform sampleSeeded [blockOptionalB, blockOptionalA] =
      .ok [{ sampleSealedVault with optional := true }]
        (Interpreter.run samplePlatform sampleSeeded [blockOptionalB, blockOptionalA]).state ∧
    [{ sampleSealedVault with optional := true }].map (fun v => (v.name, v.optional)) =
      [("A", true)] :=
  ⟨by decide,
    ((output_order samplePlatform sampleSeeded
      (Interpreter.run samplePlatform sampleSeeded [blockOptionalB, blockOptionalA]).state
      [blockOptionalB, blockOptionalA] [{ sampleSealedVault with optional := true }]
      (Interpreter.seed_keyed _ _) (by decide)).1).trans (by decide)⟩

/-- C10. Every emitted vault is sealed: when `Parser::parse` returns a program for a line
list and `Interpreter::run` returns for that program, from any interpreter state (any
seed and options), every vault of the output has `sealed = true`. -/
theorem emitted_sealed (env : Platform) (lines : List Line) (program : List VaultBlock)
    (pos : Nat) (st st2 : Interpreter) (out : List SealedVault)
    (hp : Parser.parse lines = .ok program pos)
    (h : Interpreter.run env st program = .ok out st2) :
    ∀ v ∈ out, v.sealed = true := by
  intro v hv
  have hem := Interpreter.run_emitted env st st2 program out h
  obtain ⟨b, hb, hvb⟩ := forall₂_exists_right hem v hv
  have hmem : b ∈ program := (evaluatedBlocks_sublist _ _ _).subset hb
  exact hvb.2.2 (Parser.parse_ends_secure lines program pos hp b hmem)

/-- C10 at scenario S1, compiled with no seed. -/
theorem emitted_sealed_witness :
    Parser.parse sampleLines = .ok sampleProgram 4 ∧
    Interpreter.run samplePlatform (Interpreter.init sampleOptions) sampleProgram =
      .ok [sampleSealedVault] { sampleSealedState with sealed_ := [sampleSealedVault] } ∧
    ∀ v ∈ [sampleSealedVault], v.sealed = true :=
  ⟨rfl, rfl, emitted_sealed samplePlatform sampleLines sampleProgram 4
    (Interpreter.init sampleOptions) { sampleSealedState with sealed_ := [sampleSealedVault] }
    [sampleSealedVault] rfl rfl⟩

/-- C11. Canonical order: in the text `write_svau` writes (its lines, each followed by a
newline) the lines of every vault stand together; among them the `registry` lines are
those of the registry names in strictly increasing lexicographic order, and within each
registry the `entry` lines are those of the entry keys in strictly increasing
lexicographic order, each entry line followed by the digest and cipher lines of that
entry; the last line of the vault is `---`. In full: the lines of the vault are its header
line and its `sealed` line, then for each registry name, in strictly increasing order,
the `registry` line followed, for each entry key of that registry in strictly increasing
order, by the `entry`, `digest` and `cipher` lines of that entry, then `---`; and the text
is the lines before the vault, these lines and the lines after it. The keys of each map
are pairwise distinct, as those of an unordered map are. -/
theorem canonical_order (vaults : List SealedVault) (token : String)
    (dependencies : List String) (v : SealedVault) (hv : v ∈ vaults)
    (hreg : Map.WF v.registries)
    (hent : ∀ p ∈ v.registries, Map.WF p.2.entries) :
    write_svau vaults token dependencies =
      unlines (write_svau_lines vaults token dependencies) ∧
    (∃ before after,
      write_svau_lines vaults token dependencies = before ++ write_vault_lines v ++ after) ∧
    List.Sorted StrLt (std_sort (v.registries.map Prod.fst)) ∧
    (std_sort (v.registries.map Prod.fst)).Perm (v.registries.map Prod.fst) ∧
    (write_vault_lines v).filter (fun l => starts_with l "  registry ") =
      (std_sort (v.registries.map Prod.fst)).map (fun R => "  registry " ++ R) ∧
    (write_vault_lines v).getLast? = some "---" ∧
    (∀ R ∈ std_sort (v.registries.map Prod.fst),
      ∃ reg, Map.find v.registries R = some reg ∧
        List.Sorted StrLt (std_sort (reg.entries.map Prod.fst)) ∧
        (std_sort (reg.entries.map Prod.fst)).Perm (reg.entries.map Prod.fst) ∧
        write_registry_lines v R =
          ("  registry " ++ R) ::
            (std_sort (reg.entries.map Prod.fst)).flatMap (write_entry_lines reg) ∧
        (write_registry_lines v R).filter (fun l => starts_with l "    entry ") =
          (std_sort (reg.entries.map Prod.fst)).map (fun k => "    entry " ++ k) ∧
        ∀ k ∈ std_sort (reg.entries.map Prod.fst),
          ∃ e, Map.find reg.entries k = some e ∧
            write_entry_lines reg k =
              ["    entry " ++ k, "      digest " ++ e.digest, "      cipher " ++ e.cipher]) ∧
    ∃ (before after names : List String) (keys : String → List String)
        (ent : String → String → SealedEntry),
      List.Sorted StrLt names ∧ names.Perm (v.registries.map Prod.fst) ∧
      (∀ R ∈ names, ∃ reg, Map.find v.registries R = some reg ∧
        List.Sorted StrLt (keys R) ∧ (keys R).Perm (reg.entries.map Prod.fst) ∧
        ∀ k ∈ keys R, Map.find reg.entries k = some (ent R k)) ∧
      write_vault_lines v =
        ["vault " ++ v.name ++ " (" ++ (if v.optional then "optional" else "required") ++ ")",
          "sealed " ++ (if v.sealed then "true" else "false")] ++
        names.flatMap (fun R => ("  registry " ++ R) ::
          (keys R).flatMap (fun k =>
            ["    entry " ++ k, "      digest " ++ (ent R k).digest,
              "      cipher " ++ (ent R k).cipher])) ++ ["---"] ∧
      write_svau vaults token dependencies =
        unlines (before ++ write_vault_lines v ++ after) := by
  have hsplit : ∃ before after,
      write_svau_lines vaults token dependencies = before ++ write_vault_lines v ++ after := by
    obtain ⟨l1, l2, hl⟩ := List.append_of_mem hv
    refine ⟨"# Vault Secure Archive" ::
      ((sorted_unique dependencies).map (fun d => "depends " ++ d) ++
        l1.flatMap write_vault_lines), l2.flatMap write_vault_lines, ?_⟩
    simp [write_svau_lines, hl, List.flatMap_append, List.flatMap_cons]
  have hregs : ∀ R ∈ std_sort (v.registries.map Prod.fst),
      ∃ reg, Map.find v.registries R = some reg := by
    intro R hR
    have hR2 : R ∈ v.registries.map Prod.fst := (std_sort_mem _ R).mp hR
    exact Option.isSome_iff_exists.mp ((Map.mem_keys_iff v.registries R).mp hR2)
  refine ⟨rfl, ?_, std_sort_strict _ hreg, std_sort_perm _,
    write_vault_lines_filter_registry v, write_vault_lines_last v, ?_, ?_⟩
  · obtain ⟨l1, l2, hl⟩ := List.append_of_mem hv
    refine ⟨"# Vault Secure Archive" ::
      ((sorted_unique dependencies).map (fun d => "depends " ++ d) ++
        l1.flatMap write_vault_lines), l2.flatMap write_vault_lines, ?_⟩
    simp [write_svau_lines, hl, List.flatMap_append, List.flatMap_cons]
  · intro R hR
    have hR2 : R ∈ v.registries.map Prod.fst := (std_sort_mem _ R).mp hR
    have hsome := (Map.mem_keys_iff v.registries R).mp hR2
    obtain ⟨reg, hfind⟩ := Option.isSome_iff_exists.mp hsome
    have hfr := write_registry_lines_filter_entry v R
    rw [hfind] at hfr
    refine ⟨reg, hfind, std_sort_strict _ (hent (R, reg) (Map.find_mem _ _ _ hfind)),
      std_sort_perm _, ?_, hfr, ?_⟩
    · simp [write_registry_lines, hfind]
    · intro k hk
      have hk2 : k ∈ reg.entries.map Prod.fst := (std_sort_mem _ k).mp hk
      have hks := (Map.mem_keys_iff reg.entries k).mp hk2
      obtain ⟨e, he⟩ := Option.isSome_iff_exists.mp hks
      exact ⟨e, he, by simp [write_entry_lines, he]⟩
  · obtain ⟨before, after, hba⟩ := hsplit
    refine ⟨before, after, std_sort (v.registries.map Prod.fst),
      fun R => std_sort (((Map.find v.registries R).getD ⟨[]⟩).entries.map Prod.fst),
      fun R k => (Map.find ((Map.find v.registries R).getD ⟨[]⟩).entries k).getD ⟨"", ""⟩,
      std_sort_strict _ hreg, std_sort_perm _, ?_, rfl, ?_⟩
    · intro R hR
      obtain ⟨reg, hfind⟩ := hregs R hR
      refine ⟨reg, hfind, ?_, ?_, ?_⟩
      · simp only [hfind, Option.getD_some]
        exact std_sort_strict _ (hent (R, reg) (Map.find_mem _ _ _ hfind))
      · simp only [hfind, Option.getD_some]
        exact std_sort_perm _
      · intro k hk
        simp only [hfind, Option.getD_some] at hk ⊢
        have hk2 : k ∈ reg.entries.map Prod.fst := (std_sort_mem _ k).mp hk
        obtain ⟨e, he⟩ := Option.isSome_iff_exists.mp ((Map.mem_keys_iff reg.entries k).mp hk2)
        simp only [Option.getD_some, he]
    · show unlines (write_svau_lines vaults token dependencies) = _
      rw [hba]

set_option maxRecDepth 100000

/-- C11 at a vault whose maps hold `S` before `R` and `k2` before `k1`. -/
theorem canonical_order_witness :
    sampleUnordered ∈ [sampleUnordered] ∧ Map.WF sampleUnordered.registries ∧
    (∀ p ∈ sampleUnordered.registries, Map.WF p.2.entries) ∧
    (write_vault_lines sampleUnordered).filter (fun l => starts_with l "  registry ") =
      ["  registry R", "  registry S"] ∧
    write_svau [sampleUnordered] "t" [] =
      "# Vault Secure Archive\nvault A (required)\nsealed true\n  registry R\n    entry k\n      digest d\n      cipher c\n  registry S\n    entry k1\n      digest d1\n      cipher c1\n    entry k2\n      digest d2\n      cipher c2\n---\n" :=
  ⟨by decide, by decide, by decide,
    (canonical_order [sampleUnordered] "t" [] sampleUnordered (by decide) (by decide)
      (by decide)).2.2.2.2.1.trans (by decide),
    rfl⟩

/-- C12. Canonical ordering independence: two vault lists that hold, position by position,
vaults with the same name and flags and the same registries and entries (maps with
pairwise distinct keys and equal lookups, in whatever order), together with two
dependency lists with the same set of file names, give the same text of `write_svau`,
whatever the token arguments, and the same result of `compute_archive_hmac` under the
same token and master key. -/
theorem canonical_order_independent (env : Platform) (vs1 vs2 : List SealedVault)
    (d1 d2 : List String) (hv : List.Forall₂ SealedVault.Equiv vs1 vs2)
    (hd : ∀ d, d ∈ d1 ↔ d ∈ d2) :
    (∀ t1 t2, write_svau vs1 t1 d1 = write_svau vs2 t2 d2) ∧
    (∀ token masterKeyHex,
      compute_archive_hmac env vs1 token masterKeyHex d1 =
        compute_archive_hmac env vs2 token masterKeyHex d2) := by
  refine ⟨fun t1 t2 => ?_, fun token mk => ?_⟩
  · unfold write_svau
    rw [write_svau_lines_congr vs1 vs2 t1 t2 d1 d2 hv hd]
  · have h := write_svau_lines_congr vs1 vs2 token token d1 d2 hv hd
    unfold write_svau_lines at h
    injection h with _ h2
    unfold compute_archive_hmac
    rw [archive_preimage_eq, archive_preimage_eq, h2]

/-- C12 at two vaults that differ in the order of their maps and two dependency lists
that differ in order and repetition. -/
theorem canonical_order_independent_witness :
    List.Forall₂ SealedVault.Equiv [sampleUnordered] [sampleReordered] ∧
    (∀ d, d ∈ ["b.svau", "a.svau", "b.svau"] ↔ d ∈ ["a.svau", "b.svau"]) ∧
    write_svau [sampleUnordered] "t" ["b.svau", "a.svau", "b.svau"] =
      write_svau [sampleReordered] "u" ["a.svau", "b.svau"] :=
  have hv : List.Forall₂ SealedVault.Equiv [sampleUnordered] [sampleReordered] := by
    refine List.Forall₂.cons ⟨rfl, rfl, rfl, by decide, by decide, fun R => ?_⟩ List.Forall₂.nil
    by_cases hS : R = "S"
    · subst hS
      exact ⟨by decide, by decide, fun k => by
        by_cases h2 : k = "k2"
        · subst h2; rfl
        · by_cases h1 : k = "k1"
          · subst h1; rfl
          · have e2 : ¬ "k2" = k := fun e => h2 e.symm
            have e1 : ¬ "k1" = k := fun e => h1 e.symm
            simp [Map.find, e1, e2]⟩
    · by_cases hR : R = "R"
      · subst hR
        exact ⟨by decide, by decide, fun k => rfl⟩
      · have e1 : ¬ "S" = R := fun e => hS e.symm
        have e2 : ¬ "R" = R := fun e => hR e.symm
        simp [sampleUnordered, sampleReordered, Map.find, e1, e2]
  have hd : ∀ d, d ∈ ["b.svau", "a.svau", "b.svau"] ↔ d ∈ ["a.svau", "b.svau"] := by
    intro d
    simp only [List.mem_cons, List.mem_singleton, List.not_mem_nil, or_false]
    tauto
  ⟨hv, hd, (canonical_order_independent samplePlatform [sampleUnordered] [sampleReordered]
    ["b.svau", "a.svau", "b.svau"] ["a.svau", "b.svau"] hv hd).1 "t" "u"⟩

/-- C13. Preimage/disk agreement: the text `write_svau` writes is its header line
`# Vault Secure Archive` followed by a body; the string `compute_archive_hmac` hands to
the digest is `"token " ++ token ++ "\n"` followed by that same body, the text of
`write_svau` with its first line removed; and the MAC is the digest of that string under
the master key. -/
theorem preimage_disk_agreement (env : Platform) (vaults : List SealedVault)
    (token diskToken masterKeyHex : String) (dependencies : List String) :
    write_svau vaults diskToken dependencies =
      "# Vault Secure Archive" ++ "\n" ++
        dropFirstLine (write_svau vaults diskToken dependencies) ∧
    archive_preimage vaults token dependencies =
      "token " ++ token ++ "\n" ++ dropFirstLine (write_svau vaults diskToken dependencies) ∧
    compute_archive_hmac env vaults token masterKeyHex dependencies =
      env.digest (archive_preimage vaults token dependencies) masterKeyHex := by
  have hw := write_svau_eq vaults diskToken dependencies
  have hd : dropFirstLine (write_svau vaults diskToken dependencies) =
      unlines ((sorted_unique dependencies).map (fun d => "depends " ++ d) ++
        vaults.flatMap write_vault_lines) := by
    rw [hw]
    exact dropFirstLine_header _
  refine ⟨?_, ?_, rfl⟩
  · rw [hd]
    exact hw
  · rw [hd]
    exact archive_preimage_eq vaults token dependencies

/-- C14 fails on the code at a required vault named `optionals`: the source compiles, and
verifying the archive it compiled to, under the same configuration, throws the HMAC
error, because `read_svau` reads the vault back as optional. It fails as well at a vault
named `my vault`, which `read_svau` reads back as `my`. -/
theorem roundtrip_rejects_optionals :
    compile archivePlatform sampleConfig driverOptions optionalsLines none =
      .ok optionalsArchive ∧
    (read_svau optionalsArchive).vaults.map (fun v => (v.name, v.optional)) =
      [("optionals", true)] ∧
    load_verify archivePlatform sampleConfig optionalsArchive =
      .error "Archive HMAC verification failed" ∧
    compile archivePlatform sampleConfig driverOptions spacedLines none =
      .ok spacedArchive ∧
    (read_svau spacedArchive).vaults.map (fun v => (v.name, v.optional)) =
      [("my", false)] ∧
    load_verify archivePlatform sampleConfig spacedArchive =
      .error "Archive HMAC verification failed" :=
  ⟨by decide!, by decide!, by decide!, by decide!, by decide!, by decide!⟩

/-- C15 fails on the code at the archive of two vaults that each store key `k`: with the
`y` of the second `entry k` line changed to `x`, the line is ignored by `read_svau`, the
digest and cipher lines after it go to the key `k` left from the vault before, and the
verification under the same configuration succeeds as it does on the untouched archive,
although the digest of the platform separates distinct preimages. -/
theorem tamper_entry_line_undetected :
    compile archivePlatform sampleConfig driverOptions twoVaultLines none =
      .ok twoVaultArchive ∧
    archivePlatform.digestSeparates sampleConfig.masterKey ∧
    (getlines twoVaultArchive)[11]? = some "    entry k" ∧
    (getlines twoVaultTampered)[11]? = some "    entrx k" ∧
    twoVaultTampered ≠ twoVaultArchive ∧
    load_verify archivePlatform sampleConfig twoVaultTampered =
      load_verify archivePlatform sampleConfig twoVaultArchive ∧
    (load_verify archivePlatform sampleConfig twoVaultTampered).toBool = true :=
  ⟨by decide!, archivePlatform_separates _, by decide!, by decide!, by decide!, by decide!,
    by decide!⟩

/-- C16. Token binding: for tokens `T1 ≠ T2` the MAC preimages of the same vault list and
dependency list differ; for tokens that are single lines (as every token read from the
configuration file is) they differ whatever the vaults and dependencies. Hence, for a
digest that separates distinct preimages, an archive without a token line whose `hmac`
line holds the non-empty MAC computed with `T1` fails the verification with the HMAC
error when the configured token is `T2`. -/
theorem token_binding (env : Platform) (V : List SealedVault) (D : List String)
    (T1 T2 : String) (hne : T1 ≠ T2) :
    archive_preimage V T1 D ≠ archive_preimage V T2 D ∧
    (oneLine T1 → oneLine T2 →
      ∀ V2 D2, archive_preimage V T1 D ≠ archive_preimage V2 T2 D2) ∧
    (∀ (cfg : VaultConfig) (text H1 H2 : String),
      cfg.token = T2 → oneLine T1 → oneLine T2 → env.digestSeparates cfg.masterKey →
      compute_archive_hmac env V T1 cfg.masterKey D = .ok H1 → H1 ≠ "" →
      (read_svau text).token = "" → (read_svau text).hmac = H1 →
      compute_archive_hmac env (inject_master_key (read_svau text).vaults cfg.masterKey)
        cfg.token cfg.masterKey (read_svau text).dependencies = .ok H2 →
      load_verify env cfg text = .error "Archive HMAC verification failed") := by
  have hline : ∀ V2 D2, oneLine T1 → oneLine T2 →
      archive_preimage V T1 D ≠ archive_preimage V2 T2 D2 := by
    intro V2 D2 h1 h2 e
    rw [archive_preimage_eq, archive_preimage_eq, String.append_assoc "token ",
      String.append_assoc "token ", String.append_assoc "token ",
      String.append_assoc "token "] at e
    have e2 := String.append_left_cancel e
    exact hne (firstLine_inj T1 T2 _ _ h1 h2 e2)
  refine ⟨?_, fun h1 h2 V2 D2 => hline V2 D2 h1 h2, ?_⟩
  · intro e
    rw [archive_preimage_eq, archive_preimage_eq] at e
    have e1 := String.append_right_cancel (String.append_right_cancel e)
    exact hne (String.append_left_cancel e1)
  · intro cfg text H1 H2 hcfg h1 h2 hsep hH1 hH1ne htok hhmac hH2
    rw [load_verify_eq env cfg text H2 (Or.inl htok) hH2]
    have hdiff : H1 ≠ H2 := by
      intro e
      subst e
      unfold compute_archive_hmac at hH1 hH2
      rw [hcfg] at hH2
      exact hline _ _ h1 h2 (hsep _ _ H1 hH1 hH2)
    rw [hhmac, if_pos ⟨hH1ne, hdiff⟩]

/-- C16 at the archive of scenario S1, compiled with token `t` and verified under the
configuration whose token is `u`. -/
theorem token_binding_witness :
    "t" ≠ "u" ∧ oneLine "t" ∧ oneLine "u" ∧
    archivePlatform.digestSeparates otherConfig.masterKey ∧
    compile archivePlatform sampleConfig driverOptions sampleLines none = .ok sampleArchive ∧
    load_verify archivePlatform otherConfig sampleArchive =
      .error "Archive HMAC verification failed" :=
  ⟨by decide, by decide, by decide, archivePlatform_separates _, by decide!,
    (token_binding archivePlatform [sampleSealedVault] [] "t" "u" (by decide)).2.2
      otherConfig sampleArchive sampleLoaded.hmac
      "mac(token u|vault A (required)|sealed true|  registry R|    entry k|      digest mac(enc(v,00,R:k),00)|      cipher enc(v,00,R:k)|---|,00)"
      rfl (by decide) (by decide) (archivePlatform_separates _) (by decide!) (by decide)
      (by decide!) (by decide!) (by decide!)⟩

/-- C17. Secrets stay off disk: the text `write_svau` writes is the same for any two
token arguments and any two assignments of master keys to the vaults, and none of the
lines it writes is a `token` line; when no line written holds a newline, no line of the
text starts with `token ` and `read_svau` reads an empty token from it. -/
theorem secrets_off_disk (vaults : List SealedVault) (dependencies : List String)
    (t1 t2 : String) (rekey : SealedVault → String) :
    write_svau (vaults.map (fun v => { v with masterKeyHex := rekey v })) t2 dependencies =
      write_svau vaults t1 dependencies ∧
    (∀ l ∈ write_svau_lines vaults t1 dependencies, starts_with l "token " = false) ∧
    ((∀ l ∈ write_svau_lines vaults t1 dependencies, oneLine l) →
      (∀ l ∈ getlines (write_svau vaults t1 dependencies), starts_with l "token " = false) ∧
      (read_svau (write_svau vaults t1 dependencies)).token = "") := by
  refine ⟨?_, write_svau_lines_no_token vaults t1 dependencies, fun h1 => ?_⟩
  · unfold write_svau write_svau_lines
    have hm : (vaults.map (fun v => { v with masterKeyHex := rekey v })).flatMap
        write_vault_lines = vaults.flatMap write_vault_lines := by
      induction vaults with
      | nil => rfl
      | cons v rest ih =>
        simp only [List.map_cons, List.flatMap_cons, ih]
        rfl
    rw [hm]
  · have hg : getlines (write_svau vaults t1 dependencies) =
        write_svau_lines vaults t1 dependencies := getlines_unlines _ h1
    have hall : ∀ l ∈ getlines (write_svau vaults t1 dependencies),
        starts_with l "token " = false := by
      rw [hg]
      exact write_svau_lines_no_token vaults t1 dependencies
    exact ⟨hall, read_svau_token _ hall⟩

/-- C17 at the sealed vault of scenario S1, written with tokens `t` and `u` and master
keys `00` and `ff`. -/
theorem secrets_off_disk_witness :
    (∀ l ∈ write_svau_lines [sampleSealedVault] "t" [], oneLine l) ∧
    write_svau [{ sampleSealedVault with masterKeyHex := "ff" }] "u" [] =
      write_svau [sampleSealedVault] "t" [] ∧
    (read_svau (write_svau [sampleSealedVault] "t" [])).token = "" :=
  ⟨by decide,
    (secrets_off_disk [sampleSealedVault] [] "t" "u" (fun _ => "ff")).1,
    ((secrets_off_disk [sampleSealedVault] [] "t" "u" (fun _ => "ff")).2.2 (by decide)).2⟩

/-- C19 fails on the code in the mode that runs a `.vsc` script: the archive of scenario
S1 holds no `token` line, the load in verify mode under `TOKEN=t` accepts it, and the load
in query mode under the same configuration throws "Token mismatch for archive". -/
theorem query_token_check_rejects_untokened :
    (∀ l ∈ getlines sampleArchive, starts_with l "token " = false) ∧
    (read_svau sampleArchive).token = "" ∧
    load_verify archivePlatform sampleConfig sampleArchive = .ok sampleLoaded ∧
    load_seed archivePlatform sampleConfig sampleArchive "a.svau" =
      .ok ([sampleSealedVault], ["a.svau"]) ∧
    load_query archivePlatform sampleConfig (some sampleArchive) =
      .error "Token mismatch for archive" :=
  ⟨by decide!, by decide!, by decide!, by decide!, by decide!⟩

/-- C20 fails on the code at scenario S5: the source of scenario S1 compiles under
`MASTER_KEY=00`, `TOKEN=t` to `sampleArchive`, and the load of that archive in query mode
under the same configuration throws "Token mismatch for archive" before the script runs. -/
theorem query_rejects_compiled_archive :
    compile archivePlatform sampleConfig driverOptions sampleLines none = .ok sampleArchive ∧
    load_query archivePlatform sampleConfig (some sampleArchive) =
      .error "Token mismatch for archive" :=
  ⟨by decide!, by decide!⟩

/-- C21, as stated, fails: scenario S1 compiles to one vault `A`; the empty program stores
and replaces nothing, and compiled with that vault as seed it emits no vault at all, because
`run` returns only the vaults evaluated in this run. -/
theorem empty_extension_emits_nothing :
    (Interpreter.run samplePlatform (Interpreter.init sampleOptions) sampleProgram).result =
      some [sampleSealedVault] ∧
    (∀ b ∈ ([] : List VaultBlock), Statement.anyHas StatementType.isWrite b.body = false) ∧
    (Interpreter.run samplePlatform
      ((Interpreter.init sampleOptions).seed [sampleSealedVault]) []).result = some [] ∧
    ([] : List SealedVault) ≠ [sampleSealedVault] :=
  ⟨by decide, fun _ hb => absurd hb (List.not_mem_nil _), by decide, by decide⟩

/-- C21, amended. Seeding identity: when a program `P2` without `store` and `replace`
statements is run on the interpreter seeded with a list of vaults, every vault of the
output has the name, the master key and the registries, with every entry (digest and
cipher), of the seeded vault of its name. The output lists the vaults of the blocks of `P2`
that are evaluated, in order; so when the seeded vaults have pairwise distinct names and
`P2` declares exactly their names in their order, the names and registries of the output
are those of the seed, vault for vault. -/
theorem seeding_identity (env : Platform) (opts : InterpreterOptions)
    (seedVaults : List SealedVault) (P2 : List VaultBlock) (out : List SealedVault)
    (st2 : Interpreter)
    (hnw : ∀ b ∈ P2, Statement.anyHas StatementType.isWrite b.body = false)
    (hrun : Interpreter.run env ((Interpreter.init opts).seed seedVaults) P2 = .ok out st2) :
    (∀ v ∈ out, ∀ s,
      Map.find ((Interpreter.init opts).seed seedVaults).byName_ v.name = some s →
      v.name = s.name ∧ v.masterKeyHex = s.masterKeyHex ∧ v.registries = s.registries) ∧
    out.map (fun v => v.name) =
      (evaluatedBlocks opts.materializeOptional
        (((Interpreter.init opts).seed seedVaults).byName_.map Prod.fst) P2).map
        (fun b => b.name) ∧
    ((seedVaults.map (fun v => v.name)).Nodup →
      (∀ v ∈ out, ∀ s ∈ seedVaults, s.name = v.name → v.registries = s.registries) ∧
      (P2.map (fun b => b.name) = seedVaults.map (fun v => v.name) →
        out.map (fun v => (v.name, v.registries)) =
          seedVaults.map (fun v => (v.name, v.registries)))) := by
  have hk := Interpreter.seed_keyed (Interpreter.init opts) seedVaults
  have hrel := (Interpreter.run_rel env SealedVault.sameContent SealedVault.sameContent_refl
    SealedVault.sameContent_trans (fun v o s => ⟨rfl, rfl, rfl⟩) P2 _ st2 out
    (fun b hb st1 st3 h => Interpreter.execute_body_no_write env b.body st1 st3 (hnw b hb) h)
    hk hrun).1
  have hem := Interpreter.run_emitted env _ st2 P2 out hrun
  have hnames : out.map (fun v => v.name) =
      (evaluatedBlocks opts.materializeOptional
        (((Interpreter.init opts).seed seedVaults).byName_.map Prod.fst) P2).map
        (fun b => b.name) :=
    forall₂_map_eq _ _ hem (fun v b hvb => hvb.1 hk)
  refine ⟨hrel, hnames, ?_⟩
  intro hnd
  have hfind : ∀ s ∈ seedVaults,
      Map.find ((Interpreter.init opts).seed seedVaults).byName_ s.name = some s :=
    fun s hs => Map.find_seed_nodup seedVaults [] hnd s hs
  have hreg : ∀ v ∈ out, ∀ s ∈ seedVaults, s.name = v.name → v.registries = s.registries := by
    intro v hv s hs hn
    have := hfind s hs
    rw [hn] at this
    exact (hrel v hv s this).2.2
  refine ⟨hreg, ?_⟩
  intro hdecl
  refine map_name_registries_eq out seedVaults ?_ hreg
  rw [hnames, evaluatedBlocks_all_known, hdecl]
  intro b hb
  have hbn : b.name ∈ seedVaults.map (fun v => v.name) := by
    rw [← hdecl]
    exact List.mem_map_of_mem _ hb
  obtain ⟨s, hs, hsn⟩ := List.mem_map.mp hbn
  rw [Map.mem_keys_iff, ← hsn, hfind s hs]
  rfl

/-- C21 (amended) at the vault of scenario S1 as seed and the program `vault? A`, `secure`. -/
theorem seeding_identity_witness :
    (∀ b ∈ [blockOptionalA], Statement.anyHas StatementType.isWrite b.body = false) ∧
    Interpreter.run samplePlatform ((Interpreter.init sampleOptions).seed [sampleSealedVault])
      [blockOptionalA] = .ok [{ sampleSealedVault with optional := true }]
        { opts_ := sampleOptions, sealed_ := [{ sampleSealedVault with optional := true }],
          byName_ := [("A", { sampleSealedVault with optional := true })],
          currentVault_ := "A", currentRegistry_ := none, drawn := 0 } ∧
    [{ sampleSealedVault with optional := true }].map (fun v => (v.name, v.registries)) =
      [sampleSealedVault].map (fun v => (v.name, v.registries)) :=
  ⟨by decide, by decide,
    ((seeding_identity samplePlatform sampleOptions [sampleSealedVault] [blockOptionalA]
      [{ sampleSealedVault with optional := true }]
      { opts_ := sampleOptions, sealed_ := [{ sampleSealedVault with optional := true }],
        byName_ := [("A", { sampleSealedVault with optional := true })],
        currentVault_ := "A", currentRegistry_ := none, drawn := 0 }
      (by decide) (by decide)).2.2 (by decide)).2 (by decide)⟩

/-- C22, as stated, fails. The program of scenario S4 under `vault? B`, compiled without
seed and without `materializeOptional`, is skipped: no vault is emitted and the entry is
not created. And with `replace -> "k" = now()` after the guarded `store`, the second
compilation, seeded with the first output and run a day later, seals the entry anew: its
digest and cipher differ from those of the first output. -/
theorem guarded_store_counterexamples :
    stmtIfMissing.isGuardedStore ⟨none, "k"⟩ ⟨.Literal, "v"⟩ ∧
    (Interpreter.run samplePlatform (Interpreter.init sampleOptions) guardedOptional).result =
      some [] ∧
    (Interpreter.run samplePlatform (Interpreter.init sampleOptions) clockProgram).result =
      some [clockVault "2024-01-01T00:00:00"] ∧
    (Interpreter.run laterPlatform
      ((Interpreter.init sampleOptions).seed [clockVault "2024-01-01T00:00:00"])
      clockProgram).result = some [clockVault "2024-01-02T00:00:00"] ∧
    (clockVault "2024-01-02T00:00:00").entry "R" "k" ≠
      (clockVault "2024-01-01T00:00:00").entry "R" "k" :=
  ⟨⟨rfl, rfl, rfl, stmtStore 4, rfl, rfl, rfl, rfl⟩, by decide, by decide!, by decide!,
    by decide⟩

/-- C22, amended. Guarded store across re-seeding, for a program without `replace`
statements that runs to an output, and runs again seeded with that output. (1) For a
block that is not optional (or with optional vaults materialized) whose body holds
`if missing T` around `store T = V`, where `T` names registry `R` or the statement stands
right after `registry R`, the first output has a vault of the block's name that holds the
entry of `T` in `R`. (2) Every vault of the first output has a vault of its name in the
second output. (3) Every entry of a vault of the first output is, with its digest and
cipher, an entry of each vault of that name in the second output. (4) In any state whose
current vault holds the entry of `T`, the guarded statement finds its guard false: it
returns and leaves the state as it is. -/
theorem guarded_store_idempotent (env env2 : Platform) (opts : InterpreterOptions)
    (program : List VaultBlock) (out1 out2 : List SealedVault) (st1 st2 : Interpreter)
    (hnr : ∀ b ∈ program, Statement.anyHas StatementType.isReplace b.body = false)
    (h1 : Interpreter.run env (Interpreter.init opts) program = .ok out1 st1)
    (h2 : Interpreter.run env2 ((Interpreter.init opts).seed out1) program = .ok out2 st2) :
    (∀ b ∈ program, (b.optional = false ∨ opts.materializeOptional = true) →
      ∀ (pre post : List Statement) (g : Statement) (T : Target) (V : ValueExpr) (R : String),
        b.body = pre ++ g :: post → g.isGuardedStore T V →
        (T.registry = some R ∨ (T.registry = none ∧
          ∃ pre0 rs, pre = pre0 ++ [rs] ∧ rs.type = .Registry ∧ rs.registryName = R)) →
        ∃ v1 ∈ out1, v1.name = b.name ∧ (v1.entry R T.key).isSome = true) ∧
    (∀ v1 ∈ out1, ∃ v2 ∈ out2, v2.name = v1.name) ∧
    (∀ v2 ∈ out2, ∀ v1 ∈ out1, v1.name = v2.name →
      ∀ R k e, v1.entry R k = some e → v2.entry R k = some e) ∧
    (∀ (st : Interpreter) (vault : SealedVault) (g : Statement) (T : Target) (V : ValueExpr)
      (R : String), g.isGuardedStore T V →
      Map.find st.byName_ st.currentVault_ = some vault →
      st.resolve_registry T g.line = .ok R → (vault.entry R T.key).isSome = true →
      Interpreter.execute_statement env2 st g = .ok () st) := by
  have hk0 := Interpreter.init_keyed opts
  have hk1 := Interpreter.seed_keyed (Interpreter.init opts) out1
  have hbody : ∀ (e : Platform), ∀ b ∈ program, ∀ sa sb,
      Interpreter.execute_body e sa b.body = .ok () sb →
      Interpreter.VaultsRel SealedVault.keepsEntries sa sb :=
    fun e b hb sa sb h => Interpreter.execute_body_no_replace e b.body sa sb (hnr b hb) h
  have hrel1 := Interpreter.run_rel env SealedVault.keepsEntries SealedVault.keepsEntries_refl
    SealedVault.keepsEntries_trans (fun v o s => fun _ _ _ h => h) program _ st1 out1
    (hbody env) hk0 h1
  have hrel2 := Interpreter.run_rel env2 SealedVault.keepsEntries SealedVault.keepsEntries_refl
    SealedVault.keepsEntries_trans (fun v o s => fun _ _ _ h => h) program _ st2 out2
    (hbody env2) hk1 h2
  have hseed : ∀ v1 ∈ out1, ∃ t,
      Map.find ((Interpreter.init opts).seed out1).byName_ v1.name = some t ∧
      SealedVault.keepsEntries v1 t :=
    Map.find_seed_rel SealedVault.keepsEntries SealedVault.keepsEntries_refl
      SealedVault.keepsEntries_trans out1 [] hrel1.2
  refine ⟨?_, ?_, ?_, ?_⟩
  · intro b hb hev pre post g T V R hbd hg hres
    have hx := (Interpreter.run_ok env _ st1 program out1 h1).1
    have hP : ∀ (sa st3 : Interpreter) (v : SealedVault), sa.currentVault_ = b.name →
        Interpreter.execute_body env sa b.body = .ok () st3 →
        Map.find st3.byName_ b.name = some v → (v.entry R T.key).isSome = true := by
      intro sa st3 v hc hexec hfind
      rw [hbd] at hexec
      obtain ⟨v3, e, hv3, he⟩ := Interpreter.execute_body_guarded env pre post g T V R hg hres
        (by rw [← hbd]; exact hnr b hb) sa st3 hexec
      rw [hc, hfind] at hv3
      injection hv3 with hv3
      rw [hv3, he]
      rfl
    obtain ⟨v, hv, hn, hp⟩ := Interpreter.evaluate_all_emits env
      (fun v => (v.entry R T.key).isSome = true) b hP program _ st1 hb hev hk0 hx
    have hout : out1 = st1.sealed_ := (Interpreter.run_ok env _ st1 program out1 h1).2
    exact ⟨v, by rw [hout]; exact hv, hn, hp⟩
  · intro v1 hv1
    have hem1 := Interpreter.run_emitted env _ st1 program out1 h1
    have hem2 := Interpreter.run_emitted env2 _ st2 program out2 h2
    obtain ⟨b, hb, hvb⟩ := forall₂_exists_right hem1 v1 hv1
    have hbp : b ∈ program := (evaluatedBlocks_sublist _ _ _).subset hb
    obtain ⟨t, ht, _⟩ := hseed v1 hv1
    have hkn : b.name ∈ ((Interpreter.init opts).seed out1).byName_.map Prod.fst := by
      rw [Map.mem_keys_iff, ← hvb.1 hk0, ht]
      rfl
    obtain ⟨v2, hv2, hvb2⟩ := forall₂_exists_left hem2 b
      (evaluatedBlocks_known _ _ _ b hbp hkn)
    exact ⟨v2, hv2, by rw [hvb2.1 hk1, hvb.1 hk0]⟩
  · intro v2 hv2 v1 hv1 hn R k e he
    obtain ⟨t, ht, hq⟩ := hseed v1 hv1
    rw [hn] at ht
    exact hrel2.1 v2 hv2 t ht R k e (hq R k e he)
  · intro st vault g T V R hg hv hr hpres
    exact Interpreter.guarded_store_present env2 st vault g T V R hg hv hr hpres

/-- C22 (amended) at scenario S4, compiled and compiled again with its output as seed. -/
theorem guarded_store_idempotent_witness :
    (∀ b ∈ guardedProgram, Statement.anyHas StatementType.isReplace b.body = false) ∧
    Parser.parse guardedLines = .ok guardedProgram 5 ∧
    Interpreter.run samplePlatform (Interpreter.init sampleOptions) guardedProgram =
      .ok [sampleSealedVault] (guardedFinal 1) ∧
    Interpreter.run samplePlatform ((Interpreter.init sampleOptions).seed [sampleSealedVault])
      guardedProgram = .ok [sampleSealedVault] (guardedFinal 0) ∧
    (∃ v1 ∈ [sampleSealedVault], v1.name = "A" ∧ (v1.entry "R" "k").isSome = true) ∧
    (∀ v2 ∈ [sampleSealedVault], ∀ v1 ∈ [sampleSealedVault], v1.name = v2.name →
      ∀ R k e, v1.entry R k = some e → v2.entry R k = some e) :=
  have h := guarded_store_idempotent samplePlatform samplePlatform sampleOptions
    guardedProgram [sampleSealedVault] [sampleSealedVault] (guardedFinal 1)
    (guardedFinal 0) (by decide) (by decide) (by decide)
  ⟨by decide, rfl, by decide, by decide,
    h.1 _ (List.mem_cons_self _ _) (Or.inl rfl) [stmtRegistry] [stmtSecure 5] stmtIfMissing
      ⟨none, "k"⟩ ⟨.Literal, "v"⟩ "R" rfl ⟨rfl, rfl, rfl, stmtStore 4, rfl, rfl, rfl, rfl⟩
      (Or.inr ⟨rfl, [], stmtRegistry, rfl, rfl, rfl⟩),
    h.2.2.1⟩

/-- C24, counterexample. The text of a line holding a carriage return and a line holding a
form feed has no tab; both lines are whitespace-only, and `lex_file` returns them with
the texts `\r` and `\x0c`, not with empty texts. -/
theorem lexer_keeps_other_whitespace :
    '\t' ∉ "\r\n\x0c\n".toList ∧
    (∀ c ∈ "\r".toList, isspace c = true) ∧ (∀ c ∈ "\x0c".toList, isspace c = true) ∧
    lex_file "a.vau" (some "\r\n\x0c\n") = .ok [⟨1, 0, "\r"⟩, ⟨2, 0, "\x0c"⟩] :=
  ⟨by decide, by decide, by decide, by decide⟩

/-- C24, with "whitespace-only" narrowed to "spaces only". A text is, in one way, a list
of lines each ended by a newline, followed by a rest without newline that counts as a
further line unless it is empty. For a text without tab, `lex_file` returns one `Line`
record for each of these lines, in order; the record of the `i`-th line (counted from 0)
has number `i + 1`, its `indent` is the count of the leading spaces of the line and its
`text` the remainder, so `indent` spaces followed by `text` are the line; `text` does not
begin with a space, and it is empty exactly when the line is empty or holds spaces
only. -/
theorem lexer_output_shape (path text : String) (h : '\t' ∉ text.toList) :
    (∃ (ls : List String) (tail : String), text = unlines ls ++ tail ∧
      (∀ l ∈ ls, '\n' ∉ l.toList) ∧ '\n' ∉ tail.toList) ∧
    ∀ (ls : List String) (tail : String), text = unlines ls ++ tail →
      (∀ l ∈ ls, '\n' ∉ l.toList) → '\n' ∉ tail.toList →
      getlines text = ls ++ (if tail = "" then [] else [tail]) ∧
      ∃ lines, lex_file path (some text) = .ok lines ∧
        lines.length = ls.length + (if tail = "" then 0 else 1) ∧
        ∀ (i : Nat) (line : String),
          (ls ++ (if tail = "" then [] else [tail]))[i]? = some line →
          ∃ ln, lines[i]? = some ln ∧ ln.number = (i : Int) + 1 ∧
            ln.indent = ((line.toList.takeWhile (fun c => c = ' ')).length : Int) ∧
            ln.text = String.mk (line.toList.dropWhile (fun c => c = ' ')) ∧
            line = String.mk (List.replicate ln.indent.toNat ' ') ++ ln.text ∧
            ln.text.toList.head? ≠ some ' ' ∧
            (ln.text = "" ↔ ∀ c ∈ line.toList, c = ' ') := by
  refine ⟨text_lines_split text.data, ?_⟩
  intro ls tail htext hls htail
  have hg : getlines text = ls ++ (if tail = "" then [] else [tail]) := by
    rw [htext]
    exact getlines_unlines_tail tail htail ls hls
  have hfree : ∀ l ∈ getlines text, '\t' ∉ l.toList := fun l hl hc =>
    h ((getlines_mem_iff text '\t' (by decide)).mp ⟨l, hl, hc⟩)
  obtain ⟨out, ho, hlen, hget⟩ := lex_loop_ok (getlines text) 1 [] hfree
  refine ⟨hg, out, by simpa [lex_file] using ho, ?_, ?_⟩
  · rw [hlen, hg]
    by_cases he : tail = "" <;> simp [he]
  intro i line hi
  rw [← hg] at hi
  refine ⟨_, hget i line hi, by simp [add_comm], ?_, trim_left_eq line, ?_, ?_, ?_⟩
  · simp only [count_indent_eq, zero_add]
  · have hrep : line.toList.takeWhile (fun c => c = ' ') =
        List.replicate (line.toList.takeWhile (fun c => c = ' ')).length ' ' := by
      rw [List.eq_replicate_iff]
      refine ⟨rfl, ?_⟩
      intro b hb
      simpa using List.mem_takeWhile_imp hb
    apply String.ext
    simp only [count_indent_eq, zero_add, Int.toNat_ofNat, trim_left_eq, String.data_append]
    rw [← hrep]
    exact (List.takeWhile_append_dropWhile _ _).symm
  · rw [trim_left_eq]
    intro hh
    have := List.head?_dropWhile_not (fun c => decide (c = ' ')) line.toList
    have hh2 : (List.dropWhile (fun c => decide (c = ' ')) line.toList).head? = some ' ' := hh
    rw [hh2] at this
    simp at this
  · rw [trim_left_eq]
    constructor
    · intro hempty c hc
      have hnil : line.toList.dropWhile (fun c => c = ' ') = [] := congrArg String.data hempty
      rw [List.dropWhile_eq_nil_iff] at hnil
      simpa using hnil c hc
    · intro hall
      have : line.toList.dropWhile (fun c => c = ' ') = [] := by
        rw [List.dropWhile_eq_nil_iff]
        intro x hx
        simpa using hall x hx
      rw [this]
      try rfl

/-- C24 at a text of four lines: a header, an indented line, an empty line and a line of
three spaces; the second record is line 2 with indent 2 and text `registry R`, the
fourth is line 4 with indent 3 and empty text. -/
theorem lexer_output_shape_witness :
    '\t' ∉ "vault A\n  registry R\n\n   \n".toList ∧
    "vault A\n  registry R\n\n   \n" = unlines ["vault A", "  registry R", "", "   "] ++ "" ∧
    lex_file "a.vau" (some "vault A\n  registry R\n\n   \n") =
      .ok [⟨1, 0, "vault A"⟩, ⟨2, 2, "registry R"⟩, ⟨3, 0, ""⟩, ⟨4, 3, ""⟩] ∧
    ∃ lines, lex_file "a.vau" (some "vault A\n  registry R\n\n   \n") = .ok lines ∧
      lines.length = 4 + (if ("" : String) = "" then 0 else 1) :=
  ⟨by decide, by decide, by decide,
    match (lexer_output_shape "a.vau" "vault A\n  registry R\n\n   \n" (by decide)).2
      ["vault A", "  registry R", "", "   "] "" (by decide) (by decide) (by decide) with
    | ⟨_, lines, h1, h2, _⟩ => ⟨lines, h1, h2⟩⟩

/-- C25. Trailing secure: `Parser::parse` always returns or throws; when it returns, every
block of the program has a non-empty name and a non-empty body whose last statement has
type `Secure`. Conversely, when the loop of `parse` stands on a vault header (a non-blank
line at indent 0 that begins with `vault ` or `vault? ` and gives a non-empty name) whose
block parses to a body that is empty or does not end with a `Secure` statement, `parse`
throws "Vault '<name>' missing terminating 'secure' (line <header line>)". -/
theorem trailing_secure (lines : List Line) :
    Parser.parse lines ≠ .exhausted ∧
    (∀ program pos, Parser.parse lines = .ok program pos →
      ∀ b ∈ program, b.name ≠ "" ∧ b.body ≠ [] ∧
        ∃ last, b.body.getLast? = some last ∧ last.type = .Secure) ∧
    (∀ (blockFuel fuel pos pos1 : Nat) (acc : List VaultBlock) (line : Line)
      (body : List Statement) (name : String),
      lines[pos]? = some line → trim line.text ≠ "" → line.indent = 0 →
      (starts_with (trim line.text) "vault? " = true ∨
        starts_with (trim line.text) "vault " = true) →
      name = (if starts_with (trim line.text) "vault? " = true
        then trim (substrFrom (trim line.text) 7) else trim (substrFrom (trim line.text) 6)) →
      name ≠ "" →
      Parser.parse_block lines blockFuel (pos + 1) (line.indent + 2) [] = .ok body pos1 →
      (body = [] ∨ ∃ last, body.getLast? = some last ∧ last.type ≠ .Secure) →
      Parser.parse_loop lines blockFuel (fuel + 1) pos acc =
        .throw ("Vault \x27" ++ name ++ "\x27 missing terminating \x27secure\x27 (line "
          ++ toString line.number ++ ")") pos1) := by
  refine ⟨Parser.parse_total lines, ?_, ?_⟩
  · intro program pos h b hb
    obtain ⟨pre, sec, hbody, hsec⟩ := Parser.parse_ends_secure lines program pos h b hb
    refine ⟨Parser.parse_loop_named lines _ _ 0 pos [] program (fun _ hx => by cases hx) h b hb,
      ?_, sec, ?_, hsec⟩
    · rw [hbody]
      simp
    · rw [hbody, List.getLast?_concat]
  · intro blockFuel fuel pos pos1 acc line body name hl hnb hind hhead hname hne hblock hbad
    have hvault : Parser.parse_vault lines blockFuel pos =
        .throw ("Vault \x27" ++ name ++ "\x27 missing terminating \x27secure\x27 (line "
          ++ toString line.number ++ ")") pos1 := by
      unfold Parser.parse_vault
      simp only [hl]
      by_cases hq : starts_with (trim line.text) "vault? " = true
      · rw [if_pos hq] at hname
        simp only [hq, if_true, ← hname, if_neg hne, hblock]
        rcases hbad with hb | ⟨last, hlast, hns⟩
        · rw [hb]
          rfl
        · rw [hlast]
          simp [hns]
      · rw [if_neg hq] at hname
        have hv : starts_with (trim line.text) "vault " = true := hhead.resolve_left hq
        simp only [hq, hv, if_true, Bool.false_eq_true, if_false, ← hname, if_neg hne, hblock]
        rcases hbad with hb | ⟨last, hlast, hns⟩
        · rw [hb]
          rfl
        · rw [hlast]
          simp [hns]
    rw [Parser.parse_loop]
    simp only [hl, if_neg hnb, hind, ne_eq, not_true_eq_false, if_false, hvault]

/-- C25 at `vault A`, `registry R` without `secure`, and at scenario S1. -/
theorem trailing_secure_witness :
    Parser.parse unsealedLines =
      .throw "Vault \x27A\x27 missing terminating \x27secure\x27 (line 1)" 2 ∧
    ∀ b ∈ sampleProgram, b.name ≠ "" ∧ b.body ≠ [] ∧
      ∃ last, b.body.getLast? = some last ∧ last.type = .Secure :=
  ⟨(trailing_secure unsealedLines).2.2 5 2 0 2 [] ⟨1, 0, "vault A"⟩ [stmtRegistry] "A"
      rfl (by decide) rfl (Or.inr rfl) rfl (by decide) rfl (Or.inr ⟨_, rfl, by decide⟩),
    (trailing_secure sampleLines).2.1 sampleProgram 4 rfl⟩

/-- C26. Indent contract. While `parse_block` stands on a line with expected indent
`indent`: a blank line is skipped; a non-blank line with a smaller indent ends the block,
with the statements read so far and the cursor still on that line; a non-blank line with a
greater indent throws "Unexpected indent"; a non-blank line with the expected indent is
handed to `parse_statement`. Every statement a block adds is parsed from a non-blank line
of exactly the expected indent. The body of an `if` is parsed at the indent of its line
plus two, and in a parsed program every statement of a vault body comes from a line of
indent 2. At top level a blank line is skipped and a non-blank line with an indent other
than 0 throws "Top-level statements must start at indent 0". -/
theorem indent_contract (lines : List Line) (fuel pos : Nat) (indent : Int)
    (stmts : List Statement) (line : Line) (hl : lines[pos]? = some line) :
    (trim line.text = "" →
      Parser.parse_block lines (fuel + 1) pos indent stmts =
        Parser.parse_block lines fuel (pos + 1) indent stmts) ∧
    (trim line.text ≠ "" → line.indent < indent →
      Parser.parse_block lines (fuel + 1) pos indent stmts = .ok stmts pos) ∧
    (trim line.text ≠ "" → indent < line.indent →
      Parser.parse_block lines (fuel + 1) pos indent stmts =
        .throw ("Unexpected indent on line " ++ toString line.number) pos) ∧
    (trim line.text ≠ "" → line.indent = indent →
      Parser.parse_block lines (fuel + 1) pos indent stmts =
        match Parser.parse_statement lines fuel pos with
        | .exhausted => .exhausted
        | .throw e p => .throw e p
        | .ok parsed p => Parser.parse_block lines fuel p indent (stmts ++ [parsed])) ∧
    (∀ out pos1, Parser.parse_block lines fuel pos indent stmts = .ok out pos1 →
      ∃ added, out = stmts ++ added ∧
        ∀ s ∈ added, ∃ (p : Nat) (l : Line), pos ≤ p ∧ p < pos1 ∧ lines[p]? = some l ∧
          l.indent = indent ∧ trim l.text ≠ "" ∧ s.line = l.number) ∧
    (∀ s pos1, Parser.parse_statement lines fuel pos = .ok s pos1 →
      ∀ x ∈ s.conditional.body, ∃ (p : Nat) (l : Line), pos < p ∧ p < pos1 ∧
        lines[p]? = some l ∧ l.indent = line.indent + 2 ∧ trim l.text ≠ "" ∧
        x.line = l.number) ∧
    (∀ program posEnd, Parser.parse lines = .ok program posEnd →
      ∀ b ∈ program, ∀ s ∈ b.body, ∃ (p : Nat) (l : Line), lines[p]? = some l ∧
        l.indent = 2 ∧ trim l.text ≠ "" ∧ s.line = l.number) ∧
    (∀ blockFuel acc, trim line.text = "" →
      Parser.parse_loop lines blockFuel (fuel + 1) pos acc =
        Parser.parse_loop lines blockFuel fuel (pos + 1) acc) ∧
    (∀ blockFuel acc, trim line.text ≠ "" → line.indent ≠ 0 →
      Parser.parse_loop lines blockFuel (fuel + 1) pos acc =
        .throw ("Top-level statements must start at indent 0 (line "
          ++ toString line.number ++ ")") pos) := by
  refine ⟨?_, ?_, ?_, ?_, ?_, ?_, ?_, ?_, ?_⟩
  · intro hb
    rw [Parser.parse_block]
    simp only [hl, if_pos hb]
  · intro hb hlt
    rw [Parser.parse_block]
    simp only [hl, if_neg hb, if_pos hlt]
  · intro hb hgt
    have h1 : ¬ line.indent < indent := by omega
    have h2 : line.indent ≠ indent := by omega
    rw [Parser.parse_block]
    simp only [hl, if_neg hb, if_neg h1, if_pos h2]
  · intro hb heq
    have h1 : ¬ line.indent < indent := by omega
    have h2 : ¬ line.indent ≠ indent := by simp [heq]
    rw [Parser.parse_block]
    simp only [hl, if_neg hb, if_neg h1, if_neg h2]
    try rfl
  · intro out pos1 h
    exact Parser.parse_block_lines lines indent fuel pos stmts out pos1 h
  · intro s pos1 h
    exact Parser.parse_statement_body_lines lines fuel pos pos1 s line hl h
  · intro program posEnd h
    exact Parser.parse_loop_body_lines lines _ _ 0 posEnd [] program
      (fun _ hx => by cases hx) h
  · intro blockFuel acc hb
    rw [Parser.parse_loop]
    simp only [hl, if_pos hb]
  · intro blockFuel acc hb hi
    rw [Parser.parse_loop]
    simp only [hl, if_neg hb, if_pos hi]

/-- C26 at scenario S4, in the body of the `if` (expected indent 4) on the line `secure`
of indent 2: the block ends and the cursor stays on that line. -/
theorem indent_contract_witness :
    guardedLines[4]? = some ⟨5, 2, "secure"⟩ ∧
    Parser.parse_block guardedLines 1 4 4 [] = .ok [] 4 :=
  ⟨rfl, (indent_contract guardedLines 0 4 4 [] ⟨5, 2, "secure"⟩ rfl).2.1
    (by decide) (by decide)⟩

/-- C27, as stated, fails: the key `a=b` holds no double quote, and the line
`store R -> "a=b" = "v"` does not parse, because the statement is cut at its first `=`,
inside the key; likewise the registry name `x=y` in `store x=y -> "k" = "v"`. -/
theorem key_with_equals_rejected :
    '"' ∉ "a=b".toList ∧
    Parser.parse_statement [⟨3, 2, "store R -> \"a=b\" = \"v\""⟩] 1 0 =
      .throw "Expected quoted string on line 3" 0 ∧
    '"' ∉ "x=y".toList ∧
    Parser.parse_statement [⟨3, 2, "store x=y -> \"k\" = \"v\""⟩] 1 0 =
      .throw "Expected \x27->\x27 in target on line 3" 0 :=
  ⟨by decide, rfl, by decide, rfl⟩

/-- C27, amended. Target parsing: for a registry name `R` that is non-empty, neither
begins nor ends with a space and holds neither `=` nor `->`, a key `k` without `=` and any
literal `v`, the line `store R -> "k" = "v"` parses to a `Store` statement with target
registry `R`, key `k` and value `Literal v`, and `store -> "k" = "v"` to the same with the
registry absent; `replace` likewise. A `store` or `replace` whose target holds no `->`
throws "Expected '->' in target", and one whose line holds no `=` throws "Missing '='". -/
theorem target_parsing (lines : List Line) (fuel pos : Nat) (number indent : Int)
    (R k v : String) (hR : Trimmed R) (hRne : R ≠ "") (hReq : '=' ∉ R.toList)
    (hRar : find_sub R.toList ['-', '>'] = none) (hk : '=' ∉ k.toList) :
    (lines[pos]? = some ⟨number, indent,
        "store " ++ R ++ " -> \"" ++ k ++ "\" = \"" ++ v ++ "\""⟩ →
      Parser.parse_statement lines (fuel + 1) pos =
        .ok (.mk .Store number "" ⟨some R, k⟩ ⟨.Literal, v⟩ IfStmt.empty "") (pos + 1)) ∧
    (lines[pos]? = some ⟨number, indent, "store -> \"" ++ k ++ "\" = \"" ++ v ++ "\""⟩ →
      Parser.parse_statement lines (fuel + 1) pos =
        .ok (.mk .Store number "" ⟨none, k⟩ ⟨.Literal, v⟩ IfStmt.empty "") (pos + 1)) ∧
    (lines[pos]? = some ⟨number, indent,
        "replace " ++ R ++ " -> \"" ++ k ++ "\" = \"" ++ v ++ "\""⟩ →
      Parser.parse_statement lines (fuel + 1) pos =
        .ok (.mk .Replace number "" ⟨some R, k⟩ ⟨.Literal, v⟩ IfStmt.empty "") (pos + 1)) ∧
    (lines[pos]? = some ⟨number, indent, "replace -> \"" ++ k ++ "\" = \"" ++ v ++ "\""⟩ →
      Parser.parse_statement lines (fuel + 1) pos =
        .ok (.mk .Replace number "" ⟨none, k⟩ ⟨.Literal, v⟩ IfStmt.empty "") (pos + 1)) ∧
    (∀ tgt val : String, Trimmed tgt → tgt ≠ "" → '=' ∉ tgt.toList →
      find_sub tgt.toList ['-', '>'] = none → Trimmed val → val ≠ "" →
      (lines[pos]? = some ⟨number, indent, "store " ++ tgt ++ " = " ++ val⟩ ∨
        lines[pos]? = some ⟨number, indent, "replace " ++ tgt ++ " = " ++ val⟩) →
      Parser.parse_statement lines (fuel + 1) pos =
        .throw ("Expected \x27->\x27 in target on line " ++ toString number) pos) ∧
    (∀ text : String, lines[pos]? = some ⟨number, indent, text⟩ →
      (starts_with (trim text) "store " = true ∨ starts_with (trim text) "replace " = true) →
      '=' ∉ text.toList →
      Parser.parse_statement lines (fuel + 1) pos =
        .throw ("Missing \x27=\x27 on line " ++ toString number) pos) := by
  -- the two shapes of a target
  have hnamed : Trimmed (R ++ " -> \"" ++ k ++ "\"") ∧ R ++ " -> \"" ++ k ++ "\"" ≠ "" ∧
      '=' ∉ (R ++ " -> \"" ++ k ++ "\"").toList := by
    refine ⟨trimmed_target R k hR.1 hRne, ?_, no_equals_target R k hReq hk⟩
    intro e
    have := congrArg String.length e
    simp at this
    exact absurd this.2 (by decide)
  have hcur : Trimmed ("-> \"" ++ k ++ "\"") ∧ "-> \"" ++ k ++ "\"" ≠ "" ∧
      '=' ∉ ("-> \"" ++ k ++ "\"").toList := by
    refine ⟨?_, ?_, ?_⟩
    · have := trimmed_append "->" "\"" (by decide) (by decide) (by decide) (by decide)
        (" \"" ++ k)
      have e : "->" ++ (" \"" ++ k) ++ "\"" = "-> \"" ++ k ++ "\"" := by
        apply String.ext
        simp [String.toList]
      rw [e] at this
      exact this
    · intro e
      have := congrArg String.length e
      simp at this
      exact absurd this.2 (by decide)
    · have hl : ("-> \"" ++ k ++ "\"").toList = '-' :: '>' :: ' ' :: '"' :: (k.toList ++ ['"']) := by
        simp [String.toList]
      rw [hl]
      intro hm
      simp only [List.mem_append, List.mem_cons, List.mem_singleton] at hm
      rcases hm with h | h | h | h | h | h
      · exact absurd h (by decide)
      · exact absurd h (by decide)
      · exact absurd h (by decide)
      · exact absurd h (by decide)
      · exact hk h
      · exact absurd h (by decide)
  have hval : Trimmed ("\"" ++ v ++ "\"") ∧ "\"" ++ v ++ "\"" ≠ "" := by
    refine ⟨trimmed_quoted v, ?_⟩
    intro e
    have := congrArg String.length e
    simp at this
    exact absurd this.2 (by decide)
  -- a line `store <target> = <value>` or `replace <target> = <value>`
  have hstore : ∀ tgt val : String, Trimmed tgt → tgt ≠ "" → '=' ∉ tgt.toList →
      Trimmed val → val ≠ "" →
      lines[pos]? = some ⟨number, indent, "store " ++ (tgt ++ " = " ++ val)⟩ →
      Parser.parse_statement lines (fuel + 1) pos =
        match (match parse_target tgt number with
          | .error e => .error e
          | .ok target =>
            match parse_value_expr val number with
            | .error e => .error e
            | .ok value => .ok (.mk .Store number "" target value IfStmt.empty "") :
            Except String Statement) with
        | .error e => .throw e pos
        | .ok s => .ok s (pos + 1) := by
    intro tgt val h1 h2 h3 h4 h5 hl
    have ht := trimmed_statement_line "store " tgt val (by decide) (by decide) h4 h5
    have hif : starts_with (trim (Line.mk number indent
        ("store " ++ (tgt ++ " = " ++ val))).text) "if " = false := by
      simp only [trim_of_trimmed _ ht]
      exact starts_with_false "store ".toList "if ".toList _ rfl
    rw [Parser.parse_statement_simple lines fuel pos _ hl hif]
    simp only [trim_of_trimmed _ ht, parse_store_line tgt val number h1 h2 h3 h4 h5]
  have hreplace : ∀ tgt val : String, Trimmed tgt → tgt ≠ "" → '=' ∉ tgt.toList →
      Trimmed val → val ≠ "" →
      lines[pos]? = some ⟨number, indent, "replace " ++ (tgt ++ " = " ++ val)⟩ →
      Parser.parse_statement lines (fuel + 1) pos =
        match (match parse_target tgt number with
          | .error e => .error e
          | .ok target =>
            match parse_value_expr val number with
            | .error e => .error e
            | .ok value => .ok (.mk .Replace number "" target value IfStmt.empty "") :
            Except String Statement) with
        | .error e => .throw e pos
        | .ok s => .ok s (pos + 1) := by
    intro tgt val h1 h2 h3 h4 h5 hl
    have ht := trimmed_statement_line "replace " tgt val (by decide) (by decide) h4 h5
    have hif : starts_with (trim (Line.mk number indent
        ("replace " ++ (tgt ++ " = " ++ val))).text) "if " = false := by
      simp only [trim_of_trimmed _ ht]
      exact starts_with_false "replace ".toList "if ".toList _ rfl
    rw [Parser.parse_statement_simple lines fuel pos _ hl hif]
    simp only [trim_of_trimmed _ ht, parse_replace_line tgt val number h1 h2 h3 h4 h5]
  refine ⟨?_, ?_, ?_, ?_, ?_, ?_⟩
  · intro hl
    have e : "store " ++ R ++ " -> \"" ++ k ++ "\" = \"" ++ v ++ "\"" =
        "store " ++ ((R ++ " -> \"" ++ k ++ "\"") ++ " = " ++ ("\"" ++ v ++ "\"")) := by
      apply String.ext
      simp [String.toList]
    rw [e] at hl
    rw [hstore _ _ hnamed.1 hnamed.2.1 hnamed.2.2 hval.1 hval.2 hl,
      parse_target_named R k number hR hRne hRar, parse_value_expr_quoted]
  · intro hl
    have e : "store -> \"" ++ k ++ "\" = \"" ++ v ++ "\"" =
        "store " ++ (("-> \"" ++ k ++ "\"") ++ " = " ++ ("\"" ++ v ++ "\"")) := by
      apply String.ext
      simp [String.toList]
    rw [e] at hl
    rw [hstore _ _ hcur.1 hcur.2.1 hcur.2.2 hval.1 hval.2 hl,
      parse_target_current k number, parse_value_expr_quoted]
  · intro hl
    have e : "replace " ++ R ++ " -> \"" ++ k ++ "\" = \"" ++ v ++ "\"" =
        "replace " ++ ((R ++ " -> \"" ++ k ++ "\"") ++ " = " ++ ("\"" ++ v ++ "\"")) := by
      apply String.ext
      simp [String.toList]
    rw [e] at hl
    rw [hreplace _ _ hnamed.1 hnamed.2.1 hnamed.2.2 hval.1 hval.2 hl,
      parse_target_named R k number hR hRne hRar, parse_value_expr_quoted]
  · intro hl
    have e : "replace -> \"" ++ k ++ "\" = \"" ++ v ++ "\"" =
        "replace " ++ (("-> \"" ++ k ++ "\"") ++ " = " ++ ("\"" ++ v ++ "\"")) := by
      apply String.ext
      simp [String.toList]
    rw [e] at hl
    rw [hreplace _ _ hcur.1 hcur.2.1 hcur.2.2 hval.1 hval.2 hl,
      parse_target_current k number, parse_value_expr_quoted]
  · intro tgt val h1 h2 h3 h4 h5 h6 hl
    rcases hl with hl | hl
    · have e : "store " ++ tgt ++ " = " ++ val = "store " ++ (tgt ++ " = " ++ val) := by
        simp only [String.append_assoc]
      rw [e] at hl
      rw [hstore _ _ h1 h2 h3 h5 h6 hl, parse_target_no_arrow tgt number h1 h4]
    · have e : "replace " ++ tgt ++ " = " ++ val = "replace " ++ (tgt ++ " = " ++ val) := by
        simp only [String.append_assoc]
      rw [e] at hl
      rw [hreplace _ _ h1 h2 h3 h5 h6 hl, parse_target_no_arrow tgt number h1 h4]
  · intro text hl hst hno
    have hif : starts_with (trim (Line.mk number indent text).text) "if " = false := by
      rcases hst with hst | hst
      · obtain ⟨rest, hrest⟩ := starts_with_data _ _ hst
        show starts_with (trim text) "if " = false
        rw [hrest]
        exact starts_with_false "store ".toList "if ".toList _ rfl
      · obtain ⟨rest, hrest⟩ := starts_with_data _ _ hst
        show starts_with (trim text) "if " = false
        rw [hrest]
        exact starts_with_false "replace ".toList "if ".toList _ rfl
    rw [Parser.parse_statement_simple lines fuel pos _ hl hif]
    have hno2 : '=' ∉ (trim text).toList := fun hm => hno (trim_subset _ _ hm)
    simp only [parse_statement_no_equals (trim text) number hst hno2]

/-- C27 (amended) at the line `store R -> "k" = "v"` on line 3. -/
theorem target_parsing_witness :
    Trimmed "R" ∧ "R" ≠ "" ∧ '=' ∉ "R".toList ∧ find_sub "R".toList ['-', '>'] = none ∧
    '=' ∉ "k".toList ∧
    Parser.parse_statement [⟨3, 2, "store R -> \"k\" = \"v\""⟩] 1 0 =
      .ok (.mk .Store 3 "" ⟨some "R", "k"⟩ ⟨.Literal, "v"⟩ IfStmt.empty "") 1 :=
  ⟨by decide, by decide, by decide, by decide, by decide,
    (target_parsing [⟨3, 2, "store R -> \"k\" = \"v\""⟩] 0 0 3 2 "R" "k" "v"
      (by decide) (by decide) (by decide) (by decide) (by decide)).1 (by decide)⟩

/-- C28, as stated, fails: `a(b()` is the non-empty name `a(b` followed by `()`, and
`parse_value_expr` rejects it, because it looks for the first `(` of the text; likewise
`"x()` is the name `"x` followed by `()` and is rejected as an unterminated quote. -/
theorem builtin_name_with_parenthesis :
    "a(b()" = "a(b" ++ "()" ∧ "a(b" ≠ "" ∧ Trimmed "a(b()" ∧
    parse_value_expr "a(b()" 7 = .error "Unrecognized value expression on line 7" ∧
    "\"x()" = "\"x" ++ "()" ∧
    parse_value_expr "\"x()" 7 = .error "Expected quoted string on line 7" := by
  decide

/-- C28, amended. Value expression classification: for a non-empty text `t` that neither
begins nor ends with a space (and is shorter than `2^64`, as every `std::string` is),
`parse_value_expr` returns `Literal` with the quotes removed when `t` is a double quote, a
body and a double quote; `Document` with text `t` when `t` begins with an opening brace or
bracket; `Builtin` with name `n` when `t` is `n` followed by `()` and `n` is non-empty,
holds no parenthesis and does not begin with a double quote, brace or bracket; and it
throws in every other case: a result is always of one of these three shapes. The empty
text throws "Missing value", the text `()` throws "Bad builtin", and a text that begins
with a double quote and does not end with one (or is that quote alone) throws "Expected
quoted string". -/
theorem value_classification (t : String) (line : Int) (hne : t ≠ "") (htrim : Trimmed t)
    (hlen : t.length < 2 ^ 64) :
    (∀ body, t = "\"" ++ body ++ "\"" → parse_value_expr t line = .ok ⟨.Literal, body⟩) ∧
    (t.toList.head? = some '\x7b' ∨ t.toList.head? = some '[' →
      parse_value_expr t line = .ok ⟨.Document, t⟩) ∧
    (∀ n : String, t = n ++ "()" → n ≠ "" → '(' ∉ n.toList → ')' ∉ n.toList →
      n.toList.head? ≠ some '"' → n.toList.head? ≠ some '\x7b' → n.toList.head? ≠ some '[' →
      parse_value_expr t line = .ok ⟨.Builtin, n⟩) ∧
    (∀ ve, parse_value_expr t line = .ok ve →
      (ve.kind = .Literal ∧ t = "\"" ++ ve.text ++ "\"") ∨
      (ve.kind = .Document ∧ ve.text = t ∧
        (t.toList.head? = some '\x7b' ∨ t.toList.head? = some '[')) ∨
      (ve.kind = .Builtin ∧ t = ve.text ++ "()" ∧ ve.text ≠ "" ∧
        '(' ∉ ve.text.toList ∧ ')' ∉ ve.text.toList)) ∧
    parse_value_expr "" line = .error ("Missing value on line " ++ toString line) ∧
    parse_value_expr "()" line = .error ("Bad builtin on line " ++ toString line) ∧
    (t.toList.head? = some '"' → (t.length < 2 ∨ t.toList.getLast? ≠ some '"') →
      parse_value_expr t line = .error ("Expected quoted string on line " ++ toString line)) := by
  have hnil : t.toList.isEmpty = false := by
    obtain ⟨l⟩ := t
    cases l with
    | nil => exact absurd rfl hne
    | cons x xs => rfl
  refine ⟨?_, ?_, ?_, ?_, ?_, ?_, ?_⟩
  · intro body hb
    have hh : t.toList.head? = some '"' := by rw [hb]; simp [String.toList]
    simp only [parse_value_expr, trim_of_trimmed t htrim, hnil, Bool.false_eq_true, if_false,
      hh, if_true]
    rw [hb, expect_quoted_ok]
  · intro hd
    have hq : t.toList.head? ≠ some '"' := by
      rcases hd with hd | hd <;> rw [hd] <;> decide
    simp only [parse_value_expr, trim_of_trimmed t htrim, hnil, Bool.false_eq_true, if_false,
      hq, hd, if_true]
  · intro n hn hne2 hopen hclose hq hb1 hb2
    have hl : t.toList = n.toList ++ ['(', ')'] := by rw [hn]; simp [String.toList]
    have hn2 : n.toList ≠ [] := by
      intro e
      apply hne2
      apply String.ext
      exact e
    have hhead : t.toList.head? = n.toList.head? := by
      rw [hl]
      cases hnl : n.toList with
      | nil => exact absurd hnl hn2
      | cons x xs => rfl
    have ho : find_char t.toList '(' = some n.toList.length := by
      rw [hl]
      exact find_char_append '(' [')'] n.toList hopen
    have hc : find_char t.toList ')' = some (n.toList.length + 1) := by
      rw [hl]
      have hcl : ')' ∉ n.toList ++ ['('] := by
        intro hm
        rcases List.mem_append.mp hm with h | h
        · exact hclose h
        · simp at h
      have := find_char_append ')' [] (n.toList ++ ['(']) hcl
      simpa using this
    have hlen2 : n.toList.length + 2 < 2 ^ 64 := by
      have : t.toList.length = n.toList.length + 2 := by rw [hl]; simp
      rw [← this]
      exact hlen
    have hne3 : ¬ (String.mk (substr t.toList 0 (sizeT (some n.toList.length))) = "") := by
      simp only [sizeT]
      rw [hl]
      simp only [substr, List.drop_zero, List.take_left' rfl]
      exact hne2
    have hcond : sizeT (some n.toList.length) ≠ npos ∧
        sizeT (some (n.toList.length + 1)) = t.toList.length - 1 ∧
        sizeT (some n.toList.length) =
          (sizeT (some (n.toList.length + 1)) + 2 ^ 64 - 1) % 2 ^ 64 := by
      refine ⟨?_, ?_, ?_⟩
      · simp only [sizeT, npos]
        omega
      · simp only [sizeT, hl]
        simp
      · simp only [sizeT]
        omega
    have hd : ¬ (t.toList.head? = some '\x7b' ∨ t.toList.head? = some '[') := by
      rw [hhead]
      exact fun h => h.elim hb1 hb2
    have hq2 : ¬ (t.toList.head? = some '"') := by rw [hhead]; exact hq
    unfold parse_value_expr
    simp only [trim_of_trimmed t htrim, hnil, Bool.false_eq_true, if_false]
    rw [if_neg hq2, if_neg hd, ho, hc, if_pos hcond, if_neg hne3]
    congr 2
    rw [hl]
    simp [substr, sizeT]
  · intro ve hv
    simp only [parse_value_expr, trim_of_trimmed t htrim, hnil, Bool.false_eq_true,
      if_false] at hv
    by_cases hq : t.toList.head? = some '"'
    · rw [if_pos hq] at hv
      cases hx : expect_quoted t line with
      | error e => simp [hx] at hv
      | ok body =>
        simp only [hx, Except.ok.injEq] at hv
        subst hv
        left
        exact ⟨rfl, expect_quoted_inv t line body htrim hx⟩
    · rw [if_neg hq] at hv
      by_cases hd : t.toList.head? = some '\x7b' ∨ t.toList.head? = some '['
      · rw [if_pos hd] at hv
        injection hv with hv
        subst hv
        right
        left
        exact ⟨rfl, rfl, hd⟩
      · rw [if_neg hd] at hv
        right
        right
        by_cases hcond : sizeT (find_char t.toList '(') ≠ npos ∧
            sizeT (find_char t.toList ')') = t.toList.length - 1 ∧
            sizeT (find_char t.toList '(') =
              (sizeT (find_char t.toList ')') + 2 ^ 64 - 1) % 2 ^ 64
        · rw [if_pos hcond] at hv
          by_cases hname : String.mk (substr t.toList 0 (sizeT (find_char t.toList '('))) = ""
          · rw [if_pos hname] at hv
            cases hv
          · rw [if_neg hname] at hv
            injection hv with hv
            subst hv
            obtain ⟨h1, h2, h3⟩ := hcond
            have hlen3 : t.toList.length < 2 ^ 64 := hlen
            cases ho : find_char t.toList '(' with
            | none =>
              rw [ho] at h1
              exact absurd rfl h1
            | some i =>
              cases hc : find_char t.toList ')' with
              | none =>
                rw [hc] at h2
                simp only [sizeT, npos] at h2
                omega
              | some j =>
                rw [ho, hc] at h3
                rw [hc] at h2
                simp only [sizeT] at h2 h3
                obtain ⟨pre, post, hl, hpre, hi⟩ := find_char_some '(' _ _ ho
                obtain ⟨pre2, post2, hl2, hpre2, hj⟩ := find_char_some ')' _ _ hc
                have hilt : i < t.toList.length := by rw [hl, ← hi]; simp
                have hj1 : j = i + 1 := by omega
                have hpost2 : post2 = [] := by
                  have : t.toList.length = pre2.length + 1 + post2.length := by
                    rw [hl2]; simp; omega
                  have : post2.length = 0 := by omega
                  exact List.length_eq_zero.mp this
                subst hpost2
                have hpre2eq : pre2 = pre ++ ['('] := by
                  have h5 : (pre ++ ['(']) ++ post = pre2 ++ [')'] := by
                    rw [← hl2, hl]
                    simp
                  have h6 := List.append_inj h5 (by simp; omega)
                  exact h6.1.symm
                have htl : t.toList = pre ++ ['(', ')'] := by
                  rw [hl2, hpre2eq]
                  simp
                have hsub : substr t.toList 0 pre.length = pre := by
                  rw [htl]
                  simp [substr]
                have hname_eq : String.mk (substr t.toList 0 (sizeT (some i))) = String.mk pre := by
                  simp only [sizeT]
                  rw [← hi, hsub]
                rw [ho, hname_eq] at hname
                rw [hname_eq]
                refine ⟨rfl, ?_, hname, hpre, ?_⟩
                · apply String.ext
                  simp only [String.data_append]
                  exact htl
                · intro hm
                  apply hpre2
                  rw [hpre2eq]
                  exact List.mem_append_left _ hm
        · rw [if_neg hcond] at hv
          cases hv
  · rfl
  · rfl
  · intro hq hbad
    have hh : t.toList.head? = some '"' := hq
    simp only [parse_value_expr, trim_of_trimmed t htrim, hnil, Bool.false_eq_true, if_false,
      hh, if_true]
    rw [expect_quoted_error t line htrim]
    rcases hbad with h | h
    · left
      exact h
    · right
      right
      exact h

/-- C28 (amended) at the texts `generate()`, `"v"` and `[1, 2]`. -/
theorem value_classification_witness :
    "generate()" ≠ "" ∧ Trimmed "generate()" ∧ "generate()".length < 2 ^ 64 ∧
    parse_value_expr "generate()" 3 = .ok ⟨.Builtin, "generate"⟩ ∧
    parse_value_expr "\"v\"" 3 = .ok ⟨.Literal, "v"⟩ ∧
    parse_value_expr "[1, 2]" 3 = .ok ⟨.Document, "[1, 2]"⟩ :=
  ⟨by decide, by decide, by decide,
    (value_classification "generate()" 3 (by decide) (by decide) (by decide)).2.2.1
      "generate" rfl (by decide) (by decide) (by decide) (by decide) (by decide) (by decide),
    (value_classification "\"v\"" 3 (by decide) (by decide) (by decide)).1 "v" rfl,
    (value_classification "[1, 2]" 3 (by decide) (by decide) (by decide)).2.1 (Or.inr rfl)⟩

/-- C29. Value evaluation: `builtin_value` returns the text unchanged for a `Literal` and
for a `Document`; for a `Builtin` whose name is neither `generate` nor `now` it throws
"Unknown builtin: " followed by the name. A `store` or `replace` whose value is such a
builtin therefore always throws and leaves every entry of every vault as it was; when the
statement reaches the evaluation of its value (the current vault unsealed, the registry
resolved and, for `store`, the key absent) the text thrown is that of `builtin_value`. -/
theorem value_evaluation (env : Platform) (st : Interpreter) (drawn : Nat) (text : String)
    (s : Statement) (ht : s.type = .Store ∨ s.type = .Replace)
    (hk : s.value.kind = .Builtin) (hg : s.value.text ≠ "generate")
    (hn : s.value.text ≠ "now") :
    Interpreter.builtin_value env drawn ⟨.Literal, text⟩ = .ok (text, 0) ∧
    Interpreter.builtin_value env drawn ⟨.Document, text⟩ = .ok (text, 0) ∧
    Interpreter.builtin_value env drawn s.value = .error ("Unknown builtin: " ++ s.value.text) ∧
    ∃ e st2, Interpreter.execute_statement env st s = .throw e st2 ∧
      (∀ n R k, (Map.find st2.byName_ n).bind (fun v => v.entry R k) =
        (Map.find st.byName_ n).bind (fun v => v.entry R k)) ∧
      (∀ vault R, Map.find st.byName_ st.currentVault_ = some vault → vault.sealed = false →
        st.resolve_registry s.target s.line = .ok R →
        (s.type = .Store → vault.hasEntry R s.target.key = false) →
        e = "Unknown builtin: " ++ s.value.text) := by
  refine ⟨by simp [Interpreter.builtin_value], by simp [Interpreter.builtin_value],
    Interpreter.builtin_value_unknown env drawn s.value hk hg hn, ?_⟩
  obtain ⟨type, line, registryName, target, value, ⟨isMissing, ctarget, body⟩, note⟩ := s
  simp only [Statement.type, Statement.value, Statement.target, Statement.line] at *
  cases hv : Map.find st.byName_ st.currentVault_ with
  | none =>
    refine ⟨out_of_range, st, ?_, fun _ _ _ => rfl, ?_⟩
    · simp only [Interpreter.execute_statement, hv]
    · intro vault R h
      cases h
  | some vault =>
    cases hs : vault.sealed with
    | true =>
      rcases ht with ht | ht
      · subst ht
        refine ⟨"Cannot store after secure (line " ++ toString line ++ ")", st, ?_,
          fun _ _ _ => rfl, ?_⟩
        · simp only [Interpreter.execute_statement, hv, hs, if_true]
        · intro vault2 R h h2
          cases h
          rw [hs] at h2
          cases h2
      · subst ht
        refine ⟨"Cannot replace after secure (line " ++ toString line ++ ")", st, ?_,
          fun _ _ _ => rfl, ?_⟩
        · simp only [Interpreter.execute_statement, hv, hs, if_true]
        · intro vault2 R h h2
          cases h
          rw [hs] at h2
          cases h2
    | false =>
      cases hr : st.resolve_registry target line with
      | error e0 =>
        rcases ht with ht | ht
        · subst ht
          refine ⟨e0, st, ?_, fun _ _ _ => rfl, ?_⟩
          · simp [Interpreter.execute_statement, hv, hs, hr]
          · intro vault2 R _ _ h3
            cases h3
        · subst ht
          refine ⟨e0, st, ?_, fun _ _ _ => rfl, ?_⟩
          · simp [Interpreter.execute_statement, hv, hs, hr]
          · intro vault2 R _ _ h3
            cases h3
      | ok R0 =>
        rcases ht with ht | ht
        · subst ht
          have hx := Interpreter.execute_store env st vault
            (.mk .Store line registryName target value (.mk isMissing ctarget body) note)
            R0 rfl hv hs hr
          simp only [Statement.target, Statement.line, Statement.value] at hx
          rw [Interpreter.seal_entry_unknown env _ _ R0 target.key value hk hg hn] at hx
          by_cases he : vault.hasEntry R0 target.key = true
          · rw [if_pos he] at hx
            refine ⟨"store would overwrite existing key on line " ++ toString line, st, hx,
              fun _ _ _ => rfl, ?_⟩
            intro vault2 R h1 _ h3 h4
            cases h1
            cases h3
            rw [h4 rfl] at he
            cases he
          · rw [if_neg he] at hx
            exact ⟨_, _, hx, Interpreter.entries_setVault_touch st vault R0 hv,
              fun _ _ _ _ _ _ => rfl⟩
        · subst ht
          have hx := Interpreter.execute_replace env st vault
            (.mk .Replace line registryName target value (.mk isMissing ctarget body) note)
            R0 rfl hv hs hr
          simp only [Statement.target, Statement.line, Statement.value] at hx
          rw [Interpreter.seal_entry_unknown env _ _ R0 target.key value hk hg hn] at hx
          exact ⟨_, _, hx, Interpreter.entries_setVault_touch st vault R0 hv,
            fun _ _ _ _ _ _ => rfl⟩

/-- C29 at `replace R -> "k" = foo()` in vault `A`, which holds `R`/`k`. -/
theorem value_evaluation_witness :
    (stmtReplaceUnknown.type = .Store ∨ stmtReplaceUnknown.type = .Replace) ∧
    stmtReplaceUnknown.value.kind = .Builtin ∧
    Interpreter.builtin_value samplePlatform 0 ⟨.Document, "[1, 2]"⟩ = .ok ("[1, 2]", 0) ∧
    Interpreter.builtin_value samplePlatform 0 stmtReplaceUnknown.value =
      .error "Unknown builtin: foo" ∧
    Interpreter.execute_statement samplePlatform sampleStoredState stmtReplaceUnknown =
      .throw "Unknown builtin: foo" sampleStoredState := by
  have h := value_evaluation samplePlatform sampleStoredState 0 "[1, 2]" stmtReplaceUnknown
    (Or.inr rfl) rfl (by decide) (by decide)
  exact ⟨Or.inr rfl, rfl, h.2.1, h.2.2.1, by decide⟩

/-- C30 fails on the code at the slots (`a:b`, `c`) and (`a`, `b:c`): they differ, and the
salt `regName + ":" + key` is `a:b:c` for both. The source that stores into both parses,
and on the platform whose cipher spells out its arguments the run seals the two entries
under that one salt, so each cipher is what the other slot would hold for its value. -/
theorem aad_slot_collision :
    (("a:b", "c") : String × String) ≠ ("a", "b:c") ∧
    "a:b" ++ ":" ++ "c" = "a" ++ ":" ++ "b:c" ∧
    Parser.parse colonLines = .ok colonProgram 4 ∧
    Interpreter.run samplePlatform (Interpreter.init sampleOptions) colonProgram =
      .ok [colonVault]
        { opts_ := sampleOptions, sealed_ := [colonVault], byName_ := [("A", colonVault)],
          currentVault_ := "A", currentRegistry_ := none, drawn := 2 } ∧
    colonVault.entry "a:b" "c" = some ⟨"mac(enc(v,00,a:b:c),00)", "enc(v,00,a:b:c)"⟩ ∧
    colonVault.entry "a" "b:c" = some ⟨"mac(enc(w,00,a:b:c),00)", "enc(w,00,a:b:c)"⟩ :=
  ⟨by decide, by decide, rfl, by decide!, by decide, by decide⟩

/-- C31. Master key mismatch. For a block `b` whose name is in the vault map with vault
`old`: when a forced master key is configured and differs from `old.masterKeyHex`,
`evaluate_vault` throws the mismatch error in a state that differs from the given one
only by the reset current vault and registry (no statement has run, nothing was drawn);
otherwise the body runs on `old` with the block's optional flag and `sealed = false`,
its name, key and registries as they were. For a name absent from the map, lines 45-55
create the vault unsealed, without registries, with the forced key when one is
configured and a generated key otherwise, and a block that is not skipped runs its body
on it. -/
theorem master_key_mismatch (env : Platform) (st : Interpreter) (b : VaultBlock) :
    (∀ old k, Map.find st.byName_ b.name = some old → st.opts_.forcedMasterKey = some k →
      old.masterKeyHex ≠ k →
      Interpreter.evaluate_vault env st b =
        .throw ("Master key mismatch for vault \x27" ++ b.name ++ "\x27")
          { st with currentRegistry_ := none, currentVault_ := "" }) ∧
    (∀ old, Map.find st.byName_ b.name = some old →
      (∀ k, st.opts_.forcedMasterKey = some k → old.masterKeyHex = k) →
      Interpreter.evaluate_vault env st b =
        Interpreter.push_stored b.name (Interpreter.execute_body env
          (st.entered b { old with optional := b.optional, sealed := false } st.drawn) b.body) ∧
      Map.find (st.entered b { old with optional := b.optional, sealed := false }
          st.drawn).byName_ b.name =
        some { name := old.name, optional := b.optional, sealed := false,
               masterKeyHex := old.masterKeyHex, registries := old.registries }) ∧
    (Map.find st.byName_ b.name = none →
      (Interpreter.resolve_vault env st b = .ok ()
        { st with byName_ := Map.assign st.byName_ b.name (Interpreter.freshVault env st b),
                  drawn := if st.opts_.forcedMasterKey.isSome then st.drawn
                           else st.drawn + 1 }) ∧
      (Interpreter.freshVault env st b).name = b.name ∧
      (Interpreter.freshVault env st b).optional = b.optional ∧
      (Interpreter.freshVault env st b).sealed = false ∧
      (Interpreter.freshVault env st b).registries = [] ∧
      (∀ k, st.opts_.forcedMasterKey = some k →
        (Interpreter.freshVault env st b).masterKeyHex = k) ∧
      (st.opts_.forcedMasterKey = none →
        (Interpreter.freshVault env st b).masterKeyHex = env.random_key_hex st.drawn) ∧
      (st.skips b = false →
        Interpreter.evaluate_vault env st b =
          Interpreter.push_stored b.name (Interpreter.execute_body env
            (st.entered b (Interpreter.freshVault env st b)
              (if st.opts_.forcedMasterKey.isSome then st.drawn else st.drawn + 1))
            b.body))) := by
  refine ⟨?_, ?_, ?_⟩
  · intro old k hold hk hne
    rw [Interpreter.evaluate_vault_push env st b (Interpreter.skips_present st b old hold)]
    have hr : Interpreter.resolve_vault env
        { st with currentRegistry_ := none, currentVault_ := "" } b =
        .throw ("Master key mismatch for vault \x27" ++ b.name ++ "\x27")
          { st with currentRegistry_ := none, currentVault_ := "" } := by
      unfold Interpreter.resolve_vault
      simp only [hold, hk]
      rw [if_pos hne]
    rw [hr]
  · intro old hold hk
    refine ⟨?_, ?_⟩
    · rw [Interpreter.evaluate_vault_push env st b (Interpreter.skips_present st b old hold)]
      have hr : Interpreter.resolve_vault env
          { st with currentRegistry_ := none, currentVault_ := "" } b =
          .ok () { st with currentRegistry_ := none, currentVault_ := "",
                           byName_ := Map.assign st.byName_ b.name
                             { old with optional := b.optional, sealed := false } } := by
        unfold Interpreter.resolve_vault
        simp only [hold]
        cases hf : st.opts_.forcedMasterKey with
        | none => rfl
        | some k =>
          simp only
          rw [if_neg (not_not.mpr (hk k hf))]
      rw [hr]
      rfl
    · simp only [Interpreter.entered, Map.find_assign_same]
  · intro hnone
    refine ⟨?_, rfl, rfl, rfl, rfl, ?_, ?_, ?_⟩
    · unfold Interpreter.resolve_vault Interpreter.freshVault
      simp only [hnone]
      cases st.opts_.forcedMasterKey <;> rfl
    · intro k hk
      simp only [Interpreter.freshVault, hk]
    · intro hk
      simp only [Interpreter.freshVault, hk]
    · intro hs
      rw [Interpreter.evaluate_vault_push env st b hs]
      have hr : Interpreter.resolve_vault env
          { st with currentRegistry_ := none, currentVault_ := "" } b =
          .ok () { st with currentRegistry_ := none, currentVault_ := "",
                           byName_ := Map.assign st.byName_ b.name
                             (Interpreter.freshVault env st b),
                           drawn := if st.opts_.forcedMasterKey.isSome then st.drawn
                                    else st.drawn + 1 } := by
        unfold Interpreter.resolve_vault Interpreter.freshVault
        simp only [hnone]
        cases st.opts_.forcedMasterKey <;> rfl
      rw [hr]
      rfl

/-- C31 on the interpreter seeded with the sealed vault `A` (key `00`) and reconfigured
with the forced key `ff`: the block `vault? A` fails with the mismatch error. -/
theorem master_key_mismatch_witness :
    Map.find sampleSeeded.byName_ "A" = some sampleSealedVault ∧
    sampleSealedVault.masterKeyHex ≠ "ff" ∧
    Interpreter.evaluate_vault samplePlatform
        { sampleSeeded with opts_ := { sampleOptions with forcedMasterKey := some "ff" } }
        blockOptionalA =
      .throw "Master key mismatch for vault \x27A\x27"
        { sampleSeeded with opts_ := { sampleOptions with forcedMasterKey := some "ff" },
                            currentRegistry_ := none, currentVault_ := "" } :=
  ⟨by decide, by decide,
    (master_key_mismatch samplePlatform
      { sampleSeeded with opts_ := { sampleOptions with forcedMasterKey := some "ff" } }
      blockOptionalA).1 sampleSealedVault "ff" (by decide) rfl (by decide)⟩

/-- C33, what the code does with a key string. `hex_to_bytes` rejects every string of odd
length with "Bad hex key" and turns every even-length string of hexadecimal digits into
the bytes its digit pairs denote. It does not reject every other string: `std::stoul`
converts the leading digits of each pair and ignores what follows, so the key `1g`
gives the byte 1, and `decrypt` goes on to open the cipher with it. -/
theorem malformed_hex_key_accepted (ulong_bits : Nat) (hw : 8 ≤ ulong_bits) :
    (∀ hex, hex.length % 2 = 1 → hex_to_bytes ulong_bits hex = .error "Bad hex key") ∧
    (∀ hex, hex.length % 2 = 0 → isHexString hex →
      hex_to_bytes ulong_bits hex = .ok (hex_pairs hex.toList)) ∧
    ¬ isHexString "1g" ∧ hex_to_bytes ulong_bits "1g" = .ok [1] ∧
    (∀ os cipherB64 salt, 28 ≤ (base64_decode cipherB64).length →
      crypto.decrypt os ulong_bits cipherB64 "1g" salt =
        os.gcm_decrypt [1] ((base64_decode cipherB64).take 12)
          (((base64_decode cipherB64).drop 12).take 16) salt
          ((base64_decode cipherB64).drop 28)) := by
  refine ⟨fun hex h => hex_to_bytes_odd ulong_bits hex h, ?_, by decide,
    hex_to_bytes_lenient ulong_bits hw, ?_⟩
  · intro hex hlen hhex
    unfold hex_to_bytes
    rw [if_neg (by omega)]
    exact hex_to_bytes_loop_hex ulong_bits hw hex.toList hlen hhex
  · intro os cipherB64 salt hlen
    rw [crypto.decrypt_of_key os ulong_bits cipherB64 "1g" salt [1]
      (hex_to_bytes_lenient ulong_bits hw), if_neg (by omega)]

/-- C33 for an `unsigned long` of 32 bits: the key `00ff` is the bytes 0 and 255, the key
`1g` is accepted as the byte 1, and so is the key of 32 characters `0g0g...`, as sixteen
bytes 0. -/
theorem malformed_hex_key_accepted_witness :
    hex_to_bytes 32 "00ff" = .ok [0, 255] ∧ hex_to_bytes 32 "1g" = .ok [1] ∧
    hex_to_bytes 32 "0g0g0g0g0g0g0g0g0g0g0g0g0g0g0g0g" = .ok (List.replicate 16 0) :=
  ⟨((malformed_hex_key_accepted 32 (by decide)).2.1 "00ff" (by decide) (by decide)).trans
      (by decide),
    (malformed_hex_key_accepted 32 (by decide)).2.2.2.1, by decide⟩

/-- C34, counterexample. In the program `vault A`, `registry R`, `secure`, `vault B`,
`secure`, `store -> "k" = "v"`, `secure`, the store of vault `B` names no registry and
runs before any `registry` statement of its vault, and the run fails with
"Cannot store after secure (line 6)", not with "No active registry". -/
theorem unqualified_store_after_secure :
    Parser.parse sealedFirstLines = .ok sealedFirstProgram 7 ∧
    Interpreter.run samplePlatform (Interpreter.init sampleOptions) sealedFirstProgram =
      .throw "Cannot store after secure (line 6)" sealedFirstState :=
  ⟨rfl, by decide!⟩

/-- C34, as the code has it. The current registry is reset when a vault block is
entered: whatever registry the earlier blocks selected, the body starts without one. So
when the statements before `s` in the body hold no `registry` statement, `s` runs
without a current registry, and if `s` names no registry it throws: an `if` always with
"No active registry", a `store` or `replace` with "No active registry" while the vault
is not sealed, and with "Cannot store/replace after secure" once a `secure` came before
it. -/
theorem current_registry_per_vault (env : Platform) (st st1 st2 : Interpreter)
    (b : VaultBlock) (pre rest : List Statement) (s : Statement)
    (hskip : st.skips b = false)
    (hres : Interpreter.resolve_vault env
      { st with currentRegistry_ := none, currentVault_ := "" } b = .ok () st1)
    (hbody : b.body = pre ++ s :: rest)
    (hpre : Statement.anyHas StatementType.isRegistry pre = false)
    (hrun : Interpreter.execute_body env { st1 with currentVault_ := b.name } pre = .ok () st2)
    (hs : s.unqualified) :
    st1.currentRegistry_ = none ∧ st2.currentRegistry_ = none ∧
    (∃ vault, Map.find st2.byName_ b.name = some vault) ∧
    ∀ vault, Map.find st2.byName_ b.name = some vault →
      (s.type = .If ∨ vault.sealed = false →
        Interpreter.evaluate_vault env st b =
          .throw ("No active registry for target on line " ++ toString s.line) st2) ∧
      (s.type = .Store → vault.sealed = true →
        Interpreter.evaluate_vault env st b =
          .throw ("Cannot store after secure (line " ++ toString s.line ++ ")") st2) ∧
      (s.type = .Replace → vault.sealed = true →
        Interpreter.evaluate_vault env st b =
          .throw ("Cannot replace after secure (line " ++ toString s.line ++ ")") st2) := by
  obtain ⟨_, _, _, hreg1, _, v, hv, _⟩ := Interpreter.resolve_vault_ok env _ st1 b hres
  have hreg2 : st2.currentRegistry_ = none := by
    rw [Interpreter.execute_body_registry env pre _ st2 hpre hrun]
    exact hreg1
  have hframe := Interpreter.execute_body_frame env pre { st1 with currentVault_ := b.name }
  rw [hrun] at hframe
  obtain ⟨hcur, _, _, _, hcore⟩ := hframe
  simp only [Outcome.state] at hcur hcore
  have hsome : ∃ vault, Map.find st2.byName_ b.name = some vault := by
    have := hcore b.name
    rw [show Map.find ({ st1 with currentVault_ := b.name } : Interpreter).byName_ b.name
      = some v from hv] at this
    cases hf : Map.find st2.byName_ b.name with
    | none => rw [hf] at this; cases this
    | some vault => exact ⟨vault, rfl⟩
  refine ⟨hreg1, hreg2, hsome, ?_⟩
  intro vault hvault
  have hvault2 : Map.find st2.byName_ st2.currentVault_ = some vault := by
    rw [hcur]
    exact hvault
  obtain ⟨t1, t2, t3⟩ := Interpreter.unqualified_throws env st2 vault s hvault2 hreg2 hs
  refine ⟨?_, ?_, ?_⟩
  · intro hcase
    exact Interpreter.evaluate_vault_throw_at env st st1 st2 b pre rest s _ hskip hres hbody
      hrun (t1 hcase)
  · intro ht hsl
    exact Interpreter.evaluate_vault_throw_at env st st1 st2 b pre rest s _ hskip hres hbody
      hrun (t2 ht hsl)
  · intro ht hsl
    exact Interpreter.evaluate_vault_throw_at env st st1 st2 b pre rest s _ hskip hres hbody
      hrun (t3 ht hsl)

/-- C34 after a run of scenario S4, which selected registry `R` in vault `A`: the block
`vault B` whose first statement is `store -> "k" = "v"` on line 7 throws
"No active registry". -/
theorem current_registry_per_vault_witness :
    (guardedFinal 1).currentRegistry_ = some "R" ∧
    Interpreter.evaluate_vault samplePlatform (guardedFinal 1) unqualifiedBlock =
      .throw "No active registry for target on line 7" unqualifiedEntered :=
  ⟨rfl,
    ((current_registry_per_vault samplePlatform (guardedFinal 1)
      { unqualifiedEntered with currentVault_ := "" } unqualifiedEntered unqualifiedBlock
      [] [stmtSecure 8] (stmtStore 7) (by decide) (by decide) rfl rfl (by decide)
      (Or.inl ⟨Or.inl rfl, rfl⟩)).2.2.2
      { name := "B", optional := false, sealed := false, masterKeyHex := "00",
        registries := [] } (by decide)).1 (Or.inr rfl)⟩

/-- C35. Seeding replaces the state and later names win: whatever the interpreter held,
after `seed existing` the output list is empty and the vault map holds under every name
the last vault of `existing` with that name, and nothing under a name that does not
occur in `existing`; the map has one pair for each name of the list. -/
theorem seed_last_wins (st : Interpreter) (existing : List SealedVault) :
    (st.seed existing).sealed_ = [] ∧
    (∀ n, Map.find (st.seed existing).byName_ n = lastNamed existing n) ∧
    (∀ n, n ∈ (st.seed existing).byName_.map Prod.fst ↔
      n ∈ existing.map (fun v => v.name)) ∧
    (∀ pre v post, existing = pre ++ v :: post →
      v.name ∉ post.map (fun w => w.name) →
      Map.find (st.seed existing).byName_ v.name = some v) := by
  have hfind : ∀ n, Map.find (st.seed existing).byName_ n = lastNamed existing n := by
    intro n
    show Map.find (existing.foldl (fun m v => Map.assign m v.name v) []) n = _
    rw [Map.find_seed_last n existing []]
    cases lastNamed existing n <;> rfl
  refine ⟨rfl, hfind, ?_, ?_⟩
  · intro n
    rw [Map.mem_keys_iff, hfind, lastNamed_isSome]
  · intro pre v post he hv
    rw [hfind, he]
    unfold lastNamed
    rw [List.reverse_append, List.reverse_cons, List.append_assoc, List.find?_append]
    have h1 : post.reverse.find? (fun w => decide (w.name = v.name)) = none := by
      rw [List.find?_eq_none]
      intro w hw hd
      exact hv (List.mem_map.mpr ⟨w, List.mem_reverse.mp hw, of_decide_eq_true hd⟩)
    rw [h1]
    simp

/-- C35 on the list of the unsealed and then the sealed vault `A`, seeded into an
interpreter that held vault `A`: the map holds the sealed one, the last of the list. -/
theorem seed_last_wins_witness :
    [sampleVault, sampleSealedVault] = [sampleVault] ++ sampleSealedVault :: [] ∧
    Map.find (sampleSealedState.seed [sampleVault, sampleSealedVault]).byName_ "A" =
      some sampleSealedVault :=
  ⟨rfl, (seed_last_wins sampleSealedState [sampleVault, sampleSealedVault]).2.2.2
    [sampleVault] sampleSealedVault [] rfl (by decide)⟩

/-- C36. Note and false conditions change nothing. A `note` statement leaves the
interpreter state it was given (vault map, registries, current registry, output list
and draw counter), and inside a vault evaluation, where the current vault is in the
map, it returns normally; an `if` whose condition is false, that is `if present` on an
absent key or `if missing` on a present one, returns with the state it was given. The
lookup of `is_present` creates nothing: when the registry of the target does not exist
in the current vault, `is_present` is false, `if present` returns the given state, in
which the registry is still absent, and `if missing` runs its body from the given
state. -/
theorem note_and_false_condition_frame (env : Platform) (st : Interpreter) (s : Statement) :
    (s.type = .Note →
      (Interpreter.execute_statement env st s).state = st ∧
      ((Map.find st.byName_ st.currentVault_).isSome = true →
        Interpreter.execute_statement env st s = .ok () st)) ∧
    (s.type = .If → ∀ present, st.is_present s.conditional.target s.line = .ok present →
      (if s.conditional.isMissing then !present else present) = false →
      Interpreter.execute_statement env st s = .ok () st) ∧
    (s.type = .If → ∀ vault R, Map.find st.byName_ st.currentVault_ = some vault →
      st.resolve_registry s.conditional.target s.line = .ok R →
      Map.find vault.registries R = none →
      st.is_present s.conditional.target s.line = .ok false ∧
      (s.conditional.isMissing = false →
        Interpreter.execute_statement env st s = .ok () st ∧
        ∀ v2, Map.find (Interpreter.execute_statement env st s).state.byName_
            st.currentVault_ = some v2 → Map.find v2.registries R = none) ∧
      (s.conditional.isMissing = true →
        Interpreter.execute_statement env st s =
          Interpreter.execute_body env st s.conditional.body)) := by
  refine ⟨?_, ?_, ?_⟩
  · intro ht
    cases hv : Map.find st.byName_ st.currentVault_ with
    | none =>
      refine ⟨?_, fun h => by cases h⟩
      obtain ⟨type, line, registryName, target, value, ⟨isMissing, ctarget, body⟩, note⟩ := s
      simp [Interpreter.execute_statement, hv, Outcome.state]
    | some vault =>
      have hx := Interpreter.execute_note env st vault s ht hv
      refine ⟨?_, fun _ => hx⟩
      rw [hx]
      rfl
  · intro ht present hp hc
    cases hv : Map.find st.byName_ st.currentVault_ with
    | none =>
      unfold Interpreter.is_present at hp
      rw [hv] at hp
      cases hp
    | some vault =>
      rw [Interpreter.execute_if env st vault s ht hv, hp]
      simp only [hc, Bool.false_eq_true, if_false]
  · intro ht vault R hv hr hnone
    have hp : st.is_present s.conditional.target s.line = .ok false := by
      unfold Interpreter.is_present
      rw [hv]
      simp only [hr, hnone]
    have hx := Interpreter.execute_if env st vault s ht hv
    rw [hp] at hx
    refine ⟨hp, ?_, ?_⟩
    · intro hm
      have hx2 : Interpreter.execute_statement env st s = .ok () st := by
        rw [hx, hm]
        rfl
      refine ⟨hx2, ?_⟩
      intro v2 hv2
      rw [hx2] at hv2
      simp only [Outcome.state] at hv2
      rw [hv] at hv2
      injection hv2 with hv2
      rw [← hv2]
      exact hnone
    · intro hm
      rw [hx, hm]
      rfl

/-- C36 in vault `A` after `registry R`, where registry `R` does not exist yet: the
statements `note "n"` and `if present -> "k"` return the state unchanged. -/
theorem note_and_false_condition_frame_witness :
    Map.find sampleRegistryState.byName_ sampleRegistryState.currentVault_ = some sampleVault ∧
    Interpreter.execute_statement samplePlatform sampleRegistryState (stmtNote 3) =
      .ok () sampleRegistryState ∧
    Interpreter.execute_statement samplePlatform sampleRegistryState stmtIfPresent =
      .ok () sampleRegistryState :=
  ⟨by decide,
    ((note_and_false_condition_frame samplePlatform sampleRegistryState (stmtNote 3)).1
      rfl).2 (by decide),
    ((note_and_false_condition_frame samplePlatform sampleRegistryState stmtIfPresent).2.2
      rfl sampleVault "R" (by decide) rfl (by decide)).2.1 rfl |>.1⟩

/-- C37, counterexample. With the key `x`, which `hex_to_bytes` rejects, `decrypt` of the
empty cipher, whose decoded bytes number 0, fails with "Bad hex key", not with
"Cipher too short": the key is converted before the cipher is looked at. -/
theorem cipher_layout_bad_key :
    (base64_decode "").length < 28 ∧
    crypto.decrypt sampleBcrypt 32 "" "x" "R:k" = .error "Bad hex key" :=
  ⟨by decide, by decide⟩

/-- C37, for a key that `hex_to_bytes` accepts. `decrypt` fails with "Cipher too short"
when the decoded bytes number fewer than 28; otherwise it opens with the first 12
decoded bytes as IV, the next 16 as tag and the rest as ciphertext. This is the packing
of `encrypt`, whose result is the base64 text of a 12-byte IV, a 16-byte tag and the
ciphertext in that order: `decrypt` of such a text opens with exactly that IV, tag and
ciphertext. -/
theorem cipher_layout (os : Bcrypt) (ulong_bits : Nat) (keyHex : String)
    (keyBytes : List Nat) (hkey : hex_to_bytes ulong_bits keyHex = .ok keyBytes) :
    (∀ cipherB64 salt, (base64_decode cipherB64).length < 28 →
      crypto.decrypt os ulong_bits cipherB64 keyHex salt = .error "Cipher too short") ∧
    (∀ cipherB64 salt, 28 ≤ (base64_decode cipherB64).length →
      crypto.decrypt os ulong_bits cipherB64 keyHex salt =
        os.gcm_decrypt keyBytes ((base64_decode cipherB64).take 12)
          (((base64_decode cipherB64).drop 12).take 16) salt
          ((base64_decode cipherB64).drop 28)) ∧
    (∀ iv tag body salt, iv.length = 12 → tag.length = 16 →
      (∀ b ∈ iv ++ tag ++ body, b < 256) →
      crypto.decrypt os ulong_bits (base64_encode (iv ++ tag ++ body)) keyHex salt =
        os.gcm_decrypt keyBytes iv tag salt body) ∧
    (∀ plain salt drawn out, crypto.encrypt os ulong_bits plain keyHex salt drawn = .ok out →
      ∃ iv tag cipher, iv.length = 12 ∧ tag.length = 16 ∧
        out = base64_encode (iv ++ tag ++ cipher) ∧
        ∀ salt2, crypto.decrypt os ulong_bits out keyHex salt2 =
          os.gcm_decrypt keyBytes iv tag salt2 cipher) := by
  refine ⟨?_, ?_, ?_, ?_⟩
  · intro cipherB64 salt hlen
    rw [crypto.decrypt_of_key os ulong_bits cipherB64 keyHex salt keyBytes hkey, if_pos hlen]
  · intro cipherB64 salt hlen
    rw [crypto.decrypt_of_key os ulong_bits cipherB64 keyHex salt keyBytes hkey,
      if_neg (by omega)]
  · intro iv tag body salt hiv htag hb
    exact crypto.decrypt_packed os ulong_bits keyHex salt keyBytes iv tag body hkey hiv htag hb
  · intro plain salt drawn out h
    obtain ⟨kb, iv, tag, cipher, hk, hiv, htag, hb, hout⟩ :=
      crypto.encrypt_inv os ulong_bits plain keyHex salt out drawn h
    refine ⟨iv, tag, cipher, hiv, htag, hout, ?_⟩
    intro salt2
    rw [hout]
    exact crypto.decrypt_packed os ulong_bits keyHex salt2 keyBytes iv tag cipher hkey hiv htag hb

/-- C37 under the key `00`: the cipher `TWFu`, three decoded bytes, is too short. -/
theorem cipher_layout_witness :
    hex_to_bytes 32 "00" = .ok [0] ∧ (base64_decode "TWFu").length < 28 ∧
    crypto.decrypt sampleBcrypt 32 "TWFu" "00" "R:k" = .error "Cipher too short" :=
  ⟨by decide, by decide,
    (cipher_layout sampleBcrypt 32 "00" [0] (by decide)).1 "TWFu" "R:k" (by decide)⟩

/-- C38. Base64 round trip. For every byte string `s` (numbers below 256, of any length):
decoding the encoding gives `s` back; the encoding has `4 * ceil(|s| / 3)` characters,
each a character of the table `A-Z a-z 0-9 + /` or the padding `=`; and it is the
standard base64 text of `s`, in which padding stands only at the end, two `=` after a
rest of one byte and one after a rest of two. -/
theorem base64_round_trip (s : List Nat) (hs : ∀ b ∈ s, b < 256) :
    base64_decode (base64_encode s) = s ∧
    (base64_encode s).length = 4 * ((s.length + 2) / 3) ∧
    (∀ ch ∈ (base64_encode s).toList, ch ∈ base64_table ∨ ch = '=') ∧
    base64_encode s = String.mk (base64_standard s) := by
  refine ⟨base64_decode_encode s hs, ?_, ?_, base64_encode_standard s hs⟩
  · rw [base64_encode_standard s hs]
    exact base64_standard_length s
  · rw [base64_encode_standard s hs]
    exact base64_standard_alphabet s hs

/-- C38 on the empty string and on the two bytes of `Ma`, whose encoding is `TWE=`. -/
theorem base64_round_trip_witness :
    base64_encode [77, 97] = "TWE=" ∧ base64_decode "TWE=" = [77, 97] ∧
    base64_encode [] = "" ∧ base64_decode (base64_encode []) = [] ∧
    base64_decode (base64_encode [77, 97]) = [77, 97] :=
  ⟨by decide, by decide, by decide,
    (base64_round_trip [] (fun _ h => absurd h (List.not_mem_nil _))).1,
    (base64_round_trip [77, 97] (by decide)).1⟩

/-- C39. Parser termination. `Parser::parse` returns a program or throws on every list
of lines: the recursion budget of the embedding is never used up, and any larger budget
gives the same result. The reason is progress of the cursor: a call of
`parse_statement` that returns has moved the cursor strictly forward, also when it read
an `if` with its nested block; `parse_block` never moves it back, each of its iterations
either leaving the loop or continuing from a cursor moved forward by a blank line or by
a statement; `parse_vault` moves it strictly forward; and with a budget of twice the
number of remaining lines (plus one) neither `parse_block` nor `parse_statement` runs
out of budget. -/
theorem parser_termination (lines : List Line) :
    Parser.parse lines ≠ .exhausted ∧
    (∀ blockFuel fuel, 2 * lines.length + 1 ≤ blockFuel → lines.length + 1 ≤ fuel →
      Parser.parse_loop lines blockFuel fuel 0 [] = Parser.parse lines) ∧
    (∀ fuel pos s pos1, Parser.parse_statement lines fuel pos = .ok s pos1 → pos < pos1) ∧
    (∀ fuel pos indent stmts out pos1,
      Parser.parse_block lines fuel pos indent stmts = .ok out pos1 → pos ≤ pos1) ∧
    (∀ fuel pos vault pos1, Parser.parse_vault lines fuel pos = .ok vault pos1 → pos < pos1) ∧
    (∀ fuel pos indent stmts, 2 * (lines.length - pos) + 1 ≤ fuel →
      Parser.parse_block lines fuel pos indent stmts ≠ .exhausted) ∧
    (∀ fuel pos, pos < lines.length → 2 * (lines.length - pos) ≤ fuel →
      Parser.parse_statement lines fuel pos ≠ .exhausted) ∧
    (∀ fuel fuel2 pos, fuel ≤ fuel2 → Parser.parse_statement lines fuel pos ≠ .exhausted →
      Parser.parse_statement lines fuel2 pos = Parser.parse_statement lines fuel pos) ∧
    (∀ fuel fuel2 pos indent stmts, fuel ≤ fuel2 →
      Parser.parse_block lines fuel pos indent stmts ≠ .exhausted →
      Parser.parse_block lines fuel2 pos indent stmts =
        Parser.parse_block lines fuel pos indent stmts) := by
  refine ⟨Parser.parse_total lines, ?_, ?_, ?_, ?_, ?_, ?_, ?_, ?_⟩
  · intro blockFuel fuel hb hf
    exact Parser.parse_loop_mono lines _ blockFuel hb _ fuel 0 [] hf (Parser.parse_total lines)
  · intro fuel pos s pos1 h
    have := ((Parser.parse_forward lines fuel).2 pos s pos1 h).1
    omega
  · intro fuel pos indent stmts out pos1 h
    exact (Parser.parse_forward lines fuel).1 pos indent stmts out pos1 h
  · intro fuel pos vault pos1 h
    have := (Parser.parse_vault_forward lines fuel pos pos1 vault h).1
    omega
  · intro fuel pos indent stmts h
    exact (Parser.parse_adequate lines fuel).1 pos indent stmts h
  · intro fuel pos hp h
    exact (Parser.parse_adequate lines fuel).2 pos hp h
  · intro fuel fuel2 pos hle h
    exact (Parser.parse_mono lines fuel).2 pos fuel2 hle h
  · intro fuel fuel2 pos indent stmts hle h
    exact (Parser.parse_mono lines fuel).1 pos indent stmts fuel2 hle h

/-- C39 on scenario S4: the statement `if missing -> "k"` at cursor 2, read with its
nested block, leaves the cursor at 4. -/
theorem parser_termination_witness :
    Parser.parse_statement guardedLines 3 2 = .ok stmtIfMissing 4 ∧ 2 < 4 :=
  ⟨rfl, (parser_termination guardedLines).2.2.1 3 2 stmtIfMissing 4 rfl⟩

/-- C40. Unreferenced seeded vaults are not emitted. For a run of `program` on the
interpreter seeded with `seed` that returns `out`: when no evaluated (non-skipped) block
of the program is named as the seeded vault `s`, which for a seeded name means that no
block of the program at all is, no vault of `out` has the name of `s`, `s` is not in
`out`, and the lines `write_svau` writes for `out` hold no header line of a vault named
as `s`; so the archive a seeded compilation writes is the text of vaults none of which
has that name. -/
theorem unreferenced_seed_not_emitted (env : Platform) (st st2 : Interpreter)
    (seed : List SealedVault) (program : List VaultBlock) (out : List SealedVault)
    (s : SealedVault)
    (hrun : Interpreter.run env (st.seed seed) program = .ok out st2)
    (hs : s ∈ seed)
    (hn : ∀ b ∈ evaluatedBlocks st.opts_.materializeOptional
      (seed.map (fun v => v.name)) program, b.name ≠ s.name) :
    (∀ v ∈ out, v.name ≠ s.name) ∧ s ∉ out ∧
    (∀ b ∈ program, b.name ≠ s.name) ∧
    (∀ token dependencies,
      "vault " ++ s.name ++ " (required)" ∉ write_svau_lines out token dependencies ∧
      "vault " ++ s.name ++ " (optional)" ∉ write_svau_lines out token dependencies) ∧
    (∀ cfg opts lines text loadName archive pos dependencies,
      st = Interpreter.init { opts with forcedMasterKey := some cfg.masterKey } →
      Parser.parse lines = .ok program pos →
      load_seed env cfg text loadName = .ok (seed, dependencies) →
      compile env cfg opts lines (some (text, loadName)) = .ok archive →
      ∃ hmac, archive = write_svau out cfg.token dependencies ++ "hmac " ++ hmac ++ "\n") := by
  have hem := Interpreter.run_emitted env (st.seed seed) st2 program out hrun
  rw [evaluatedBlocks_congr _ program _ (seed.map (fun v => v.name))
    (fun n => Interpreter.seed_keys st seed n)] at hem
  have hopts : (st.seed seed).opts_ = st.opts_ := rfl
  rw [hopts] at hem
  have hout : ∀ v ∈ out, v.name ≠ s.name := by
    intro v hv
    obtain ⟨b, hb, hvb⟩ := forall₂_exists_right hem v hv
    rw [hvb.1 (Interpreter.seed_keyed st seed)]
    exact hn b hb
  refine ⟨hout, fun hmem => hout s hmem rfl, ?_, ?_, ?_⟩
  · intro b hb hbn
    exact hn b (evaluatedBlocks_known _ program _ b hb
      (by rw [hbn]; exact List.mem_map.mpr ⟨s, hs, rfl⟩)) hbn
  · intro token dependencies
    constructor
    · intro hl
      have e : "vault " ++ s.name ++ " (required)" =
          "vault " ++ s.name ++ " (" ++ "required" ++ ")" := by
        simp only [String.append_assoc]
        rfl
      rw [e] at hl
      obtain ⟨v, hv, hvn⟩ := write_svau_lines_header out token dependencies s.name
        "required" (Or.inl rfl) hl
      exact hout v hv hvn
    · intro hl
      have e : "vault " ++ s.name ++ " (optional)" =
          "vault " ++ s.name ++ " (" ++ "optional" ++ ")" := by
        simp only [String.append_assoc]
        rfl
      rw [e] at hl
      obtain ⟨v, hv, hvn⟩ := write_svau_lines_header out token dependencies s.name
        "optional" (Or.inr rfl) hl
      exact hout v hv hvn
  · intro cfg opts lines text loadName archive pos dependencies hst hp hl hc
    obtain ⟨program2, pos2, interp1, deps2, sealed, st3, hmac, h1, h2, h3, _, h5⟩ :=
      compile_inv env cfg opts lines (some (text, loadName)) archive hc
    rw [hp] at h1
    injection h1 with h1 _
    subst h1
    obtain ⟨vaults, hv1, hv2⟩ := h2
    rw [hl] at hv1
    injection hv1 with hv1
    injection hv1 with hv1 hv3
    subst hv1 hv3
    rw [hv2, ← hst, hrun] at h3
    injection h3 with h3 _
    subst h3
    exact ⟨hmac, h5⟩

/-- C40 on the seed holding the sealed vault `A` and the program `vault B`, `secure`:
the output is vault `B` alone. -/
theorem unreferenced_seed_not_emitted_witness :
    Interpreter.run samplePlatform ((Interpreter.init sampleOptions).seed [sampleSealedVault])
      [blockRequiredB] = .ok [sealedVaultB] seededFinalB ∧
    sampleSealedVault ∈ [sampleSealedVault] ∧
    (∀ v ∈ [sealedVaultB], v.name ≠ sampleSealedVault.name) ∧
    sampleSealedVault ∉ [sealedVaultB] :=
  ⟨by decide, by decide,
    (unreferenced_seed_not_emitted samplePlatform (Interpreter.init sampleOptions)
      seededFinalB [sampleSealedVault] [blockRequiredB] [sealedVaultB] sampleSealedVault
      (by decide) (by decide) (by decide)).1,
    (unreferenced_seed_not_emitted samplePlatform (Interpreter.init sampleOptions)
      seededFinalB [sampleSealedVault] [blockRequiredB] [sealedVaultB] sampleSealedVault
      (by decide) (by decide) (by decide)).2.1⟩

end Vault
